import Mathlib

/-!
The orchestrator core of distr-comp.

A shallow embedding of `internal/orchestrator/core/core.go` and
`internal/orchestrator/utils/utils.go`, and of the status codes of two
handlers of `internal/orchestrator/server/server.go`.

Conventions of the embedding.

* A Go `string` is a sequence of bytes; it is modelled as `List Char`, one
  `Char` per byte (the code point is the byte value).  `"2+2*2".toList` is
  the Go string `"2+2*2"`.
* A Go slice used as a stack (`operatorStack`, `stack`) keeps its top at the
  end; here the top is the head of a list.  A slice used as a queue
  (`outputQueue`, `tokens`, `tasks`) is a list in the same order.
* A `*types.Task` is identified with the task's `ID`: every task is created
  with a fresh `task-N` id and is entered into `o.Tasks` under that id, so
  the id determines the object.  `Expression.Tasks` and the ready queue hold
  ids, and `Orchestrator.Tasks` holds the task records themselves.
* `int` counters are natural numbers.
* The order of a `range` over a map is an argument of the function that
  ranges (`ProcessTaskResult`); the theorems hold for every order.
* `ReadyTasks` is the content of the channel as a FIFO list.  A send never
  blocks: every behaviour of the code in which the 8192 slots of the channel
  suffice is a behaviour of the model.
* The methods hold the mutex `o.Mu` for their whole body: a call is one step.
  The goroutines `go func(t) { o.ReadyTasks <- t }(task)` that
  `AddExpression` starts for the leaf tasks send without the mutex, after
  any delay and in any order: `Orchestrator.Sending` holds the ids of the
  tasks whose goroutine has not sent yet, and the send of one of them is a
  step of its own (`Op.send`), which a run may contain at any place.  A send
  that falls within a call has the effect of a send before or after the
  call: `AddExpression` does not use the channel, `GetNextTask` receives
  from it once, and in a reachable state `ProcessTaskResult` sends to it at
  most once (`ProcessTaskResult_sends_at_most_one`).
* A handler is a function of the orchestrator and of what `ShouldBindJSON`
  binds from the request body (`none` when binding fails); it returns the
  orchestrator and the status code of the response.
-/

deriving instance DecidableEq for Except

namespace Core

/-! ## Characters -/

/-- Go `unicode.IsSpace(rune(ch))` for a byte `ch`: in the Latin-1 range the
white space characters are tab, line feed, vertical tab, form feed, carriage
return, space, NEL (0x85) and NBSP (0xA0). -/
def isSpace (ch : Char) : Bool :=
  ch.toNat == 9 || ch.toNat == 10 || ch.toNat == 11 || ch.toNat == 12 || ch.toNat == 13 ||
  ch.toNat == 32 || ch.toNat == 0x85 || ch.toNat == 0xA0

/-- Go `unicode.IsDigit(rune(ch))` for a byte `ch`: in the Latin-1 range the
decimal digits are `'0'..'9'`. -/
def isDigit (ch : Char) : Bool :=
  48 ≤ ch.toNat && ch.toNat ≤ 57

/-- The test `ch == '+' || ch == '-' || ch == '*' || ch == '/'`. -/
def isOperatorChar (ch : Char) : Bool :=
  ch == '+' || ch == '-' || ch == '*' || ch == '/'

/-! ## Tokens and errors -/

/-- The constants `TokenNumber`, `TokenOperator`, `TokenLeftParen`,
`TokenRightParen` of type `types.TokenType`. -/
inductive TokenType where
  | TokenNumber
  | TokenOperator
  | TokenLeftParen
  | TokenRightParen
  deriving DecidableEq, Repr

open TokenType

/-- The struct `types.Token`; `Typ` is its field `Type`. -/
structure Token where
  Typ : TokenType
  Value : List Char
  IsUnary : Bool
  deriving DecidableEq, Repr

/-- The zero value of `types.Token` (the initial `prevToken`). -/
def Token.zero : Token := ⟨TokenNumber, [], false⟩

/-- The errors returned by the functions of the core.  The Go code builds
them with `fmt.Errorf`/`errors.New`; the constructor records which message
it is and the values formatted into it. -/
inductive Err where
  /-- Message "unary operator '%c' must be directly before the number or '(', without spaces" -/
  | unaryBeforeSpace (ch : Char)
  /-- Message "two operators '%s' and '%s' cannot be next to each other at position %d" -/
  | operatorsNextToEachOther (prev : List Char) (ch : Char) (pos : Nat)
  /-- Message "invalid number format with multiple dots at position %d" -/
  | multipleDots (pos : Nat)
  /-- Message "unknown character '%c' at position %d" -/
  | unknownCharacter (ch : Char) (pos : Nat)
  /-- Message "mismatched parentheses" -/
  | mismatchedParentheses
  /-- Message "expression cannot be empty" -/
  | emptyExpression
  /-- Message "unbalanced parentheses at position %d" -/
  | unbalancedAt (pos : Nat)
  /-- Message "invalid character '%c' at position %d" -/
  | invalidCharacter (ch : Char) (pos : Nat)
  /-- Message "expression cannot end with operator '%c'" -/
  | endsWithOperator (ch : Char)
  /-- Message "two operators '%c' and '%c' cannot be adjacent at position %d" -/
  | adjacentOperators (prev : Char) (ch : Char) (pos : Nat)
  /-- Message "unbalanced parentheses: %d closing parentheses are missing" -/
  | missingClosing (n : Nat)
  /-- Message "invalid task" -/
  | invalidTask
  /-- The value `errs.ErrNoTasksAvailable`. -/
  | ErrNoTasksAvailable
  /-- The value `errs.ErrTaskNotFound`. -/
  | ErrTaskNotFound
  /-- The value `errs.ErrInvalidTaskResult`. -/
  | ErrInvalidTaskResult
  /-- Not a Go error: the bound of the outer loop of `tokenizeLoop` was
  reached (it never is, see `tokenize_ne_loopBound`). -/
  | loopBound
  deriving DecidableEq, Repr

/-! ## tokenize -/

/-- The inner loop of `tokenize` that scans a number:
`for i < len(expression) && (unicode.IsDigit(..) || expression[i] == '.')`.
`rest` is `expression[i:]`, `dotCount` the dots seen so far and `acc` the
bytes `expression[start:i]`.  Returns the lexeme, the unread input and the
new `i`. -/
def scanNumber : List Char → Nat → Nat → List Char → Except Err (List Char × List Char × Nat)
  | [], i, _, acc => .ok (acc, [], i)
  | ch :: rest, i, dotCount, acc =>
    if isDigit ch || ch == '.' then
      if ch == '.' then
        if dotCount + 1 > 1 then .error (.multipleDots i)
        else scanNumber rest (i + 1) (dotCount + 1) (acc ++ [ch])
      else scanNumber rest (i + 1) dotCount (acc ++ [ch])
    else .ok (acc, ch :: rest, i)

/-- The local `isUnary` of `tokenize` for the operator byte `ch`: it is `+`
or `-` and there is no token yet or the previous token is an operator or a
left parenthesis. -/
def isUnary (ch : Char) (tokens : List Token) (prevToken : Token) : Bool :=
  (ch == '+' || ch == '-') &&
    (tokens.length == 0 || prevToken.Typ == TokenOperator || prevToken.Typ == TokenLeftParen)

/-- The outer loop `for i < len(expression)` of `tokenize`.  The second
argument is `expression[i:]`; the first bounds the number of iterations
(each iteration consumes at least one byte, so the length of the input is
enough). -/
def tokenizeLoop : Nat → List Char → Nat → List Token → Token → Except Err (List Token)
  | _, [], _, tokens, _ => .ok tokens
  | 0, _ :: _, _, _, _ => .error .loopBound
  | fuel + 1, ch :: rest, i, tokens, prevToken =>
    if isSpace ch then tokenizeLoop fuel rest (i + 1) tokens prevToken
    else if ch = '(' then
      tokenizeLoop fuel rest (i + 1) (tokens ++ [⟨TokenLeftParen, [ch], false⟩])
        ⟨TokenLeftParen, [ch], false⟩
    else if ch = ')' then
      tokenizeLoop fuel rest (i + 1) (tokens ++ [⟨TokenRightParen, [ch], false⟩])
        ⟨TokenRightParen, [ch], false⟩
    else if isOperatorChar ch then
      if isUnary ch tokens prevToken && rest.head? == some ' ' then .error (.unaryBeforeSpace ch)
      else if !isUnary ch tokens prevToken && prevToken.Typ == TokenOperator &&
          !prevToken.IsUnary then
        .error (.operatorsNextToEachOther prevToken.Value ch i)
      else
        tokenizeLoop fuel rest (i + 1)
          (tokens ++ [⟨TokenOperator, [ch], isUnary ch tokens prevToken⟩])
          ⟨TokenOperator, [ch], isUnary ch tokens prevToken⟩
    else if isDigit ch || ch == '.' then
      match scanNumber (ch :: rest) i 0 [] with
      | .error e => .error e
      | .ok (numberStr, rest', i') =>
        tokenizeLoop fuel rest' i' (tokens ++ [⟨TokenNumber, numberStr, false⟩])
          ⟨TokenNumber, numberStr, false⟩
    else .error (.unknownCharacter ch i)

/-- The function `tokenize`. -/
def tokenize (expression : List Char) : Except Err (List Token) :=
  tokenizeLoop expression.length expression 0 [] Token.zero

/-! ## toRPN -/

/-- The function `operatorPrecedence`. -/
def operatorPrecedence (op : List Char) : Nat :=
  if op = ['+'] ∨ op = ['-'] then 1
  else if op = ['*'] ∨ op = ['/'] then 2
  else 0

/-- The loop of the `TokenOperator` case of `toRPN`: while the top of the
operator stack is an operator of at least the precedence of `token`, move it
to the output queue. -/
def popOperators (token : Token) : List Token → List Token → List Token × List Token
  | [], outputQueue => ([], outputQueue)
  | top :: operatorStack, outputQueue =>
    if top.Typ = TokenOperator ∧ operatorPrecedence top.Value ≥ operatorPrecedence token.Value then
      popOperators token operatorStack (outputQueue ++ [top])
    else (top :: operatorStack, outputQueue)

/-- The loop of the `TokenRightParen` case of `toRPN`: pop the operator
stack into the output queue up to and including the nearest left
parenthesis; `none` when `foundLeftParen` stays false. -/
def popToLeftParen : List Token → List Token → Option (List Token × List Token)
  | [], _ => none
  | top :: operatorStack, outputQueue =>
    if top.Typ = TokenLeftParen then some (operatorStack, outputQueue)
    else popToLeftParen operatorStack (outputQueue ++ [top])

/-- The final loop of `toRPN`: flush the operator stack, failing on a
parenthesis. -/
def drainOperators : List Token → List Token → Except Err (List Token)
  | [], outputQueue => .ok outputQueue
  | top :: operatorStack, outputQueue =>
    if top.Typ = TokenLeftParen ∨ top.Typ = TokenRightParen then .error .mismatchedParentheses
    else drainOperators operatorStack (outputQueue ++ [top])

/-- The main loop `for _, token := range tokens` of `toRPN`, followed by the
final flush. -/
def toRPNLoop : List Token → List Token → List Token → Except Err (List Token)
  | [], outputQueue, operatorStack => drainOperators operatorStack outputQueue
  | token :: tokens, outputQueue, operatorStack =>
    match token.Typ with
    | TokenNumber => toRPNLoop tokens (outputQueue ++ [token]) operatorStack
    | TokenOperator =>
      if token.IsUnary then toRPNLoop tokens outputQueue (token :: operatorStack)
      else
        let r := popOperators token operatorStack outputQueue
        toRPNLoop tokens r.2 (token :: r.1)
    | TokenLeftParen => toRPNLoop tokens outputQueue (token :: operatorStack)
    | TokenRightParen =>
      match popToLeftParen operatorStack outputQueue with
      | none => .error .mismatchedParentheses
      | some (operatorStack', outputQueue') => toRPNLoop tokens outputQueue' operatorStack'

/-- The function `toRPN`. -/
def toRPN (tokens : List Token) : Except Err (List Token) :=
  toRPNLoop tokens [] []

/-! ## utils: IsNumber, Contains, Remove

`IsNumber(s)` is `strconv.ParseFloat(s, 64)` returning no error.  The
standard library function is modelled by its grammar (`special`,
`readFloat`, `underscoreOK` of `strconv/atof.go`) and by its documented range
rule: a well-formed literal is rejected with `ErrRange` exactly when it
rounds to an infinity, that is when its absolute value is at least
`2^1024 - 2^970`. -/

/-- Go strconv `lower(c)`, that is `c | ('x' - 'X')`, on the byte value. -/
def lower (c : Char) : Nat := c.toNat ||| 0x20

/-- Go strconv `commonPrefixLenIgnoreCase(s, prefix)` for a lower-case
`prefix`. -/
def commonPrefixLenIgnoreCase : List Char → List Char → Nat
  | c :: s, p :: pre =>
    let c' := if 65 ≤ c.toNat ∧ c.toNat ≤ 90 then c.toNat + 32 else c.toNat
    if c' ≠ p.toNat then 0 else 1 + commonPrefixLenIgnoreCase s pre
  | _, _ => 0

/-- Go strconv `special(s)`: the number of bytes of an infinity or NaN
spelling at the start of `s`, when there is one. -/
def special (s : List Char) : Option Nat :=
  match s with
  | [] => none
  | c :: rest =>
    if c = '+' ∨ c = '-' then
      let n := commonPrefixLenIgnoreCase rest "infinity".toList
      let n := if 3 < n ∧ n < 8 then 3 else n
      if n = 3 ∨ n = 8 then some (1 + n) else none
    else if c = 'i' ∨ c = 'I' then
      let n := commonPrefixLenIgnoreCase s "infinity".toList
      let n := if 3 < n ∧ n < 8 then 3 else n
      if n = 3 ∨ n = 8 then some n else none
    else if c = 'n' ∨ c = 'N' then
      if commonPrefixLenIgnoreCase s "nan".toList = 3 then some 3 else none
    else none

/-- The state of the mantissa loop of Go strconv `readFloat`: `mant` is the
value of all the digits read after the leading zeros (`nd` of them), `dp`
the position of the decimal point. -/
structure Mantissa where
  sawdot : Bool
  sawdigits : Bool
  nd : Nat
  dp : Int
  mant : Nat
  deriving DecidableEq, Repr

/-- The mantissa loop of Go strconv `readFloat`; returns the state and the
unread input. -/
def readMantissa (hex : Bool) : List Char → Mantissa → Mantissa × List Char
  | [], m => (m, [])
  | c :: s, m =>
    if c = '_' then readMantissa hex s m
    else if c = '.' then
      if m.sawdot then (m, c :: s)
      else readMantissa hex s { m with sawdot := true, dp := m.nd }
    else if isDigit c then
      if c = '0' ∧ m.nd = 0 then readMantissa hex s { m with sawdigits := true, dp := m.dp - 1 }
      else
        readMantissa hex s
          { m with sawdigits := true, nd := m.nd + 1,
                   mant := m.mant * (if hex then 16 else 10) + (c.toNat - 48) }
    else if hex ∧ 97 ≤ lower c ∧ lower c ≤ 102 then
      readMantissa hex s
        { m with sawdigits := true, nd := m.nd + 1, mant := m.mant * 16 + (lower c - 97 + 10) }
    else (m, c :: s)

/-- The exponent digit loop of Go strconv `readFloat` (the accumulated
value stops growing once it has reached 10000); returns the value and the
unread input. -/
def readExponent : List Char → Nat → Nat × List Char
  | [], e => (e, [])
  | c :: s, e =>
    if c = '_' then readExponent s e
    else if isDigit c then readExponent s (if e < 10000 then e * 10 + (c.toNat - 48) else e)
    else (e, c :: s)

/-- The loop of Go strconv `underscoreOK`; `saw` is `'^'`, `'0'`, `'_'` or
`'!'`. -/
def underscoreLoop (hex : Bool) : List Char → Char → Bool
  | [], saw => saw != '_'
  | c :: s, saw =>
    if isDigit c ∨ (hex ∧ 97 ≤ lower c ∧ lower c ≤ 102) then underscoreLoop hex s '0'
    else if c = '_' then (if saw ≠ '0' then false else underscoreLoop hex s '_')
    else if saw = '_' then false
    else underscoreLoop hex s '!'

/-- Go strconv `underscoreOK(s)`. -/
def underscoreOK (s : List Char) : Bool :=
  let s := match s with
    | c :: rest => if c = '-' ∨ c = '+' then rest else s
    | [] => s
  match s with
  | c0 :: c1 :: rest =>
    if c0 = '0' ∧ (lower c1 = 98 ∨ lower c1 = 111 ∨ lower c1 = 120) then
      underscoreLoop (decide (lower c1 = 120)) rest '0'
    else underscoreLoop false s '^'
  | _ => underscoreLoop false s '^'

/-- What Go strconv `readFloat` extracts from a well-formed prefix: the value
is `mant * base ^ exp` with base 16 digits scaled to a power of two, and
`rest` is the unread input. -/
structure FloatLit where
  hex : Bool
  mant : Nat
  exp : Int
  rest : List Char
  deriving DecidableEq, Repr

/-- Go strconv `readFloat(s)`: `none` when `ok` is false. -/
def readFloat (s : List Char) : Option FloatLit :=
  match s with
  | [] => none
  | c :: rest0 =>
    let body := if c = '+' ∨ c = '-' then rest0 else s
    let hexBody : Option (List Char) :=
      match body with
      | c0 :: c1 :: c2 :: r => if c0 = '0' ∧ lower c1 = 120 then some (c2 :: r) else none
      | _ => none
    let hex := hexBody.isSome
    let digits := hexBody.getD body
    let (m, afterMant) := readMantissa hex digits ⟨false, false, 0, 0, 0⟩
    if !m.sawdigits then none
    else
      let dp : Int := if m.sawdot then m.dp else m.nd
      let scale : Int := if hex then 4 else 1
      let expChar : Nat := if hex then 112 else 101
      let finish (e : Int) (rest : List Char) : Option FloatLit :=
        let consumed := s.take (s.length - rest.length)
        if (consumed.contains '_') ∧ ¬ underscoreOK consumed then none
        else some ⟨hex, m.mant, if m.mant = 0 then 0 else scale * (dp - m.nd) + e, rest⟩
      match afterMant with
      | ec :: r1 =>
        if lower ec = expChar then
          match r1 with
          | [] => none
          | sc :: r2 =>
            let esign : Int := if sc = '-' then -1 else 1
            let r3 := if sc = '+' ∨ sc = '-' then r2 else r1
            match r3 with
            | [] => none
            | d :: _ =>
              if !isDigit d then none
              else
                let (e, rest) := readExponent r3 0
                finish (e * esign) rest
        else if hex then none
        else finish 0 afterMant
      | [] => if hex then none else finish 0 afterMant

/-- The number `2^1024 - 2^970 = (2^54 - 1) * 2^970`, half an ulp above the
largest `float64`. -/
def float64Limit : Nat := (2 ^ 54 - 1) <<< 970

/-- A literal `mant * base ^ exp` rounds to an infinity: its value is at
least `float64Limit`. -/
def overflowsFloat64 (f : FloatLit) : Bool :=
  let base : Nat := if f.hex then 2 else 10
  if 0 ≤ f.exp then decide (float64Limit ≤ f.mant * base ^ f.exp.toNat)
  else decide (float64Limit * base ^ (-f.exp).toNat ≤ f.mant)

/-- The function `utils.IsNumber`: `strconv.ParseFloat(s, 64)` succeeds. -/
def IsNumber (s : List Char) : Bool :=
  match special s with
  | some n => n == s.length
  | none =>
    match readFloat s with
    | none => false
    | some f => f.rest.isEmpty && !overflowsFloat64 f

/-- The function `utils.Contains`. -/
def Contains (slice : List (List Char)) (item : List Char) : Bool :=
  match slice with
  | [] => false
  | s :: rest => if s = item then true else Contains rest item

/-- The function `utils.Remove`. -/
def Remove (slice : List (List Char)) (item : List Char) : List (List Char) :=
  match slice with
  | [] => []
  | s :: rest => if s ≠ item then s :: Remove rest item else Remove rest item

/-! ## ValidateExpression -/

/-- The update of `parenCount` in `ValidateExpression`: `(` increments it,
`)` decrements it. -/
def countParen (ch : Char) (parenCount : Int) : Int :=
  if ch = '(' then parenCount + 1 else if ch = ')' then parenCount - 1 else parenCount

/-- The loop `for i := 0; i < len(expression); i++` of `ValidateExpression`.
The first argument is `expression[i:]`; `prev` is `expression[i-1]`, or
`none` when `i = 0`.  Returns the error of the first failing check, or the final
`parenCount`. -/
def validateLoop : List Char → Nat → Option Char → Int → Except Err Int
  | [], _, _, parenCount => .ok parenCount
  | ch :: rest, i, prev, parenCount =>
    if ch = ')' ∧ countParen ch parenCount < 0 then .error (.unbalancedAt i)
    else if !isDigit ch ∧ ch ≠ '.' ∧ ch ≠ '+' ∧ ch ≠ '-' ∧ ch ≠ '*' ∧ ch ≠ '/' ∧ ch ≠ '(' ∧
        ch ≠ ')' ∧ !isSpace ch then .error (.invalidCharacter ch i)
    else if rest = [] ∧ (ch = '+' ∨ ch = '-' ∨ ch = '*' ∨ ch = '/') then
      .error (.endsWithOperator ch)
    else if (ch = '*' ∨ ch = '/') ∧
        (prev = some '+' ∨ prev = some '-' ∨ prev = some '*' ∨ prev = some '/') then
      .error (.adjacentOperators (prev.getD ch) ch i)
    else validateLoop rest (i + 1) (some ch) (countParen ch parenCount)

/-- The function `ValidateExpression`; `none` is the `nil` error. -/
def ValidateExpression (expression : List Char) : Option Err :=
  if expression.length = 0 then some .emptyExpression
  else
    match validateLoop expression 0 none 0 with
    | .error e => some e
    | .ok parenCount =>
      if parenCount > 0 then some (.missingClosing parenCount.toNat) else none

/-! ## The data model -/

/-- The constant `StatusPending`. -/
def StatusPending : List Char := "pending".toList
/-- The constant `StatusReady`. -/
def StatusReady : List Char := "ready".toList
/-- The constant `StatusProgress`. -/
def StatusProgress : List Char := "in_progress".toList
/-- The constant `StatusDone`. -/
def StatusDone : List Char := "done".toList
/-- The constant `StatusError`. -/
def StatusError : List Char := "error".toList

/-- The struct `types.Task`.  `R` is the type of results (`float64` in the
code, which only stores and copies them); `Result = none` is the nil
pointer. -/
structure Task (R : Type) where
  ID : List Char
  ExpressionID : List Char
  Arg1 : List Char
  Arg2 : List Char
  Operation : List Char
  OperationTime : Int
  Dependencies : List (List Char)
  Status : List Char
  Result : Option R
  deriving DecidableEq, Repr

/-- The struct `types.Expression`; `Tasks` lists the ids of the tasks the
slice points to. -/
structure Expression (R : Type) where
  ID : List Char
  Status : List Char
  Result : Option R
  Tasks : List (List Char)
  deriving DecidableEq, Repr

/-- The struct `Orchestrator`.  The maps `Expressions` and `Tasks` are lists
of their values, keyed by the `ID` field, in insertion order;
`ProcessingTasks` is the list of keys set to `true`; `ReadyTasks` is the
content of the channel, oldest first (its capacity of 8192 is not
modelled: a send never blocks).  `Sending` is no field of the Go struct: it
is the state of the goroutines started by `AddExpression`, the ids of the
tasks that such a goroutine has still to send to `ReadyTasks`. -/
structure Orchestrator (R : Type) where
  Expressions : List (Expression R)
  Tasks : List (Task R)
  ReadyTasks : List (List Char)
  Sending : List (List Char)
  ProcessingTasks : List (List Char)
  OperationTimes : List (List Char × Int)
  ComputingPower : Int
  ExpressionCounter : Nat
  TaskCounter : Nat
  deriving DecidableEq, Repr

variable {R : Type}

/-- The function `NewOrchestrator`. -/
def NewOrchestrator (timeAddition timeSubtraction timeMultiplication timeDivision : Int) :
    Orchestrator R :=
  { Expressions := []
    Tasks := []
    ReadyTasks := []
    Sending := []
    ProcessingTasks := []
    OperationTimes :=
      [(['+'], timeAddition), (['-'], timeSubtraction), (['*'], timeMultiplication),
        (['/'], timeDivision)]
    ComputingPower := 0
    ExpressionCounter := 0
    TaskCounter := 0 }

/-- The text `fmt.Sprintf("task-%d", n)`. -/
def taskID (n : Nat) : List Char := "task-".toList ++ Nat.toDigits 10 n

/-- The text `fmt.Sprintf("expr-%d", n)`. -/
def exprID (n : Nat) : List Char := "expr-".toList ++ Nat.toDigits 10 n

/-- Map read `tasks[id]`. -/
def getTask (tasks : List (Task R)) (id : List Char) : Option (Task R) :=
  tasks.find? (fun t => decide (t.ID = id))

/-- Map write `tasks[task.ID] = task`. -/
def setTask (tasks : List (Task R)) (task : Task R) : List (Task R) :=
  if tasks.any (fun t => decide (t.ID = task.ID)) then
    tasks.map (fun t => if t.ID = task.ID then task else t)
  else tasks ++ [task]

/-- Assignment to fields of the task with the given id, through its pointer. -/
def updateTask (tasks : List (Task R)) (id : List Char) (f : Task R → Task R) : List (Task R) :=
  tasks.map (fun t => if t.ID = id then f t else t)

/-- Map read `expressions[id]`. -/
def getExpression (expressions : List (Expression R)) (id : List Char) : Option (Expression R) :=
  expressions.find? (fun e => decide (e.ID = id))

/-- Map write `expressions[expression.ID] = expression`. -/
def setExpression (expressions : List (Expression R)) (expression : Expression R) :
    List (Expression R) :=
  if expressions.any (fun e => decide (e.ID = expression.ID)) then
    expressions.map (fun e => if e.ID = expression.ID then expression else e)
  else expressions ++ [expression]

/-! ## parseExpression -/

/-- The task built in the `TokenOperator` case of `parseExpression` when the
counter has been advanced to `counter`: its dependencies are those of its
arguments that `IsNumber` rejects. -/
def newTask (exprID : List Char) (counter : Nat) (arg1 arg2 operation : List Char) : Task R :=
  { ID := taskID counter
    ExpressionID := exprID
    Arg1 := arg1
    Arg2 := arg2
    Operation := operation
    OperationTime := 0
    Dependencies :=
      (if !IsNumber arg1 then [arg1] else []) ++ (if !IsNumber arg2 then [arg2] else [])
    Status := StatusPending
    Result := none }

/-- The loop `for _, token := range tokens` of `parseExpression`; the
argument stack has its top first, `counter` is `o.TaskCounter`.  Returns
`tasks` and the final counter. -/
def parseExpressionLoop (exprID : List Char) :
    List Token → List (List Char) → List (Task R) → Nat → List (Task R) × Nat
  | [], _, tasks, counter => (tasks, counter)
  | token :: tokens, stack, tasks, counter =>
    match token.Typ with
    | TokenNumber => parseExpressionLoop exprID tokens (token.Value :: stack) tasks counter
    | TokenOperator =>
      match stack with
      | arg2 :: arg1 :: stack' =>
        parseExpressionLoop exprID tokens (taskID (counter + 1) :: stack')
          (tasks ++ [newTask exprID (counter + 1) arg1 arg2 token.Value]) (counter + 1)
      | _ => parseExpressionLoop exprID tokens stack tasks counter
    | _ => parseExpressionLoop exprID tokens stack tasks counter

namespace Orchestrator

/-- The method `parseExpression`: returns the orchestrator with the advanced
`TaskCounter` and the tasks. -/
def parseExpression (o : Orchestrator R) (tokens : List Token) (exprID : List Char) :
    Orchestrator R × List (Task R) :=
  let r := parseExpressionLoop exprID tokens [] [] o.TaskCounter
  ({ o with TaskCounter := r.2 }, r.1)

/-! ## AddExpression -/

/-- The body of the loop `for _, task := range expression.Tasks` of
`AddExpression`: enter the task into `o.Tasks`; a task without dependencies
becomes ready and a goroutine is started that will send it to `ReadyTasks`
(the goroutine joins `Sending`; its send is `Orchestrator.send`). -/
def installTask (o : Orchestrator R) (task : Task R) : Orchestrator R :=
  if task.Dependencies.length = 0 then
    { o with Tasks := setTask o.Tasks { task with Status := StatusReady }
             Sending := o.Sending ++ [task.ID] }
  else { o with Tasks := setTask o.Tasks task }

/-- The statement `o.ExpressionCounter++` of `AddExpression`. -/
def countExpression (o : Orchestrator R) : Orchestrator R :=
  { o with ExpressionCounter := o.ExpressionCounter + 1 }

/-- The end of `AddExpression`: the loop over the tasks, then
`o.Expressions[exprID] = expression` for the pending expression holding
these tasks. -/
def installExpression (o : Orchestrator R) (exprID : List Char) (tasks : List (Task R)) :
    Orchestrator R :=
  { tasks.foldl installTask o with
    Expressions := setExpression (tasks.foldl installTask o).Expressions
      { ID := exprID, Status := StatusPending, Result := none, Tasks := tasks.map (·.ID) } }

/-- The method `AddExpression`: the orchestrator after the call and the
returned id or error. -/
def AddExpression (o : Orchestrator R) (expr : List Char) :
    Orchestrator R × Except Err (List Char) :=
  match tokenize expr with
  | .error err => (o.countExpression, .error err)
  | .ok tokens =>
    match toRPN tokens with
    | .error err => (o.countExpression, .error err)
    | .ok rpn =>
      (installExpression
          (o.countExpression.parseExpression rpn (exprID o.countExpression.ExpressionCounter)).1
          (exprID o.countExpression.ExpressionCounter)
          (o.countExpression.parseExpression rpn (exprID o.countExpression.ExpressionCounter)).2,
        .ok (exprID o.countExpression.ExpressionCounter))

/-! ## GetNextTask -/

/-- The method `GetNextTask`: the orchestrator after the call and the
returned task or error. -/
def GetNextTask (o : Orchestrator R) : Orchestrator R × Except Err (Task R) :=
  match o.ReadyTasks with
  | [] => (o, .error .ErrNoTasksAvailable)
  | id :: rest =>
    match getTask o.Tasks id with
    | some task =>
      if task.Status = StatusReady then
        ({ o with ReadyTasks := rest
                  Tasks := updateTask o.Tasks id (fun t => { t with Status := StatusProgress })
                  ProcessingTasks :=
                    if id ∈ o.ProcessingTasks then o.ProcessingTasks else o.ProcessingTasks ++ [id] },
          .ok { task with Status := StatusProgress })
      else ({ o with ReadyTasks := rest }, .error .ErrNoTasksAvailable)
    | none => ({ o with ReadyTasks := rest }, .error .ErrNoTasksAvailable)

/-! ## ProcessTaskResult -/

/-- The order in which `for _, t := range o.Tasks` visits the keys.  Go
leaves the order of a map range unspecified: `order` is the choice made,
and whatever it is, every key is visited exactly once. -/
def rangeOrder (order keys : List (List Char)) : List (List Char) :=
  (order.dedup.filter (fun k => decide (k ∈ keys))) ++ keys.filter (fun k => decide (k ∉ order))

/-- The body of the loop `for _, t := range o.Tasks` of `ProcessTaskResult`
for the task with key `k`. -/
def notifyTask (taskID : List Char) (o : Orchestrator R) (k : List Char) : Orchestrator R :=
  match getTask o.Tasks k with
  | none => o
  | some t =>
    if Contains t.Dependencies taskID then
      let deps := Remove t.Dependencies taskID
      if deps.length = 0 ∧ t.Status = StatusPending then
        { o with Tasks := updateTask o.Tasks k
                   (fun t => { t with Dependencies := deps, Status := StatusReady })
                 ReadyTasks := o.ReadyTasks ++ [k] }
      else { o with Tasks := updateTask o.Tasks k (fun t => { t with Dependencies := deps }) }
    else o

/-- The status read through a task pointer of `expr.Tasks`. -/
def statusOf (o : Orchestrator R) (id : List Char) : Option (List Char) :=
  (getTask o.Tasks id).map (·.Status)

/-- The first part of `ProcessTaskResult`: the task becomes `done` with its
result and leaves `ProcessingTasks`. -/
def markDone (o : Orchestrator R) (taskID : List Char) (result : R) : Orchestrator R :=
  { o with Tasks := updateTask o.Tasks taskID
             (fun t => { t with Status := StatusDone, Result := some result })
           ProcessingTasks := o.ProcessingTasks.filter (fun k => decide (k ≠ taskID)) }

/-- The loop `for _, t := range o.Tasks` of `ProcessTaskResult`. -/
def notifyDependents (o : Orchestrator R) (taskID : List Char) (order : List (List Char)) :
    Orchestrator R :=
  (rangeOrder order (o.Tasks.map (·.ID))).foldl (notifyTask taskID) o

/-- The last part of `ProcessTaskResult`: when the expression of the
completed task exists and all its tasks are done, it becomes `done` with the
result of the completed task. -/
def closeExpression (o : Orchestrator R) (exprID : List Char) (result : R) : Orchestrator R :=
  match getExpression o.Expressions exprID with
  | none => o
  | some expr =>
    if expr.Tasks.all (fun id => decide (statusOf o id = some StatusDone)) then
      { o with Expressions := o.Expressions.map (fun e =>
          if e.ID = exprID then { e with Status := StatusDone, Result := some result } else e) }
    else o

/-- The method `ProcessTaskResult`: the orchestrator after the call and the
returned error (`none` is `nil`).  `order` is the order of the map range. -/
def ProcessTaskResult (o : Orchestrator R) (taskID : List Char) (result : R)
    (order : List (List Char)) : Orchestrator R × Option Err :=
  match getTask o.Tasks taskID with
  | none => (o, some .invalidTask)
  | some task =>
    if task.Status ≠ StatusProgress then (o, some .invalidTask)
    else
      (closeExpression (notifyDependents (markDone o taskID result) taskID order)
        task.ExpressionID result, none)

end Orchestrator

/-! ## Reference semantics of expressions

The claims about parsing compare what the code computes with "the value of
the expression".  That value is fixed by an abstract syntax of well-formed
expressions, their rendering as text and their value in exact rational
arithmetic. -/

/-- The four binary operators. -/
inductive BinOp where
  | add
  | sub
  | mul
  | div
  deriving DecidableEq, Repr

/-- The byte of a binary operator. -/
def BinOp.char : BinOp → Char
  | .add => '+'
  | .sub => '-'
  | .mul => '*'
  | .div => '/'

/-- Standard precedence: `+ -` below `* /`. -/
def BinOp.prec : BinOp → Nat
  | .add => 1
  | .sub => 1
  | .mul => 2
  | .div => 2

/-- The value of a binary operation in exact arithmetic; a division by zero
has no value. -/
def BinOp.apply : BinOp → ℚ → ℚ → Option ℚ
  | .add, a, b => some (a + b)
  | .sub, a, b => some (a - b)
  | .mul, a, b => some (a * b)
  | .div, a, b => if b = 0 then none else some (a / b)

/-- The value of a run of decimal digits, most significant first; `none`
when a byte is not a digit. -/
def digitsValue : List Char → Nat → Option Nat
  | [], acc => some acc
  | c :: cs, acc => if isDigit c then digitsValue cs (acc * 10 + (c.toNat - 48)) else none

/-- The value of a decimal literal `ddd`, `ddd.ddd`, `.ddd` or `ddd.`; `none`
for any other text (in particular for a task id and for a lone `.`). -/
def literalValue (s : List Char) : Option ℚ :=
  let ip := s.takeWhile (fun c => c != '.')
  let fp := (s.dropWhile (fun c => c != '.')).drop 1
  if ip.length + fp.length = 0 then none
  else
    match digitsValue ip 0, digitsValue fp 0 with
    | some a, some b => some ((a : ℚ) + (b : ℚ) / (10 : ℚ) ^ fp.length)
    | _, _ => none

/-- Abstract syntax of an expression, with the white space of its text:
`ws` is the white space following a token. -/
inductive Expr where
  /-- A literal and the white space after it. -/
  | num (lexeme ws : List Char)
  /-- `l op ws r`. -/
  | bin (op : BinOp) (l : Expr) (ws : List Char) (r : Expr)
  /-- Unary minus, abutting its operand. -/
  | neg (e : Expr)
  /-- Unary plus, abutting its operand. -/
  | pos (e : Expr)
  /-- `( ws1 e ) ws2`. -/
  | paren (ws1 : List Char) (e : Expr) (ws2 : List Char)
  deriving DecidableEq, Repr

namespace Expr

/-- The text of an expression. -/
def render : Expr → List Char
  | num lexeme ws => lexeme ++ ws
  | bin op l ws r => l.render ++ op.char :: (ws ++ r.render)
  | neg e => '-' :: e.render
  | pos e => '+' :: e.render
  | paren ws1 e ws2 => '(' :: (ws1 ++ (e.render ++ ')' :: ws2))

/-- How tightly the outermost construct binds: a binary operation binds as
its operator, everything else (literal, parenthesis, unary operation) binds
tighter than every binary operator. -/
def level : Expr → Nat
  | bin op _ _ _ => op.prec
  | _ => 3

/-- A decimal literal: digits with at most one dot and at least one digit. -/
def isLiteral (s : List Char) : Bool :=
  s.all (fun c => isDigit c || c == '.') && decide (s.count '.' ≤ 1) && s.any isDigit

/-- The text of a well-formed expression parses to this syntax tree under
standard precedence and left associativity: the left operand of a binary
operator binds at least as tightly as the operator, the right operand binds
tighter, and the operand of a unary operator binds tighter than every binary
operator.  White space is white space and literals are decimal literals. -/
def wellFormed : Expr → Bool
  | num lexeme ws => isLiteral lexeme && ws.all isSpace
  | bin op l ws r =>
    l.wellFormed && r.wellFormed && ws.all isSpace && decide (op.prec ≤ l.level) &&
      decide (op.prec < r.level)
  | neg e => e.wellFormed && decide (e.level = 3)
  | pos e => e.wellFormed && decide (e.level = 3)
  | paren ws1 e ws2 => e.wellFormed && ws1.all isSpace && ws2.all isSpace

/-- No unary operator occurs. -/
def binaryOnly : Expr → Bool
  | num _ _ => true
  | bin _ l _ r => l.binaryOnly && r.binaryOnly
  | neg _ => false
  | pos _ => false
  | paren _ e _ => e.binaryOnly

/-- The number of binary operators. -/
def operators : Expr → Nat
  | num _ _ => 0
  | bin _ l _ r => l.operators + r.operators + 1
  | neg e => e.operators
  | pos e => e.operators
  | paren _ e _ => e.operators

/-- The numeric value in exact arithmetic; `none` when a division by zero
occurs. -/
def value : Expr → Option ℚ
  | num lexeme _ => literalValue lexeme
  | bin op l _ r =>
    match l.value, r.value with
    | some a, some b => op.apply a b
    | _, _ => none
  | neg e => e.value.map (fun a => -a)
  | pos e => e.value
  | paren _ e _ => e.value

end Expr

/-- The binary operator of an operation text. -/
def binOpOf (op : List Char) : Option BinOp :=
  if op = ['+'] then some .add
  else if op = ['-'] then some .sub
  else if op = ['*'] then some .mul
  else if op = ['/'] then some .div
  else none

/-- A trivial stack interpreter for a postfix token stream: a number pushes
its value, a unary operator pops one value, a binary operator pops two.
The top of the stack is the head. -/
def evalRPNLoop : List Token → List ℚ → Option (List ℚ)
  | [], stack => some stack
  | token :: tokens, stack =>
    match token.Typ with
    | TokenNumber =>
      match literalValue token.Value with
      | some v => evalRPNLoop tokens (v :: stack)
      | none => none
    | TokenOperator =>
      if token.IsUnary then
        match stack with
        | a :: stack' =>
          if token.Value = ['-'] then evalRPNLoop tokens (-a :: stack')
          else evalRPNLoop tokens (a :: stack')
        | [] => none
      else
        match stack, binOpOf token.Value with
        | b :: a :: stack', some op =>
          match op.apply a b with
          | some v => evalRPNLoop tokens (v :: stack')
          | none => none
        | _, _ => none
    | _ => none

/-- The value the stack interpreter leaves for a postfix stream. -/
def evalRPN (rpn : List Token) : Option ℚ :=
  match evalRPNLoop rpn [] with
  | some [v] => some v
  | _ => none

/-- The value of an argument of a task: the value of the earlier task it
names, or else its value as a literal. -/
def argValue (env : List (List Char × Option ℚ)) (arg : List Char) : Option ℚ :=
  match env.find? (fun p => decide (p.1 = arg)) with
  | some p => p.2
  | none => literalValue arg

/-- The value of a task in exact arithmetic, given the values of the tasks
before it. -/
def taskValue (env : List (List Char × Option ℚ)) (t : Task R) : Option ℚ :=
  match binOpOf t.Operation, argValue env t.Arg1, argValue env t.Arg2 with
  | some op, some a, some b => op.apply a b
  | _, _, _ => none

/-- Evaluate tasks in list order; returns the value of every task. -/
def evalTasks : List (Task R) → List (List Char × Option ℚ) → List (List Char × Option ℚ)
  | [], env => env
  | t :: ts, env => evalTasks ts (env ++ [(t.ID, taskValue env t)])

/-- The value of the last task of a task list evaluated in list order. -/
def lastTaskValue (tasks : List (Task R)) : Option ℚ :=
  match (evalTasks tasks []).getLast? with
  | some p => p.2
  | none => none

/-- The tasks an expression's `Tasks` slice points to. -/
def Orchestrator.tasksOf (o : Orchestrator R) (expr : Expression R) : List (Task R) :=
  expr.Tasks.filterMap (getTask o.Tasks)

/-! ## Runs of the orchestrator -/

/-- A step of the program: a call of one of the three mutating methods, with
its arguments (and, for `ProcessTaskResult`, the order chosen by the map
range), or the send `o.ReadyTasks <- t` of the goroutine that
`AddExpression` started for the task with the given id. -/
inductive Op (R : Type) where
  | addExpression (expr : List Char)
  | getNextTask
  | processTaskResult (taskID : List Char) (result : R) (order : List (List Char))
  | send (taskID : List Char)

namespace Orchestrator

/-- The statement `o.ReadyTasks <- t` of the goroutine started for the task
with the id `taskID`: the task joins the queue.  Nothing happens when no
such goroutine is waiting to send. -/
def send (o : Orchestrator R) (taskID : List Char) : Orchestrator R :=
  if taskID ∈ o.Sending then
    { o with Sending := o.Sending.erase taskID
             ReadyTasks := o.ReadyTasks ++ [taskID] }
  else o

/-- The orchestrator after a step. -/
def step (o : Orchestrator R) : Op R → Orchestrator R
  | .addExpression expr => (o.AddExpression expr).1
  | .getNextTask => o.GetNextTask.1
  | .processTaskResult taskID result order => (o.ProcessTaskResult taskID result order).1
  | .send taskID => o.send taskID

/-- The orchestrator after a sequence of steps. -/
def run (o : Orchestrator R) (ops : List (Op R)) : Orchestrator R :=
  ops.foldl step o

/-- The ids sent to `ReadyTasks` by a step: what the step appended to the
queue (`GetNextTask` sends nothing). -/
def sent (o : Orchestrator R) : Op R → List (List Char)
  | .getNextTask => []
  | op => (o.step op).ReadyTasks.drop o.ReadyTasks.length

/-- The id of the task a step hands to a worker: the task returned by a
successful `GetNextTask`. -/
def claimed (o : Orchestrator R) : Op R → List (List Char)
  | .getNextTask =>
    match o.GetNextTask.2 with
    | .ok task => [task.ID]
    | .error _ => []
  | _ => []

/-- Every id sent to `ReadyTasks` during a run, in order. -/
def sentDuring : Orchestrator R → List (Op R) → List (List Char)
  | _, [] => []
  | o, op :: ops => o.sent op ++ sentDuring (o.step op) ops

/-- Every id returned by `GetNextTask` during a run, in order. -/
def claimedDuring : Orchestrator R → List (Op R) → List (List Char)
  | _, [] => []
  | o, op :: ops => o.claimed op ++ claimedDuring (o.step op) ops

end Orchestrator

/-- The states reachable from `NewOrchestrator` by calls of `AddExpression`,
`GetNextTask` and `ProcessTaskResult` and by the sends of the goroutines of
`AddExpression`, in any order. -/
inductive Reachable : Orchestrator R → Prop where
  | init (timeAddition timeSubtraction timeMultiplication timeDivision : Int) :
      Reachable (NewOrchestrator timeAddition timeSubtraction timeMultiplication timeDivision)
  | step (o : Orchestrator R) (op : Op R) : Reachable o → Reachable (o.step op)

/-! ## Concrete inputs -/

/-- The token of a literal. -/
def Token.number (lexeme : List Char) : Token := ⟨TokenNumber, lexeme, false⟩

/-- The token of a binary operator. -/
def Token.binary (op : BinOp) : Token := ⟨TokenOperator, [op.char], false⟩

/-- The token of a unary operator. -/
def Token.unary (ch : Char) : Token := ⟨TokenOperator, [ch], true⟩

/-- The token `(`. -/
def Token.leftParen : Token := ⟨TokenLeftParen, ['('], false⟩

/-- The token `)`. -/
def Token.rightParen : Token := ⟨TokenRightParen, [')'], false⟩

/-- A fresh orchestrator (every operation time 2000 ms, as by default). -/
def fresh : Orchestrator R := NewOrchestrator 2000000000 2000000000 2000000000 2000000000

/-- The expression `(2 / (-3)) * 4`, whose text is `2 / -3*4` without the
blanks. -/
def exprDivNegMul : Expr :=
  .bin .mul (.bin .div (.num ['2'] []) [] (.neg (.num ['3'] []))) [] (.num ['4'] [])

/-- The expression `(-3) + 4`, written `-3+4`. -/
def exprNegAdd : Expr :=
  .bin .add (.neg (.num ['3'] [])) [] (.num ['4'] [])

/-- The steps: submit `(1+2)(3+4)`, the two goroutines send their tasks,
claim twice, complete `task-2` with 7, then `task-1` with 3. -/
def opsTwoRoots : List (Op Int) :=
  [.addExpression "(1+2)(3+4)".toList, .send "task-1".toList, .send "task-2".toList,
    .getNextTask, .getNextTask,
    .processTaskResult "task-2".toList 7 [], .processTaskResult "task-1".toList 3 []]

/-- One of the bytes accepted by `ValidateExpression` and by `tokenize`: a
digit, `.`, an operator, a parenthesis or white space. -/
def validChar (ch : Char) : Bool :=
  isDigit ch || ch == '.' || isOperatorChar ch || ch == '(' || ch == ')' || isSpace ch

/-- The result of `tokenize` is a token sequence or one of its three errors
other than "unknown character". -/
def lexOutcome (r : Except Err (List Token)) : Prop :=
  (∃ tokens, r = .ok tokens) ∨ (∃ pos, r = .error (.multipleDots pos)) ∨
    (∃ ch, r = .error (.unaryBeforeSpace ch)) ∨
    (∃ prev ch pos, r = .error (.operatorsNextToEachOther prev ch pos))

/-! ## What `ProcessTaskResult` does to the tasks it visits -/

/-- What the loop of `ProcessTaskResult` for the completed task `taskID`
does to a task it visits. -/
def notified (taskID : List Char) (t : Task R) : Task R :=
  if Contains t.Dependencies taskID then
    if (Remove t.Dependencies taskID).length = 0 ∧ t.Status = StatusPending then
      { t with Dependencies := Remove t.Dependencies taskID, Status := StatusReady }
    else { t with Dependencies := Remove t.Dependencies taskID }
  else t

/-- The loop of `ProcessTaskResult` sends the visited task to `ReadyTasks`:
the completed task was its last dependency and it is pending. -/
def becomesReady (taskID : List Char) (t : Task R) : Bool :=
  Contains t.Dependencies taskID && decide ((Remove t.Dependencies taskID).length = 0) &&
    decide (t.Status = StatusPending)

/-- The state after submitting `2+2*2` to a fresh orchestrator, the send of
`task-1` (the product) by its goroutine and the claim of `task-1`; `task-2`
(the sum) waits for it. -/
def claimedProduct : Orchestrator Int :=
  (fresh : Orchestrator Int).run
    [.addExpression "2+2*2".toList, .send "task-1".toList, .getNextTask]

/-- What the loop of `AddExpression` stores for a task returned by
`parseExpression`: a task without dependencies is stored as `ready`. -/
def installed (task : Task R) : Task R :=
  if task.Dependencies.length = 0 then { task with Status := StatusReady } else task

/-! ## Invariants of the reachable states -/

/-- An invariant of the reachable states: every key of `Tasks` is an id
`task-k` issued so far, the ready queue holds no id twice, every queued task
has the status `ready`, and so has every task that a goroutine has still to
send, none of which is in the queue or waits twice. -/
structure Inv (o : Orchestrator R) : Prop where
  keys : ∀ id ∈ o.Tasks.map (·.ID), ∃ k, 1 ≤ k ∧ k ≤ o.TaskCounter ∧ id = taskID k
  queueNodup : o.ReadyTasks.Nodup
  queueReady : ∀ id ∈ o.ReadyTasks, o.statusOf id = some StatusReady
  sendingNodup : (o.Sending ++ o.ReadyTasks).Nodup
  sendingReady : ∀ id ∈ o.Sending, o.statusOf id = some StatusReady

/-- What a state records of the run that led to it: a task that was sent to
the ready queue is no longer `pending` and no goroutine waits to send it
again, a task that was handed out by `GetNextTask` is `in_progress` or
`done`, and neither list repeats an id. -/
structure History (o : Orchestrator R) (sent claimed : List (List Char)) : Prop where
  sentStatus : ∀ id ∈ sent, ∃ t, getTask o.Tasks id = some t ∧ t.Status ≠ StatusPending
  sentNodup : sent.Nodup
  sentOnce : ∀ id ∈ sent, id ∉ o.Sending
  claimedStatus : ∀ id ∈ claimed, ∃ t, getTask o.Tasks id = some t ∧
    (t.Status = StatusProgress ∨ t.Status = StatusDone)
  claimedNodup : claimed.Nodup

/-- The state after submitting `(1+2)*(3+4)` to a fresh orchestrator and the
send of `task-2` by its goroutine, while the goroutine of `task-1` has not
sent yet. -/
def secondSentFirst : Orchestrator Int :=
  (fresh : Orchestrator Int).run [.addExpression "(1+2)*(3+4)".toList, .send "task-2".toList]

/-- The state after submitting `(1+2)*(3+4)` to a fresh orchestrator: two
ready additions, each with a goroutine that has still to send it, and a
pending product. -/
def submittedProduct : Orchestrator Int :=
  (fresh : Orchestrator Int).run [.addExpression "(1+2)*(3+4)".toList]

/-! ## The token stream, the postfix stream and the tasks of an expression -/

/-- The loop of `tokenize` run with the bound it needs, the length of the
unread input. -/
def lex (s : List Char) (i : Nat) (tokens : List Token) (prevToken : Token) :
    Except Err (List Token) :=
  tokenizeLoop s.length s i tokens prevToken

namespace Expr

/-- The token stream of an expression. -/
def tokens : Expr → List Token
  | num lexeme _ => [Token.number lexeme]
  | bin op l _ r => l.tokens ++ Token.binary op :: r.tokens
  | neg e => Token.unary '-' :: e.tokens
  | pos e => Token.unary '+' :: e.tokens
  | paren _ e _ => Token.leftParen :: (e.tokens ++ [Token.rightParen])

/-- The last token of an expression. -/
def lastToken : Expr → Token
  | num lexeme _ => Token.number lexeme
  | bin _ _ _ r => r.lastToken
  | neg e => e.lastToken
  | pos e => e.lastToken
  | paren _ _ _ => Token.rightParen

/-- The postfix form of an expression: operands first, then the operator. -/
def rpn : Expr → List Token
  | num lexeme _ => [Token.number lexeme]
  | bin op l _ r => l.rpn ++ (r.rpn ++ [Token.binary op])
  | neg e => e.rpn ++ [Token.unary '-']
  | pos e => e.rpn ++ [Token.unary '+']
  | paren _ e _ => e.rpn

/-- The operators of an expression without unary operators that `toRPN`
still holds on its stack when it has read the expression, top first. -/
def pending : Expr → List Token
  | bin op _ _ r => r.pending ++ [Token.binary op]
  | _ => []

/-- The part of the postfix form of an expression without unary operators
that `toRPN` has output when it has read the expression. -/
def emitted : Expr → List Token
  | bin _ l _ r => l.rpn ++ r.emitted
  | e => e.rpn

/-- The argument that stands for an expression without unary operators in
the task of its parent, when `counter` tasks were created before: its
lexeme, or the id of its last task. -/
def root : Expr → Nat → List Char
  | num lexeme _, _ => lexeme
  | bin _ l _ r, counter => taskID (counter + l.operators + r.operators + 1)
  | neg e, counter => e.root counter
  | pos e, counter => e.root counter
  | paren _ e _, counter => e.root counter

/-- The tasks of an expression without unary operators, when `counter`
tasks were created before: those of the left operand, those of the right
operand, then the task of the operator. -/
def tasks (exprID : List Char) : Expr → Nat → List (Task R)
  | num _ _, _ => []
  | bin op l _ r, counter =>
    l.tasks exprID counter ++ (r.tasks exprID (counter + l.operators) ++
      [newTask exprID (counter + l.operators + r.operators + 1) (l.root counter)
        (r.root (counter + l.operators)) [op.char]])
  | neg e, counter => e.tasks exprID counter
  | pos e, counter => e.tasks exprID counter
  | paren _ e _, counter => e.tasks exprID counter

end Expr

/-- The top of the operator stack does not stop a binary operator of
precedence `p` from being pushed: the stack is empty or its top is not an
operator of precedence at least `p`. -/
def stackBelow (operatorStack : List Token) (p : Nat) : Prop :=
  match operatorStack with
  | [] => True
  | top :: _ => ¬ (top.Typ = TokenOperator ∧ operatorPrecedence top.Value ≥ p)

/-- The expression `2 + (2 * 2)`, written `2 + 2*2`. -/
def exprSumOfProduct : Expr :=
  .bin .add (.num ['2'] [' ']) [' '] (.bin .mul (.num ['2'] []) [] (.num ['2'] []))

/-- The task `task-n` of the expression `expr-1` as `AddExpression` stores
it. -/
def storedTask (n : Nat) (arg1 : String) (operation : Char) (arg2 : String)
    (dependencies : List (List Char)) (status : List Char) : Task Int :=
  { ID := taskID n, ExpressionID := exprID 1, Arg1 := arg1.toList, Arg2 := arg2.toList,
    Operation := [operation], OperationTime := 0, Dependencies := dependencies,
    Status := status, Result := none }

/-! ## The handlers of the server -/

/-- The handler `calculateHandler` of `POST /api/v1/calculate`: the
orchestrator after the request and the status of the response.  `body` is
what `ShouldBindJSON` binds to `req.Expression`, `none` when it returns an
error. -/
def calculateHandler (o : Orchestrator R) (body : Option (List Char)) : Orchestrator R × Nat :=
  match body with
  | none => (o, 422)
  | some expression =>
    match ValidateExpression expression with
    | some _ => (o, 422)
    | none =>
      match (o.AddExpression expression).2 with
      | .error _ => ((o.AddExpression expression).1, 500)
      | .ok _ => ((o.AddExpression expression).1, 201)

/-- The handler `submitTaskResultHandler` of `POST /internal/task`: the
orchestrator after the request and the status of the response.  `body` is
what `ShouldBindJSON` binds to `req.ID` and `req.Result`, `none` when it
returns an error; `order` is the order of the map range of
`ProcessTaskResult`.  The test `errors.Is(err, sentinel)` is equality with
the sentinel. -/
def submitTaskResultHandler (o : Orchestrator R) (body : Option (List Char × R))
    (order : List (List Char)) : Orchestrator R × Nat :=
  match body with
  | none => (o, 422)
  | some req =>
    match (o.ProcessTaskResult req.1 req.2 order).2 with
    | some err =>
      if err = Err.ErrTaskNotFound then ((o.ProcessTaskResult req.1 req.2 order).1, 404)
      else if err = Err.ErrInvalidTaskResult then
        ((o.ProcessTaskResult req.1 req.2 order).1, 422)
      else ((o.ProcessTaskResult req.1 req.2 order).1, 500)
    | none => ((o.ProcessTaskResult req.1 req.2 order).1, 200)

/-- The argument stack of `parseExpression` when its loop ends (top first),
and the number of operator tokens the loop passed over with `continue`
because fewer than two entries were on the stack. -/
def parseExpressionStack :
    List Token → List (List Char) → Nat → Nat → List (List Char) × Nat
  | [], stack, _, skipped => (stack, skipped)
  | token :: tokens, stack, counter, skipped =>
    match token.Typ with
    | TokenNumber => parseExpressionStack tokens (token.Value :: stack) counter skipped
    | TokenOperator =>
      match stack with
      | _ :: _ :: stack' =>
        parseExpressionStack tokens (taskID (counter + 1) :: stack') (counter + 1) skipped
      | _ => parseExpressionStack tokens stack counter (skipped + 1)
    | _ => parseExpressionStack tokens stack counter skipped

/-- The conditions of acceptance as the specification words them for
`ValidateExpression`: the input is not empty; every byte is a decimal digit,
`.`, `+`, `-`, `*`, `/`, `(`, `)` or white space; no prefix has more `)` than
`(` and the whole has as many of both; the last byte is not an operator; no
`*` or `/` comes right after one of `+ - * /`. -/
def ValidateExpressionSpec (e : List Char) : Bool :=
  !e.isEmpty &&
  e.all (fun ch => isDigit ch || ch == '.' || ch == '+' || ch == '-' || ch == '*' ||
    ch == '/' || ch == '(' || ch == ')' || isSpace ch) &&
  (List.range (e.length + 1)).all
    (fun n => decide ((e.take n).count ')' ≤ (e.take n).count '(')) &&
  e.count '(' == e.count ')' &&
  e.getLast?.all (fun ch => !isOperatorChar ch) &&
  (List.range e.length).all (fun i =>
    !((e[i + 1]? == some '*' || e[i + 1]? == some '/') && e[i]?.any isOperatorChar))

/-- A leaf task, in the words of the specification: a task both of whose
arguments are decimal literals.  (The test of the code is `bothNumbers`.) -/
def isLeaf (t : Task R) : Bool :=
  Expr.isLiteral t.Arg1 && Expr.isLiteral t.Arg2

/-- The test of `parseExpression` for a task without dependency:
`utils.IsNumber` accepts both of its arguments. -/
def bothNumbers (t : Task R) : Bool :=
  IsNumber t.Arg1 && IsNumber t.Arg2

/-- The text `99…9+1` whose first operand has 310 digits: a decimal literal
beyond the range of `float64`, on which `strconv.ParseFloat` returns a range
error. -/
def hugePlusOne : List Char :=
  List.replicate 310 '9' ++ "+1".toList

/-- The number of tasks of a list that have `id` as `Arg1` or as `Arg2`. -/
def argUses (id : List Char) (tasks : List (Task R)) : Nat :=
  (tasks.filter (fun t => decide (t.Arg1 = id ∨ t.Arg2 = id))).length

/-- No `TokenNumber` token of the stream carries a task id `task-N` (the
lexemes of `tokenize` are made of digits and dots). -/
def numbersAreNotIDs (tokens : List Token) : Prop :=
  ∀ token ∈ tokens, token.Typ = TokenNumber → ∀ k, token.Value ≠ taskID k

/-- The state of the loop of `parseExpression` that began with the counter
`c0`: an entry of the argument stack is a lexeme or the id of a task created
by the loop; the id of a created task is on the stack or an argument of a
created task at most once in all; the arguments of a created task that are
task ids are ids of tasks created before it. -/
structure LoopInv (c0 : Nat) (stack : List (List Char)) (tasks : List (Task R)) (c : Nat) :
    Prop where
  stackIDs : ∀ s ∈ stack, (∀ k, s ≠ taskID k) ∨ ∃ k, c0 < k ∧ k ≤ c ∧ s = taskID k
  once : ∀ k, stack.count (taskID k) + argUses (taskID k) tasks ≤ 1
  earlier : ∀ t ∈ tasks, ∃ m, t.ID = taskID m ∧ c0 < m ∧ m ≤ c ∧
    ∀ k, (t.Arg1 = taskID k ∨ t.Arg2 = taskID k) → c0 < k ∧ k < m

/-! ## Completion closure -/

/-- The task `a` is in the map and its status is `done`. -/
def doneIn (tasks : List (Task R)) (a : List Char) : Bool :=
  decide ((getTask tasks a).map (·.Status) = some StatusDone)

/-- The arguments of a task that are not literals (`IsNumber` rejects them)
and do not name a task that is `done`. -/
def unfinished (tasks : List (Task R)) (t : Task R) : List (List Char) :=
  [t.Arg1, t.Arg2].filter (fun a => !IsNumber a && !doneIn tasks a)

/-- An invariant of the reachable states: every task has one of the four
statuses, its `Dependencies` are its unfinished arguments, and it is
`pending` exactly when it has a dependency. -/
structure Closure (tasks : List (Task R)) : Prop where
  status : ∀ id t, getTask tasks id = some t →
    t.Status = StatusPending ∨ t.Status = StatusReady ∨ t.Status = StatusProgress ∨
      t.Status = StatusDone
  deps : ∀ id t, getTask tasks id = some t → t.Dependencies = unfinished tasks t
  pending : ∀ id t, getTask tasks id = some t →
    (t.Status = StatusPending ↔ t.Dependencies ≠ [])

/-! ## Resolving the arguments of a dispatched task -/

/-- What the closure `resolveArg` of `ResolveTaskDependencies` (and of
`resolveTask` in the server) returns for an argument: the float parsed from
a literal, the result of the task it names, or the sentinel `math.NaN()` of
its last branch. -/
inductive Resolved (R : Type) where
  | literal (lexeme : List Char)
  | result (r : R)
  | nan
  deriving DecidableEq, Repr

/-- The closure `resolveArg`: a literal resolves to its value, the id of a
task with a result to that result, anything else to NaN. -/
def resolveArg (o : Orchestrator R) (arg : List Char) : Resolved R :=
  if IsNumber arg then .literal arg
  else
    match getTask o.Tasks arg with
    | some t =>
      match t.Result with
      | some r => .result r
      | none => .nan
    | none => .nan

/-- An invariant of the reachable states: a task that is `done` has its
`Result` set. -/
def DoneHasResult (tasks : List (Task R)) : Prop :=
  ∀ id t, getTask tasks id = some t → t.Status = StatusDone → t.Result ≠ none

/-! ## The parentheses of a token stream -/

/-- The number of `TokenLeftParen` tokens of a stream. -/
def countLeft (tokens : List Token) : Nat :=
  tokens.countP (fun t => decide (t.Typ = TokenLeftParen))

/-- The number of `TokenRightParen` tokens of a stream. -/
def countRight (tokens : List Token) : Nat :=
  tokens.countP (fun t => decide (t.Typ = TokenRightParen))

/-- The parentheses of a token stream are balanced, in the words of the
specification: no prefix contains more RightParen than LeftParen tokens, and
the totals are equal. -/
def balanced (tokens : List Token) : Bool :=
  (List.range (tokens.length + 1)).all
    (fun n => decide (countRight (tokens.take n) ≤ countLeft (tokens.take n))) &&
  countLeft tokens == countRight tokens

/-- The token is a Number or an Operator, not a parenthesis. -/
def Token.isOperand (t : Token) : Bool :=
  decide (t.Typ = TokenNumber) || decide (t.Typ = TokenOperator)

/-- The token is a Number. -/
def Token.isNumber (t : Token) : Bool :=
  decide (t.Typ = TokenNumber)

/-! ## The state of the lexer -/

/-- The variable `prevToken` of `tokenize` when `tokens` have been appended:
the last of them, or the zero `Token` when there is none. -/
def prevTokenOf (tokens : List Token) : Token :=
  tokens.getLast?.getD Token.zero

/-- The text `v` is a maximal run of digits and dots of `e` with at most one
dot: it is not empty, it stands in `e` between `pre` and `post`, the byte
before it and the byte after it (if any) are neither digits nor dots. -/
def isMaximalRun (e v : List Char) : Prop :=
  v ≠ [] ∧ (∀ c ∈ v, (isDigit c || c == '.') = true) ∧ v.count '.' ≤ 1 ∧
    ∃ pre post, e = pre ++ v ++ post ∧
      (∀ x, pre.getLast? = some x → (isDigit x || x == '.') = false) ∧
      (∀ y, post.head? = some y → (isDigit y || y == '.') = false)

/-- A text of digits and dots with at most one dot: what `tokenize` makes the
lexeme of a Number token of. -/
def isLexeme (s : List Char) : Bool :=
  s.all (fun c => isDigit c || c == '.') && decide (s.count '.' ≤ 1)

/-- What `parseExpression` makes an argument of a task: the lexeme of a Number
token, or the id of a task. -/
def isArgument (s : List Char) : Prop :=
  isLexeme s = true ∨ ∃ k, s = taskID k

/-- The state after submitting `2+2*2` to a fresh orchestrator, the send and
the claim of `task-1` (the product), and its completion with the result 4:
`task-2` (the sum), whose second argument is `task-1`, is `ready`. -/
def readySum : Orchestrator Int :=
  claimedProduct.run [.processTaskResult "task-1".toList 4 []]

/-- The state after submitting `(1+2)*(3+4)` to a fresh orchestrator, the
send of `task-2` by its goroutine and the claim of `task-2`, while the
goroutine of `task-1` has not sent yet. -/
def secondClaimedFirst : Orchestrator Int :=
  secondSentFirst.run [.getNextTask]

/-- An invariant of the reachable states: a task id is an argument of at
most one task, and an argument that is a task id is an id issued so far. -/
structure ArgsOnce (o : Orchestrator R) : Prop where
  once : ∀ (k : Nat) (i j : List Char) (ti tj : Task R), getTask o.Tasks i = some ti →
    getTask o.Tasks j = some tj → (ti.Arg1 = taskID k ∨ ti.Arg2 = taskID k) →
    (tj.Arg1 = taskID k ∨ tj.Arg2 = taskID k) → i = j
  issued : ∀ (i : List Char) (ti : Task R) (k : Nat), getTask o.Tasks i = some ti →
    (ti.Arg1 = taskID k ∨ ti.Arg2 = taskID k) → k ≤ o.TaskCounter

/-! # Theorems -/

/-! ## The code at concrete inputs -/

theorem literalValue_two : literalValue ['2'] = some 2 := by
  simp [literalValue, digitsValue, isDigit]

theorem literalValue_three : literalValue ['3'] = some 3 := by
  simp [literalValue, digitsValue, isDigit]

theorem literalValue_four : literalValue ['4'] = some 4 := by
  simp [literalValue, digitsValue, isDigit]

/-- C2, the code at the failing input.  The text of the well-formed
expression `(2 / (-3)) * 4`, of value `-8/3`, is tokenized with a unary
minus, and `toRPN` puts that minus behind the `*`: the postfix stream is
`2 3 4 * - /`, on which the stack interpreter computes `2 / -(3 * 4)`,
that is `-1/6`. -/
theorem C2_toRPN_unary_minus_before_product :
    exprDivNegMul.wellFormed = true ∧
    exprDivNegMul.value = some (-8 / 3) ∧
    (tokenize exprDivNegMul.render).bind toRPN =
      .ok [Token.number ['2'], Token.number ['3'], Token.number ['4'], Token.binary .mul,
        Token.unary '-', Token.binary .div] ∧
    evalRPN [Token.number ['2'], Token.number ['3'], Token.number ['4'], Token.binary .mul,
        Token.unary '-', Token.binary .div] = some (-1 / 6) := by
  refine ⟨by decide, ?_, by decide, ?_⟩
  · simp [exprDivNegMul, Expr.value, literalValue_two, literalValue_three, literalValue_four,
      BinOp.apply]
    norm_num
  · simp [evalRPN, evalRPNLoop, literalValue_two, literalValue_three, literalValue_four,
      BinOp.apply, binOpOf, Token.number, Token.binary, Token.unary, BinOp.char]
    norm_num

/-- C3, the code at the failing input.  Submitting the text of `(-3) + 4`
(value 1) to a fresh orchestrator installs the single task `task-1` with
`Arg1 = "3"`, `Operation = "+"`, `Arg2 = "4"`, whose value is 7: the DAG
builder skips the unary minus and creates no `0 - 3` task. -/
theorem C3_parseExpression_drops_unary_minus :
    exprNegAdd.wellFormed = true ∧
    exprNegAdd.render = "-3+4".toList ∧
    exprNegAdd.value = some 1 ∧
    ((fresh : Orchestrator Int).AddExpression "-3+4".toList).2 = .ok (exprID 1) ∧
    ((fresh : Orchestrator Int).AddExpression "-3+4".toList).1.Tasks =
      [{ ID := "task-1".toList, ExpressionID := "expr-1".toList, Arg1 := ['3'], Arg2 := ['4'],
         Operation := ['+'], OperationTime := 0, Dependencies := [], Status := StatusReady,
         Result := none }] ∧
    lastTaskValue ((fresh : Orchestrator Int).AddExpression "-3+4".toList).1.Tasks = some 7 := by
  refine ⟨by decide, by decide, ?_, by decide, by decide, ?_⟩
  · simp [exprNegAdd, Expr.value, literalValue_three, literalValue_four, BinOp.apply]
    norm_num
  · have h : ((fresh : Orchestrator Int).AddExpression "-3+4".toList).1.Tasks =
        [{ ID := "task-1".toList, ExpressionID := "expr-1".toList, Arg1 := ['3'], Arg2 := ['4'],
           Operation := ['+'], OperationTime := 0, Dependencies := [], Status := StatusReady,
           Result := none }] := by decide
    rw [h]
    simp [lastTaskValue, evalTasks, taskValue, argValue, binOpOf, literalValue_three,
      literalValue_four, BinOp.apply]
    norm_num

/-- C4, the code at the failing input.  After submitting the single number
`5` to a fresh orchestrator the expression `expr-1` has an empty task list
(so every one of its tasks is done) and the status `pending`; no task can be
claimed and no result is accepted, so nothing will ever set it to `done`. -/
theorem C4_single_number_stays_pending :
    ((fresh : Orchestrator Int).AddExpression ['5']).2 = .ok (exprID 1) ∧
    getExpression ((fresh : Orchestrator Int).AddExpression ['5']).1.Expressions (exprID 1) =
      some { ID := exprID 1, Status := StatusPending, Result := none, Tasks := [] } ∧
    StatusPending ≠ StatusDone ∧
    ((fresh : Orchestrator Int).AddExpression ['5']).1.GetNextTask =
      (((fresh : Orchestrator Int).AddExpression ['5']).1, .error .ErrNoTasksAvailable) ∧
    ∀ (taskID : List Char) (result : Int) (order : List (List Char)),
      ((fresh : Orchestrator Int).AddExpression ['5']).1.ProcessTaskResult taskID result order =
        (((fresh : Orchestrator Int).AddExpression ['5']).1, some .invalidTask) := by
  refine ⟨by decide, by decide, by decide, by decide, ?_⟩
  intro taskID result order
  have h : ((fresh : Orchestrator Int).AddExpression ['5']).1.Tasks = [] := by decide
  simp [Orchestrator.ProcessTaskResult, getTask, h]

/-- C5, the code at the failing input.  Submit `(1+2)(3+4)` to a fresh
orchestrator (accepted, two independent tasks), claim `task-1` and `task-2`,
complete `task-2` with 7 and then `task-1` with 3: the expression is `done`
with `Result = 3`, the result of the task completed last, while its root,
the last task `task-2` of its list, has `Result = 7`. -/
theorem C5_result_is_that_of_the_task_completed_last :
    ValidateExpression "(1+2)(3+4)".toList = none ∧
    Orchestrator.claimedDuring (fresh : Orchestrator Int) opsTwoRoots = [taskID 1, taskID 2] ∧
    getExpression ((fresh : Orchestrator Int).run opsTwoRoots).Expressions (exprID 1) =
      some { ID := exprID 1, Status := StatusDone, Result := some 3,
             Tasks := [taskID 1, taskID 2] } ∧
    (getTask ((fresh : Orchestrator Int).run opsTwoRoots).Tasks (taskID 2)).map (·.Result) =
      some (some 7) := by
  refine ⟨by decide, by decide, by decide, by decide⟩

/-! ## The lexer and the validator -/

theorem scanNumber_error {s : List Char} {i d : Nat} {acc : List Char} {e : Err}
    (h : scanNumber s i d acc = .error e) : ∃ pos, e = .multipleDots pos := by
  induction s generalizing i d acc with
  | nil => simp [scanNumber] at h
  | cons ch rest ih =>
    rw [scanNumber] at h
    split_ifs at h with h1 h2 h3
    · exact ⟨i, by injection h with h; exact h.symm⟩
    · exact ih h
    · exact ih h

theorem scanNumber_suffix {s : List Char} {i d : Nat} {acc num rest : List Char} {j : Nat}
    (h : scanNumber s i d acc = .ok (num, rest, j)) : rest <:+ s := by
  induction s generalizing i d acc with
  | nil =>
    simp [scanNumber] at h
    simp [h.2.1]
  | cons ch tl ih =>
    rw [scanNumber] at h
    split_ifs at h with h1 h2 h3
    · exact (ih h).trans (List.suffix_cons _ _)
    · exact (ih h).trans (List.suffix_cons _ _)
    · simp at h
      rw [← h.2.1]

theorem scanNumber_shorter {ch : Char} {tl : List Char} {i d : Nat} {acc num rest : List Char}
    {j : Nat} (hc : (isDigit ch || ch == '.') = true)
    (h : scanNumber (ch :: tl) i d acc = .ok (num, rest, j)) : rest <:+ tl := by
  rw [scanNumber] at h
  simp only [hc, if_true] at h
  split_ifs at h with h2 h3
  · exact scanNumber_suffix h
  · exact scanNumber_suffix h

theorem tokenizeLoop_lexOutcome (fuel : Nat) (s : List Char) (i : Nat) (tokens : List Token)
    (prev : Token) (hlen : s.length ≤ fuel) (hvalid : ∀ c ∈ s, validChar c = true) :
    lexOutcome (tokenizeLoop fuel s i tokens prev) := by
  induction fuel generalizing s i tokens prev with
  | zero =>
    cases s with
    | nil => exact Or.inl ⟨tokens, by simp [tokenizeLoop]⟩
    | cons ch rest => simp at hlen
  | succ n ih =>
    cases s with
    | nil => exact Or.inl ⟨tokens, by simp [tokenizeLoop]⟩
    | cons ch rest =>
      have hrest : ∀ c ∈ rest, validChar c = true := fun c hc => hvalid c (List.mem_cons_of_mem _ hc)
      have hl : rest.length ≤ n := by simpa using hlen
      have hch : validChar ch = true := hvalid ch (List.mem_cons_self _ _)
      rw [tokenizeLoop]
      split_ifs with h1 h2 h3 h4 h5 h6 h7
      · exact ih _ _ _ _ hl hrest
      · exact ih _ _ _ _ hl hrest
      · exact ih _ _ _ _ hl hrest
      · exact Or.inr (Or.inr (Or.inl ⟨ch, rfl⟩))
      · exact Or.inr (Or.inr (Or.inr ⟨_, _, _, rfl⟩))
      · exact ih _ _ _ _ hl hrest
      · split
        · next e he =>
          obtain ⟨pos, rfl⟩ := scanNumber_error he
          exact Or.inr (Or.inl ⟨pos, rfl⟩)
        · next num rest' j hs =>
          have hsuf := scanNumber_shorter h7 hs
          exact ih _ _ _ _ (le_trans hsuf.length_le hl) (fun c hc => hrest c (hsuf.subset hc))
      · exfalso
        simp only [validChar, Bool.or_eq_true] at hch
        simp_all

theorem validateLoop_validChar {s : List Char} {i : Nat} {prev : Option Char} {pc n : Int}
    (h : validateLoop s i prev pc = .ok n) : ∀ c ∈ s, validChar c = true := by
  induction s generalizing i prev pc with
  | nil => simp
  | cons ch rest ih =>
    rw [validateLoop] at h
    split_ifs at h with h1 h2 h3 h4
    have hch : validChar ch = true := by
      simp only [validChar, isOperatorChar, Bool.or_eq_true, beq_iff_eq]
      by_contra hne
      apply h2
      simp only [not_or] at hne
      simp_all
    intro c hc
    rcases List.mem_cons.1 hc with rfl | hc
    · exact hch
    · exact ih h c hc

/-- C6 (counterexamples).  `ValidateExpression` accepts `1.2.3`, `(- 3)` and
`1 + * 2`, and `tokenize` rejects each of them: a number with two dots, a
unary operator followed by a space, two adjacent binary operators. -/
theorem C6_validator_accepts_what_the_lexer_rejects :
    (ValidateExpression "1.2.3".toList = none ∧
      tokenize "1.2.3".toList = .error (.multipleDots 3)) ∧
    (ValidateExpression "(- 3)".toList = none ∧
      tokenize "(- 3)".toList = .error (.unaryBeforeSpace '-')) ∧
    (ValidateExpression "1 + * 2".toList = none ∧
      tokenize "1 + * 2".toList = .error (.operatorsNextToEachOther ['+'] '*' 4)) := by
  decide

/-- C6 (amended).  If `ValidateExpression(e)` returns nil then `tokenize(e)`
does not fail on an unknown character: it returns a token sequence, or it
fails with one of its three other errors (a number with several dots, a
unary operator followed by a space, two adjacent binary operators). -/
theorem C6_validated_input_has_no_unknown_character (e : List Char)
    (h : ValidateExpression e = none) :
    (∃ tokens, tokenize e = .ok tokens) ∨ (∃ pos, tokenize e = .error (.multipleDots pos)) ∨
      (∃ ch, tokenize e = .error (.unaryBeforeSpace ch)) ∨
      (∃ prev ch pos, tokenize e = .error (.operatorsNextToEachOther prev ch pos)) := by
  unfold ValidateExpression at h
  split_ifs at h with h0
  split at h
  · simp at h
  · next pc hv =>
    exact tokenizeLoop_lexOutcome _ _ _ _ _ (le_refl _) (validateLoop_validChar hv)

/-- C6 (amended), at the input `1 + * 2`: the validator accepts it and the
lexer answers with one of the listed results. -/
theorem C6_validated_input_witness :
    ValidateExpression "1 + * 2".toList = none ∧
    ((∃ tokens, tokenize "1 + * 2".toList = .ok tokens) ∨
      (∃ pos, tokenize "1 + * 2".toList = .error (.multipleDots pos)) ∨
      (∃ ch, tokenize "1 + * 2".toList = .error (.unaryBeforeSpace ch)) ∨
      (∃ prev ch pos,
        tokenize "1 + * 2".toList = .error (.operatorsNextToEachOther prev ch pos))) :=
  ⟨by decide, C6_validated_input_has_no_unknown_character _ (by decide)⟩

/-! ## Maps as lists -/

theorem Contains_iff (l : List (List Char)) (x : List Char) : Contains l x = true ↔ x ∈ l := by
  induction l with
  | nil => simp [Contains]
  | cons a l ih =>
    rw [Contains]
    split_ifs with h
    · simp [h]
    · simp [ih, Ne.symm h]

theorem Remove_eq_filter (l : List (List Char)) (x : List Char) :
    Remove l x = l.filter (fun s => decide (s ≠ x)) := by
  induction l with
  | nil => simp [Remove]
  | cons a l ih =>
    rw [Remove]
    split_ifs with h
    · simp [h, ih]
    · simp [h, ih]

theorem getTask_cons (a : Task R) (ts : List (Task R)) (id : List Char) :
    getTask (a :: ts) id = if a.ID = id then some a else getTask ts id := by
  simp only [getTask, List.find?_cons]
  by_cases h : a.ID = id <;> simp [h]

theorem getTask_some_ID {ts : List (Task R)} {id : List Char} {t : Task R}
    (h : getTask ts id = some t) : t.ID = id := by
  have := List.find?_some h
  simpa using this

theorem getTask_mem {ts : List (Task R)} {id : List Char} {t : Task R}
    (h : getTask ts id = some t) : t ∈ ts :=
  List.mem_of_find?_eq_some h

theorem getTask_eq_none_iff (ts : List (Task R)) (id : List Char) :
    getTask ts id = none ↔ id ∉ ts.map (·.ID) := by
  induction ts with
  | nil => simp [getTask]
  | cons a ts ih =>
    rw [getTask_cons]
    split_ifs with h
    · simp [h]
    · simp [ih, Ne.symm h]

theorem getTask_isSome_iff (ts : List (Task R)) (id : List Char) :
    (getTask ts id).isSome = true ↔ id ∈ ts.map (·.ID) := by
  rw [← not_iff_not, ← getTask_eq_none_iff]
  cases getTask ts id <;> simp

theorem updateTask_cons (a : Task R) (ts : List (Task R)) (id : List Char) (f : Task R → Task R) :
    updateTask (a :: ts) id f = (if a.ID = id then f a else a) :: updateTask ts id f := rfl

theorem getTask_updateTask (ts : List (Task R)) (id id' : List Char) (f : Task R → Task R)
    (hf : ∀ t, t.ID = id → (f t).ID = id) :
    getTask (updateTask ts id f) id' =
      if id' = id then (getTask ts id').map f else getTask ts id' := by
  induction ts with
  | nil => simp [getTask, updateTask]
  | cons a ts ih =>
    rw [updateTask_cons, getTask_cons, getTask_cons, ih]
    by_cases ha : a.ID = id
    · have hfa := hf a ha
      by_cases hid : id' = id
      · subst hid
        simp [ha, hfa]
      · have h1 : ¬ a.ID = id' := fun h => hid (h ▸ ha)
        have h2 : ¬ (f a).ID = id' := fun h => hid (h ▸ hfa)
        have h3 : ¬ id = id' := fun h => hid h.symm
        simp [ha, hid, h2, h3]
    · by_cases hid : id' = id
      · subst hid
        simp [ha]
      · by_cases h2 : a.ID = id' <;> simp [ha, hid, h2]

theorem map_ID_updateTask (ts : List (Task R)) (id : List Char) (f : Task R → Task R)
    (hf : ∀ t, t.ID = id → (f t).ID = id) : (updateTask ts id f).map (·.ID) = ts.map (·.ID) := by
  induction ts with
  | nil => rfl
  | cons a ts ih =>
    rw [updateTask_cons, List.map_cons, List.map_cons, ih]
    by_cases ha : a.ID = id
    · simp [ha, hf a ha]
    · simp [ha]

theorem getTask_append (ts us : List (Task R)) (id : List Char) :
    getTask (ts ++ us) id = (getTask ts id).orElse (fun _ => getTask us id) := by
  induction ts with
  | nil => simp [getTask]
  | cons a ts ih =>
    rw [List.cons_append, getTask_cons, getTask_cons, ih]
    split_ifs <;> simp

theorem getTask_setTask (ts : List (Task R)) (t : Task R) (id : List Char) :
    getTask (setTask ts t) id = if id = t.ID then some t else getTask ts id := by
  unfold setTask
  split_ifs with h1 h2 h2
  · have hsome : (getTask ts t.ID).isSome = true := by
      rw [getTask_isSome_iff]
      simp only [List.any_eq_true, decide_eq_true_eq] at h1
      obtain ⟨x, hx, hxt⟩ := h1
      exact List.mem_map.2 ⟨x, hx, hxt⟩
    have := getTask_updateTask ts t.ID id (fun _ => t) (fun _ _ => rfl)
    rw [updateTask] at this
    rw [this, if_pos h2, h2]
    cases hg : getTask ts t.ID with
    | none => simp [hg] at hsome
    | some u => simp
  · have := getTask_updateTask ts t.ID id (fun _ => t) (fun _ _ => rfl)
    rw [updateTask] at this
    rw [this, if_neg h2]
  · have hnone : getTask ts t.ID = none := by
      rw [getTask_eq_none_iff]
      simp only [List.any_eq_true, decide_eq_true_eq, not_exists, not_and] at h1
      intro hm
      obtain ⟨x, hx, hxt⟩ := List.mem_map.1 hm
      exact h1 x hx hxt
    rw [getTask_append, h2, hnone]
    simp [getTask_cons]
  · rw [getTask_append]
    have : ¬ t.ID = id := fun h => h2 h.symm
    cases getTask ts id <;> simp [getTask_cons, this, getTask]

theorem notified_ID (x : List Char) (t : Task R) : (notified x t).ID = t.ID := by
  unfold notified; split_ifs <;> rfl

theorem Remove_of_not_mem (l : List (List Char)) (x : List Char) (h : x ∉ l) :
    Remove l x = l := by
  rw [Remove_eq_filter, List.filter_eq_self]
  intro a ha
  have : a ≠ x := fun e => h (e ▸ ha)
  simpa using this

theorem not_mem_Remove (l : List (List Char)) (x : List Char) : x ∉ Remove l x := by
  rw [Remove_eq_filter]
  simp

theorem notified_of_not_mem (x : List Char) (t : Task R) (h : x ∉ t.Dependencies) :
    notified x t = t := by
  unfold notified
  rw [if_neg]
  rwa [Contains_iff]

theorem notified_Dependencies (x : List Char) (t : Task R) :
    (notified x t).Dependencies = Remove t.Dependencies x := by
  unfold notified
  split_ifs with h1 h2
  · rfl
  · rfl
  · rw [Contains_iff] at h1
    rw [Remove_of_not_mem _ _ h1]

theorem notified_idem (x : List Char) (t : Task R) : notified x (notified x t) = notified x t := by
  apply notified_of_not_mem
  rw [notified_Dependencies]
  exact not_mem_Remove _ _

/-! ## The loop of `ProcessTaskResult` -/

namespace Orchestrator

theorem becomesReady_notified (x : List Char) (t : Task R) :
    becomesReady x (notified x t) = false := by
  unfold becomesReady
  have : Contains (notified x t).Dependencies x = false := by
    rw [← Bool.not_eq_true, Contains_iff, notified_Dependencies]
    exact not_mem_Remove _ _
  simp [this]

theorem notified_eq_of_becomesReady (x : List Char) (t : Task R) (h : becomesReady x t = true) :
    notified x t = { t with Dependencies := Remove t.Dependencies x, Status := StatusReady } := by
  simp only [becomesReady, Bool.and_eq_true, decide_eq_true_eq] at h
  unfold notified
  rw [if_pos h.1.1, if_pos ⟨h.1.2, h.2⟩]

theorem notified_eq_of_not_becomesReady (x : List Char) (t : Task R)
    (h : becomesReady x t = false) :
    notified x t = { t with Dependencies := Remove t.Dependencies x } := by
  unfold notified
  split_ifs with h1 h2
  · exfalso
    simp [becomesReady, h1, h2.1, h2.2] at h
  · rfl
  · rw [Contains_iff] at h1
    rw [Remove_of_not_mem _ _ h1]

theorem notifyTask_getTask (x : List Char) (o : Orchestrator R) (k id : List Char) :
    getTask (notifyTask x o k).Tasks id =
      (getTask o.Tasks id).map (fun t => if id = k then notified x t else t) := by
  unfold notifyTask
  cases hk : getTask o.Tasks k with
  | none =>
    by_cases hid : id = k
    · subst hid; simp [hk]
    · simp [hid]
  | some t =>
    simp only
    by_cases hc : Contains t.Dependencies x = true
    · by_cases hr : (Remove t.Dependencies x).length = 0 ∧ t.Status = StatusPending
      · rw [if_pos hc, if_pos hr]
        simp only
        rw [getTask_updateTask]
        · by_cases hid : id = k
          · subst hid
            simp only [if_true, hk, Option.map_some']
            rw [notified_eq_of_becomesReady]
            simp [becomesReady, hc, hr.1, hr.2]
          · simp [hid]
        · intro u h; exact h
      · rw [if_pos hc, if_neg hr]
        simp only
        rw [getTask_updateTask]
        · by_cases hid : id = k
          · subst hid
            simp only [if_true, hk, Option.map_some']
            rw [notified_eq_of_not_becomesReady]
            simp only [becomesReady, Bool.and_eq_false_iff, decide_eq_false_iff_not]
            by_cases h1 : (Remove t.Dependencies x).length = 0
            · exact Or.inr (fun h2 => hr ⟨h1, h2⟩)
            · exact Or.inl (Or.inr h1)
          · simp [hid]
        · intro u h; exact h
    · rw [if_neg hc]
      by_cases hid : id = k
      · subst hid
        have : x ∉ t.Dependencies := by rwa [Contains_iff] at hc
        simp [hk, notified_of_not_mem _ _ this]
      · simp [hid]

theorem notifyTask_ReadyTasks (x : List Char) (o : Orchestrator R) (k : List Char) :
    (notifyTask x o k).ReadyTasks =
      o.ReadyTasks ++
        (match getTask o.Tasks k with
          | some t => if becomesReady x t then [k] else []
          | none => []) := by
  unfold notifyTask
  cases hk : getTask o.Tasks k with
  | none => simp
  | some t =>
    simp only
    by_cases hb : becomesReady x t = true
    · have hb' := hb
      simp only [becomesReady, Bool.and_eq_true, decide_eq_true_eq] at hb'
      rw [if_pos hb'.1.1, if_pos ⟨hb'.1.2, hb'.2⟩, if_pos hb]
    · rw [if_neg hb]
      by_cases hc : Contains t.Dependencies x = true
      · rw [if_pos hc, if_neg]
        · simp
        · intro hr
          exact hb (by simp [becomesReady, hc, hr.1, hr.2])
      · rw [if_neg hc]
        simp

theorem notifyTask_frame (x : List Char) (o : Orchestrator R) (k : List Char) :
    (notifyTask x o k).Expressions = o.Expressions ∧
    (notifyTask x o k).ProcessingTasks = o.ProcessingTasks ∧
    (notifyTask x o k).OperationTimes = o.OperationTimes ∧
    (notifyTask x o k).ComputingPower = o.ComputingPower ∧
    (notifyTask x o k).ExpressionCounter = o.ExpressionCounter ∧
    (notifyTask x o k).TaskCounter = o.TaskCounter ∧
    (notifyTask x o k).Tasks.map (·.ID) = o.Tasks.map (·.ID) := by
  unfold notifyTask
  cases hk : getTask o.Tasks k with
  | none => simp
  | some t =>
    simp only
    split_ifs with hc hr
    · exact ⟨rfl, rfl, rfl, rfl, rfl, rfl, map_ID_updateTask _ _ _ (fun _ h => h)⟩
    · exact ⟨rfl, rfl, rfl, rfl, rfl, rfl, map_ID_updateTask _ _ _ (fun _ h => h)⟩
    · simp

theorem foldl_notifyTask_frame (x : List Char) (ks : List (List Char)) (o : Orchestrator R) :
    (ks.foldl (notifyTask x) o).Expressions = o.Expressions ∧
    (ks.foldl (notifyTask x) o).ProcessingTasks = o.ProcessingTasks ∧
    (ks.foldl (notifyTask x) o).OperationTimes = o.OperationTimes ∧
    (ks.foldl (notifyTask x) o).ComputingPower = o.ComputingPower ∧
    (ks.foldl (notifyTask x) o).ExpressionCounter = o.ExpressionCounter ∧
    (ks.foldl (notifyTask x) o).TaskCounter = o.TaskCounter ∧
    (ks.foldl (notifyTask x) o).Tasks.map (·.ID) = o.Tasks.map (·.ID) := by
  induction ks generalizing o with
  | nil => simp
  | cons k ks ih =>
    rw [List.foldl_cons]
    obtain ⟨h1, h2, h3, h4, h5, h6, h7⟩ := ih (notifyTask x o k)
    obtain ⟨g1, g2, g3, g4, g5, g6, g7⟩ := notifyTask_frame x o k
    exact ⟨h1.trans g1, h2.trans g2, h3.trans g3, h4.trans g4, h5.trans g5, h6.trans g6,
      h7.trans g7⟩

theorem foldl_notifyTask_getTask (x : List Char) (ks : List (List Char)) (o : Orchestrator R)
    (id : List Char) :
    getTask (ks.foldl (notifyTask x) o).Tasks id =
      (getTask o.Tasks id).map (fun t => if id ∈ ks then notified x t else t) := by
  induction ks generalizing o with
  | nil => simp
  | cons k ks ih =>
    rw [List.foldl_cons, ih, notifyTask_getTask]
    cases getTask o.Tasks id with
    | none => rfl
    | some t =>
      simp only [Option.map_some', List.mem_cons]
      by_cases h1 : id = k
      · by_cases h2 : id ∈ ks
        · simp [h1, h2, notified_idem]
        · rw [if_pos h1, if_neg h2, if_pos (Or.inl h1)]
      · simp [h1]

theorem foldl_notifyTask_ReadyTasks (x : List Char) (ks : List (List Char))
    (o : Orchestrator R) :
    ∃ new, (ks.foldl (notifyTask x) o).ReadyTasks = o.ReadyTasks ++ new ∧ new.Nodup ∧
      ∀ id, id ∈ new ↔ id ∈ ks ∧ ∃ t, getTask o.Tasks id = some t ∧ becomesReady x t = true := by
  induction ks generalizing o with
  | nil => exact ⟨[], by simp⟩
  | cons k ks ih =>
    obtain ⟨new, h1, h2, h3⟩ := ih (notifyTask x o k)
    have hview : ∀ id, id ∈ new ↔
        id ∈ ks ∧ id ≠ k ∧ ∃ t, getTask o.Tasks id = some t ∧ becomesReady x t = true := by
      intro id
      rw [h3, notifyTask_getTask]
      by_cases hid : id = k
      · subst hid
        cases getTask o.Tasks id with
        | none => simp
        | some t => simp [becomesReady_notified]
      · cases getTask o.Tasks id with
        | none => simp
        | some t => simp [hid]
    rw [List.foldl_cons, h1, notifyTask_ReadyTasks, List.append_assoc]
    refine ⟨_, rfl, ?_, ?_⟩
    · cases hk : getTask o.Tasks k with
      | none => simpa using h2
      | some t =>
        simp only
        split_ifs with hb
        · simp only [List.singleton_append, List.nodup_cons]
          exact ⟨fun hm => ((hview k).1 hm).2.1 rfl, h2⟩
        · simpa using h2
    · intro id
      rw [List.mem_append, hview, List.mem_cons]
      cases hk : getTask o.Tasks k with
      | none =>
        simp only [List.not_mem_nil, false_or]
        constructor
        · rintro ⟨a, _, c⟩; exact ⟨Or.inr a, c⟩
        · rintro ⟨a, c⟩
          have hne : id ≠ k := by
            rintro rfl
            obtain ⟨t, ht, _⟩ := c; rw [hk] at ht; cases ht
          rcases a with a | a
          · exact absurd a hne
          · exact ⟨a, hne, c⟩
      | some t =>
        simp only
        by_cases hb : becomesReady x t = true
        · simp only [hb, if_true, List.mem_singleton]
          constructor
          · rintro (rfl | ⟨a, _, c⟩)
            · exact ⟨Or.inl rfl, t, hk, hb⟩
            · exact ⟨Or.inr a, c⟩
          · rintro ⟨a | a, c⟩
            · exact Or.inl a
            · by_cases hid : id = k
              · exact Or.inl hid
              · exact Or.inr ⟨a, hid, c⟩
        · rw [if_neg hb]
          simp only [List.not_mem_nil, false_or]
          constructor
          · rintro ⟨a, _, c⟩; exact ⟨Or.inr a, c⟩
          · rintro ⟨a, c⟩
            have hne : id ≠ k := by
              rintro rfl
              obtain ⟨t', ht, hb'⟩ := c
              rw [hk] at ht; cases ht; exact absurd hb' hb
            rcases a with a | a
            · exact absurd a hne
            · exact ⟨a, hne, c⟩

theorem mem_rangeOrder (order keys : List (List Char)) (id : List Char) :
    id ∈ rangeOrder order keys ↔ id ∈ keys := by
  unfold rangeOrder
  simp only [List.mem_append, List.mem_filter, List.mem_dedup, decide_eq_true_eq]
  constructor
  · rintro (⟨_, h⟩ | ⟨h, _⟩) <;> exact h
  · intro h
    by_cases ho : id ∈ order
    · exact Or.inl ⟨ho, h⟩
    · exact Or.inr ⟨h, ho⟩

end Orchestrator

/-! ## `ProcessTaskResult` -/

namespace Orchestrator

theorem markDone_getTask (o : Orchestrator R) (x : List Char) (r : R) (id : List Char) :
    getTask (markDone o x r).Tasks id =
      if id = x then
        (getTask o.Tasks id).map (fun t => { t with Status := StatusDone, Result := some r })
      else getTask o.Tasks id := by
  unfold markDone
  simp only
  rw [getTask_updateTask]
  intro u h; exact h

theorem notifyDependents_getTask (o : Orchestrator R) (x : List Char) (order : List (List Char))
    (id : List Char) :
    getTask (notifyDependents o x order).Tasks id = (getTask o.Tasks id).map (notified x) := by
  unfold notifyDependents
  rw [foldl_notifyTask_getTask]
  cases h : getTask o.Tasks id with
  | none => rfl
  | some t =>
    have : id ∈ rangeOrder order (o.Tasks.map (·.ID)) := by
      rw [mem_rangeOrder, ← getTask_isSome_iff, h]; rfl
    simp [this]

theorem notifyDependents_ReadyTasks (o : Orchestrator R) (x : List Char)
    (order : List (List Char)) :
    ∃ new, (notifyDependents o x order).ReadyTasks = o.ReadyTasks ++ new ∧ new.Nodup ∧
      ∀ id, id ∈ new ↔ ∃ t, getTask o.Tasks id = some t ∧ becomesReady x t = true := by
  unfold notifyDependents
  obtain ⟨new, h1, h2, h3⟩ := foldl_notifyTask_ReadyTasks x (rangeOrder order (o.Tasks.map (·.ID))) o
  refine ⟨new, h1, h2, fun id => ?_⟩
  rw [h3, mem_rangeOrder]
  constructor
  · exact fun h => h.2
  · rintro ⟨t, ht, hb⟩
    refine ⟨?_, t, ht, hb⟩
    rw [← getTask_isSome_iff, ht]; rfl

theorem closeExpression_frame (o : Orchestrator R) (e : List Char) (r : R) :
    (closeExpression o e r).Tasks = o.Tasks ∧
    (closeExpression o e r).ReadyTasks = o.ReadyTasks ∧
    (closeExpression o e r).ProcessingTasks = o.ProcessingTasks ∧
    (closeExpression o e r).OperationTimes = o.OperationTimes ∧
    (closeExpression o e r).ComputingPower = o.ComputingPower ∧
    (closeExpression o e r).ExpressionCounter = o.ExpressionCounter ∧
    (closeExpression o e r).TaskCounter = o.TaskCounter := by
  unfold closeExpression
  split
  · simp
  · split_ifs <;> simp

theorem ProcessTaskResult_invalid (o : Orchestrator R) (x : List Char) (r : R)
    (order : List (List Char))
    (h : ∀ t, getTask o.Tasks x = some t → t.Status ≠ StatusProgress) :
    o.ProcessTaskResult x r order = (o, some .invalidTask) := by
  unfold ProcessTaskResult
  cases ht : getTask o.Tasks x with
  | none => rfl
  | some t => simp [h t ht]

theorem ProcessTaskResult_valid (o : Orchestrator R) (x : List Char) (r : R)
    (order : List (List Char)) (t : Task R) (ht : getTask o.Tasks x = some t)
    (hs : t.Status = StatusProgress) :
    o.ProcessTaskResult x r order =
      (closeExpression (notifyDependents (markDone o x r) x order) t.ExpressionID r, none) := by
  unfold ProcessTaskResult
  simp [ht, hs]

/-- The tasks after a successful `ProcessTaskResult`, read through their ids. -/
theorem ProcessTaskResult_getTask (o : Orchestrator R) (x : List Char) (r : R)
    (order : List (List Char)) (t : Task R) (ht : getTask o.Tasks x = some t)
    (hs : t.Status = StatusProgress) (id : List Char) :
    getTask (o.ProcessTaskResult x r order).1.Tasks id =
      (getTask o.Tasks id).map (fun u =>
        notified x (if id = x then { u with Status := StatusDone, Result := some r } else u)) := by
  rw [ProcessTaskResult_valid o x r order t ht hs]
  simp only
  rw [(closeExpression_frame _ _ _).1, notifyDependents_getTask, markDone_getTask]
  by_cases hid : id = x
  · subst hid
    rw [if_pos rfl]
    cases getTask o.Tasks id <;> simp
  · simp [hid]

/-- The ready queue after a successful `ProcessTaskResult`. -/
theorem ProcessTaskResult_ReadyTasks (o : Orchestrator R) (x : List Char) (r : R)
    (order : List (List Char)) (t : Task R) (ht : getTask o.Tasks x = some t)
    (hs : t.Status = StatusProgress) :
    ∃ new, (o.ProcessTaskResult x r order).1.ReadyTasks = o.ReadyTasks ++ new ∧ new.Nodup ∧
      ∀ id, id ∈ new ↔ ∃ u, getTask o.Tasks id = some u ∧ becomesReady x u = true := by
  rw [ProcessTaskResult_valid o x r order t ht hs]
  simp only
  rw [(closeExpression_frame _ _ _).2.1]
  obtain ⟨new, h1, h2, h3⟩ := notifyDependents_ReadyTasks (markDone o x r) x order
  refine ⟨new, h1, h2, fun id => ?_⟩
  rw [h3, markDone_getTask]
  by_cases hid : id = x
  · subst hid
    rw [if_pos rfl, ht]
    have hp : StatusDone ≠ StatusPending := by decide
    have hp2 : StatusProgress ≠ StatusPending := by decide
    simp [becomesReady, hs, hp, hp2]
  · rw [if_neg hid]

theorem ProcessTaskResult_frame (o : Orchestrator R) (x : List Char) (r : R)
    (order : List (List Char)) (t : Task R) (ht : getTask o.Tasks x = some t)
    (hs : t.Status = StatusProgress) :
    (o.ProcessTaskResult x r order).1.ProcessingTasks =
      o.ProcessingTasks.filter (fun k => decide (k ≠ x)) ∧
    (o.ProcessTaskResult x r order).1.OperationTimes = o.OperationTimes ∧
    (o.ProcessTaskResult x r order).1.ComputingPower = o.ComputingPower ∧
    (o.ProcessTaskResult x r order).1.ExpressionCounter = o.ExpressionCounter ∧
    (o.ProcessTaskResult x r order).1.TaskCounter = o.TaskCounter := by
  rw [ProcessTaskResult_valid o x r order t ht hs]
  simp only
  obtain ⟨-, -, c3, c4, c5, c6, c7⟩ := closeExpression_frame
    (notifyDependents (markDone o x r) x order) t.ExpressionID r
  obtain ⟨-, n2, n3, n4, n5, n6, -⟩ := foldl_notifyTask_frame x
    (rangeOrder order ((markDone o x r).Tasks.map (·.ID))) (markDone o x r)
  rw [c3, c4, c5, c6, c7]
  unfold notifyDependents
  rw [n2, n3, n4, n5, n6]
  exact ⟨rfl, rfl, rfl, rfl, rfl⟩

theorem notifyTask_Sending (x : List Char) (o : Orchestrator R) (k : List Char) :
    (notifyTask x o k).Sending = o.Sending := by
  unfold notifyTask
  cases hk : getTask o.Tasks k with
  | none => simp
  | some t =>
    simp only
    split_ifs <;> rfl

theorem foldl_notifyTask_Sending (x : List Char) (ks : List (List Char)) (o : Orchestrator R) :
    (ks.foldl (notifyTask x) o).Sending = o.Sending := by
  induction ks generalizing o with
  | nil => rfl
  | cons k ks ih => rw [List.foldl_cons, ih, notifyTask_Sending]

theorem closeExpression_Sending (o : Orchestrator R) (e : List Char) (r : R) :
    (closeExpression o e r).Sending = o.Sending := by
  unfold closeExpression
  split
  · simp
  · split_ifs <;> simp

/-- The step `ProcessTaskResult` starts no goroutine and ends none. -/
theorem ProcessTaskResult_Sending (o : Orchestrator R) (x : List Char) (r : R)
    (order : List (List Char)) : (o.ProcessTaskResult x r order).1.Sending = o.Sending := by
  by_cases hv : ∃ t, getTask o.Tasks x = some t ∧ t.Status = StatusProgress
  · obtain ⟨t, ht, hs⟩ := hv
    rw [ProcessTaskResult_valid o x r order t ht hs]
    simp only
    rw [closeExpression_Sending]
    unfold notifyDependents
    rw [foldl_notifyTask_Sending]
    rfl
  · rw [ProcessTaskResult_invalid o x r order (fun t ht hs => hv ⟨t, ht, hs⟩)]

end Orchestrator

/-! ## C9: the effect of `ProcessTaskResult` -/

theorem ProcessTaskResult_error_iff (o : Orchestrator R) (x : List Char) (r : R)
    (order : List (List Char)) :
    (o.ProcessTaskResult x r order).2 ≠ none ↔
      ∀ t, getTask o.Tasks x = some t → t.Status ≠ StatusProgress := by
  constructor
  · intro h t ht hs
    rw [Orchestrator.ProcessTaskResult_valid o x r order t ht hs] at h
    exact h rfl
  · intro h
    rw [Orchestrator.ProcessTaskResult_invalid o x r order h]
    simp

/-- C9.  When `ProcessTaskResult(taskID, r)` succeeds: the task becomes
`done` with result `r` and `taskID` leaves `ProcessingTasks` (which is
otherwise unchanged); every other task keeps all its fields except that
`taskID` is removed from its `Dependencies` (the other dependencies are kept)
and that its status goes from `pending` to `ready` when `taskID` was its last
dependency; exactly the tasks that became ready this way are appended to the
ready queue, once each; no task is created and no `Dependencies` list gains
an element. -/
theorem C9_ProcessTaskResult_effect (o : Orchestrator R) (taskID : List Char) (r : R)
    (order : List (List Char)) (h : (o.ProcessTaskResult taskID r order).2 = none) :
    (∃ t t', getTask o.Tasks taskID = some t ∧ t.Status = StatusProgress ∧
      getTask (o.ProcessTaskResult taskID r order).1.Tasks taskID = some t' ∧
      t'.Status = StatusDone ∧ t'.Result = some r) ∧
    taskID ∉ (o.ProcessTaskResult taskID r order).1.ProcessingTasks ∧
    (∀ k, k ≠ taskID →
      (k ∈ (o.ProcessTaskResult taskID r order).1.ProcessingTasks ↔ k ∈ o.ProcessingTasks)) ∧
    (∀ id t, id ≠ taskID → getTask o.Tasks id = some t →
      ∃ t', getTask (o.ProcessTaskResult taskID r order).1.Tasks id = some t' ∧
        t'.Dependencies = t.Dependencies.filter (fun d => decide (d ≠ taskID)) ∧
        t'.Status =
          (if taskID ∈ t.Dependencies ∧ t.Dependencies.filter (fun d => decide (d ≠ taskID)) = [] ∧
              t.Status = StatusPending then StatusReady else t.Status) ∧
        t'.Result = t.Result ∧ t'.Arg1 = t.Arg1 ∧ t'.Arg2 = t.Arg2 ∧ t'.ID = t.ID ∧
        t'.ExpressionID = t.ExpressionID ∧ t'.Operation = t.Operation ∧
        t'.OperationTime = t.OperationTime) ∧
    (∃ new, (o.ProcessTaskResult taskID r order).1.ReadyTasks = o.ReadyTasks ++ new ∧ new.Nodup ∧
      ∀ id, id ∈ new ↔
        ∃ t, getTask o.Tasks id = some t ∧ id ≠ taskID ∧ taskID ∈ t.Dependencies ∧
          t.Dependencies.filter (fun d => decide (d ≠ taskID)) = [] ∧ t.Status = StatusPending) ∧
    (∀ id, getTask o.Tasks id = none →
      getTask (o.ProcessTaskResult taskID r order).1.Tasks id = none) ∧
    (∀ id t t', getTask o.Tasks id = some t →
      getTask (o.ProcessTaskResult taskID r order).1.Tasks id = some t' →
      ∀ d ∈ t'.Dependencies, d ∈ t.Dependencies) := by
  have hvalid : ∃ t, getTask o.Tasks taskID = some t ∧ t.Status = StatusProgress := by
    by_contra hne
    have := (ProcessTaskResult_error_iff o taskID r order).2
      (fun t ht hs => hne ⟨t, ht, hs⟩)
    exact this h
  obtain ⟨t, ht, hs⟩ := hvalid
  have hget := Orchestrator.ProcessTaskResult_getTask o taskID r order t ht hs
  have hd : StatusDone ≠ StatusPending := by decide
  have hbr : ∀ u : Task R, becomesReady taskID u = true ↔
      (taskID ∈ u.Dependencies ∧ u.Dependencies.filter (fun d => decide (d ≠ taskID)) = [] ∧
        u.Status = StatusPending) := by
    intro u
    simp only [becomesReady, Bool.and_eq_true, decide_eq_true_eq, Contains_iff, Remove_eq_filter,
      List.length_eq_zero, and_assoc]
  refine ⟨?_, ?_, ?_, ?_, ?_, ?_, ?_⟩
  · refine ⟨t, notified taskID { t with Status := StatusDone, Result := some r }, ht, hs,
      ?_, ?_, ?_⟩
    · rw [hget, ht]; simp only [if_true, Option.map_some']
    · unfold notified
      split_ifs with h1 h2
      · exact absurd h2.2 hd
      · rfl
      · rfl
    · unfold notified
      split_ifs <;> rfl
  · rw [(Orchestrator.ProcessTaskResult_frame o taskID r order t ht hs).1]
    simp
  · intro k hk
    rw [(Orchestrator.ProcessTaskResult_frame o taskID r order t ht hs).1]
    simp [hk]
  · intro id u hid hu
    refine ⟨notified taskID u, by rw [hget, hu]; simp only [if_neg hid, Option.map_some'], ?_⟩
    rw [notified_Dependencies, ← Remove_eq_filter]
    refine ⟨rfl, ?_, ?_⟩
    · by_cases hb : becomesReady taskID u = true
      · rw [Orchestrator.notified_eq_of_becomesReady _ _ hb, if_pos]
        rw [Remove_eq_filter]
        exact (hbr u).1 hb
      · rw [Orchestrator.notified_eq_of_not_becomesReady _ _ (by simpa using hb), if_neg]
        rw [Remove_eq_filter]
        exact fun hc => hb ((hbr u).2 hc)
    · unfold notified
      split_ifs <;> exact ⟨rfl, rfl, rfl, rfl, rfl, rfl, rfl⟩
  · obtain ⟨new, h1, h2, h3⟩ := Orchestrator.ProcessTaskResult_ReadyTasks o taskID r order t ht hs
    refine ⟨new, h1, h2, fun id => ?_⟩
    rw [h3]
    constructor
    · rintro ⟨u, hu, hb⟩
      have hb' := (hbr u).1 hb
      refine ⟨u, hu, ?_, hb'⟩
      rintro rfl
      rw [ht] at hu
      cases hu
      rw [hs] at hb'
      exact absurd hb'.2.2 (by decide)
    · rintro ⟨u, hu, -, hb⟩
      exact ⟨u, hu, (hbr u).2 hb⟩
  · intro id hid
    rw [hget, hid]
    rfl
  · intro id u u' hu hu' d hdm
    rw [hget, hu] at hu'
    simp only [Option.map_some', Option.some.injEq] at hu'
    rw [← hu', notified_Dependencies, Remove_eq_filter] at hdm
    have := (List.mem_filter.1 hdm).1
    split_ifs at this <;> exact this

/-- C9 at a concrete call: completing the claimed product of `2+2*2` with the
result 4. -/
theorem C9_ProcessTaskResult_effect_witness :
    (claimedProduct.ProcessTaskResult (taskID 1) 4 []).2 = none ∧
    taskID 1 ∉ (claimedProduct.ProcessTaskResult (taskID 1) 4 []).1.ProcessingTasks ∧
    (∃ new, (claimedProduct.ProcessTaskResult (taskID 1) 4 []).1.ReadyTasks =
        claimedProduct.ReadyTasks ++ new ∧ new.Nodup ∧
      ∀ id, id ∈ new ↔
        ∃ t, getTask claimedProduct.Tasks id = some t ∧ id ≠ taskID 1 ∧
          taskID 1 ∈ t.Dependencies ∧
          t.Dependencies.filter (fun d => decide (d ≠ taskID 1)) = [] ∧
          t.Status = StatusPending) :=
  ⟨by decide,
    (C9_ProcessTaskResult_effect claimedProduct (taskID 1) 4 [] (by decide)).2.1,
    (C9_ProcessTaskResult_effect claimedProduct (taskID 1) 4 [] (by decide)).2.2.2.2.1⟩

/-! ## Task ids -/

theorem digitChar_toNat (k : Nat) (h : k < 10) : (Nat.digitChar k).toNat - 48 = k := by
  interval_cases k <;> rfl

theorem foldl_toDigitsCore (fuel n : Nat) (ds : List Char) (h : n < fuel) :
    (Nat.toDigitsCore 10 fuel n ds).foldl (fun a c => 10 * a + (c.toNat - 48)) 0 =
      ds.foldl (fun a c => 10 * a + (c.toNat - 48)) n := by
  induction fuel generalizing n ds with
  | zero => omega
  | succ f ih =>
    rw [Nat.toDigitsCore]
    split_ifs with h0
    · rw [List.foldl_cons, digitChar_toNat _ (Nat.mod_lt _ (by norm_num))]
      congr 1
      have : n < 10 := by
        by_contra hc
        have : 1 ≤ n / 10 := Nat.div_pos (by omega) (by norm_num)
        omega
      omega
    · rw [ih _ _ (by omega), List.foldl_cons, digitChar_toNat _ (Nat.mod_lt _ (by norm_num))]
      congr 1
      omega

theorem toDigits_injective : Function.Injective (Nat.toDigits 10) := by
  intro a b hab
  have ha := foldl_toDigitsCore (a + 1) a [] (by omega)
  have hb := foldl_toDigitsCore (b + 1) b [] (by omega)
  simp only [List.foldl_nil] at ha hb
  rw [← ha, ← hb]
  unfold Nat.toDigits at hab
  rw [hab]

theorem taskID_injective : Function.Injective taskID := by
  intro a b hab
  unfold taskID at hab
  exact toDigits_injective (List.append_cancel_left hab)

theorem exprID_injective : Function.Injective exprID := by
  intro a b hab
  unfold exprID at hab
  exact toDigits_injective (List.append_cancel_left hab)

/-! ## `parseExpression` and `AddExpression` -/

theorem parseExpressionLoop_number (e : List Char) (token : Token) (tokens : List Token)
    (stack : List (List Char)) (tasks : List (Task R)) (c : Nat) (h : token.Typ = TokenNumber) :
    parseExpressionLoop e (token :: tokens) stack tasks c =
      parseExpressionLoop e tokens (token.Value :: stack) tasks c := by
  simp [parseExpressionLoop, h]

theorem parseExpressionLoop_operator (e : List Char) (token : Token) (tokens : List Token)
    (arg2 arg1 : List Char) (stack : List (List Char)) (tasks : List (Task R)) (c : Nat)
    (h : token.Typ = TokenOperator) :
    parseExpressionLoop e (token :: tokens) (arg2 :: arg1 :: stack) tasks c =
      parseExpressionLoop e tokens (taskID (c + 1) :: stack)
        (tasks ++ [newTask e (c + 1) arg1 arg2 token.Value]) (c + 1) := by
  simp [parseExpressionLoop, h]

theorem parseExpressionLoop_operator_skip (e : List Char) (token : Token) (tokens : List Token)
    (stack : List (List Char)) (tasks : List (Task R)) (c : Nat)
    (h : token.Typ = TokenOperator) (hs : stack.length < 2) :
    parseExpressionLoop e (token :: tokens) stack tasks c =
      parseExpressionLoop e tokens stack tasks c := by
  match stack, hs with
  | [], _ => simp [parseExpressionLoop, h]
  | [_], _ => simp [parseExpressionLoop, h]

theorem parseExpressionLoop_paren (e : List Char) (token : Token) (tokens : List Token)
    (stack : List (List Char)) (tasks : List (Task R)) (c : Nat)
    (h : token.Typ = TokenLeftParen ∨ token.Typ = TokenRightParen) :
    parseExpressionLoop e (token :: tokens) stack tasks c =
      parseExpressionLoop e tokens stack tasks c := by
  rcases h with h | h <;> simp [parseExpressionLoop, h]

theorem parseExpressionLoop_spec (e : List Char) (tokens : List Token) (stack : List (List Char))
    (tasks : List (Task R)) (c : Nat) :
    ∃ new : List (Task R),
      (parseExpressionLoop e tokens stack tasks c).1 = tasks ++ new ∧
      (parseExpressionLoop e tokens stack tasks c).2 = c + new.length ∧
      new.map (·.ID) = (List.range' (c + 1) new.length).map taskID ∧
      ∀ t ∈ new, t.Status = StatusPending ∧ t.Result = none ∧ t.ExpressionID = e := by
  induction tokens generalizing stack tasks c with
  | nil => exact ⟨[], by simp [parseExpressionLoop]⟩
  | cons token tokens ih =>
    cases htyp : token.Typ with
    | TokenNumber => rw [parseExpressionLoop_number _ _ _ _ _ _ htyp]; exact ih _ _ _
    | TokenLeftParen => rw [parseExpressionLoop_paren _ _ _ _ _ _ (Or.inl htyp)]; exact ih _ _ _
    | TokenRightParen => rw [parseExpressionLoop_paren _ _ _ _ _ _ (Or.inr htyp)]; exact ih _ _ _
    | TokenOperator =>
      match stack with
      | [] => rw [parseExpressionLoop_operator_skip _ _ _ _ _ _ htyp (by simp)]; exact ih _ _ _
      | [_] => rw [parseExpressionLoop_operator_skip _ _ _ _ _ _ htyp (by simp)]; exact ih _ _ _
      | arg2 :: arg1 :: stack' =>
        rw [parseExpressionLoop_operator _ _ _ _ _ _ _ _ htyp]
        obtain ⟨new, h1, h2, h3, h4⟩ := ih (taskID (c + 1) :: stack')
          (tasks ++ [newTask e (c + 1) arg1 arg2 token.Value]) (c + 1)
        refine ⟨newTask e (c + 1) arg1 arg2 token.Value :: new, ?_, ?_, ?_, ?_⟩
        · rw [h1, List.append_assoc]; rfl
        · rw [h2, List.length_cons]; omega
        · rw [List.map_cons, h3, List.length_cons, List.range'_succ, List.map_cons]
          rfl
        · intro t ht
          rcases List.mem_cons.1 ht with rfl | ht
          · exact ⟨rfl, rfl, rfl⟩
          · exact h4 t ht

namespace Orchestrator

theorem installed_ID (t : Task R) : (installed t).ID = t.ID := by
  unfold installed; split_ifs <;> rfl

theorem installTask_getTask (o : Orchestrator R) (t : Task R) (id : List Char) :
    getTask (installTask o t).Tasks id =
      if id = t.ID then some (installed t) else getTask o.Tasks id := by
  unfold installTask installed
  split_ifs with h1 h2 h2
  · simp only [getTask_setTask, h2, if_true]
  · simp only [getTask_setTask, h2, if_false]
  · simp only [getTask_setTask, h2, if_true]
  · simp only [getTask_setTask, h2, if_false]

theorem installTask_Sending (o : Orchestrator R) (t : Task R) :
    (installTask o t).Sending =
      o.Sending ++ (if t.Dependencies.length = 0 then [t.ID] else []) := by
  unfold installTask
  split_ifs <;> simp

theorem installTask_ReadyTasks (o : Orchestrator R) (t : Task R) :
    (installTask o t).ReadyTasks = o.ReadyTasks := by
  unfold installTask
  split_ifs <;> rfl

theorem installTask_frame (o : Orchestrator R) (t : Task R) :
    (installTask o t).Expressions = o.Expressions ∧
    (installTask o t).ProcessingTasks = o.ProcessingTasks ∧
    (installTask o t).OperationTimes = o.OperationTimes ∧
    (installTask o t).ComputingPower = o.ComputingPower ∧
    (installTask o t).ExpressionCounter = o.ExpressionCounter ∧
    (installTask o t).TaskCounter = o.TaskCounter := by
  unfold installTask
  split_ifs <;> simp

theorem foldl_installTask_getTask (ts : List (Task R)) (o : Orchestrator R) (id : List Char)
    (hnd : (ts.map (·.ID)).Nodup) :
    getTask (ts.foldl installTask o).Tasks id =
      match getTask ts id with
      | some t => some (installed t)
      | none => getTask o.Tasks id := by
  induction ts generalizing o with
  | nil => simp [getTask]
  | cons a ts ih =>
    rw [List.map_cons, List.nodup_cons] at hnd
    rw [List.foldl_cons, ih _ hnd.2, installTask_getTask, getTask_cons]
    by_cases h : id = a.ID
    · subst h
      have : getTask ts a.ID = none := (getTask_eq_none_iff _ _).2 hnd.1
      simp [this]
    · have h' : ¬ a.ID = id := fun e => h e.symm
      simp [h, h']

theorem foldl_installTask_Sending (ts : List (Task R)) (o : Orchestrator R) :
    (ts.foldl installTask o).Sending =
      o.Sending ++ (ts.filter (fun t => decide (t.Dependencies.length = 0))).map (·.ID) := by
  induction ts generalizing o with
  | nil => simp
  | cons a ts ih =>
    rw [List.foldl_cons, ih, installTask_Sending, List.filter_cons]
    by_cases h1 : a.Dependencies.length = 0 <;> simp [h1]

theorem foldl_installTask_ReadyTasks (ts : List (Task R)) (o : Orchestrator R) :
    (ts.foldl installTask o).ReadyTasks = o.ReadyTasks := by
  induction ts generalizing o with
  | nil => rfl
  | cons a ts ih => rw [List.foldl_cons, ih, installTask_ReadyTasks]

theorem foldl_installTask_frame (ts : List (Task R)) (o : Orchestrator R) :
    (ts.foldl installTask o).Expressions = o.Expressions ∧
    (ts.foldl installTask o).ProcessingTasks = o.ProcessingTasks ∧
    (ts.foldl installTask o).OperationTimes = o.OperationTimes ∧
    (ts.foldl installTask o).ComputingPower = o.ComputingPower ∧
    (ts.foldl installTask o).ExpressionCounter = o.ExpressionCounter ∧
    (ts.foldl installTask o).TaskCounter = o.TaskCounter := by
  induction ts generalizing o with
  | nil => simp
  | cons a ts ih =>
    rw [List.foldl_cons]
    obtain ⟨h1, h2, h3, h4, h5, h6⟩ := ih (installTask o a)
    obtain ⟨g1, g2, g3, g4, g5, g6⟩ := installTask_frame o a
    exact ⟨h1.trans g1, h2.trans g2, h3.trans g3, h4.trans g4, h5.trans g5, h6.trans g6⟩

/-- `AddExpression` on an input that `tokenize` or `toRPN` rejects: only
`ExpressionCounter` advances. -/
theorem AddExpression_error (o : Orchestrator R) (expr : List Char)
    (h : ∀ rpn, (tokenize expr).bind toRPN ≠ .ok rpn) :
    ∃ err, o.AddExpression expr = (o.countExpression, .error err) := by
  cases ht : tokenize expr with
  | error err => exact ⟨err, by simp only [AddExpression, ht]⟩
  | ok tokens =>
    cases hr : toRPN tokens with
    | error err => exact ⟨err, by simp only [AddExpression, ht, hr]⟩
    | ok rpn =>
      exfalso
      apply h rpn
      rw [ht]
      exact hr

/-- `AddExpression` on an input with the postfix stream `rpn`. -/
theorem AddExpression_ok (o : Orchestrator R) (expr : List Char) (rpn : List Token)
    (h : (tokenize expr).bind toRPN = .ok rpn) :
    o.AddExpression expr =
      (installExpression
          (o.countExpression.parseExpression rpn (exprID (o.ExpressionCounter + 1))).1
          (exprID (o.ExpressionCounter + 1))
          (o.countExpression.parseExpression rpn (exprID (o.ExpressionCounter + 1))).2,
        .ok (exprID (o.ExpressionCounter + 1))) := by
  cases ht : tokenize expr with
  | error err => rw [ht] at h; cases h
  | ok tokens =>
    rw [ht] at h
    have hr : toRPN tokens = .ok rpn := h
    simp only [AddExpression, ht, hr]
    rfl

end Orchestrator

/-! ## The steps preserve the invariants -/

namespace Orchestrator

theorem installExpression_getTask (o : Orchestrator R) (e : List Char) (ts : List (Task R))
    (id : List Char) (hnd : (ts.map (·.ID)).Nodup) :
    getTask (installExpression o e ts).Tasks id =
      match getTask ts id with
      | some t => some (installed t)
      | none => getTask o.Tasks id := by
  unfold installExpression
  exact foldl_installTask_getTask ts o id hnd

/-- What a successful `AddExpression` does to the tasks, the queue, the
goroutines it starts and the task counter, in terms of the tasks `new` built
by `parseExpression`. -/
theorem AddExpression_effect (o : Orchestrator R) (expr : List Char) :
    (∃ err, o.AddExpression expr = (o.countExpression, .error err)) ∨
    ∃ new : List (Task R),
      (o.AddExpression expr).2 = .ok (exprID (o.ExpressionCounter + 1)) ∧
      new.map (·.ID) = (List.range' (o.TaskCounter + 1) new.length).map taskID ∧
      (∀ t ∈ new, t.Status = StatusPending ∧ t.Result = none ∧
        t.ExpressionID = exprID (o.ExpressionCounter + 1)) ∧
      (∀ id, getTask (o.AddExpression expr).1.Tasks id =
        match getTask new id with
        | some t => some (installed t)
        | none => getTask o.Tasks id) ∧
      ((o.AddExpression expr).1.ReadyTasks = o.ReadyTasks ∧
        (o.AddExpression expr).1.Sending =
          o.Sending ++
            (new.filter (fun t => decide (t.Dependencies.length = 0))).map (·.ID)) ∧
      (o.AddExpression expr).1.TaskCounter = o.TaskCounter + new.length ∧
      (o.AddExpression expr).1.ProcessingTasks = o.ProcessingTasks ∧
      (o.AddExpression expr).1.ExpressionCounter = o.ExpressionCounter + 1 ∧
      (o.AddExpression expr).1.Expressions = setExpression o.Expressions
        { ID := exprID (o.ExpressionCounter + 1), Status := StatusPending, Result := none,
          Tasks := new.map (·.ID) } := by
  cases hr : (tokenize expr).bind toRPN with
  | error err0 =>
    exact Or.inl (AddExpression_error o expr (fun rpn h => by rw [hr] at h; cases h))
  | ok rpn =>
    right
    obtain ⟨new, h1, h2, h3, h4⟩ := parseExpressionLoop_spec
      (exprID (o.ExpressionCounter + 1)) rpn [] ([] : List (Task R)) o.TaskCounter
    rw [List.nil_append] at h1
    have hnd : (new.map (·.ID)).Nodup := by
      rw [h3]
      exact (List.nodup_range' _ _).map taskID_injective
    have hparse : o.countExpression.parseExpression rpn (exprID (o.ExpressionCounter + 1)) =
        ({ o.countExpression with TaskCounter := o.TaskCounter + new.length }, new) := by
      unfold parseExpression countExpression
      simp only
      rw [h1, h2]
    refine ⟨new, ?_, h3, h4, ?_, ?_, ?_, ?_, ?_, ?_⟩
    · rw [AddExpression_ok o expr rpn hr]
    · intro id
      rw [AddExpression_ok o expr rpn hr]
      simp only [hparse]
      rw [installExpression_getTask _ _ _ _ hnd]
      rfl
    · rw [AddExpression_ok o expr rpn hr]
      simp only [hparse, installExpression]
      rw [foldl_installTask_ReadyTasks, foldl_installTask_Sending]
      exact ⟨rfl, rfl⟩
    · rw [AddExpression_ok o expr rpn hr]
      simp only [hparse, installExpression]
      rw [(foldl_installTask_frame _ _).2.2.2.2.2]
    · rw [AddExpression_ok o expr rpn hr]
      simp only [hparse, installExpression]
      rw [(foldl_installTask_frame _ _).2.1]
      rfl
    · rw [AddExpression_ok o expr rpn hr]
      simp only [hparse, installExpression]
      rw [(foldl_installTask_frame _ _).2.2.2.2.1]
      rfl
    · rw [AddExpression_ok o expr rpn hr]
      simp only [hparse, installExpression]
      rw [(foldl_installTask_frame _ _).1]
      rfl

theorem GetNextTask_empty (o : Orchestrator R) (h : o.ReadyTasks = []) :
    o.GetNextTask = (o, .error .ErrNoTasksAvailable) := by
  unfold GetNextTask
  rw [h]

theorem GetNextTask_ready (o : Orchestrator R) (id : List Char) (rest : List (List Char))
    (t : Task R) (h : o.ReadyTasks = id :: rest) (ht : getTask o.Tasks id = some t)
    (hs : t.Status = StatusReady) :
    o.GetNextTask =
      ({ o with ReadyTasks := rest
                Tasks := updateTask o.Tasks id (fun t => { t with Status := StatusProgress })
                ProcessingTasks :=
                  if id ∈ o.ProcessingTasks then o.ProcessingTasks else o.ProcessingTasks ++ [id] },
        .ok { t with Status := StatusProgress }) := by
  unfold GetNextTask
  rw [h]
  simp only [ht, hs, if_true]

theorem GetNextTask_stale (o : Orchestrator R) (id : List Char) (rest : List (List Char))
    (h : o.ReadyTasks = id :: rest)
    (hs : ∀ t, getTask o.Tasks id = some t → t.Status ≠ StatusReady) :
    o.GetNextTask = ({ o with ReadyTasks := rest }, .error .ErrNoTasksAvailable) := by
  unfold GetNextTask
  rw [h]
  cases ht : getTask o.Tasks id with
  | none => simp only [ht]
  | some t => simp only [ht, hs t ht, if_false]

/-- A send changes the queue and the waiting goroutines only. -/
theorem send_frame (o : Orchestrator R) (id : List Char) :
    (o.send id).Tasks = o.Tasks ∧
    (o.send id).Expressions = o.Expressions ∧
    (o.send id).ProcessingTasks = o.ProcessingTasks ∧
    (o.send id).ExpressionCounter = o.ExpressionCounter ∧
    (o.send id).TaskCounter = o.TaskCounter := by
  unfold send
  split_ifs <;> exact ⟨rfl, rfl, rfl, rfl, rfl⟩

/-- The step `GetNextTask` starts no goroutine and ends none. -/
theorem GetNextTask_Sending (o : Orchestrator R) : o.GetNextTask.1.Sending = o.Sending := by
  unfold GetNextTask
  cases o.ReadyTasks with
  | nil => rfl
  | cons id rest =>
    simp only
    cases getTask o.Tasks id with
    | none => rfl
    | some t =>
      simp only
      split_ifs <;> rfl

theorem statusOf_eq (o : Orchestrator R) (id : List Char) (s : List Char) :
    o.statusOf id = some s ↔ ∃ t, getTask o.Tasks id = some t ∧ t.Status = s := by
  unfold statusOf
  cases getTask o.Tasks id <;> simp

end Orchestrator

theorem Inv_New (a b c d : Int) : Inv (NewOrchestrator a b c d : Orchestrator R) :=
  ⟨by simp [NewOrchestrator], by simp [NewOrchestrator], by simp [NewOrchestrator],
    by simp [NewOrchestrator], by simp [NewOrchestrator]⟩

theorem History_nil (o : Orchestrator R) : History o [] [] :=
  ⟨by simp, by simp, by simp, by simp, by simp⟩

/-- The step `GetNextTask` preserves the invariants and records the task it
hands out. -/
theorem Inv_getNextTask (o : Orchestrator R) (S C : List (List Char)) (hI : Inv o)
    (hH : History o S C) :
    Inv o.GetNextTask.1 ∧ History o.GetNextTask.1 S (C ++ o.claimed .getNextTask) := by
  cases hq : o.ReadyTasks with
  | nil =>
    have hg := Orchestrator.GetNextTask_empty o hq
    have hc : o.claimed .getNextTask = [] := by simp [Orchestrator.claimed, hg]
    rw [hc, hg, List.append_nil]
    exact ⟨hI, hH⟩
  | cons id rest =>
    have hready := hI.queueReady id (by rw [hq]; exact List.mem_cons_self _ _)
    obtain ⟨t, ht, hs⟩ := (Orchestrator.statusOf_eq o id _).1 hready
    have hg := Orchestrator.GetNextTask_ready o id rest t hq ht hs
    have hnd := hI.queueNodup
    rw [hq, List.nodup_cons] at hnd
    have hc : o.claimed .getNextTask = [id] := by
      simp [Orchestrator.claimed, hg, getTask_some_ID ht]
    have hview : ∀ id', getTask o.GetNextTask.1.Tasks id' =
        if id' = id then some { t with Status := StatusProgress } else getTask o.Tasks id' := by
      intro id'
      rw [hg]
      simp only
      rw [getTask_updateTask]
      · by_cases h : id' = id
        · subst h; simp [ht]
        · simp [h]
      · intro u h; exact h
    have hidC : id ∉ C := by
      intro hm
      obtain ⟨u, hu, hst⟩ := hH.claimedStatus id hm
      rw [ht] at hu
      cases hu
      rw [hs] at hst
      rcases hst with h | h <;> exact absurd h (by decide)
    have hsend : o.GetNextTask.1.Sending = o.Sending := Orchestrator.GetNextTask_Sending o
    have hSN : (o.GetNextTask.1.Sending ++ o.GetNextTask.1.ReadyTasks).Nodup := by
      rw [hsend, hg]
      have := hI.sendingNodup
      rw [hq] at this
      exact this.sublist ((List.Sublist.refl _).append (List.sublist_cons_self _ _))
    have hSR : ∀ k ∈ o.GetNextTask.1.Sending,
        o.GetNextTask.1.statusOf k = some StatusReady := by
      intro k hk
      rw [hsend] at hk
      have hne : k ≠ id := by
        rintro rfl
        have := hI.sendingNodup
        rw [hq, List.nodup_append] at this
        exact this.2.2 hk (List.mem_cons_self _ _)
      rw [Orchestrator.statusOf_eq, hview, if_neg hne, ← Orchestrator.statusOf_eq]
      exact hI.sendingReady k hk
    have hSO : ∀ k ∈ S, k ∉ o.GetNextTask.1.Sending := by
      intro k hk
      rw [hsend]
      exact hH.sentOnce k hk
    rw [hc]
    refine ⟨⟨?_, ?_, ?_, hSN, hSR⟩, ⟨?_, hH.sentNodup, hSO, ?_, ?_⟩⟩
    · intro k hk
      have : k ∈ o.Tasks.map (·.ID) := by
        rw [hg] at hk
        simp only at hk
        rw [map_ID_updateTask] at hk
        · exact hk
        · intro u h; exact h
      obtain ⟨n, h1, h2, h3⟩ := hI.keys k this
      refine ⟨n, h1, ?_, h3⟩
      rw [hg]
      exact h2
    · rw [hg]; exact hnd.2
    · intro k hk
      rw [hg] at hk
      simp only at hk
      have hne : k ≠ id := fun e => hnd.1 (e ▸ hk)
      rw [Orchestrator.statusOf_eq, hview, if_neg hne, ← Orchestrator.statusOf_eq]
      exact hI.queueReady k (by rw [hq]; exact List.mem_cons_of_mem _ hk)
    · intro k hk
      rw [hview]
      by_cases h : k = id
      · rw [if_pos h]
        exact ⟨_, rfl, (show StatusProgress ≠ StatusPending by decide)⟩
      · rw [if_neg h]
        exact hH.sentStatus k hk
    · intro k hk
      rw [hview]
      rcases List.mem_append.1 hk with hk | hk
      · have h : k ≠ id := fun e => hidC (e ▸ hk)
        rw [if_neg h]
        exact hH.claimedStatus k hk
      · rw [List.mem_singleton] at hk
        rw [if_pos hk]
        exact ⟨_, rfl, Or.inl rfl⟩
    · rw [List.nodup_append]
      refine ⟨hH.claimedNodup, by simp, ?_⟩
      intro a ha hb
      rw [List.mem_singleton] at hb
      exact hidC (hb ▸ ha)

theorem notified_Status (x : List Char) (t : Task R) :
    (notified x t).Status = if becomesReady x t = true then StatusReady else t.Status := by
  by_cases hb : becomesReady x t = true
  · rw [Orchestrator.notified_eq_of_becomesReady _ _ hb, if_pos hb]
  · rw [Orchestrator.notified_eq_of_not_becomesReady _ _ (by simpa using hb), if_neg hb]

theorem becomesReady_Status {x : List Char} {t : Task R} (h : becomesReady x t = true) :
    t.Status = StatusPending := by
  simp only [becomesReady, Bool.and_eq_true, decide_eq_true_eq] at h
  exact h.2

/-- The status of every task after a successful `ProcessTaskResult`. -/
theorem ProcessTaskResult_Status (o : Orchestrator R) (x : List Char) (r : R)
    (order : List (List Char)) (t : Task R) (ht : getTask o.Tasks x = some t)
    (hs : t.Status = StatusProgress) (id : List Char) (u : Task R)
    (hu : getTask o.Tasks id = some u) :
    ∃ u', getTask (o.ProcessTaskResult x r order).1.Tasks id = some u' ∧
      u'.Status =
        if id = x then StatusDone
        else if becomesReady x u = true then StatusReady else u.Status := by
  rw [Orchestrator.ProcessTaskResult_getTask o x r order t ht hs, hu]
  refine ⟨_, rfl, ?_⟩
  rw [notified_Status]
  by_cases hid : id = x
  · rw [if_pos hid, if_pos hid, if_neg]
    intro hb
    exact absurd (becomesReady_Status hb) (show StatusDone ≠ StatusPending by decide)
  · rw [if_neg hid, if_neg hid]

/-- The step `ProcessTaskResult` preserves the invariants and records the
tasks it sends to the ready queue. -/
theorem Inv_processTaskResult (o : Orchestrator R) (S C : List (List Char)) (x : List Char)
    (r : R) (order : List (List Char)) (hI : Inv o) (hH : History o S C) :
    Inv (o.ProcessTaskResult x r order).1 ∧
      History (o.ProcessTaskResult x r order).1
        (S ++ o.sent (.processTaskResult x r order)) C := by
  by_cases hv : ∃ t, getTask o.Tasks x = some t ∧ t.Status = StatusProgress
  · obtain ⟨t, ht, hs⟩ := hv
    obtain ⟨new, hq, hnew, hmem⟩ := Orchestrator.ProcessTaskResult_ReadyTasks o x r order t ht hs
    have hst := ProcessTaskResult_Status o x r order t ht hs
    have hsent : o.sent (.processTaskResult x r order) = new := by
      simp only [Orchestrator.sent, Orchestrator.step]
      rw [hq, List.drop_left]
    have hpend : ∀ a ∈ new, ∃ u, getTask o.Tasks a = some u ∧ u.Status = StatusPending ∧
        becomesReady x u = true := by
      intro a ha
      obtain ⟨u, hu, hb⟩ := (hmem a).1 ha
      exact ⟨u, hu, becomesReady_Status hb, hb⟩
    have hne : ∀ a ∈ new, a ≠ x := by
      intro a ha e
      obtain ⟨u, hu, hp, -⟩ := hpend a ha
      rw [e, ht] at hu
      cases hu
      rw [hs] at hp
      exact absurd hp (by decide)
    have hsend : (o.ProcessTaskResult x r order).1.Sending = o.Sending :=
      Orchestrator.ProcessTaskResult_Sending o x r order
    have hSN : ((o.ProcessTaskResult x r order).1.Sending ++
        (o.ProcessTaskResult x r order).1.ReadyTasks).Nodup := by
      rw [hsend, hq, ← List.append_assoc, List.nodup_append]
      refine ⟨hI.sendingNodup, hnew, ?_⟩
      intro a ha hb
      obtain ⟨u, hu, hp, -⟩ := hpend a hb
      have hr : o.statusOf a = some StatusReady := by
        rcases List.mem_append.1 ha with ha | ha
        · exact hI.sendingReady a ha
        · exact hI.queueReady a ha
      obtain ⟨u', hu', hr⟩ := (Orchestrator.statusOf_eq o a _).1 hr
      rw [hu] at hu'
      cases hu'
      rw [hp] at hr
      exact absurd hr (by decide)
    have hSR : ∀ a ∈ (o.ProcessTaskResult x r order).1.Sending,
        (o.ProcessTaskResult x r order).1.statusOf a = some StatusReady := by
      intro a ha
      rw [hsend] at ha
      rw [Orchestrator.statusOf_eq]
      obtain ⟨u, hu, hr⟩ := (Orchestrator.statusOf_eq o a _).1 (hI.sendingReady a ha)
      obtain ⟨u', hu', hs'⟩ := hst a u hu
      refine ⟨u', hu', ?_⟩
      rw [hs']
      have hax : a ≠ x := by
        rintro rfl
        rw [ht] at hu
        cases hu
        rw [hs] at hr
        exact absurd hr (by decide)
      rw [if_neg hax]
      split_ifs
      · rfl
      · exact hr
    have hSO : ∀ a ∈ S ++ new, a ∉ (o.ProcessTaskResult x r order).1.Sending := by
      intro a ha
      rw [hsend]
      rcases List.mem_append.1 ha with ha | ha
      · exact hH.sentOnce a ha
      · intro hm
        obtain ⟨u, hu, hp, -⟩ := hpend a ha
        obtain ⟨u', hu', hr⟩ := (Orchestrator.statusOf_eq o a _).1 (hI.sendingReady a hm)
        rw [hu] at hu'
        cases hu'
        rw [hp] at hr
        exact absurd hr (by decide)
    rw [hsent]
    refine ⟨⟨?_, ?_, ?_, hSN, hSR⟩, ⟨?_, ?_, hSO, ?_, hH.claimedNodup⟩⟩
    · intro k hk
      have hk' : k ∈ o.Tasks.map (·.ID) := by
        rw [← getTask_isSome_iff] at hk ⊢
        rw [Orchestrator.ProcessTaskResult_getTask o x r order t ht hs] at hk
        cases hg : getTask o.Tasks k with
        | none => rw [hg] at hk; simp at hk
        | some u => rfl
      obtain ⟨n, h1, h2, h3⟩ := hI.keys k hk'
      exact ⟨n, h1, by rw [(Orchestrator.ProcessTaskResult_frame o x r order t ht hs).2.2.2.2]; exact h2,
        h3⟩
    · rw [hq, List.nodup_append]
      refine ⟨hI.queueNodup, hnew, ?_⟩
      intro a ha hb
      obtain ⟨u, hu, hp, -⟩ := hpend a hb
      obtain ⟨u', hu', hr⟩ := (Orchestrator.statusOf_eq o a _).1 (hI.queueReady a ha)
      rw [hu] at hu'
      cases hu'
      rw [hp] at hr
      exact absurd hr (by decide)
    · intro a ha
      rw [hq] at ha
      rw [Orchestrator.statusOf_eq]
      rcases List.mem_append.1 ha with ha | ha
      · obtain ⟨u, hu, hr⟩ := (Orchestrator.statusOf_eq o a _).1 (hI.queueReady a ha)
        obtain ⟨u', hu', hs'⟩ := hst a u hu
        refine ⟨u', hu', ?_⟩
        rw [hs']
        have hax : a ≠ x := by
          rintro rfl
          rw [ht] at hu
          cases hu
          rw [hs] at hr
          exact absurd hr (by decide)
        rw [if_neg hax]
        split_ifs
        · rfl
        · exact hr
      · obtain ⟨u, hu, -, hb⟩ := hpend a ha
        obtain ⟨u', hu', hs'⟩ := hst a u hu
        refine ⟨u', hu', ?_⟩
        rw [hs', if_neg (hne a ha), if_pos hb]
    · intro a ha
      rcases List.mem_append.1 ha with ha | ha
      · obtain ⟨u, hu, hp⟩ := hH.sentStatus a ha
        obtain ⟨u', hu', hs'⟩ := hst a u hu
        refine ⟨u', hu', ?_⟩
        rw [hs']
        split_ifs
        · decide
        · decide
        · exact hp
      · obtain ⟨u, hu, -, hb⟩ := hpend a ha
        obtain ⟨u', hu', hs'⟩ := hst a u hu
        refine ⟨u', hu', ?_⟩
        rw [hs', if_neg (hne a ha), if_pos hb]
        decide
    · rw [List.nodup_append]
      refine ⟨hH.sentNodup, hnew, ?_⟩
      intro a ha hb
      obtain ⟨u, hu, hp, -⟩ := hpend a hb
      obtain ⟨u', hu', hr⟩ := hH.sentStatus a ha
      rw [hu] at hu'
      cases hu'
      exact hr hp
    · intro a ha
      obtain ⟨u, hu, hp⟩ := hH.claimedStatus a ha
      obtain ⟨u', hu', hs'⟩ := hst a u hu
      refine ⟨u', hu', ?_⟩
      rw [hs']
      by_cases hax : a = x
      · rw [if_pos hax]; exact Or.inr rfl
      · rw [if_neg hax, if_neg]
        · exact hp
        · intro hb
          have := becomesReady_Status hb
          rw [this] at hp
          rcases hp with h | h <;> exact absurd h (by decide)
  · have hinv := Orchestrator.ProcessTaskResult_invalid o x r order
      (fun t ht hs => hv ⟨t, ht, hs⟩)
    have hsent : o.sent (.processTaskResult x r order) = [] := by
      simp only [Orchestrator.sent, Orchestrator.step]
      rw [hinv]
      simp
    rw [hsent, hinv, List.append_nil]
    exact ⟨hI, hH⟩

theorem getTask_of_mem_nodup {ts : List (Task R)} {t : Task R} (ht : t ∈ ts)
    (hnd : (ts.map (·.ID)).Nodup) : getTask ts t.ID = some t := by
  induction ts with
  | nil => simp at ht
  | cons a ts ih =>
    rw [List.map_cons, List.nodup_cons] at hnd
    rw [getTask_cons]
    rcases List.mem_cons.1 ht with rfl | ht
    · simp
    · have : a.ID ≠ t.ID := fun e => hnd.1 (e ▸ List.mem_map_of_mem _ ht)
      rw [if_neg this]
      exact ih ht hnd.2

/-- The step `AddExpression` preserves the invariants; it sends nothing to
the ready queue itself: the leaf tasks wait in `Sending`. -/
theorem Inv_addExpression (o : Orchestrator R) (S C : List (List Char)) (expr : List Char)
    (hI : Inv o) (hH : History o S C) :
    Inv (o.AddExpression expr).1 ∧
      History (o.AddExpression expr).1 (S ++ o.sent (.addExpression expr)) C := by
  rcases Orchestrator.AddExpression_effect o expr with ⟨err, he⟩ | ⟨new, -, hids, hnew, hview, hq, hc, -, -, -⟩
  · have hsent : o.sent (.addExpression expr) = [] := by
      simp only [Orchestrator.sent, Orchestrator.step]
      rw [he]
      simp [Orchestrator.countExpression]
    rw [hsent, he, List.append_nil]
    exact ⟨⟨hI.keys, hI.queueNodup, hI.queueReady, hI.sendingNodup, hI.sendingReady⟩,
      ⟨hH.sentStatus, hH.sentNodup, hH.sentOnce, hH.claimedStatus, hH.claimedNodup⟩⟩
  · have hnd : (new.map (·.ID)).Nodup := by
      rw [hids]
      exact (List.nodup_range' _ _).map taskID_injective
    -- an id of an old task is not the id of a new one
    have hold : ∀ a u, getTask o.Tasks a = some u → getTask new a = none := by
      intro a u hu
      rw [getTask_eq_none_iff, hids]
      intro hm
      obtain ⟨k, hk, hka⟩ := List.mem_map.1 hm
      obtain ⟨n, -, hn, hna⟩ := hI.keys a ((getTask_isSome_iff _ _).1 (by rw [hu]; rfl))
      rw [hna] at hka
      have := taskID_injective hka
      rw [List.mem_range'_1] at hk
      omega
    have hkeep : ∀ a u, getTask o.Tasks a = some u →
        getTask (o.AddExpression expr).1.Tasks a = some u := by
      intro a u hu
      rw [hview, hold a u hu]
      exact hu
    -- the leaves, for which a goroutine is started
    have hleaf : ∀ a ∈ (new.filter (fun t => decide (t.Dependencies.length = 0))).map (·.ID),
        getTask o.Tasks a = none ∧
        ∃ u, getTask (o.AddExpression expr).1.Tasks a = some u ∧ u.Status = StatusReady := by
      intro a ha
      obtain ⟨t, ht, hta⟩ := List.mem_map.1 ha
      rw [List.mem_filter] at ht
      have hg : getTask new a = some t := by
        rw [← hta]
        exact getTask_of_mem_nodup ht.1 hnd
      constructor
      · cases hu : getTask o.Tasks a with
        | none => rfl
        | some u =>
          rw [hold a u hu] at hg
          cases hg
      · rw [hview, hg]
        refine ⟨_, rfl, ?_⟩
        unfold installed
        rw [if_pos (by simpa using ht.2)]
    have hleafnd : ((new.filter (fun t => decide (t.Dependencies.length = 0))).map
        (·.ID)).Nodup :=
      (List.filter_sublist new).map _ |>.nodup hnd
    have hsent : o.sent (.addExpression expr) = [] := by
      simp only [Orchestrator.sent, Orchestrator.step]
      rw [hq.1]
      simp
    rw [hsent, List.append_nil]
    refine ⟨⟨?_, ?_, ?_, ?_, ?_⟩, ⟨?_, hH.sentNodup, ?_, ?_, hH.claimedNodup⟩⟩
    · intro k hk
      rw [← getTask_isSome_iff, hview] at hk
      rw [hc]
      cases hg : getTask new k with
      | none =>
        rw [hg] at hk
        obtain ⟨n, h1, h2, h3⟩ := hI.keys k ((getTask_isSome_iff _ _).1 hk)
        exact ⟨n, h1, by omega, h3⟩
      | some t =>
        have hm : k ∈ new.map (·.ID) := (getTask_isSome_iff _ _).1 (by rw [hg]; rfl)
        rw [hids] at hm
        obtain ⟨n, hn, hnk⟩ := List.mem_map.1 hm
        rw [List.mem_range'_1] at hn
        exact ⟨n, by omega, by omega, hnk.symm⟩
    · rw [hq.1]
      exact hI.queueNodup
    · intro a ha
      rw [hq.1] at ha
      rw [Orchestrator.statusOf_eq]
      obtain ⟨u, hu, hr⟩ := (Orchestrator.statusOf_eq o a _).1 (hI.queueReady a ha)
      exact ⟨u, hkeep a u hu, hr⟩
    · have hsn := hI.sendingNodup
      rw [List.nodup_append] at hsn
      rw [hq.1, hq.2, List.nodup_append, List.nodup_append]
      refine ⟨⟨hsn.1, hleafnd, ?_⟩, hI.queueNodup, ?_⟩
      · intro a ha hb
        obtain ⟨u, hu, -⟩ := (Orchestrator.statusOf_eq o a _).1 (hI.sendingReady a ha)
        rw [(hleaf a hb).1] at hu
        cases hu
      · intro a ha hb
        rcases List.mem_append.1 ha with ha | ha
        · exact hsn.2.2 ha hb
        · obtain ⟨u, hu, -⟩ := (Orchestrator.statusOf_eq o a _).1 (hI.queueReady a hb)
          rw [(hleaf a ha).1] at hu
          cases hu
    · intro a ha
      rw [hq.2] at ha
      rw [Orchestrator.statusOf_eq]
      rcases List.mem_append.1 ha with ha | ha
      · obtain ⟨u, hu, hr⟩ := (Orchestrator.statusOf_eq o a _).1 (hI.sendingReady a ha)
        exact ⟨u, hkeep a u hu, hr⟩
      · exact (hleaf a ha).2
    · intro a ha
      obtain ⟨u, hu, hp⟩ := hH.sentStatus a ha
      exact ⟨u, hkeep a u hu, hp⟩
    · intro a ha
      rw [hq.2, List.mem_append]
      rintro (hm | hm)
      · exact hH.sentOnce a ha hm
      · obtain ⟨u, hu, -⟩ := hH.sentStatus a ha
        rw [(hleaf a hm).1] at hu
        cases hu
    · intro a ha
      obtain ⟨u, hu, hp⟩ := hH.claimedStatus a ha
      exact ⟨u, hkeep a u hu, hp⟩

/-- The send of a goroutine preserves the invariants and records the task it
sends to the ready queue. -/
theorem Inv_send (o : Orchestrator R) (S C : List (List Char)) (id : List Char) (hI : Inv o)
    (hH : History o S C) :
    Inv (o.send id) ∧ History (o.send id) (S ++ o.sent (.send id)) C := by
  by_cases hm : id ∈ o.Sending
  · have hs : o.send id =
        { o with Sending := o.Sending.erase id, ReadyTasks := o.ReadyTasks ++ [id] } := by
      unfold Orchestrator.send
      rw [if_pos hm]
    have hsent : o.sent (.send id) = [id] := by
      simp only [Orchestrator.sent, Orchestrator.step]
      rw [hs]
      simp
    have hsn := hI.sendingNodup
    rw [List.nodup_append] at hsn
    have hidQ : id ∉ o.ReadyTasks := fun h => hsn.2.2 hm h
    have hidE : id ∉ o.Sending.erase id := fun h => ((List.Nodup.mem_erase_iff hsn.1).1 h).1 rfl
    have hqn : (o.ReadyTasks ++ [id]).Nodup := by
      rw [List.nodup_append]
      refine ⟨hI.queueNodup, by simp, ?_⟩
      intro a ha hb
      rw [List.mem_singleton] at hb
      exact hidQ (hb ▸ ha)
    rw [hsent, hs]
    refine ⟨⟨hI.keys, hqn, ?_, ?_, ?_⟩, ⟨?_, ?_, ?_, hH.claimedStatus, hH.claimedNodup⟩⟩
    · intro a ha
      show o.statusOf a = some StatusReady
      rcases List.mem_append.1 ha with ha | ha
      · exact hI.queueReady a ha
      · rw [List.mem_singleton] at ha
        rw [ha]
        exact hI.sendingReady id hm
    · show (o.Sending.erase id ++ (o.ReadyTasks ++ [id])).Nodup
      rw [List.nodup_append]
      refine ⟨hsn.1.erase id, hqn, ?_⟩
      intro a ha hb
      rcases List.mem_append.1 hb with hb | hb
      · exact hsn.2.2 (List.mem_of_mem_erase ha) hb
      · rw [List.mem_singleton] at hb
        exact hidE (hb ▸ ha)
    · intro a ha
      show o.statusOf a = some StatusReady
      exact hI.sendingReady a (List.mem_of_mem_erase ha)
    · intro a ha
      show ∃ t, getTask o.Tasks a = some t ∧ t.Status ≠ StatusPending
      rcases List.mem_append.1 ha with ha | ha
      · exact hH.sentStatus a ha
      · rw [List.mem_singleton] at ha
        obtain ⟨u, hu, hr⟩ := (Orchestrator.statusOf_eq o id _).1 (hI.sendingReady id hm)
        refine ⟨u, by rw [ha]; exact hu, ?_⟩
        rw [hr]
        decide
    · rw [List.nodup_append]
      refine ⟨hH.sentNodup, by simp, ?_⟩
      intro a ha hb
      rw [List.mem_singleton] at hb
      exact hH.sentOnce a ha (hb ▸ hm)
    · intro a ha hb
      change a ∈ o.Sending.erase id at hb
      rcases List.mem_append.1 ha with ha | ha
      · exact hH.sentOnce a ha (List.mem_of_mem_erase hb)
      · rw [List.mem_singleton] at ha
        exact hidE (ha ▸ hb)
  · have hs : o.send id = o := by
      unfold Orchestrator.send
      rw [if_neg hm]
    have hsent : o.sent (.send id) = [] := by
      simp only [Orchestrator.sent, Orchestrator.step]
      rw [hs]
      simp
    rw [hsent, hs, List.append_nil]
    exact ⟨hI, hH⟩

/-- Every step preserves the invariants and extends the record of the run. -/
theorem Inv_step (o : Orchestrator R) (S C : List (List Char)) (op : Op R) (hI : Inv o)
    (hH : History o S C) :
    Inv (o.step op) ∧ History (o.step op) (S ++ o.sent op) (C ++ o.claimed op) := by
  cases op with
  | addExpression expr =>
    have := Inv_addExpression o S C expr hI hH
    simpa [Orchestrator.step, Orchestrator.claimed] using this
  | getNextTask =>
    have := Inv_getNextTask o S C hI hH
    simpa [Orchestrator.step, Orchestrator.sent] using this
  | processTaskResult x r order =>
    have := Inv_processTaskResult o S C x r order hI hH
    simpa [Orchestrator.step, Orchestrator.claimed] using this
  | send id =>
    have := Inv_send o S C id hI hH
    simpa [Orchestrator.step, Orchestrator.claimed] using this

theorem Inv_run (ops : List (Op R)) (o : Orchestrator R) (S C : List (List Char)) (hI : Inv o)
    (hH : History o S C) :
    Inv (o.run ops) ∧
      History (o.run ops) (S ++ o.sentDuring ops) (C ++ o.claimedDuring ops) := by
  induction ops generalizing o S C with
  | nil => simpa [Orchestrator.run, Orchestrator.sentDuring, Orchestrator.claimedDuring] using
      And.intro hI hH
  | cons op ops ih =>
    obtain ⟨h1, h2⟩ := Inv_step o S C op hI hH
    have := ih (o.step op) _ _ h1 h2
    simpa [Orchestrator.run, Orchestrator.sentDuring, Orchestrator.claimedDuring,
      List.append_assoc] using this

theorem Inv_of_Reachable {o : Orchestrator R} (h : Reachable o) : Inv o := by
  induction h with
  | init a b c d => exact Inv_New a b c d
  | step o op _ ih => exact (Inv_step o [] [] op ih (History_nil o)).1

theorem Reachable_run (ops : List (Op R)) (o : Orchestrator R) (h : Reachable o) :
    Reachable (o.run ops) := by
  induction ops generalizing o with
  | nil => exact h
  | cons op ops ih => exact ih _ (Reachable.step o op h)

/-! ## C8 and C10: the ready queue -/

/-- C8.  In every reachable state `GetNextTask` returns `ErrNoTasksAvailable`
exactly when the ready queue is empty, and then changes nothing; otherwise
the head of the queue is a `ready` task, the call returns it, removes it
from the queue, sets its status (and nothing else of it) to `in_progress`,
adds its id to `ProcessingTasks`, and leaves every other task, the
expressions, the counters and the rest of the queue unchanged. -/
theorem C8_GetNextTask_is_fifo (o : Orchestrator R) (h : Reachable o) :
    (o.GetNextTask.2 = .error .ErrNoTasksAvailable ↔ o.ReadyTasks = []) ∧
    (o.ReadyTasks = [] → o.GetNextTask.1 = o) ∧
    (∀ id rest, o.ReadyTasks = id :: rest →
      ∃ t, getTask o.Tasks id = some t ∧ t.Status = StatusReady ∧
        o.GetNextTask.2 = .ok { t with Status := StatusProgress } ∧
        o.GetNextTask.1.ReadyTasks = rest ∧
        getTask o.GetNextTask.1.Tasks id = some { t with Status := StatusProgress } ∧
        (∀ id', id' ≠ id → getTask o.GetNextTask.1.Tasks id' = getTask o.Tasks id') ∧
        o.GetNextTask.1.Tasks.map (·.ID) = o.Tasks.map (·.ID) ∧
        (∀ k, k ∈ o.GetNextTask.1.ProcessingTasks ↔ k = id ∨ k ∈ o.ProcessingTasks) ∧
        o.GetNextTask.1.Expressions = o.Expressions ∧
        o.GetNextTask.1.ExpressionCounter = o.ExpressionCounter ∧
        o.GetNextTask.1.TaskCounter = o.TaskCounter) := by
  have hI := Inv_of_Reachable h
  have hhead : ∀ id rest, o.ReadyTasks = id :: rest →
      ∃ t, getTask o.Tasks id = some t ∧ t.Status = StatusReady ∧
        o.GetNextTask =
          ({ o with ReadyTasks := rest
                    Tasks := updateTask o.Tasks id (fun t => { t with Status := StatusProgress })
                    ProcessingTasks :=
                      if id ∈ o.ProcessingTasks then o.ProcessingTasks
                      else o.ProcessingTasks ++ [id] },
            .ok { t with Status := StatusProgress }) := by
    intro id rest hq
    have hready := hI.queueReady id (by rw [hq]; exact List.mem_cons_self _ _)
    obtain ⟨t, ht, hs⟩ := (Orchestrator.statusOf_eq o id _).1 hready
    exact ⟨t, ht, hs, Orchestrator.GetNextTask_ready o id rest t hq ht hs⟩
  refine ⟨?_, ?_, ?_⟩
  · constructor
    · intro he
      cases hq : o.ReadyTasks with
      | nil => rfl
      | cons id rest =>
        obtain ⟨t, -, -, hg⟩ := hhead id rest hq
        rw [hg] at he
        cases he
    · intro hq
      rw [Orchestrator.GetNextTask_empty o hq]
  · intro hq
    rw [Orchestrator.GetNextTask_empty o hq]
  · intro id rest hq
    obtain ⟨t, ht, hs, hg⟩ := hhead id rest hq
    refine ⟨t, ht, hs, ?_, ?_, ?_, ?_, ?_, ?_, ?_, ?_, ?_⟩
    · rw [hg]
    · rw [hg]
    · rw [hg]
      simp only
      rw [getTask_updateTask]
      · simp [ht]
      · intro u hu; exact hu
    · intro id' hne
      rw [hg]
      simp only
      rw [getTask_updateTask]
      · simp [hne]
      · intro u hu; exact hu
    · rw [hg]
      simp only
      rw [map_ID_updateTask]
      intro u hu; exact hu
    · intro k
      rw [hg]
      simp only
      split_ifs with hm
      · constructor
        · exact Or.inr
        · rintro (rfl | hk)
          · exact hm
          · exact hk
      · rw [List.mem_append, List.mem_singleton]
        exact or_comm
    · rw [hg]
    · rw [hg]
    · rw [hg]

/-- C8 at a concrete state: after `(1+2)*(3+4)` was submitted to a fresh
orchestrator and the goroutine of `task-2` has sent while that of `task-1`
has not, the queue holds `task-2` alone, and `task-1` is `ready` and in no
queue. -/
theorem C8_GetNextTask_is_fifo_witness :
    Reachable secondSentFirst ∧
    secondSentFirst.ReadyTasks = [taskID 2] ∧
    secondSentFirst.Sending = [taskID 1] ∧
    secondSentFirst.statusOf (taskID 1) = some StatusReady ∧
    (secondSentFirst.GetNextTask.2 = .error .ErrNoTasksAvailable ↔
      secondSentFirst.ReadyTasks = []) ∧
    (∀ id rest, secondSentFirst.ReadyTasks = id :: rest →
      ∃ t, getTask secondSentFirst.Tasks id = some t ∧ t.Status = StatusReady ∧
        secondSentFirst.GetNextTask.2 = .ok { t with Status := StatusProgress } ∧
        secondSentFirst.GetNextTask.1.ReadyTasks = rest ∧
        getTask secondSentFirst.GetNextTask.1.Tasks id =
          some { t with Status := StatusProgress } ∧
        (∀ id', id' ≠ id →
          getTask secondSentFirst.GetNextTask.1.Tasks id' = getTask secondSentFirst.Tasks id') ∧
        secondSentFirst.GetNextTask.1.Tasks.map (·.ID) = secondSentFirst.Tasks.map (·.ID) ∧
        (∀ k, k ∈ secondSentFirst.GetNextTask.1.ProcessingTasks ↔
          k = id ∨ k ∈ secondSentFirst.ProcessingTasks) ∧
        secondSentFirst.GetNextTask.1.Expressions = secondSentFirst.Expressions ∧
        secondSentFirst.GetNextTask.1.ExpressionCounter = secondSentFirst.ExpressionCounter ∧
        secondSentFirst.GetNextTask.1.TaskCounter = secondSentFirst.TaskCounter) :=
  ⟨Reachable_run _ _ (Reachable.init _ _ _ _), by decide, by decide, by decide,
    (C8_GetNextTask_is_fifo secondSentFirst
      (Reachable_run _ _ (Reachable.init _ _ _ _))).1,
    (C8_GetNextTask_is_fifo secondSentFirst
      (Reachable_run _ _ (Reachable.init _ _ _ _))).2.2⟩

theorem step_ReadyTasks (o : Orchestrator R) (op : Op R) :
    (o.step op).ReadyTasks =
      match op with
      | .getNextTask => o.ReadyTasks.tail
      | _ => o.ReadyTasks ++ o.sent op := by
  cases op with
  | getNextTask =>
    simp only [Orchestrator.step]
    cases hq : o.ReadyTasks with
    | nil => rw [Orchestrator.GetNextTask_empty o hq, hq]; rfl
    | cons id rest =>
      by_cases hs : ∃ t, getTask o.Tasks id = some t ∧ t.Status = StatusReady
      · obtain ⟨t, ht, hs⟩ := hs
        rw [Orchestrator.GetNextTask_ready o id rest t hq ht hs]
        rfl
      · rw [Orchestrator.GetNextTask_stale o id rest hq (fun t ht hst => hs ⟨t, ht, hst⟩)]
        rfl
  | addExpression expr =>
    simp only [Orchestrator.step, Orchestrator.sent]
    rcases Orchestrator.AddExpression_effect o expr with ⟨err, he⟩ | ⟨new, -, -, -, -, hq, -⟩
    · rw [he]
      simp [Orchestrator.countExpression]
    · rw [hq.1]
      simp
  | send x =>
    simp only [Orchestrator.step, Orchestrator.sent]
    unfold Orchestrator.send
    split_ifs <;> simp
  | processTaskResult x r order =>
    simp only [Orchestrator.step, Orchestrator.sent]
    by_cases hv : ∃ t, getTask o.Tasks x = some t ∧ t.Status = StatusProgress
    · obtain ⟨t, ht, hs⟩ := hv
      obtain ⟨new, hq, -, -⟩ := Orchestrator.ProcessTaskResult_ReadyTasks o x r order t ht hs
      rw [hq, List.drop_left]
    · rw [Orchestrator.ProcessTaskResult_invalid o x r order (fun t ht hs => hv ⟨t, ht, hs⟩)]
      simp

/-- C10.  Over every sequence of `AddExpression`, `GetNextTask` and
`ProcessTaskResult` calls starting from `NewOrchestrator`, with the sends of
the goroutines of `AddExpression` at any places between them and in any
order: the ready queue changes only by a claim taking its head and by the
other steps appending the ids they send; no id is sent to the queue twice
during the run; the queue never holds an id twice and every queued task is
`ready`; and `GetNextTask` never returns the same task id twice. -/
theorem C10_unique_enqueue_and_dispatch (timeAddition timeSubtraction timeMultiplication
    timeDivision : Int) (ops : List (Op R)) :
    (∀ (o : Orchestrator R) (op : Op R),
      (o.step op).ReadyTasks =
        match op with
        | .getNextTask => o.ReadyTasks.tail
        | _ => o.ReadyTasks ++ o.sent op) ∧
    ((NewOrchestrator timeAddition timeSubtraction timeMultiplication timeDivision :
      Orchestrator R).sentDuring ops).Nodup ∧
    ((NewOrchestrator timeAddition timeSubtraction timeMultiplication timeDivision :
      Orchestrator R).run ops).ReadyTasks.Nodup ∧
    (∀ id ∈ ((NewOrchestrator timeAddition timeSubtraction timeMultiplication timeDivision :
        Orchestrator R).run ops).ReadyTasks,
      ((NewOrchestrator timeAddition timeSubtraction timeMultiplication timeDivision :
        Orchestrator R).run ops).statusOf id = some StatusReady) ∧
    ((NewOrchestrator timeAddition timeSubtraction timeMultiplication timeDivision :
      Orchestrator R).claimedDuring ops).Nodup := by
  obtain ⟨hI, hH⟩ := Inv_run ops
    (NewOrchestrator timeAddition timeSubtraction timeMultiplication timeDivision :
      Orchestrator R) [] [] (Inv_New _ _ _ _) (History_nil _)
  rw [List.nil_append, List.nil_append] at hH
  exact ⟨step_ReadyTasks, hH.sentNodup, hI.queueNodup, hI.queueReady, hH.claimedNodup⟩

/-! ## C1, part 1: `tokenize` on the text of an expression -/

theorem tokenizeLoop_fuel (f1 f2 : Nat) (s : List Char) (i : Nat) (tokens : List Token)
    (prev : Token) (h1 : s.length ≤ f1) (h2 : s.length ≤ f2) :
    tokenizeLoop f1 s i tokens prev = tokenizeLoop f2 s i tokens prev := by
  induction f1 generalizing f2 s i tokens prev with
  | zero =>
    cases s with
    | nil => cases f2 <;> simp [tokenizeLoop]
    | cons ch rest => simp at h1
  | succ n ih =>
    cases s with
    | nil => cases f2 <;> simp [tokenizeLoop]
    | cons ch rest =>
      cases f2 with
      | zero => simp at h2
      | succ m =>
        have hl1 : rest.length ≤ n := by simpa using h1
        have hl2 : rest.length ≤ m := by simpa using h2
        rw [tokenizeLoop, tokenizeLoop]
        split_ifs with c1 c2 c3 c4 c5 c6 c7
        · exact ih _ _ _ _ _ hl1 hl2
        · exact ih _ _ _ _ _ hl1 hl2
        · exact ih _ _ _ _ _ hl1 hl2
        · rfl
        · rfl
        · exact ih _ _ _ _ _ hl1 hl2
        · cases hs : scanNumber (ch :: rest) i 0 [] with
          | error e => rfl
          | ok r =>
            obtain ⟨num, rest', j⟩ := r
            have hsuf := scanNumber_shorter c7 hs
            exact ih _ _ _ _ _ (le_trans hsuf.length_le hl1) (le_trans hsuf.length_le hl2)
        · rfl

theorem tokenize_eq_lex (s : List Char) : tokenize s = lex s 0 [] Token.zero := rfl

theorem lex_nil (i : Nat) (tokens : List Token) (prev : Token) :
    lex [] i tokens prev = .ok tokens := by
  simp [lex, tokenizeLoop]

theorem lex_space (ch : Char) (rest : List Char) (i : Nat) (tokens : List Token) (prev : Token)
    (h : isSpace ch = true) :
    lex (ch :: rest) i tokens prev = lex rest (i + 1) tokens prev := by
  unfold lex
  rw [List.length_cons, tokenizeLoop, if_pos h]

theorem lex_spaces (ws rest : List Char) (i : Nat) (tokens : List Token) (prev : Token)
    (h : ws.all isSpace = true) :
    lex (ws ++ rest) i tokens prev = lex rest (i + ws.length) tokens prev := by
  induction ws generalizing i with
  | nil => rfl
  | cons ch ws ih =>
    rw [List.all_cons, Bool.and_eq_true] at h
    rw [List.cons_append, lex_space _ _ _ _ _ h.1, ih _ h.2, List.length_cons]
    congr 1
    omega

theorem lex_leftParen (rest : List Char) (i : Nat) (tokens : List Token) (prev : Token) :
    lex ('(' :: rest) i tokens prev =
      lex rest (i + 1) (tokens ++ [Token.leftParen]) Token.leftParen := by
  unfold lex
  rw [List.length_cons, tokenizeLoop, if_neg (by decide), if_pos rfl]
  rfl

theorem lex_rightParen (rest : List Char) (i : Nat) (tokens : List Token) (prev : Token) :
    lex (')' :: rest) i tokens prev =
      lex rest (i + 1) (tokens ++ [Token.rightParen]) Token.rightParen := by
  unfold lex
  rw [List.length_cons, tokenizeLoop, if_neg (by decide), if_neg (by decide), if_pos rfl]
  rfl

/-- A binary operator after a number or a right parenthesis. -/
theorem lex_binary (op : BinOp) (rest : List Char) (i : Nat) (tokens : List Token)
    (prev : Token) (hne : tokens ≠ [])
    (hprev : prev.Typ = TokenNumber ∨ prev.Typ = TokenRightParen) :
    lex (op.char :: rest) i tokens prev =
      lex rest (i + 1) (tokens ++ [Token.binary op]) (Token.binary op) := by
  have hu : isUnary op.char tokens prev = false := by
    unfold isUnary
    have h0 : (tokens.length == 0) = false := by
      cases tokens with
      | nil => exact absurd rfl hne
      | cons a t => rfl
    rcases hprev with h | h <;> simp [h, h0]
  have hp : (prev.Typ == TokenOperator) = false := by
    rcases hprev with h | h <;> simp [h]
  unfold lex
  rw [List.length_cons, tokenizeLoop]
  have hs : isSpace op.char = false := by cases op <;> decide
  have h1 : ¬ op.char = '(' := by cases op <;> decide
  have h2 : ¬ op.char = ')' := by cases op <;> decide
  have h3 : isOperatorChar op.char = true := by cases op <;> decide
  rw [if_neg (by simp [hs]), if_neg h1, if_neg h2, if_pos h3, hu]
  simp only [Bool.false_and, Bool.false_eq_true, if_false, Bool.not_false, Bool.true_and, hp]
  rfl
theorem digitOrDot_facts (c : Char) (h : (isDigit c || c == '.') = true) :
    isSpace c = false ∧ c ≠ '(' ∧ c ≠ ')' ∧ isOperatorChar c = false := by
  rw [Bool.or_eq_true] at h
  rcases h with h | h
  · simp only [isDigit, Bool.and_eq_true, decide_eq_true_eq] at h
    refine ⟨?_, ?_, ?_, ?_⟩
    · simp only [isSpace, Bool.or_eq_false_iff, beq_eq_false_iff_ne]
      omega
    · rintro rfl; revert h; decide
    · rintro rfl; revert h; decide
    · simp only [isOperatorChar, Bool.or_eq_false_iff, beq_eq_false_iff_ne]
      refine ⟨⟨⟨?_, ?_⟩, ?_⟩, ?_⟩ <;> (rintro rfl; revert h; decide)
  · have : c = '.' := by simpa using h
    subst this
    decide

theorem scanNumber_literal (v s : List Char) (i d : Nat) (acc : List Char)
    (hv : ∀ c ∈ v, (isDigit c || c == '.') = true) (hd : d + v.count '.' ≤ 1)
    (hs : ∀ c, s.head? = some c → (isDigit c || c == '.') = false) :
    scanNumber (v ++ s) i d acc = .ok (acc ++ v, s, i + v.length) := by
  induction v generalizing i d acc with
  | nil =>
    cases s with
    | nil => simp [scanNumber]
    | cons c rest =>
      have := hs c rfl
      rw [List.nil_append, scanNumber, if_neg (by simp [this])]
      simp
  | cons c v ih =>
    have hc := hv c (List.mem_cons_self _ _)
    have hv' : ∀ x ∈ v, (isDigit x || x == '.') = true :=
      fun x hx => hv x (List.mem_cons_of_mem _ hx)
    rw [List.cons_append, scanNumber, if_pos hc]
    by_cases hdot : (c == '.') = true
    · have hceq : c = '.' := by simpa using hdot
      rw [if_pos hdot]
      rw [hceq, List.count_cons_self] at hd
      rw [if_neg (by omega), ih _ _ _ hv' (by rw [hceq] at *; omega)]
      simp only [List.append_assoc, List.singleton_append, List.length_cons]
      congr 3
      omega
    · rw [if_neg hdot]
      rw [List.count_cons, if_neg hdot] at hd
      rw [ih _ _ _ hv' (by simpa using hd)]
      simp only [List.append_assoc, List.singleton_append, List.length_cons]
      congr 3
      omega

theorem isLiteral_facts {v : List Char} (h : Expr.isLiteral v = true) :
    (∀ c ∈ v, (isDigit c || c == '.') = true) ∧ v.count '.' ≤ 1 ∧ v ≠ [] := by
  simp only [Expr.isLiteral, Bool.and_eq_true, List.all_eq_true, decide_eq_true_eq,
    List.any_eq_true] at h
  refine ⟨h.1.1, h.1.2, ?_⟩
  obtain ⟨c, hc, -⟩ := h.2
  exact List.ne_nil_of_mem hc

/-- A literal followed by something that is neither a digit nor a dot. -/
theorem lex_number (v s : List Char) (i : Nat) (tokens : List Token) (prev : Token)
    (hv : Expr.isLiteral v = true)
    (hs : ∀ c, s.head? = some c → (isDigit c || c == '.') = false) :
    lex (v ++ s) i tokens prev =
      lex s (i + v.length) (tokens ++ [Token.number v]) (Token.number v) := by
  obtain ⟨hall, hcount, hne⟩ := isLiteral_facts hv
  cases v with
  | nil => exact absurd rfl hne
  | cons c v' =>
    have hc := hall c (List.mem_cons_self _ _)
    obtain ⟨f1, f2, f3, f4⟩ := digitOrDot_facts c hc
    have hscan := scanNumber_literal (c :: v') s i 0 [] hall (by simpa using hcount) hs
    rw [List.cons_append] at hscan ⊢
    unfold lex
    rw [List.length_cons, tokenizeLoop, if_neg (by simp [f1]), if_neg f2, if_neg f3,
      if_neg (by simp [f4]), if_pos hc, hscan]
    simp only [List.nil_append]
    exact tokenizeLoop_fuel _ _ _ _ _ _ (by simp) (le_refl _)

theorem Expr.lastToken_Typ (e : Expr) (hb : e.binaryOnly = true) :
    e.lastToken.Typ = TokenNumber ∨ e.lastToken.Typ = TokenRightParen := by
  induction e with
  | num v ws => exact Or.inl rfl
  | bin op l ws r _ ihr =>
    simp only [Expr.binaryOnly, Bool.and_eq_true] at hb
    exact ihr hb.2
  | neg e _ => simp [Expr.binaryOnly] at hb
  | pos e _ => simp [Expr.binaryOnly] at hb
  | paren ws1 e ws2 _ => exact Or.inr rfl

theorem Expr.tokens_ne_nil (e : Expr) : e.tokens ≠ [] := by
  cases e <;> simp [Expr.tokens]

theorem stops_of_spaces (ws s : List Char) (hws : ws.all isSpace = true)
    (hs : ∀ c, s.head? = some c → (isDigit c || c == '.') = false) :
    ∀ c, (ws ++ s).head? = some c → (isDigit c || c == '.') = false := by
  cases ws with
  | nil => simpa using hs
  | cons w ws =>
    intro c hc
    rw [List.all_cons, Bool.and_eq_true] at hws
    simp only [List.cons_append, List.head?_cons, Option.some.injEq] at hc
    subst hc
    cases hcon : (isDigit w || w == '.') with
    | false => rfl
    | true =>
      have := (digitOrDot_facts w hcon).1
      rw [hws.1] at this
      cases this

/-- The loop of `tokenize` reads the text of a well-formed expression
without unary operators as its token stream. -/
theorem lex_render (e : Expr) (hwf : e.wellFormed = true) (hb : e.binaryOnly = true)
    (s : List Char) (i : Nat) (tokens : List Token) (prev : Token)
    (hs : ∀ c, s.head? = some c → (isDigit c || c == '.') = false) :
    lex (e.render ++ s) i tokens prev =
      lex s (i + e.render.length) (tokens ++ e.tokens) e.lastToken := by
  induction e generalizing s i tokens prev with
  | num v ws =>
    simp only [Expr.wellFormed, Bool.and_eq_true] at hwf
    rw [Expr.render, List.append_assoc, lex_number _ _ _ _ _ hwf.1 (stops_of_spaces _ _ hwf.2 hs),
      lex_spaces _ _ _ _ _ hwf.2, List.length_append, Nat.add_assoc]
    rfl
  | bin op l ws r ihl ihr =>
    simp only [Expr.wellFormed, Bool.and_eq_true, decide_eq_true_eq] at hwf
    simp only [Expr.binaryOnly, Bool.and_eq_true] at hb
    obtain ⟨⟨⟨⟨wl, wr⟩, hws⟩, -⟩, -⟩ := hwf
    have hopstop : ∀ c, (op.char :: (ws ++ (r.render ++ s))).head? = some c →
        (isDigit c || c == '.') = false := by
      intro c hc
      simp only [List.head?_cons, Option.some.injEq] at hc
      subst hc
      cases op <;> decide
    rw [Expr.render, List.append_assoc, List.cons_append, List.append_assoc,
      ihl wl hb.1 _ _ _ _ hopstop,
      lex_binary _ _ _ _ _ (by simp [Expr.tokens_ne_nil]) (Expr.lastToken_Typ l hb.1),
      lex_spaces _ _ _ _ _ hws, ihr wr hb.2 _ _ _ _ hs]
    simp only [Expr.tokens, Expr.lastToken, Expr.render, List.length_append, List.length_cons,
      List.append_assoc, List.singleton_append]
    congr 1
    omega
  | neg e _ => simp [Expr.binaryOnly] at hb
  | pos e _ => simp [Expr.binaryOnly] at hb
  | paren ws1 e ws2 ih =>
    simp only [Expr.wellFormed, Bool.and_eq_true] at hwf
    simp only [Expr.binaryOnly] at hb
    obtain ⟨⟨we, h1⟩, h2⟩ := hwf
    have hpstop : ∀ c, (')' :: (ws2 ++ s)).head? = some c →
        (isDigit c || c == '.') = false := by
      intro c hc
      simp only [List.head?_cons, Option.some.injEq] at hc
      subst hc
      decide
    rw [Expr.render, List.cons_append, List.append_assoc, List.append_assoc, List.cons_append,
      lex_leftParen, lex_spaces _ _ _ _ _ h1, ih we hb _ _ _ _ hpstop, lex_rightParen,
      lex_spaces _ _ _ _ _ h2]
    simp only [Expr.tokens, Expr.lastToken, Expr.render, List.length_append, List.length_cons,
      List.append_assoc, List.singleton_append, List.cons_append]
    congr 1
    omega

/-- `tokenize` on the text of a well-formed expression without unary
operators, after leading white space, returns its token stream. -/
theorem tokenize_render (e : Expr) (hwf : e.wellFormed = true) (hb : e.binaryOnly = true)
    (lead : List Char) (hlead : lead.all isSpace = true) :
    tokenize (lead ++ e.render) = .ok e.tokens := by
  rw [tokenize_eq_lex, lex_spaces _ _ _ _ _ hlead]
  have := lex_render e hwf hb [] (0 + lead.length) [] Token.zero (by simp)
  rw [List.append_nil] at this
  rw [this, lex_nil, List.nil_append]

/-! ## C1, part 2: `toRPN` on the token stream of an expression -/

theorem operatorPrecedence_char (op : BinOp) : operatorPrecedence [op.char] = op.prec := by
  cases op <;> decide

theorem operatorPrecedence_le_two (v : List Char) : operatorPrecedence v ≤ 2 := by
  unfold operatorPrecedence
  split_ifs <;> omega

theorem stackBelow_three (st : List Token) : stackBelow st 3 := by
  cases st with
  | nil => trivial
  | cons top st =>
    intro h
    have := operatorPrecedence_le_two top.Value
    omega

theorem stackBelow_mono {st : List Token} {p q : Nat} (h : stackBelow st p) (hpq : p ≤ q) :
    stackBelow st q := by
  cases st with
  | nil => trivial
  | cons top st =>
    intro hq
    exact h ⟨hq.1, le_trans hpq hq.2⟩

theorem toRPNLoop_number (v : List Char) (ts out st : List Token) :
    toRPNLoop (Token.number v :: ts) out st = toRPNLoop ts (out ++ [Token.number v]) st := by
  rw [toRPNLoop]
  rfl

theorem toRPNLoop_binary (op : BinOp) (ts out st : List Token) :
    toRPNLoop (Token.binary op :: ts) out st =
      toRPNLoop ts (popOperators (Token.binary op) st out).2
        (Token.binary op :: (popOperators (Token.binary op) st out).1) := by
  rw [toRPNLoop]
  rfl

theorem toRPNLoop_leftParen (ts out st : List Token) :
    toRPNLoop (Token.leftParen :: ts) out st = toRPNLoop ts out (Token.leftParen :: st) := by
  rw [toRPNLoop]
  rfl

theorem toRPNLoop_rightParen (ts out st out' st' : List Token)
    (h : popToLeftParen st out = some (st', out')) :
    toRPNLoop (Token.rightParen :: ts) out st = toRPNLoop ts out' st' := by
  rw [toRPNLoop]
  simp only [Token.rightParen, h]

/-- Operators of precedence at least that of `op` are popped to the output,
down to a stack that does not stop `op`. -/
theorem popOperators_pending (op : BinOp) (P st out : List Token)
    (hP : ∀ t ∈ P, ∃ op' : BinOp, t = Token.binary op' ∧ op.prec ≤ op'.prec)
    (hst : stackBelow st op.prec) :
    popOperators (Token.binary op) (P ++ st) out = (st, out ++ P) := by
  induction P generalizing out with
  | nil =>
    cases st with
    | nil => simp [popOperators]
    | cons top st =>
      rw [List.nil_append, popOperators, if_neg]
      · simp
      · intro h
        apply hst
        refine ⟨h.1, ?_⟩
        have := h.2
        simp only [Token.binary, operatorPrecedence_char] at this
        exact this
  | cons t P ih =>
    obtain ⟨op', rfl, hle⟩ := hP t (List.mem_cons_self _ _)
    rw [List.cons_append, popOperators, if_pos]
    · rw [ih _ (fun t ht => hP t (List.mem_cons_of_mem _ ht))]
      simp
    · refine ⟨rfl, ?_⟩
      simp only [Token.binary, operatorPrecedence_char]
      exact hle

theorem popToLeftParen_pending (P st out : List Token)
    (hP : ∀ t ∈ P, ∃ op' : BinOp, t = Token.binary op') :
    popToLeftParen (P ++ Token.leftParen :: st) out = some (st, out ++ P) := by
  induction P generalizing out with
  | nil => simp [popToLeftParen, Token.leftParen]
  | cons t P ih =>
    obtain ⟨op', rfl⟩ := hP t (List.mem_cons_self _ _)
    rw [List.cons_append, popToLeftParen, if_neg (by simp [Token.binary])]
    rw [ih _ (fun t ht => hP t (List.mem_cons_of_mem _ ht))]
    simp

theorem drainOperators_pending (P out : List Token)
    (hP : ∀ t ∈ P, ∃ op' : BinOp, t = Token.binary op') :
    drainOperators P out = .ok (out ++ P) := by
  induction P generalizing out with
  | nil => simp [drainOperators]
  | cons t P ih =>
    obtain ⟨op', rfl⟩ := hP t (List.mem_cons_self _ _)
    rw [drainOperators, if_neg (by simp [Token.binary])]
    rw [ih _ (fun t ht => hP t (List.mem_cons_of_mem _ ht))]
    simp

theorem Expr.emitted_append_pending (e : Expr) : e.emitted ++ e.pending = e.rpn := by
  induction e with
  | num v ws => simp [Expr.emitted, Expr.pending]
  | bin op l ws r _ ihr =>
    simp only [Expr.emitted, Expr.pending, Expr.rpn, List.append_assoc]
    rw [← List.append_assoc r.emitted, ihr]
  | neg e _ => simp [Expr.emitted, Expr.pending]
  | pos e _ => simp [Expr.emitted, Expr.pending]
  | paren ws1 e ws2 _ => simp [Expr.emitted, Expr.pending]

theorem Expr.pending_binary (e : Expr) (hwf : e.wellFormed = true) :
    ∀ t ∈ e.pending, ∃ op' : BinOp, t = Token.binary op' ∧ e.level ≤ op'.prec := by
  induction e with
  | num v ws => simp [Expr.pending]
  | bin op l ws r _ ihr =>
    simp only [Expr.wellFormed, Bool.and_eq_true, decide_eq_true_eq] at hwf
    intro t ht
    simp only [Expr.pending, List.mem_append, List.mem_singleton] at ht
    rcases ht with ht | rfl
    · obtain ⟨op', h1, h2⟩ := ihr hwf.1.1.1.2 t ht
      exact ⟨op', h1, by simp only [Expr.level]; omega⟩
    · exact ⟨op, rfl, le_refl _⟩
  | neg e _ => simp [Expr.pending]
  | pos e _ => simp [Expr.pending]
  | paren ws1 e ws2 _ => simp [Expr.pending]

/-- `toRPN` reads the token stream of a well-formed expression without unary
operators: it outputs `emitted` and keeps `pending` on its stack. -/
theorem toRPNLoop_tokens (e : Expr) (hwf : e.wellFormed = true) (hb : e.binaryOnly = true)
    (ts out st : List Token) (hst : stackBelow st e.level) :
    toRPNLoop (e.tokens ++ ts) out st = toRPNLoop ts (out ++ e.emitted) (e.pending ++ st) := by
  induction e generalizing ts out st with
  | num v ws =>
    simp only [Expr.tokens, Expr.emitted, Expr.pending, Expr.rpn, List.singleton_append,
      List.nil_append, toRPNLoop_number]
  | bin op l ws r ihl ihr =>
    have hwf' := hwf
    simp only [Expr.wellFormed, Bool.and_eq_true, decide_eq_true_eq] at hwf
    simp only [Expr.binaryOnly, Bool.and_eq_true] at hb
    obtain ⟨⟨⟨⟨wl, wr⟩, -⟩, hll⟩, hlr⟩ := hwf
    simp only [Expr.level] at hst
    rw [Expr.tokens, List.append_assoc, List.cons_append,
      ihl wl hb.1 _ _ _ (stackBelow_mono hst hll), toRPNLoop_binary,
      popOperators_pending op l.pending st _
        (fun t ht => by
          obtain ⟨op', h1, h2⟩ := Expr.pending_binary l wl t ht
          exact ⟨op', h1, le_trans hll h2⟩) hst]
    simp only
    rw [ihr wr hb.2 _ _ _ (by
      intro h
      simp only [Token.binary, operatorPrecedence_char] at h
      omega)]
    simp only [Expr.emitted, Expr.pending, List.append_assoc, List.singleton_append]
    rw [← List.append_assoc l.emitted, Expr.emitted_append_pending]
  | neg e _ => simp [Expr.binaryOnly] at hb
  | pos e _ => simp [Expr.binaryOnly] at hb
  | paren ws1 e ws2 ih =>
    simp only [Expr.wellFormed, Bool.and_eq_true] at hwf
    simp only [Expr.binaryOnly] at hb
    rw [Expr.tokens, List.cons_append, toRPNLoop_leftParen, List.append_assoc,
      ih hwf.1.1 hb _ _ _ (by intro h; simp [Token.leftParen] at h), List.singleton_append,
      toRPNLoop_rightParen _ _ _ _ _ (popToLeftParen_pending _ _ _
        (fun t ht => by
          obtain ⟨op', h1, -⟩ := Expr.pending_binary e hwf.1.1 t ht
          exact ⟨op', h1⟩))]
    simp only [Expr.emitted, Expr.pending, List.nil_append, List.append_assoc,
      Expr.emitted_append_pending, Expr.rpn]

/-- `toRPN` turns the token stream of a well-formed expression without unary
operators into its postfix form. -/
theorem toRPN_tokens (e : Expr) (hwf : e.wellFormed = true) (hb : e.binaryOnly = true) :
    toRPN e.tokens = .ok e.rpn := by
  have := toRPNLoop_tokens e hwf hb [] [] [] trivial
  rw [List.append_nil, List.append_nil, List.nil_append] at this
  unfold toRPN
  rw [this, toRPNLoop, drainOperators_pending _ _ (fun t ht => by
    obtain ⟨op', h1, -⟩ := Expr.pending_binary e hwf t ht
    exact ⟨op', h1⟩), Expr.emitted_append_pending]

/-! ## C1, part 3: the tasks built from the postfix form and their value -/

theorem parseExpressionLoop_rpn (e : Expr) (hb : e.binaryOnly = true) (eid : List Char)
    (ts : List Token) (stack : List (List Char)) (tasks : List (Task R)) (c : Nat) :
    parseExpressionLoop eid (e.rpn ++ ts) stack tasks c =
      parseExpressionLoop eid ts (e.root c :: stack) (tasks ++ e.tasks eid c)
        (c + e.operators) := by
  induction e generalizing ts stack tasks c with
  | num v ws =>
    simp only [Expr.rpn, Expr.root, Expr.tasks, Expr.operators, List.singleton_append,
      List.append_nil, Nat.add_zero]
    exact parseExpressionLoop_number _ _ _ _ _ _ rfl
  | bin op l ws r ihl ihr =>
    simp only [Expr.binaryOnly, Bool.and_eq_true] at hb
    rw [Expr.rpn, List.append_assoc, ihl hb.1, List.append_assoc, ihr hb.2,
      List.singleton_append, parseExpressionLoop_operator _ _ _ _ _ _ _ _ rfl]
    simp only [Expr.root, Expr.tasks, Expr.operators, List.append_assoc, Token.binary,
      Nat.add_assoc]
  | neg e _ => simp [Expr.binaryOnly] at hb
  | pos e _ => simp [Expr.binaryOnly] at hb
  | paren ws1 e ws2 ih =>
    simp only [Expr.binaryOnly] at hb
    simp only [Expr.rpn, Expr.root, Expr.tasks, Expr.operators]
    exact ih hb _ _ _ _

theorem evalTasks_append (a b : List (Task R)) (env : List (List Char × Option ℚ)) :
    evalTasks (a ++ b) env = evalTasks b (evalTasks a env) := by
  induction a generalizing env with
  | nil => rfl
  | cons t a ih => rw [List.cons_append, evalTasks, evalTasks, ih]

theorem literal_ne_taskID {v : List Char} (hv : Expr.isLiteral v = true) (k : Nat) :
    v ≠ taskID k := by
  obtain ⟨hall, -, hne⟩ := isLiteral_facts hv
  cases v with
  | nil => exact absurd rfl hne
  | cons c v =>
    intro h
    have hc := hall c (List.mem_cons_self _ _)
    have : c = 't' := by
      unfold taskID at h
      have := congrArg List.head? h
      simpa using this
    subst this
    revert hc
    decide

theorem argValue_skip (pre rest : List (List Char × Option ℚ)) (a : List Char)
    (h : ∀ p ∈ pre, p.1 ≠ a) : argValue (pre ++ rest) a = argValue rest a := by
  unfold argValue
  rw [List.find?_append]
  have : pre.find? (fun p => decide (p.1 = a)) = none := by
    rw [List.find?_eq_none]
    intro p hp
    simpa using h p hp
  rw [this]
  rfl

theorem argValue_nil (a : List Char) : argValue [] a = literalValue a := rfl

theorem argValue_head (a : List Char) (v : Option ℚ) (rest : List (List Char × Option ℚ)) :
    argValue ((a, v) :: rest) a = v := by
  simp [argValue]

theorem binOpOf_char (op : BinOp) : binOpOf [op.char] = some op := by
  cases op <;> decide

/-- Evaluating the tasks of a well-formed expression without unary operators
after earlier tasks: their values extend the environment, and the argument
that stands for the expression has the value of the expression. -/
theorem evalTasks_tasks (e : Expr) (hwf : e.wellFormed = true) (hb : e.binaryOnly = true)
    (eid : List Char) (c : Nat) (env : List (List Char × Option ℚ))
    (henv : ∀ p ∈ env, ∃ k, k ≤ c ∧ p.1 = taskID k) :
    ∃ ext, evalTasks (e.tasks eid c : List (Task R)) env = env ++ ext ∧
      (∀ p ∈ ext, ∃ k, c < k ∧ k ≤ c + e.operators ∧ p.1 = taskID k) ∧
      (∀ more : List (List Char × Option ℚ),
        (∀ p ∈ more, ∃ k, c + e.operators < k ∧ p.1 = taskID k) →
        argValue (env ++ (ext ++ more)) (e.root c) = e.value) ∧
      (0 < e.operators → ∃ ext0, ext = ext0 ++ [(e.root c, e.value)]) := by
  induction e generalizing c env with
  | num v ws =>
    simp only [Expr.wellFormed, Bool.and_eq_true] at hwf
    refine ⟨[], by simp [Expr.tasks, evalTasks], by simp, ?_, by simp [Expr.operators]⟩
    intro more hmore
    rw [List.nil_append, argValue_skip _ _ _ (fun p hp => by
      obtain ⟨k, -, hk⟩ := henv p hp
      rw [hk]
      exact (literal_ne_taskID hwf.1 k).symm)]
    have := argValue_skip more [] v (fun p hp => by
      obtain ⟨k, -, hk⟩ := hmore p hp
      rw [hk]
      exact (literal_ne_taskID hwf.1 k).symm)
    rw [List.append_nil] at this
    simp only [Expr.root, Expr.value]
    rw [this]
    rfl
  | bin op l ws r ihl ihr =>
    simp only [Expr.wellFormed, Bool.and_eq_true, decide_eq_true_eq] at hwf
    simp only [Expr.binaryOnly, Bool.and_eq_true] at hb
    obtain ⟨⟨⟨⟨wl, wr⟩, -⟩, -⟩, -⟩ := hwf
    obtain ⟨extl, hl1, hl2, hl3, -⟩ := ihl wl hb.1 c env henv
    have henv1 : ∀ p ∈ env ++ extl, ∃ k, k ≤ c + l.operators ∧ p.1 = taskID k := by
      intro p hp
      rcases List.mem_append.1 hp with hp | hp
      · obtain ⟨k, h1, h2⟩ := henv p hp
        exact ⟨k, by omega, h2⟩
      · obtain ⟨k, -, h1, h2⟩ := hl2 p hp
        exact ⟨k, h1, h2⟩
    obtain ⟨extr, hr1, hr2, hr3, -⟩ := ihr wr hb.2 (c + l.operators) (env ++ extl) henv1
    have hvl : argValue (env ++ extl ++ extr) (l.root c) = l.value := by
      rw [List.append_assoc]
      exact hl3 extr (fun p hp => by
        obtain ⟨k, h1, -, h2⟩ := hr2 p hp
        exact ⟨k, h1, h2⟩)
    have hvr : argValue (env ++ extl ++ extr) (r.root (c + l.operators)) = r.value := by
      have := hr3 [] (by simp)
      rw [List.append_nil] at this
      exact this
    have hval : taskValue (env ++ extl ++ extr)
        (newTask eid (c + l.operators + r.operators + 1) (l.root c)
          (r.root (c + l.operators)) [op.char] : Task R) = (Expr.bin op l ws r).value := by
      simp only [taskValue, newTask, binOpOf_char, hvl, hvr, Expr.value]
      cases l.value <;> cases r.value <;> rfl
    refine ⟨extl ++ (extr ++ [(taskID (c + l.operators + r.operators + 1),
      (Expr.bin op l ws r).value)]), ?_, ?_, ?_, ?_⟩
    · rw [Expr.tasks, evalTasks_append, evalTasks_append, hl1, hr1, evalTasks, evalTasks, hval]
      simp only [newTask, List.append_assoc]
    · intro p hp
      simp only [Expr.operators]
      rcases List.mem_append.1 hp with hp | hp
      · obtain ⟨k, h1, h2, h3⟩ := hl2 p hp
        exact ⟨k, h1, by omega, h3⟩
      · rcases List.mem_append.1 hp with hp | hp
        · obtain ⟨k, h1, h2, h3⟩ := hr2 p hp
          exact ⟨k, by omega, by omega, h3⟩
        · rw [List.mem_singleton] at hp
          subst hp
          exact ⟨_, by omega, by omega, rfl⟩
    · intro more hmore
      simp only [Expr.root]
      have hskip : ∀ p ∈ env ++ (extl ++ extr),
          p.1 ≠ taskID (c + l.operators + r.operators + 1) := by
        intro p hp h
        rw [← List.append_assoc] at hp
        rcases List.mem_append.1 hp with hp | hp
        · obtain ⟨k, h1, h2⟩ := henv1 p hp
          rw [h2] at h
          have := taskID_injective h
          omega
        · obtain ⟨k, -, h1, h2⟩ := hr2 p hp
          rw [h2] at h
          have := taskID_injective h
          omega
      have hre : env ++ (extl ++ (extr ++ [(taskID (c + l.operators + r.operators + 1),
          (Expr.bin op l ws r).value)]) ++ more) =
          (env ++ (extl ++ extr)) ++ ((taskID (c + l.operators + r.operators + 1),
            (Expr.bin op l ws r).value) :: more) := by
        simp only [List.append_assoc, List.singleton_append]
      rw [hre, argValue_skip _ _ _ hskip, argValue_head]
    · intro _
      refine ⟨extl ++ extr, ?_⟩
      simp only [Expr.root, List.append_assoc]
  | neg e _ => simp [Expr.binaryOnly] at hb
  | pos e _ => simp [Expr.binaryOnly] at hb
  | paren ws1 e ws2 ih =>
    simp only [Expr.wellFormed, Bool.and_eq_true] at hwf
    simp only [Expr.binaryOnly] at hb
    simp only [Expr.tasks, Expr.root, Expr.value, Expr.operators]
    exact ih hwf.1.1 hb c env henv

theorem evalTasks_map_installed (ts : List (Task R)) (env : List (List Char × Option ℚ)) :
    evalTasks (ts.map installed) env = evalTasks ts env := by
  induction ts generalizing env with
  | nil => rfl
  | cons t ts ih =>
    have h1 : (installed t).ID = t.ID := Orchestrator.installed_ID t
    have h2 : taskValue env (installed t) = taskValue env t := by
      unfold installed
      split_ifs <;> rfl
    rw [List.map_cons, evalTasks, evalTasks, h1, h2, ih]

/-- The tasks of a well-formed expression without unary operators, listed
from a state without earlier tasks: one per operator, and the last one has
the value of the expression. -/
theorem lastTaskValue_tasks (e : Expr) (hwf : e.wellFormed = true) (hb : e.binaryOnly = true)
    (eid : List Char) (hops : 0 < e.operators) :
    lastTaskValue ((e.tasks eid 0 : List (Task R)).map installed) = e.value := by
  obtain ⟨ext, h1, -, -, h4⟩ := evalTasks_tasks e hwf hb eid 0 [] (by simp)
  obtain ⟨ext0, rfl⟩ := h4 hops
  unfold lastTaskValue
  rw [evalTasks_map_installed, h1]
  simp
/-! ## C1: `AddExpression` on the text of an expression -/

theorem AddExpression_render (e : Expr) (hwf : e.wellFormed = true) (hb : e.binaryOnly = true)
    (lead : List Char) (hlead : lead.all isSpace = true) (o : Orchestrator R) :
    o.AddExpression (lead ++ e.render) =
      (Orchestrator.installExpression
          { o.countExpression with TaskCounter := o.TaskCounter + e.operators }
          (exprID (o.ExpressionCounter + 1))
          (e.tasks (exprID (o.ExpressionCounter + 1)) o.TaskCounter),
        .ok (exprID (o.ExpressionCounter + 1))) := by
  have h : (tokenize (lead ++ e.render)).bind toRPN = .ok e.rpn := by
    rw [tokenize_render e hwf hb lead hlead]
    exact toRPN_tokens e hwf hb
  rw [Orchestrator.AddExpression_ok o _ _ h]
  have hp := parseExpressionLoop_rpn e hb (exprID (o.ExpressionCounter + 1)) [] []
    ([] : List (Task R)) o.TaskCounter
  rw [List.append_nil, List.nil_append, parseExpressionLoop] at hp
  simp only [Orchestrator.parseExpression, Orchestrator.countExpression, hp]

theorem filterMap_map_of_forall {α β γ : Type} (l : List α) (f : α → β) (g : β → Option γ)
    (h : α → γ) (hg : ∀ x ∈ l, g (f x) = some (h x)) :
    (l.map f).filterMap g = l.map h := by
  induction l with
  | nil => rfl
  | cons a l ih =>
    rw [List.map_cons, List.filterMap_cons, hg a (List.mem_cons_self _ _), List.map_cons,
      ih (fun x hx => hg x (List.mem_cons_of_mem _ hx))]

theorem Expr.tasks_IDs (e : Expr) (hb : e.binaryOnly = true) (eid : List Char) (c : Nat) :
    (e.tasks eid c : List (Task R)).length = e.operators ∧
    ((e.tasks eid c : List (Task R)).map (·.ID)).Nodup := by
  obtain ⟨new, h1, h2, h3, -⟩ := parseExpressionLoop_spec eid e.rpn [] ([] : List (Task R)) c
  have hp := parseExpressionLoop_rpn e hb eid [] [] ([] : List (Task R)) c
  rw [List.append_nil, List.nil_append, parseExpressionLoop] at hp
  rw [hp, List.nil_append] at h1
  rw [hp] at h2
  simp only at h1 h2
  subst h1
  refine ⟨by omega, ?_⟩
  rw [h3]
  exact (List.nodup_range' _ _).map taskID_injective

/-- C1.  For every well-formed expression built from decimal literals, the
binary operators `+ - * /` and parentheses (white space allowed around the
tokens), `AddExpression` on a fresh orchestrator installs the expression
`expr-1` whose task list resolves to exactly one task per operator, and
evaluating these tasks in list order in exact arithmetic gives the last task
the value of the expression under standard precedence and left
associativity (both undefined when a division by zero occurs).  Moreover
`2+2*2` has the postfix form `2 2 2 * +` and the tasks `task-1: 2*2`,
`task-2: 2+task-1` with value 6, and `(1+2)*(3+4)` yields two additions that
are `ready` at submit and a multiplication depending on both, with value 21. -/
theorem C1_AddExpression_tasks_evaluate_to_value (e : Expr) (hwf : e.wellFormed = true)
    (hb : e.binaryOnly = true) (lead : List Char) (hlead : lead.all isSpace = true)
    (timeAddition timeSubtraction timeMultiplication timeDivision : Int) :
    (((NewOrchestrator timeAddition timeSubtraction timeMultiplication timeDivision :
        Orchestrator R).AddExpression (lead ++ e.render)).2 = .ok (exprID 1) ∧
      ∃ expr,
        getExpression ((NewOrchestrator timeAddition timeSubtraction timeMultiplication
          timeDivision : Orchestrator R).AddExpression (lead ++ e.render)).1.Expressions
          (exprID 1) = some expr ∧
        expr.Status = StatusPending ∧
        (((NewOrchestrator timeAddition timeSubtraction timeMultiplication timeDivision :
          Orchestrator R).AddExpression (lead ++ e.render)).1.tasksOf expr).length =
            expr.Tasks.length ∧
        (((NewOrchestrator timeAddition timeSubtraction timeMultiplication timeDivision :
          Orchestrator R).AddExpression (lead ++ e.render)).1.tasksOf expr).length =
            e.operators ∧
        (0 < e.operators →
          lastTaskValue (((NewOrchestrator timeAddition timeSubtraction timeMultiplication
            timeDivision : Orchestrator R).AddExpression (lead ++ e.render)).1.tasksOf expr) =
              e.value)) ∧
    ((tokenize "2+2*2".toList).bind toRPN =
        .ok [Token.number ['2'], Token.number ['2'], Token.number ['2'], Token.binary .mul,
          Token.binary .add] ∧
      ((fresh : Orchestrator Int).AddExpression "2+2*2".toList).1.Tasks =
        [storedTask 1 "2" '*' "2" [] StatusReady,
          storedTask 2 "2" '+' "task-1" [taskID 1] StatusPending] ∧
      lastTaskValue ((fresh : Orchestrator Int).AddExpression "2+2*2".toList).1.Tasks =
        some 6) ∧
    (((fresh : Orchestrator Int).AddExpression "(1+2)*(3+4)".toList).1.Tasks =
        [storedTask 1 "1" '+' "2" [] StatusReady, storedTask 2 "3" '+' "4" [] StatusReady,
          storedTask 3 "task-1" '*' "task-2" [taskID 1, taskID 2] StatusPending] ∧
      lastTaskValue ((fresh : Orchestrator Int).AddExpression "(1+2)*(3+4)".toList).1.Tasks =
        some 21) := by
  refine ⟨?_, ?_, ?_⟩
  · rw [AddExpression_render e hwf hb lead hlead]
    refine ⟨rfl, ?_⟩
    have hIDs : (e.tasks (exprID 1) 0 : List (Task R)).length = e.operators ∧
        ((e.tasks (exprID 1) 0 : List (Task R)).map (·.ID)).Nodup :=
      Expr.tasks_IDs e hb (exprID 1) 0
    obtain ⟨hlen, hnd⟩ := hIDs
    have hexprs : (Orchestrator.installExpression
        { (NewOrchestrator timeAddition timeSubtraction timeMultiplication timeDivision :
            Orchestrator R).countExpression with TaskCounter := 0 + e.operators }
        (exprID 1) (e.tasks (exprID 1) 0)).Expressions =
        [{ ID := exprID 1, Status := StatusPending, Result := none,
           Tasks := (e.tasks (exprID 1) 0 : List (Task R)).map (·.ID) }] := by
      unfold Orchestrator.installExpression
      simp only
      rw [(Orchestrator.foldl_installTask_frame _ _).1]
      rfl
    have htasks : ∀ t ∈ (e.tasks (exprID 1) 0 : List (Task R)),
        getTask (Orchestrator.installExpression
          { (NewOrchestrator timeAddition timeSubtraction timeMultiplication timeDivision :
              Orchestrator R).countExpression with TaskCounter := 0 + e.operators }
          (exprID 1) (e.tasks (exprID 1) 0)).Tasks t.ID = some (installed t) := by
      intro t ht
      rw [Orchestrator.installExpression_getTask _ _ _ _ hnd, getTask_of_mem_nodup ht hnd]
    refine ⟨⟨exprID 1, StatusPending, none,
      (e.tasks (exprID 1) 0 : List (Task R)).map (·.ID)⟩, ?_, rfl, ?_, ?_, ?_⟩
    · show getExpression _ (exprID (0 + 1)) = _
      simp only [NewOrchestrator, Nat.zero_add] at hexprs ⊢
      rw [hexprs]
      simp [getExpression]
    · simp only [Orchestrator.tasksOf, NewOrchestrator, Nat.zero_add] at htasks ⊢
      rw [filterMap_map_of_forall _ _ _ installed htasks]
      simp
    · simp only [Orchestrator.tasksOf, NewOrchestrator, Nat.zero_add] at htasks ⊢
      rw [filterMap_map_of_forall _ _ _ installed htasks]
      simpa using hlen
    · intro hops
      simp only [Orchestrator.tasksOf, NewOrchestrator, Nat.zero_add] at htasks ⊢
      rw [filterMap_map_of_forall _ _ _ installed htasks]
      exact lastTaskValue_tasks e hwf hb (exprID 1) hops
  · refine ⟨by decide, by decide, ?_⟩
    have h : ((fresh : Orchestrator Int).AddExpression "2+2*2".toList).1.Tasks =
        [storedTask 1 "2" '*' "2" [] StatusReady,
          storedTask 2 "2" '+' "task-1" [taskID 1] StatusPending] := by decide
    rw [h]
    have e1 : taskID 1 = "task-1".toList := by decide
    simp [lastTaskValue, evalTasks, taskValue, argValue, binOpOf, storedTask, e1,
      literalValue_two, BinOp.apply]
    norm_num
  · refine ⟨by decide, ?_⟩
    have h : ((fresh : Orchestrator Int).AddExpression "(1+2)*(3+4)".toList).1.Tasks =
        [storedTask 1 "1" '+' "2" [] StatusReady, storedTask 2 "3" '+' "4" [] StatusReady,
          storedTask 3 "task-1" '*' "task-2" [taskID 1, taskID 2] StatusPending] := by decide
    rw [h]
    have e1 : taskID 1 = "task-1".toList := by decide
    have e2 : taskID 2 = "task-2".toList := by decide
    have e3 : taskID 3 = "task-3".toList := by decide
    have l1 : literalValue ['1'] = some 1 := by simp [literalValue, digitsValue, isDigit]
    simp [lastTaskValue, evalTasks, taskValue, argValue, binOpOf, storedTask, e1, e2, e3,
      literalValue_two, literalValue_three, literalValue_four, l1, BinOp.apply]
    norm_num

/-- C1 at the expression `2 + (2 * 2)` written ` 2 + 2*2`, with blanks: it is
well formed and has no unary operator, and `AddExpression` on a fresh
orchestrator installs its two tasks, the last of which has its value. -/
theorem C1_AddExpression_tasks_evaluate_to_value_witness :
    exprSumOfProduct.wellFormed = true ∧ exprSumOfProduct.binaryOnly = true ∧
    [' '].all isSpace = true ∧
    ((fresh : Orchestrator Int).AddExpression ([' '] ++ exprSumOfProduct.render)).2 =
      .ok (exprID 1) ∧
    ∃ expr,
      getExpression ((fresh : Orchestrator Int).AddExpression
        ([' '] ++ exprSumOfProduct.render)).1.Expressions (exprID 1) = some expr ∧
      expr.Status = StatusPending ∧
      (((fresh : Orchestrator Int).AddExpression
        ([' '] ++ exprSumOfProduct.render)).1.tasksOf expr).length = expr.Tasks.length ∧
      (((fresh : Orchestrator Int).AddExpression
        ([' '] ++ exprSumOfProduct.render)).1.tasksOf expr).length =
          exprSumOfProduct.operators ∧
      (0 < exprSumOfProduct.operators →
        lastTaskValue (((fresh : Orchestrator Int).AddExpression
          ([' '] ++ exprSumOfProduct.render)).1.tasksOf expr) = exprSumOfProduct.value) :=
  ⟨by decide, by decide, by decide,
    (C1_AddExpression_tasks_evaluate_to_value exprSumOfProduct (by decide) (by decide) [' ']
      (by decide) 2000000000 2000000000 2000000000 2000000000).1⟩

/-! ## The bound of the loop of `tokenize` is never reached -/

theorem tokenizeLoop_ne_loopBound (fuel : Nat) (s : List Char) (i : Nat) (tokens : List Token)
    (prev : Token) (hlen : s.length ≤ fuel) :
    tokenizeLoop fuel s i tokens prev ≠ .error .loopBound := by
  induction fuel generalizing s i tokens prev with
  | zero =>
    cases s with
    | nil => simp [tokenizeLoop]
    | cons ch rest => simp at hlen
  | succ n ih =>
    cases s with
    | nil => simp [tokenizeLoop]
    | cons ch rest =>
      have hl : rest.length ≤ n := by simpa using hlen
      rw [tokenizeLoop]
      split_ifs with h1 h2 h3 h4 h5 h6 h7
      · exact ih _ _ _ _ hl
      · exact ih _ _ _ _ hl
      · exact ih _ _ _ _ hl
      · simp
      · simp
      · exact ih _ _ _ _ hl
      · split
        · next e he =>
          obtain ⟨pos, rfl⟩ := scanNumber_error he
          simp
        · next num rest' j hs =>
          exact ih _ _ _ _ (le_trans (scanNumber_shorter h7 hs).length_le hl)
      · simp

/-- `tokenize` always returns: a token sequence or one of the four errors
of the Go function, never the bound of the model's loop. -/
theorem tokenize_ne_loopBound (expression : List Char) :
    tokenize expression ≠ .error .loopBound :=
  tokenizeLoop_ne_loopBound _ _ _ _ _ (le_refl _)

/-! ## A completed task stays completed -/

/-- In a state satisfying the invariant, a task that is `done` is still
`done` after any step. -/
theorem done_step (o : Orchestrator R) (hI : Inv o) (op : Op R) (id : List Char)
    (h : ∃ t, getTask o.Tasks id = some t ∧ t.Status = StatusDone) :
    ∃ t, getTask (o.step op).Tasks id = some t ∧ t.Status = StatusDone := by
  obtain ⟨t, ht, hs⟩ := h
  cases op with
  | send x =>
    simp only [Orchestrator.step]
    rw [(Orchestrator.send_frame o x).1]
    exact ⟨t, ht, hs⟩
  | addExpression expr =>
    simp only [Orchestrator.step]
    rcases Orchestrator.AddExpression_effect o expr with ⟨err, he⟩ | ⟨new, -, hids, -, hview, -⟩
    · rw [he]
      exact ⟨t, ht, hs⟩
    · refine ⟨t, ?_, hs⟩
      have hnone : getTask new id = none := by
        rw [getTask_eq_none_iff, hids]
        intro hm
        obtain ⟨k, hk, hka⟩ := List.mem_map.1 hm
        obtain ⟨n, -, hn, hna⟩ := hI.keys id ((getTask_isSome_iff _ _).1 (by rw [ht]; rfl))
        rw [hna] at hka
        have := taskID_injective hka
        rw [List.mem_range'_1] at hk
        omega
      rw [hview, hnone]
      exact ht
  | getNextTask =>
    simp only [Orchestrator.step]
    cases hq : o.ReadyTasks with
    | nil =>
      rw [Orchestrator.GetNextTask_empty o hq]
      exact ⟨t, ht, hs⟩
    | cons a rest =>
      by_cases hr : ∃ u, getTask o.Tasks a = some u ∧ u.Status = StatusReady
      · obtain ⟨u, hu, hus⟩ := hr
        rw [Orchestrator.GetNextTask_ready o a rest u hq hu hus]
        simp only
        have hne : id ≠ a := by
          rintro rfl
          rw [ht] at hu
          cases hu
          rw [hs] at hus
          exact absurd hus (by decide)
        rw [getTask_updateTask]
        · rw [if_neg hne]
          exact ⟨t, ht, hs⟩
        · intro v hv; exact hv
      · rw [Orchestrator.GetNextTask_stale o a rest hq (fun u hu hus => hr ⟨u, hu, hus⟩)]
        exact ⟨t, ht, hs⟩
  | processTaskResult x r order =>
    simp only [Orchestrator.step]
    by_cases hv : ∃ u, getTask o.Tasks x = some u ∧ u.Status = StatusProgress
    · obtain ⟨u, hu, hus⟩ := hv
      obtain ⟨t', ht', hs'⟩ := ProcessTaskResult_Status o x r order u hu hus id t ht
      refine ⟨t', ht', ?_⟩
      rw [hs']
      split_ifs with h1 h2
      · rfl
      · have := becomesReady_Status h2
        rw [hs] at this
        exact absurd this (by decide)
      · exact hs
    · rw [Orchestrator.ProcessTaskResult_invalid o x r order (fun u hu hus => hv ⟨u, hu, hus⟩)]
      exact ⟨t, ht, hs⟩

theorem done_run (ops : List (Op R)) (o : Orchestrator R) (hI : Inv o) (id : List Char)
    (h : ∃ t, getTask o.Tasks id = some t ∧ t.Status = StatusDone) :
    ∃ t, getTask (o.run ops).Tasks id = some t ∧ t.Status = StatusDone := by
  induction ops generalizing o with
  | nil => exact h
  | cons op ops ih =>
    exact ih (o.step op) (Inv_step o [] [] op hI (History_nil o)).1 (done_step o hI op id h)

/-! ## C7: `ProcessTaskResult` rejects what is not in progress -/

/-- C7.  `ProcessTaskResult(taskID, r)` returns an error exactly when
`taskID` is not a key of `Tasks` or the task's status is not `in_progress`;
when it returns an error the orchestrator is unchanged; after a successful
call a further `ProcessTaskResult` for the same id, with any result, returns
the error and changes nothing; and from a reachable state this stays so
after any further calls of the three methods. -/
theorem C7_ProcessTaskResult_rejects_and_preserves (o : Orchestrator R) (taskID : List Char)
    (r : R) (order : List (List Char)) :
    ((o.ProcessTaskResult taskID r order).2 ≠ none ↔
      (taskID ∉ o.Tasks.map (·.ID) ∨
        ∃ t, getTask o.Tasks taskID = some t ∧ t.Status ≠ StatusProgress)) ∧
    ((o.ProcessTaskResult taskID r order).2 ≠ none →
      o.ProcessTaskResult taskID r order = (o, some .invalidTask)) ∧
    ((o.ProcessTaskResult taskID r order).2 = none →
      ∀ (r' : R) (order' : List (List Char)),
        (o.ProcessTaskResult taskID r order).1.ProcessTaskResult taskID r' order' =
          ((o.ProcessTaskResult taskID r order).1, some .invalidTask)) ∧
    (Reachable o → (o.ProcessTaskResult taskID r order).2 = none →
      ∀ (ops : List (Op R)) (r' : R) (order' : List (List Char)),
        ((o.ProcessTaskResult taskID r order).1.run ops).ProcessTaskResult taskID r' order' =
          ((o.ProcessTaskResult taskID r order).1.run ops, some .invalidTask)) := by
  have hdone : (o.ProcessTaskResult taskID r order).2 = none →
      ∃ t, getTask (o.ProcessTaskResult taskID r order).1.Tasks taskID = some t ∧
        t.Status = StatusDone := by
    intro h
    cases ht : getTask o.Tasks taskID with
    | none =>
      rw [Orchestrator.ProcessTaskResult_invalid o taskID r order (by simp [ht])] at h
      simp at h
    | some t =>
      by_cases hs : t.Status = StatusProgress
      · obtain ⟨t', ht', hs'⟩ := ProcessTaskResult_Status o taskID r order t ht hs taskID t ht
        rw [if_pos rfl] at hs'
        exact ⟨t', ht', hs'⟩
      · rw [Orchestrator.ProcessTaskResult_invalid o taskID r order
          (fun u hu => by rw [ht] at hu; cases hu; exact hs)] at h
        simp at h
  have hreject : ∀ (o' : Orchestrator R),
      (∃ t, getTask o'.Tasks taskID = some t ∧ t.Status = StatusDone) →
      ∀ (r' : R) (order' : List (List Char)),
        o'.ProcessTaskResult taskID r' order' = (o', some .invalidTask) := by
    intro o' hd r' order'
    obtain ⟨t, ht, hs⟩ := hd
    apply Orchestrator.ProcessTaskResult_invalid
    intro u hu
    rw [ht] at hu
    cases hu
    rw [hs]
    decide
  refine ⟨?_, ?_, ?_, ?_⟩
  · rw [ProcessTaskResult_error_iff, ← getTask_eq_none_iff]
    cases ht : getTask o.Tasks taskID with
    | none => simp
    | some t => simp
  · intro h
    exact Orchestrator.ProcessTaskResult_invalid o taskID r order
      ((ProcessTaskResult_error_iff o taskID r order).1 h)
  · intro h r' order'
    exact hreject _ (hdone h) r' order'
  · intro hreach h ops r' order'
    have hI : Inv (o.ProcessTaskResult taskID r order).1 :=
      Inv_of_Reachable (Reachable.step o (.processTaskResult taskID r order) hreach)
    exact hreject _ (done_run ops _ hI taskID (hdone h)) r' order'

/-- C7 at a concrete state: after `2+2*2` was submitted and its product
claimed, the result 4 for `task-1` is accepted, and it is then rejected, at
once and after any further calls. -/
theorem C7_ProcessTaskResult_rejects_and_preserves_witness :
    Reachable claimedProduct ∧
    (claimedProduct.ProcessTaskResult (taskID 1) 4 []).2 = none ∧
    (∀ (r' : Int) (order' : List (List Char)),
      (claimedProduct.ProcessTaskResult (taskID 1) 4 []).1.ProcessTaskResult (taskID 1) r'
          order' =
        ((claimedProduct.ProcessTaskResult (taskID 1) 4 []).1, some .invalidTask)) ∧
    (∀ (ops : List (Op Int)) (r' : Int) (order' : List (List Char)),
      ((claimedProduct.ProcessTaskResult (taskID 1) 4 []).1.run ops).ProcessTaskResult
          (taskID 1) r' order' =
        ((claimedProduct.ProcessTaskResult (taskID 1) 4 []).1.run ops, some .invalidTask)) :=
  ⟨Reachable_run _ _ (Reachable.init _ _ _ _), by decide,
    (C7_ProcessTaskResult_rejects_and_preserves claimedProduct (taskID 1) 4 []).2.2.1
      (by decide),
    (C7_ProcessTaskResult_rejects_and_preserves claimedProduct (taskID 1) 4 []).2.2.2
      (Reachable_run _ _ (Reachable.init _ _ _ _)) (by decide)⟩

/-! ## The order of the map range -/

/-- Whatever `order` is, the range visits every key exactly once. -/
theorem rangeOrder_perm (order keys : List (List Char)) (h : keys.Nodup) :
    (Orchestrator.rangeOrder order keys).Perm keys := by
  rw [List.perm_ext_iff_of_nodup _ h]
  · exact Orchestrator.mem_rangeOrder order keys
  · unfold Orchestrator.rangeOrder
    rw [List.nodup_append]
    refine ⟨(List.nodup_dedup order).filter _, h.filter _, ?_⟩
    intro a ha hb
    simp only [List.mem_filter, List.mem_dedup, decide_eq_true_eq] at ha hb
    exact hb.2 ha.1

/-- Every order of the keys is the order of some range. -/
theorem rangeOrder_self (order keys : List (List Char)) (h : keys.Nodup)
    (hp : order.Perm keys) : Orchestrator.rangeOrder order keys = order := by
  unfold Orchestrator.rangeOrder
  have h1 : order.dedup = order := (hp.nodup_iff.2 h).dedup
  have h2 : order.filter (fun k => decide (k ∈ keys)) = order := by
    rw [List.filter_eq_self]
    intro a ha
    simpa using hp.subset ha
  have h3 : keys.filter (fun k => decide (k ∉ order)) = [] := by
    rw [List.filter_eq_nil_iff]
    intro a ha
    simpa using hp.symm.subset ha
  rw [h1, h2, h3, List.append_nil]

/-! ## The keys of `Tasks` are pairwise distinct -/

theorem setTask_map_ID (ts : List (Task R)) (t : Task R) (h : t.ID ∉ ts.map (·.ID)) :
    (setTask ts t).map (·.ID) = ts.map (·.ID) ++ [t.ID] := by
  unfold setTask
  rw [if_neg]
  · simp
  · simp only [List.any_eq_true, decide_eq_true_eq, not_exists, not_and]
    intro x hx hxt
    exact h (List.mem_map.2 ⟨x, hx, hxt⟩)

theorem installTask_map_ID (o : Orchestrator R) (t : Task R) (h : t.ID ∉ o.Tasks.map (·.ID)) :
    (Orchestrator.installTask o t).Tasks.map (·.ID) = o.Tasks.map (·.ID) ++ [t.ID] := by
  unfold Orchestrator.installTask
  split_ifs
  · exact setTask_map_ID o.Tasks { t with Status := StatusReady } h
  · exact setTask_map_ID o.Tasks t h

theorem foldl_installTask_map_ID (ts : List (Task R)) (o : Orchestrator R)
    (h : (o.Tasks.map (·.ID) ++ ts.map (·.ID)).Nodup) :
    (ts.foldl Orchestrator.installTask o).Tasks.map (·.ID) =
      o.Tasks.map (·.ID) ++ ts.map (·.ID) := by
  induction ts generalizing o with
  | nil => simp
  | cons a ts ih =>
    have ha : a.ID ∉ o.Tasks.map (·.ID) := by
      intro hm
      rw [List.nodup_append] at h
      exact h.2.2 hm (by simp)
    rw [List.foldl_cons, ih, installTask_map_ID o a ha]
    · simp
    · rw [installTask_map_ID o a ha]
      simpa using h

/-- The keys of `Tasks` after `AddExpression`: the old ones, followed by
fresh ids `task-(c+1)`, ..., `task-(c+n)` where `c` is the old
`TaskCounter`. -/
theorem AddExpression_keys (o : Orchestrator R) (expr : List Char) (hI : Inv o)
    (hnd : (o.Tasks.map (·.ID)).Nodup) :
    ∃ n, (o.AddExpression expr).1.Tasks.map (·.ID) =
        o.Tasks.map (·.ID) ++ (List.range' (o.TaskCounter + 1) n).map taskID ∧
      (o.AddExpression expr).1.TaskCounter = o.TaskCounter + n ∧
      ((o.AddExpression expr).1.Tasks.map (·.ID)).Nodup := by
  have hfresh : ∀ n, (o.Tasks.map (·.ID) ++
      (List.range' (o.TaskCounter + 1) n).map taskID).Nodup := by
    intro n
    rw [List.nodup_append]
    refine ⟨hnd, (List.nodup_range' _ _).map taskID_injective, ?_⟩
    intro a ha hb
    obtain ⟨k, -, hk, hka⟩ := hI.keys a ha
    obtain ⟨m, hm, hma⟩ := List.mem_map.1 hb
    rw [hka] at hma
    have := taskID_injective hma
    rw [List.mem_range'_1] at hm
    omega
  cases hr : (tokenize expr).bind toRPN with
  | error err0 =>
    obtain ⟨err, he⟩ := Orchestrator.AddExpression_error o expr
      (fun rpn h => by rw [hr] at h; cases h)
    refine ⟨0, ?_, ?_, ?_⟩
    · rw [he]; simp [Orchestrator.countExpression]
    · rw [he]; simp [Orchestrator.countExpression]
    · rw [he]; exact hnd
  | ok rpn =>
    obtain ⟨new, h1, h2, h3, -⟩ := parseExpressionLoop_spec
      (exprID (o.ExpressionCounter + 1)) rpn [] ([] : List (Task R)) o.TaskCounter
    rw [List.nil_append] at h1
    have hparse : o.countExpression.parseExpression rpn (exprID (o.ExpressionCounter + 1)) =
        ({ o.countExpression with TaskCounter := o.TaskCounter + new.length }, new) := by
      unfold Orchestrator.parseExpression Orchestrator.countExpression
      simp only
      rw [h1, h2]
    have hkeys : (o.AddExpression expr).1.Tasks.map (·.ID) =
        o.Tasks.map (·.ID) ++ (List.range' (o.TaskCounter + 1) new.length).map taskID := by
      rw [Orchestrator.AddExpression_ok o expr rpn hr]
      simp only [hparse, Orchestrator.installExpression]
      rw [foldl_installTask_map_ID, h3]
      · rfl
      · rw [h3]
        exact hfresh new.length
    refine ⟨new.length, hkeys, ?_, ?_⟩
    · rw [Orchestrator.AddExpression_ok o expr rpn hr]
      simp only [hparse, Orchestrator.installExpression]
      rw [(Orchestrator.foldl_installTask_frame _ _).2.2.2.2.2]
    · rw [hkeys]
      exact hfresh new.length

/-- The orchestrator never holds two tasks with the same id: the keys of
`Tasks` are pairwise distinct in every reachable state. -/
theorem Reachable_keys_nodup {o : Orchestrator R} (h : Reachable o) :
    (o.Tasks.map (·.ID)).Nodup := by
  induction h with
  | init a b c d => simp [NewOrchestrator]
  | step o op hr ih =>
    have hI := Inv_of_Reachable hr
    cases op with
    | send x =>
      simp only [Orchestrator.step]
      rw [(Orchestrator.send_frame o x).1]
      exact ih
    | addExpression expr =>
      obtain ⟨n, -, -, h3⟩ := AddExpression_keys o expr hI ih
      exact h3
    | getNextTask =>
      simp only [Orchestrator.step]
      cases hq : o.ReadyTasks with
      | nil => rw [Orchestrator.GetNextTask_empty o hq]; exact ih
      | cons a rest =>
        by_cases hs : ∃ u, getTask o.Tasks a = some u ∧ u.Status = StatusReady
        · obtain ⟨u, hu, hus⟩ := hs
          rw [Orchestrator.GetNextTask_ready o a rest u hq hu hus]
          simp only
          rw [map_ID_updateTask]
          · exact ih
          · intro v hv; exact hv
        · rw [Orchestrator.GetNextTask_stale o a rest hq (fun u hu hus => hs ⟨u, hu, hus⟩)]
          exact ih
    | processTaskResult x r order =>
      simp only [Orchestrator.step]
      by_cases hv : ∃ u, getTask o.Tasks x = some u ∧ u.Status = StatusProgress
      · obtain ⟨u, hu, hus⟩ := hv
        rw [Orchestrator.ProcessTaskResult_valid o x r order u hu hus]
        simp only
        rw [(Orchestrator.closeExpression_frame _ _ _).1]
        unfold Orchestrator.notifyDependents
        rw [(Orchestrator.foldl_notifyTask_frame _ _ _).2.2.2.2.2.2]
        unfold Orchestrator.markDone
        simp only
        rw [map_ID_updateTask]
        · exact ih
        · intro v hv; exact hv
      · rw [Orchestrator.ProcessTaskResult_invalid o x r order
          (fun u hu hus => hv ⟨u, hu, hus⟩)]
        exact ih

/-! ## C15: a rejected submission installs nothing -/

theorem AddExpression_error_state (o : Orchestrator R) (expr : List Char) (err : Err)
    (h : (o.AddExpression expr).2 = .error err) :
    (o.AddExpression expr).1 = o.countExpression := by
  unfold Orchestrator.AddExpression at h ⊢
  cases ht : tokenize expr with
  | error e => simp
  | ok tokens =>
    cases hr : toRPN tokens with
    | error e => simp [hr]
    | ok rpn => simp [ht, hr] at h

/-- Claim C15: whenever `AddExpression` returns an error, the maps
`Expressions` and `Tasks`, the ready queue, `ProcessingTasks` and
`TaskCounter` are what they were before the call (only `ExpressionCounter`
has advanced), and the call has started no goroutine. -/
theorem C15_AddExpression_error_installs_nothing (o : Orchestrator R) (expr : List Char)
    (err : Err) (h : (o.AddExpression expr).2 = .error err) :
    (o.AddExpression expr).1.Expressions = o.Expressions ∧
      (o.AddExpression expr).1.Tasks = o.Tasks ∧
      (o.AddExpression expr).1.ReadyTasks = o.ReadyTasks ∧
      (o.AddExpression expr).1.ProcessingTasks = o.ProcessingTasks ∧
      (o.AddExpression expr).1.TaskCounter = o.TaskCounter ∧
      (o.AddExpression expr).1.Sending = o.Sending := by
  rw [AddExpression_error_state o expr err h]
  simp [Orchestrator.countExpression]

theorem C15_AddExpression_error_installs_nothing_witness :
    (submittedProduct.AddExpression "1.2.3".toList).2 = .error (.multipleDots 3) ∧
      (submittedProduct.AddExpression "1.2.3".toList).1.Expressions
        = submittedProduct.Expressions ∧
      (submittedProduct.AddExpression "1.2.3".toList).1.Tasks = submittedProduct.Tasks ∧
      (submittedProduct.AddExpression "1.2.3".toList).1.ReadyTasks
        = submittedProduct.ReadyTasks ∧
      (submittedProduct.AddExpression "1.2.3".toList).1.ProcessingTasks
        = submittedProduct.ProcessingTasks ∧
      (submittedProduct.AddExpression "1.2.3".toList).1.TaskCounter
        = submittedProduct.TaskCounter ∧
      (submittedProduct.AddExpression "1.2.3".toList).1.Sending
        = submittedProduct.Sending :=
  ⟨by decide, C15_AddExpression_error_installs_nothing submittedProduct "1.2.3".toList
    (.multipleDots 3) (by decide)⟩

theorem literalValue_one : literalValue ['1'] = some 1 := by
  simp [literalValue, digitsValue, isDigit]

/-! ## C14: the argument stack at the end of `parseExpression` -/

/-- C14, the code at failing inputs.  The postfix stream of `1 2` leaves two
entries on the argument stack of `parseExpression`, and the postfix stream of
`1+` makes its operator find one operand; in both cases `AddExpression`
returns the id `expr-1` and no error, and installs the expression `expr-1`
with an empty task list.  The first text also passes `ValidateExpression`.
`AddExpression` returns an error only when `tokenize` or `toRPN` does. -/
theorem C14_parseExpression_accepts_any_stack :
    ValidateExpression "1 2".toList = none ∧
    (tokenize "1 2".toList).bind toRPN = .ok [Token.number ['1'], Token.number ['2']] ∧
    parseExpressionStack [Token.number ['1'], Token.number ['2']] [] 0 0 = ([['2'], ['1']], 0) ∧
    ((fresh : Orchestrator Int).AddExpression "1 2".toList).2 = .ok (exprID 1) ∧
    ((fresh : Orchestrator Int).AddExpression "1 2".toList).1.Expressions =
      [{ ID := exprID 1, Status := StatusPending, Result := none, Tasks := [] }] ∧
    (tokenize "1+".toList).bind toRPN = .ok [Token.number ['1'], Token.binary .add] ∧
    parseExpressionStack [Token.number ['1'], Token.binary .add] [] 0 0 = ([['1']], 1) ∧
    ((fresh : Orchestrator Int).AddExpression "1+".toList).2 = .ok (exprID 1) ∧
    ((fresh : Orchestrator Int).AddExpression "1+".toList).1.Expressions =
      [{ ID := exprID 1, Status := StatusPending, Result := none, Tasks := [] }] ∧
    ∀ (o : Orchestrator Int) (expr : List Char),
      (∃ err, (o.AddExpression expr).2 = .error err) ↔
        ∃ err, (tokenize expr).bind toRPN = .error err := by
  refine ⟨by decide, by decide, by decide, by decide, by decide, by decide, by decide,
    by decide, by decide, ?_⟩
  intro o expr
  unfold Orchestrator.AddExpression
  cases ht : tokenize expr with
  | error e => simp [Except.bind]
  | ok tokens =>
    cases hr : toRPN tokens with
    | error e => simp [Except.bind, hr]
    | ok rpn => simp [Except.bind, hr]

/-! ## C17 and C18: the status of the responses -/

/-- C17, the code.  `ProcessTaskResult` reports an unknown id with
`errors.New("invalid task")`, which is not `ErrTaskNotFound`, so the handler
answers 500 for it: on a fresh orchestrator, whose `Tasks` map has no key,
the result posted for `task-1` is answered with 500.  In every state the
status is 200 when `ProcessTaskResult` returns nil and 500 when it returns an
error; it is never 404. -/
theorem C17_submitTaskResultHandler_never_answers_404 :
    getTask (fresh : Orchestrator Int).Tasks "task-1".toList = none ∧
    submitTaskResultHandler (fresh : Orchestrator Int) (some ("task-1".toList, 1)) [] =
      (fresh, 500) ∧
    (∀ (o : Orchestrator Int) (id : List Char) (result : Int) (order : List (List Char)),
      (submitTaskResultHandler o (some (id, result)) order).2 =
        if (o.ProcessTaskResult id result order).2 = none then 200 else 500) ∧
    ∀ (o : Orchestrator Int) (body : Option (List Char × Int)) (order : List (List Char)),
      (submitTaskResultHandler o body order).2 ≠ 404 := by
  have key : ∀ (o : Orchestrator Int) (id : List Char) (result : Int)
      (order : List (List Char)),
      (submitTaskResultHandler o (some (id, result)) order).2 =
        if (o.ProcessTaskResult id result order).2 = none then 200 else 500 := by
    intro o id result order
    unfold submitTaskResultHandler
    cases hp : (o.ProcessTaskResult id result order).2 with
    | none => simp [hp]
    | some err =>
      have : err = Err.invalidTask := by
        unfold Orchestrator.ProcessTaskResult at hp
        split at hp
        · simpa using hp.symm
        · split at hp
          · simpa using hp.symm
          · simp at hp
      subst this
      simp [hp]
  refine ⟨by decide, by decide, key, ?_⟩
  intro o body order
  cases body with
  | none => simp [submitTaskResultHandler]
  | some req =>
    obtain ⟨id, result⟩ := req
    rw [key]
    split <;> decide

theorem getExpression_setExpression (es : List (Expression R)) (e : Expression R) :
    getExpression (setExpression es e) e.ID = some e := by
  unfold setExpression
  split
  · next h =>
    induction es with
    | nil => simp at h
    | cons a es ih =>
      by_cases ha : a.ID = e.ID
      · simp [getExpression, ha]
      · have h' : (es.any fun e' => decide (e'.ID = e.ID)) = true := by
          simpa [ha] using h
        have := ih h'
        simp only [getExpression] at this ⊢
        simp [List.find?, ha, this]
  · next h =>
    have h' : ∀ x ∈ es, ¬ x.ID = e.ID := by simpa using h
    simp only [getExpression]
    rw [List.find?_append]
    have : es.find? (fun e' => decide (e'.ID = e.ID)) = none := by
      rw [List.find?_eq_none]
      intro x hx
      simpa using h' x hx
    simp [this]

/-- Claim C18, the code at a failing input.  The text `1.2.3` is an invalid
expression: `ValidateExpression` accepts it, `tokenize` rejects it (a number
with two dots), and the handler answers 500, the status of a server fault,
not 422.  The invalid expression `1+`, which `ValidateExpression` rejects,
is answered 422 by the same handler. -/
theorem C18_calculateHandler_answers_500 :
    ValidateExpression "1.2.3".toList = none ∧
    tokenize "1.2.3".toList = .error (.multipleDots 3) ∧
    calculateHandler (fresh : Orchestrator Int) (some "1.2.3".toList) =
      ((fresh : Orchestrator Int).countExpression, 500) ∧
    ValidateExpression "1+".toList ≠ none ∧
    calculateHandler (fresh : Orchestrator Int) (some "1+".toList) = (fresh, 422) := by
  decide

/-- The status of the response of `calculateHandler`, for every state and
every expression text bound from the request: when `ValidateExpression`
returns an error the handler answers 422 and leaves the orchestrator as it
was; when `ValidateExpression` accepts the text and `tokenize` or `toRPN`
returns an error it answers 500 (only `ExpressionCounter` has advanced); and
when it answers 201, `AddExpression` has returned a new id and the
expression is in the `Expressions` map under that id. -/
theorem calculateHandler_status (o : Orchestrator R) (expression : List Char) :
    (ValidateExpression expression ≠ none → calculateHandler o (some expression) = (o, 422)) ∧
    (ValidateExpression expression = none →
      (∃ err, (tokenize expression).bind toRPN = .error err) →
        calculateHandler o (some expression) = (o.countExpression, 500)) ∧
    ((calculateHandler o (some expression)).2 = 201 →
      ValidateExpression expression = none ∧
      o.AddExpression expression =
        ((calculateHandler o (some expression)).1, .ok (exprID (o.ExpressionCounter + 1))) ∧
      ∃ e, getExpression (calculateHandler o (some expression)).1.Expressions
        (exprID (o.ExpressionCounter + 1)) = some e) := by
  refine ⟨?_, ?_, ?_⟩
  · intro h
    unfold calculateHandler
    cases hv : ValidateExpression expression with
    | none => exact absurd hv h
    | some e => simp [hv]
  · rintro hv ⟨err, herr⟩
    obtain ⟨err', h'⟩ := Orchestrator.AddExpression_error o expression
      (by intro rpn h; rw [herr] at h; cases h)
    simp [calculateHandler, hv, h']
  · intro h
    unfold calculateHandler at h
    cases hv : ValidateExpression expression with
    | some e => simp [hv] at h
    | none =>
      refine ⟨rfl, ?_⟩
      cases hb : (tokenize expression).bind toRPN with
      | error err =>
        obtain ⟨err', h'⟩ := Orchestrator.AddExpression_error o expression
          (by intro rpn h; rw [hb] at h; cases h)
        simp [hv, h'] at h
      | ok rpn =>
        have hok := Orchestrator.AddExpression_ok o expression rpn hb
        have hc : calculateHandler o (some expression) = ((o.AddExpression expression).1, 201) := by
          simp [calculateHandler, hv, hok]
        rw [hc]
        refine ⟨by rw [hok], ?_⟩
        simp only [hok, Orchestrator.installExpression]
        exact ⟨_, getExpression_setExpression _
          ⟨exprID (o.ExpressionCounter + 1), StatusPending, none, _⟩⟩

/-! ## C20: a unary minus after a binary operator -/

/-- C20, a counterexample.  In `1 +- 2` the unary minus is followed by a
space, and `tokenize` rejects a unary operator followed by a space: the
lexer returns an error, and so does `AddExpression`. -/
theorem C20_tokenize_rejects_unary_minus_before_space :
    tokenize "1 +- 2".toList = .error (.unaryBeforeSpace '-') ∧
    ((fresh : Orchestrator Int).AddExpression "1 +- 2".toList).2 =
      .error (.unaryBeforeSpace '-') := by
  decide

/-- Claim C20, amended.  Written without a blank after the minus, as in
`1 +-2`, a binary operator followed by a unary minus is accepted:
`tokenize` returns Number 1, Operator + (not unary), Operator - (unary),
Number 2; the submitted expression has the single task `task-1`, whose value
is -1, and when a worker returns -1 for it the expression is done with the
result -1. -/
theorem C20_tokenize_accepts_unary_minus_after_operator :
    tokenize "1 +-2".toList =
      .ok [Token.number ['1'], Token.binary .add, Token.unary '-', Token.number ['2']] ∧
    ((fresh : Orchestrator Int).AddExpression "1 +-2".toList).2 = .ok (exprID 1) ∧
    ((fresh : Orchestrator Int).AddExpression "1 +-2".toList).1.Tasks.map (·.ID) = [taskID 1] ∧
    lastTaskValue ((fresh : Orchestrator Int).AddExpression "1 +-2".toList).1.Tasks = some (-1) ∧
    ((fresh : Orchestrator Int).run [.addExpression "1 +-2".toList, .send (taskID 1),
        .getNextTask, .processTaskResult (taskID 1) (-1) []]).Expressions =
      [{ ID := exprID 1, Status := StatusDone, Result := some (-1), Tasks := [taskID 1] }] := by
  refine ⟨by decide, by decide, by decide, ?_, by decide⟩
  have h : ((fresh : Orchestrator Int).AddExpression "1 +-2".toList).1.Tasks =
      [{ ID := "task-1".toList, ExpressionID := "expr-1".toList, Arg1 := ['1'], Arg2 := ['2'],
         Operation := ['-'], OperationTime := 0, Dependencies := [], Status := StatusReady,
         Result := none }] := by decide
  rw [h]
  simp [lastTaskValue, evalTasks, taskValue, argValue, binOpOf, literalValue_one,
    literalValue_two, BinOp.apply]
  norm_num

/-! ## C16: what `ValidateExpression` accepts -/

theorem countParen_eq (ch : Char) (pc : Int) :
    countParen ch pc = pc + ((([ch].count '(' : Nat) : Int) - (([ch].count ')' : Nat) : Int)) := by
  unfold countParen
  by_cases h1 : ch = '('
  · subst h1; simp
  · by_cases h2 : ch = ')'
    · subst h2; simp; ring
    · have h1' : ¬ '(' = ch := fun h => h1 h.symm
      have h2' : ¬ ')' = ch := fun h => h2 h.symm
      simp [h1, h2, List.count_cons, h1', h2']

theorem countParen_cons (ch : Char) (pc : Int) (t : List Char) :
    pc + (((ch :: t).count '(' : Nat) : Int) - (((ch :: t).count ')' : Nat) : Int) =
      countParen ch pc + ((t.count '(' : Nat) : Int) - ((t.count ')' : Nat) : Int) := by
  rw [countParen_eq]
  have e1 : (ch :: t).count '(' = t.count '(' + [ch].count '(' := by
    simp [List.count_cons]
  have e2 : (ch :: t).count ')' = t.count ')' + [ch].count ')' := by
    simp [List.count_cons]
  rw [e1, e2]; push_cast; ring

theorem isOperatorChar_iff (c : Char) :
    isOperatorChar c = true ↔ c = '+' ∨ c = '-' ∨ c = '*' ∨ c = '/' := by
  simp [isOperatorChar, or_assoc]

theorem isOperatorChar_false_iff (c : Char) :
    isOperatorChar c = false ↔ ¬ (c = '+' ∨ c = '-' ∨ c = '*' ∨ c = '/') := by
  rw [← isOperatorChar_iff]; simp

theorem validChar_iff (ch : Char) :
    validChar ch = true ↔
      ¬ ((!isDigit ch) = true ∧ ch ≠ '.' ∧ ch ≠ '+' ∧ ch ≠ '-' ∧ ch ≠ '*' ∧ ch ≠ '/' ∧
        ch ≠ '(' ∧ ch ≠ ')' ∧ (!isSpace ch) = true) := by
  simp only [validChar, isOperatorChar, Bool.or_eq_true, beq_iff_eq, Bool.not_eq_true',
    ne_eq]
  constructor
  · rintro h ⟨h1, h2, h3, h4, h5, h6, h7, h8, h9⟩
    simp_all
  · intro h
    by_contra hne
    apply h
    simp only [not_or] at hne
    simp_all

/-- One turn of the loop of `ValidateExpression`: it goes on to the next
byte exactly when none of its four checks fails. -/
theorem validateLoop_cons (ch : Char) (rest : List Char) (i : Nat) (prev : Option Char)
    (pc r : Int) :
    validateLoop (ch :: rest) i prev pc = .ok r ↔
      ¬ (ch = ')' ∧ countParen ch pc < 0) ∧ validChar ch = true ∧
      (rest = [] → isOperatorChar ch = false) ∧
      ((ch = '*' ∨ ch = '/') → ∀ p, prev = some p → isOperatorChar p = false) ∧
      validateLoop rest (i + 1) (some ch) (countParen ch pc) = .ok r := by
  rw [validateLoop]
  split_ifs with h1 h2 h3 h4
  · constructor
    · intro h; cases h
    · rintro ⟨h, _⟩; exact absurd h1 h
  · have : ¬ validChar ch = true := by rw [validChar_iff]; exact fun h => h h2
    simp [this]
  · have : isOperatorChar ch = true := (isOperatorChar_iff ch).2 h3.2
    simp [h3.1, this]
  · have : ∃ p, prev = some p ∧ isOperatorChar p = true := by
      rcases h4.2 with hp | hp | hp | hp <;> exact ⟨_, hp, by decide⟩
    obtain ⟨p, hp1, hp2⟩ := this
    constructor
    · intro h; cases h
    · rintro ⟨_, _, _, h, _⟩
      rw [h h4.1 p hp1] at hp2; cases hp2
  · have hv : validChar ch = true := by rw [validChar_iff]; exact h2
    have h3' : rest = [] → isOperatorChar ch = false := by
      intro hr
      rw [isOperatorChar_false_iff]
      exact fun h => h3 ⟨hr, h⟩
    have h4' : (ch = '*' ∨ ch = '/') → ∀ p, prev = some p → isOperatorChar p = false := by
      intro hc p hp
      rw [isOperatorChar_false_iff]
      intro hop
      apply h4
      refine ⟨hc, ?_⟩
      subst hp
      simpa using hop
    constructor
    · intro h; exact ⟨h1, hv, h3', h4', h⟩
    · rintro ⟨_, _, _, _, h⟩; exact h

/-- What the loop of `ValidateExpression` accepts, read from `parenCount`
equal to `pc` and the previous byte `prev`. -/
theorem validateLoop_ok_iff (l : List Char) (i : Nat) (prev : Option Char) (pc r : Int)
    (hpc : 0 ≤ pc) :
    validateLoop l i prev pc = .ok r ↔
      (∀ ch ∈ l, validChar ch = true) ∧
      (∀ n, 0 ≤ pc + (((l.take n).count '(' : Nat) : Int) - (((l.take n).count ')' : Nat) : Int)) ∧
      (∀ ch, l.getLast? = some ch → isOperatorChar ch = false) ∧
      (∀ p c, prev = some p → l.head? = some c → (c = '*' ∨ c = '/') →
        isOperatorChar p = false) ∧
      (∀ k p c, l[k]? = some p → l[k + 1]? = some c → (c = '*' ∨ c = '/') →
        isOperatorChar p = false) ∧
      r = pc + ((l.count '(' : Nat) : Int) - ((l.count ')' : Nat) : Int) := by
  induction l generalizing i prev pc with
  | nil =>
    simp [validateLoop, hpc]
    exact eq_comm
  | cons ch rest ih =>
    rw [validateLoop_cons]
    constructor
    · rintro ⟨h1, h2, h3, h4, h5⟩
      have hpc' : 0 ≤ countParen ch pc := by
        by_cases hc : ch = ')'
        · by_contra hneg
          exact h1 ⟨hc, by omega⟩
        · unfold countParen
          split_ifs <;> omega
      obtain ⟨hA, hB, hC, hD, hE, hr⟩ := (ih (i + 1) (some ch) (countParen ch pc) hpc').1 h5
      refine ⟨?_, ?_, ?_, ?_, ?_, ?_⟩
      · intro c hc
        rcases List.mem_cons.1 hc with rfl | hc
        · exact h2
        · exact hA c hc
      · intro n
        cases n with
        | zero => simpa using hpc
        | succ n =>
          rw [List.take_succ_cons, countParen_cons]
          exact hB n
      · intro c hc
        cases rest with
        | nil =>
          have : c = ch := by simpa using hc.symm
          subst this
          exact h3 rfl
        | cons a rest' =>
          rw [List.getLast?_cons_cons] at hc
          exact hC c hc
      · intro p c hp hc hop
        have : c = ch := by simpa using hc.symm
        subst this
        exact h4 hop p hp
      · intro k p c hp hc hop
        cases k with
        | zero =>
          have hpch : p = ch := by simpa using hp.symm
          subst hpch
          refine hD p c rfl ?_ hop
          cases rest with
          | nil => simp at hc
          | cons a rest' => simpa using hc
        | succ k =>
          exact hE k p c (by simpa using hp) (by simpa using hc) hop
      · rw [hr, countParen_cons]
    · rintro ⟨hA, hB, hC, hD, hE, hr⟩
      have h1 : ¬ (ch = ')' ∧ countParen ch pc < 0) := by
        rintro ⟨_, hlt⟩
        have := hB 1
        rw [List.take_succ_cons, List.take_zero, countParen_cons] at this
        simp at this
        omega
      have hpc' : 0 ≤ countParen ch pc := by
        have := hB 1
        rw [List.take_succ_cons, List.take_zero, countParen_cons] at this
        simpa using this
      refine ⟨h1, hA ch (List.mem_cons_self _ _), ?_, ?_, ?_⟩
      · intro hr'
        subst hr'
        exact hC ch (by simp)
      · intro hop p hp
        exact hD p ch hp (by simp) hop
      · rw [ih (i + 1) (some ch) (countParen ch pc) hpc']
        refine ⟨?_, ?_, ?_, ?_, ?_, ?_⟩
        · intro c hc
          exact hA c (List.mem_cons_of_mem _ hc)
        · intro n
          have := hB (n + 1)
          rwa [List.take_succ_cons, countParen_cons] at this
        · intro c hc
          cases rest with
          | nil => simp at hc
          | cons a rest' =>
            apply hC c
            rw [List.getLast?_cons_cons]
            exact hc
        · intro p c hp hc hop
          have : p = ch := by simpa using hp.symm
          subst this
          refine hE 0 p c (by simp) ?_ hop
          cases rest with
          | nil => simp at hc
          | cons a rest' => simpa using hc
        · intro k p c hp hc hop
          exact hE (k + 1) p c (by simpa using hp) (by simpa using hc) hop
        · rw [hr, countParen_cons]

theorem ValidateExpression_none_iff (e : List Char) :
    ValidateExpression e = none ↔
      e ≠ [] ∧ (∀ ch ∈ e, validChar ch = true) ∧
      (∀ n, (e.take n).count ')' ≤ (e.take n).count '(') ∧
      e.count '(' = e.count ')' ∧
      (∀ ch, e.getLast? = some ch → isOperatorChar ch = false) ∧
      (∀ k p c, e[k]? = some p → e[k + 1]? = some c → (c = '*' ∨ c = '/') →
        isOperatorChar p = false) := by
  unfold ValidateExpression
  by_cases he : e = []
  · subst he; simp
  · have hlen : ¬ e.length = 0 := by simpa using he
    rw [if_neg hlen]
    constructor
    · intro h
      cases hl : validateLoop e 0 none 0 with
      | error err => rw [hl] at h; simp at h
      | ok r =>
        rw [hl] at h
        obtain ⟨hA, hB, hC, _, hE, hr⟩ := (validateLoop_ok_iff e 0 none 0 r le_rfl).1 hl
        have hr0 : ¬ r > 0 := by
          intro hpos
          simp [hpos] at h
        have hBn := hB e.length
        rw [List.take_length] at hBn
        refine ⟨he, hA, ?_, ?_, hC, hE⟩
        · intro n
          have := hB n
          omega
        · omega
    · rintro ⟨_, hA, hB, hcount, hC, hE⟩
      have hl : validateLoop e 0 none 0 = .ok 0 := by
        rw [validateLoop_ok_iff e 0 none 0 0 le_rfl]
        refine ⟨hA, ?_, hC, ?_, hE, ?_⟩
        · intro n
          have := hB n
          omega
        · intro p c hp; cases hp
        · omega
      rw [hl]
      simp

/-- Claim C16: `ValidateExpression(e)` returns nil if and only if `e` meets
the conditions of `ValidateExpressionSpec`: it is not empty, each of its
bytes is a digit, `.`, an operator, a parenthesis or white space, no prefix
has more `)` than `(` and the whole has as many of both, its last byte is
not an operator, and no `*` or `/` comes right after an operator byte.  In
particular it returns an error for the empty string, for every input with
unequal numbers of `(` and `)` or a prefix with more `)` than `(`, and for
every input ending in an operator. -/
theorem C16_ValidateExpression_accepts_iff (e : List Char) :
    (ValidateExpression e = none ↔ ValidateExpressionSpec e = true) ∧
    ValidateExpression [] ≠ none ∧
    (e.count '(' ≠ e.count ')' → ValidateExpression e ≠ none) ∧
    (∀ n, (e.take n).count '(' < (e.take n).count ')' → ValidateExpression e ≠ none) ∧
    (∀ ch, e.getLast? = some ch → (ch = '+' ∨ ch = '-' ∨ ch = '*' ∨ ch = '/') →
      ValidateExpression e ≠ none) := by
  refine ⟨?_, by decide, ?_, ?_, ?_⟩
  · rw [ValidateExpression_none_iff]
    unfold ValidateExpressionSpec
    simp only [Bool.and_eq_true, Bool.not_eq_true', List.isEmpty_eq_false, List.all_eq_true,
      List.mem_range, decide_eq_true_eq, beq_iff_eq]
    constructor
    · rintro ⟨h1, h2, h3, h4, h5, h6⟩
      refine ⟨⟨⟨⟨⟨h1, ?_⟩, fun n _ => h3 n⟩, h4⟩, ?_⟩, ?_⟩
      · intro ch hch
        have := h2 ch hch
        simpa [validChar, isOperatorChar, Bool.or_assoc] using this
      · cases hl : e.getLast? with
        | none => simp
        | some ch => simpa using h5 ch hl
      · intro k hk
        cases hp : e[k]? with
        | none => simp
        | some p =>
          cases hc : e[k + 1]? with
          | none => simp
          | some c =>
            by_cases hop : c = '*' ∨ c = '/'
            · have := h6 k p c hp hc hop
              simp [this]
            · simp only [not_or] at hop
              simp [hop.1, hop.2]
    · rintro ⟨⟨⟨⟨⟨h1, h2⟩, h3⟩, h4⟩, h5⟩, h6⟩
      refine ⟨h1, ?_, ?_, h4, ?_, ?_⟩
      · intro ch hch
        have := h2 ch hch
        simpa [validChar, isOperatorChar, Bool.or_assoc] using this
      · intro n
        by_cases hn : n < e.length + 1
        · exact h3 n hn
        · have : e.take n = e.take e.length := by
            rw [List.take_length, List.take_of_length_le (by omega)]
          rw [this]
          exact h3 e.length (by omega)
      · intro ch hl
        rw [hl] at h5
        simpa using h5
      · intro k p c hp hc hop
        have hk : k < e.length := by
          by_contra hge
          rw [List.getElem?_eq_none (by omega)] at hp
          cases hp
        have := h6 k hk
        rw [hp, hc] at this
        rcases hop with rfl | rfl
        · simpa using this
        · simpa using this
  · intro hne h
    exact hne ((ValidateExpression_none_iff e).1 h).2.2.2.1
  · intro n hlt h
    have := ((ValidateExpression_none_iff e).1 h).2.2.1 n
    omega
  · intro ch hl hop h
    have := ((ValidateExpression_none_iff e).1 h).2.2.2.2.1 ch hl
    rw [(isOperatorChar_iff ch).2 hop] at this
    cases this

theorem C16_ValidateExpression_accepts_iff_witness :
    ValidateExpressionSpec "(1+2)*3".toList = true ∧
    ValidateExpression "(1+2)*3".toList = none ∧
    ValidateExpression "(1+2".toList ≠ none ∧
    ValidateExpression "1)+(2".toList ≠ none ∧
    ValidateExpression "1+2-".toList ≠ none :=
  ⟨by decide,
    (C16_ValidateExpression_accepts_iff "(1+2)*3".toList).1.2 (by decide),
    (C16_ValidateExpression_accepts_iff "(1+2".toList).2.2.1 (by decide),
    (C16_ValidateExpression_accepts_iff "1)+(2".toList).2.2.2.1 2 (by decide),
    (C16_ValidateExpression_accepts_iff "1+2-".toList).2.2.2.2 '-' (by decide) (by decide)⟩

/-! ## C19: claiming the leaf tasks of a submitted expression -/

/-- Every task built by the loop of `parseExpression` is a `newTask`. -/
theorem parseExpressionLoop_forall (P : Task R → Prop) (e : List Char)
    (hP : ∀ c arg1 arg2 operation, P (newTask e c arg1 arg2 operation))
    (tokens : List Token) (stack : List (List Char)) (tasks : List (Task R)) (c : Nat)
    (h0 : ∀ t ∈ tasks, P t) :
    ∀ t ∈ (parseExpressionLoop e tokens stack tasks c).1, P t := by
  induction tokens generalizing stack tasks c with
  | nil => simpa [parseExpressionLoop] using h0
  | cons token tokens ih =>
    cases htyp : token.Typ with
    | TokenNumber => rw [parseExpressionLoop_number _ _ _ _ _ _ htyp]; exact ih _ _ _ h0
    | TokenLeftParen =>
      rw [parseExpressionLoop_paren _ _ _ _ _ _ (Or.inl htyp)]; exact ih _ _ _ h0
    | TokenRightParen =>
      rw [parseExpressionLoop_paren _ _ _ _ _ _ (Or.inr htyp)]; exact ih _ _ _ h0
    | TokenOperator =>
      match stack with
      | [] =>
        rw [parseExpressionLoop_operator_skip _ _ _ _ _ _ htyp (by simp)]; exact ih _ _ _ h0
      | [_] =>
        rw [parseExpressionLoop_operator_skip _ _ _ _ _ _ htyp (by simp)]; exact ih _ _ _ h0
      | arg2 :: arg1 :: stack' =>
        rw [parseExpressionLoop_operator _ _ _ _ _ _ _ _ htyp]
        apply ih
        intro t ht
        rcases List.mem_append.1 ht with ht | ht
        · exact h0 t ht
        · rw [List.mem_singleton] at ht
          subst ht
          exact hP _ _ _ _

theorem newTask_bothNumbers (e : List Char) (c : Nat) (arg1 arg2 operation : List Char) :
    ((newTask e c arg1 arg2 operation : Task R).Dependencies.length = 0) ↔
      bothNumbers (newTask e c arg1 arg2 operation : Task R) = true := by
  unfold newTask bothNumbers
  cases h1 : IsNumber arg1 <;> cases h2 : IsNumber arg2 <;> simp

theorem setTask_of_not_mem (ts : List (Task R)) (t : Task R) (h : t.ID ∉ ts.map (·.ID)) :
    setTask ts t = ts ++ [t] := by
  unfold setTask
  rw [if_neg]
  simp only [List.any_eq_true, decide_eq_true_eq, not_exists, not_and]
  intro x hx hid
  exact h (List.mem_map.2 ⟨x, hx, hid⟩)

namespace Orchestrator

theorem installTask_Tasks (o : Orchestrator R) (t : Task R) :
    (installTask o t).Tasks = setTask o.Tasks (installed t) := by
  unfold installTask installed
  split_ifs <;> rfl

theorem foldl_installTask_Tasks (ts : List (Task R)) (o : Orchestrator R)
    (h : (o.Tasks.map (·.ID) ++ ts.map (·.ID)).Nodup) :
    (ts.foldl installTask o).Tasks = o.Tasks ++ ts.map installed := by
  induction ts generalizing o with
  | nil => simp
  | cons t ts ih =>
    have hnot : (installed t).ID ∉ o.Tasks.map (·.ID) := by
      rw [installed_ID]
      intro hmem
      exact (List.nodup_append.1 h).2.2 hmem (by simp)
    have hT : (installTask o t).Tasks = o.Tasks ++ [installed t] := by
      rw [installTask_Tasks, setTask_of_not_mem _ _ hnot]
    rw [List.foldl_cons, ih, hT]
    · simp
    · rw [hT]
      simpa [installed_ID, List.append_assoc] using h

/-- Claiming from a state in which every queued task is ready: as many
consecutive calls of `GetNextTask` succeed as the queue holds ids, and the
next one finds it empty. -/
theorem GetNextTask_drain (q : List (List Char)) (o : Orchestrator R) (hI : Inv o)
    (hq : o.ReadyTasks = q) :
    (∀ k, k < q.length →
      ∃ t, (o.run (List.replicate k .getNextTask)).GetNextTask.2 = .ok t) ∧
    (o.run (List.replicate q.length .getNextTask)).GetNextTask.2 =
      .error .ErrNoTasksAvailable := by
  induction q generalizing o with
  | nil =>
    refine ⟨by simp, ?_⟩
    simp [run, GetNextTask_empty o hq]
  | cons id rest ih =>
    have hst := hI.queueReady id (by rw [hq]; simp)
    unfold statusOf at hst
    obtain ⟨t, ht, hs⟩ := Option.map_eq_some'.1 hst
    have hg := GetNextTask_ready o id rest t hq ht hs
    have hI' : Inv o.GetNextTask.1 := (Inv_getNextTask o [] [] hI (History_nil o)).1
    have hq' : o.GetNextTask.1.ReadyTasks = rest := by rw [hg]
    obtain ⟨h1, h2⟩ := ih o.GetNextTask.1 hI' hq'
    refine ⟨?_, ?_⟩
    · intro k hk
      cases k with
      | zero =>
        refine ⟨{ t with Status := StatusProgress }, ?_⟩
        show o.GetNextTask.2 = _
        rw [hg]
      | succ k =>
        have := h1 k (by simpa using hk)
        simpa [run, List.replicate_succ, step] using this
    · simpa [run, List.replicate_succ, step] using h2

end Orchestrator

/-- The sends of waiting goroutines, in any order, append their tasks to the
queue in that order. -/
theorem run_sends (order : List (List Char)) (o : Orchestrator R) (hnd : order.Nodup)
    (hsub : ∀ x ∈ order, x ∈ o.Sending) :
    (o.run (order.map .send)).ReadyTasks = o.ReadyTasks ++ order := by
  induction order generalizing o with
  | nil => simp [Orchestrator.run]
  | cons x rest ih =>
    rw [List.nodup_cons] at hnd
    have hx : x ∈ o.Sending := hsub x (List.mem_cons_self _ _)
    have hs : o.send x =
        { o with Sending := o.Sending.erase x, ReadyTasks := o.ReadyTasks ++ [x] } := by
      unfold Orchestrator.send
      rw [if_pos hx]
    have hrest : ∀ y ∈ rest, y ∈ (o.send x).Sending := by
      intro y hy
      rw [hs]
      have hne : y ≠ x := fun e => hnd.1 (e ▸ hy)
      exact (List.mem_erase_of_ne hne).2 (hsub y (List.mem_cons_of_mem _ hy))
    have := ih (o.send x) hnd.2 hrest
    rw [hs] at this
    simp only [List.append_assoc, List.singleton_append] at this
    rw [List.map_cons, Orchestrator.run, List.foldl_cons]
    show ((o.send x).run (rest.map .send)).ReadyTasks = _
    rw [hs]
    exact this

/-- A send changes nothing when no goroutine waits to send. -/
theorem run_sends_of_none (ids : List (List Char)) (o : Orchestrator R) (h : o.Sending = []) :
    o.run (ids.map .send) = o := by
  induction ids with
  | nil => rfl
  | cons x rest ih =>
    have hs : o.send x = o := by
      unfold Orchestrator.send
      rw [h, if_neg (List.not_mem_nil x)]
    rw [List.map_cons, Orchestrator.run, List.foldl_cons]
    show (o.send x).run (rest.map .send) = o
    rw [hs]
    exact ih

/-- After a successful `AddExpression(e)` on a fresh orchestrator the tasks
in the `Tasks` map are those of the expression; when the goroutines of the
call have sent their tasks, in whatever order, the queue holds them in that
order, and with `n` the number of the tasks both of whose arguments
`IsNumber` accepts, each of the first `n` consecutive calls of `GetNextTask`
returns a task and the next call returns `ErrNoTasksAvailable`. -/
theorem GetNextTask_claims_what_was_sent (a b c d : Int) (e id : List Char)
    (order : List (List Char))
    (h : ((NewOrchestrator a b c d : Orchestrator R).AddExpression e).2 = .ok id)
    (hperm : order.Perm ((NewOrchestrator a b c d : Orchestrator R).AddExpression e).1.Sending) :
    (∃ expr, getExpression ((NewOrchestrator a b c d : Orchestrator R).AddExpression e).1.Expressions
        id = some expr ∧
      expr.Tasks = ((NewOrchestrator a b c d : Orchestrator R).AddExpression e).1.Tasks.map (·.ID)) ∧
    (((NewOrchestrator a b c d : Orchestrator R).AddExpression e).1.run
      (order.map .send)).ReadyTasks = order ∧
    order.length = (((NewOrchestrator a b c d : Orchestrator R).AddExpression e).1.Tasks.filter
      bothNumbers).length ∧
    (∀ k, k < order.length →
      ∃ t, (((((NewOrchestrator a b c d : Orchestrator R).AddExpression e).1.run
        (order.map .send)).run (List.replicate k .getNextTask)).GetNextTask).2 = .ok t) ∧
    (((((NewOrchestrator a b c d : Orchestrator R).AddExpression e).1.run
        (order.map .send)).run (List.replicate order.length .getNextTask)).GetNextTask).2 =
      .error .ErrNoTasksAvailable := by
  set o0 : Orchestrator R := NewOrchestrator a b c d with ho0
  have hR : Reachable (o0.AddExpression e).1 :=
    Reachable.step o0 (.addExpression e) (Reachable.init a b c d)
  have hI : Inv (o0.AddExpression e).1 := Inv_of_Reachable hR
  cases hb : (tokenize e).bind toRPN with
  | error err =>
    obtain ⟨err', h'⟩ := Orchestrator.AddExpression_error o0 e
      (by intro rpn hr; rw [hb] at hr; cases hr)
    rw [h'] at h; cases h
  | ok rpn =>
    have hok := Orchestrator.AddExpression_ok o0 e rpn hb
    have hid : id = exprID (o0.ExpressionCounter + 1) := by
      rw [hok] at h
      exact (Except.ok.inj h).symm
    obtain ⟨new, hn1, hn2, hn3, hn4⟩ := parseExpressionLoop_spec (exprID (o0.ExpressionCounter + 1))
      rpn [] ([] : List (Task R)) o0.countExpression.TaskCounter
    have hnew : (o0.countExpression.parseExpression rpn (exprID (o0.ExpressionCounter + 1))).2
        = new := by
      simpa [Orchestrator.parseExpression] using hn1
    have hnd : (new.map (·.ID)).Nodup := by
      rw [hn3]
      exact (List.nodup_range' _ _).map taskID_injective
    have hleaf : ∀ t ∈ new, (t.Dependencies.length = 0) ↔ bothNumbers t = true := by
      have := parseExpressionLoop_forall
        (fun t : Task R => (t.Dependencies.length = 0) ↔ bothNumbers t = true)
        (exprID (o0.ExpressionCounter + 1)) (fun c a1 a2 op => newTask_bothNumbers _ c a1 a2 op)
        rpn [] [] o0.countExpression.TaskCounter (by simp)
      rw [hn1] at this
      simpa using this
    have hTasks : (o0.AddExpression e).1.Tasks = new.map installed := by
      rw [hok]
      simp only [Orchestrator.installExpression, hnew]
      rw [Orchestrator.foldl_installTask_Tasks]
      · simp [Orchestrator.parseExpression, Orchestrator.countExpression, ho0, NewOrchestrator]
      · simpa [Orchestrator.parseExpression, Orchestrator.countExpression, ho0,
          NewOrchestrator] using hnd
    have hSending : (o0.AddExpression e).1.Sending =
        (new.filter (fun t => decide (t.Dependencies.length = 0))).map (·.ID) := by
      rw [hok]
      simp only [Orchestrator.installExpression, hnew]
      rw [Orchestrator.foldl_installTask_Sending]
      simp [Orchestrator.parseExpression, Orchestrator.countExpression, ho0, NewOrchestrator]
    have hReady : (o0.AddExpression e).1.ReadyTasks = [] := by
      rw [hok]
      simp only [Orchestrator.installExpression, hnew]
      rw [Orchestrator.foldl_installTask_ReadyTasks]
      simp [Orchestrator.parseExpression, Orchestrator.countExpression, ho0, NewOrchestrator]
    have hlen : ((o0.AddExpression e).1.Tasks.filter bothNumbers).length =
        ((new.filter (fun t => decide (t.Dependencies.length = 0))).map (·.ID)).length := by
      rw [hTasks, List.length_map, List.filter_map, List.length_map]
      congr 1
      apply List.filter_congr
      intro t ht
      have hil : bothNumbers (installed t) = bothNumbers t := by
        unfold installed bothNumbers; split_ifs <;> rfl
      simp only [Function.comp, hil]
      cases hl : bothNumbers t
      · have := (hleaf t ht).not.2 (by simp [hl])
        simp [this]
      · have := (hleaf t ht).2 hl
        simp [this]
    have hSnd : (o0.AddExpression e).1.Sending.Nodup :=
      (List.nodup_append.1 hI.sendingNodup).1
    have hqueue : ((o0.AddExpression e).1.run (order.map .send)).ReadyTasks = order := by
      rw [run_sends order _ (hperm.nodup_iff.2 hSnd) (fun x hx => hperm.subset hx), hReady]
      rfl
    have hI2 : Inv ((o0.AddExpression e).1.run (order.map .send)) :=
      Inv_of_Reachable (Reachable_run _ _ hR)
    have holen : order.length = ((o0.AddExpression e).1.Tasks.filter bothNumbers).length := by
      rw [hlen, ← hSending]
      exact hperm.length_eq
    obtain ⟨hd1, hd2⟩ := Orchestrator.GetNextTask_drain order _ hI2 hqueue
    refine ⟨?_, hqueue, holen, hd1, hd2⟩
    refine ⟨⟨exprID (o0.ExpressionCounter + 1), StatusPending, none, new.map (·.ID)⟩, ?_, ?_⟩
    · rw [hid, hok]
      simp only [Orchestrator.installExpression, hnew]
      exact getExpression_setExpression _
        ⟨exprID (o0.ExpressionCounter + 1), StatusPending, none, new.map (·.ID)⟩
    · rw [hTasks, List.map_map]
      apply List.map_congr_left
      intro t _
      simp [Orchestrator.installed_ID]

set_option maxRecDepth 100000

/-- Claim C19, the code at a failing input.  `GetNextTask` on a fresh
orchestrator returns `ErrNoTasksAvailable`, and after `1+1` was submitted and
its task sent, the first claim returns `task-1` with operation `+` and
arguments `1` and `1` and a second claim returns `ErrNoTasksAvailable`, as
the claim says.  But `ValidateExpression` and `AddExpression` accept `99…9+1`
with a first operand of 310 digits, and `AddExpression` installs the single
task `task-1`, both of whose arguments are decimal literals: the expression
has one leaf task.  `IsNumber` rejects
the first argument, so the task is `pending`, no goroutine is started for
it and the queue is empty: whatever is sent, not one call of `GetNextTask`
succeeds. -/
theorem C19_leaf_beyond_float64_is_never_claimed :
    (∀ a b c d : Int,
      (NewOrchestrator a b c d : Orchestrator Int).GetNextTask.2 =
        .error .ErrNoTasksAvailable) ∧
    ((fresh : Orchestrator Int).run
        [.addExpression "1+1".toList, .send "task-1".toList]).GetNextTask.2 =
      .ok { ID := "task-1".toList, ExpressionID := "expr-1".toList, Arg1 := ['1'], Arg2 := ['1'],
            Operation := ['+'], OperationTime := 0, Dependencies := [],
            Status := StatusProgress, Result := none } ∧
    ((fresh : Orchestrator Int).run
        [.addExpression "1+1".toList, .send "task-1".toList, .getNextTask]).GetNextTask.2 =
      .error .ErrNoTasksAvailable ∧
    ValidateExpression hugePlusOne = none ∧
    ((fresh : Orchestrator Int).AddExpression hugePlusOne).2 = .ok (exprID 1) ∧
    ((fresh : Orchestrator Int).AddExpression hugePlusOne).1.Tasks =
      [{ ID := "task-1".toList, ExpressionID := "expr-1".toList,
         Arg1 := List.replicate 310 '9', Arg2 := ['1'], Operation := ['+'], OperationTime := 0,
         Dependencies := [List.replicate 310 '9'], Status := StatusPending, Result := none }] ∧
    (((fresh : Orchestrator Int).AddExpression hugePlusOne).1.Tasks.filter isLeaf).length = 1 ∧
    ((fresh : Orchestrator Int).AddExpression hugePlusOne).1.Sending = [] ∧
    ((fresh : Orchestrator Int).AddExpression hugePlusOne).1.ReadyTasks = [] ∧
    (∀ ids : List (List Char),
      ((((fresh : Orchestrator Int).AddExpression hugePlusOne).1.run
        (ids.map .send)).GetNextTask).2 = .error .ErrNoTasksAvailable) := by
  refine ⟨?_, by decide, by decide, by decide, by decide, by decide, by decide, by decide,
    by decide, ?_⟩
  · intro a b c d
    exact congrArg Prod.snd (Orchestrator.GetNextTask_empty _ (by simp [NewOrchestrator]))
  · intro ids
    rw [run_sends_of_none ids _ (by decide)]
    decide

/-! ## The state of the loop of `parseExpression` -/

theorem argUses_append (id : List Char) (ts us : List (Task R)) :
    argUses id (ts ++ us) = argUses id ts + argUses id us := by
  simp [argUses, List.filter_append]

theorem argUses_singleton (id : List Char) (t : Task R) :
    argUses id [t] = if t.Arg1 = id ∨ t.Arg2 = id then 1 else 0 := by
  unfold argUses
  by_cases h : t.Arg1 = id ∨ t.Arg2 = id
  · simp [List.filter_cons, h]
  · simp [List.filter_cons, h]

theorem argUses_eq_zero (id : List Char) (ts : List (Task R))
    (h : ∀ t ∈ ts, t.Arg1 ≠ id ∧ t.Arg2 ≠ id) : argUses id ts = 0 := by
  unfold argUses
  rw [List.length_eq_zero, List.filter_eq_nil_iff]
  intro t ht
  have := h t ht
  simp [this.1, this.2]

theorem LoopInv_nil (c0 : Nat) : LoopInv c0 [] ([] : List (Task R)) c0 :=
  ⟨by simp, by simp [argUses], by simp⟩

theorem LoopInv_number (c0 c : Nat) (stack : List (List Char)) (tasks : List (Task R))
    (v : List Char) (hv : ∀ k, v ≠ taskID k) (h : LoopInv c0 stack tasks c) :
    LoopInv c0 (v :: stack) tasks c := by
  refine ⟨?_, ?_, h.earlier⟩
  · intro s hs
    rcases List.mem_cons.1 hs with rfl | hs
    · exact Or.inl hv
    · exact h.stackIDs s hs
  · intro k
    rw [List.count_cons_of_ne (hv k).symm]
    exact h.once k

theorem LoopInv_operator (e : List Char) (c0 c : Nat) (arg2 arg1 op : List Char)
    (stack : List (List Char)) (tasks : List (Task R)) (hc : c0 ≤ c)
    (h : LoopInv c0 (arg2 :: arg1 :: stack) tasks c) :
    LoopInv c0 (taskID (c + 1) :: stack) (tasks ++ [newTask e (c + 1) arg1 arg2 op]) (c + 1) := by
  have harg : ∀ a, a ∈ arg2 :: arg1 :: stack → ∀ k, a = taskID k → c0 < k ∧ k ≤ c := by
    intro a ha k hk
    rcases h.stackIDs a ha with hn | ⟨k', h1, h2, h3⟩
    · exact absurd hk (hn k)
    · have : k = k' := taskID_injective (hk.symm.trans h3)
      subst this
      exact ⟨h1, h2⟩
  refine ⟨?_, ?_, ?_⟩
  · intro s hs
    rcases List.mem_cons.1 hs with rfl | hs
    · exact Or.inr ⟨c + 1, by omega, le_rfl, rfl⟩
    · rcases h.stackIDs s (by simp [hs]) with hn | ⟨k, h1, h2, h3⟩
      · exact Or.inl hn
      · exact Or.inr ⟨k, h1, by omega, h3⟩
  · intro k
    rw [argUses_append, argUses_singleton]
    have ho := h.once k
    simp only [List.count_cons] at ho ⊢
    by_cases hk : k = c + 1
    · subst hk
      have h1 : arg1 ≠ taskID (c + 1) := fun h' => by
        have := harg arg1 (by simp) (c + 1) h'; omega
      have h2 : arg2 ≠ taskID (c + 1) := fun h' => by
        have := harg arg2 (by simp) (c + 1) h'; omega
      have h3 : stack.count (taskID (c + 1)) = 0 := by
        rw [List.count_eq_zero]
        intro hmem
        have := harg _ (by simp [hmem]) (c + 1) rfl; omega
      have h4 : argUses (taskID (c + 1)) tasks = 0 := by
        apply argUses_eq_zero
        intro t ht
        obtain ⟨m, _, _, hm, hargs⟩ := h.earlier t ht
        constructor
        · intro h'
          have := hargs (c + 1) (Or.inl h'); omega
        · intro h'
          have := hargs (c + 1) (Or.inr h'); omega
      simp [newTask, h1, h2, h3, h4]
    · have hne : ¬ taskID (c + 1) = taskID k := fun h' => hk (taskID_injective h').symm
      have hne' : (taskID (c + 1) == taskID k) = false := by simpa using hne
      simp only [hne', newTask]
      by_cases h1 : arg1 = taskID k <;> by_cases h2 : arg2 = taskID k <;>
        simp [h1, h2] at ho ⊢ <;> omega
  · intro t ht
    rcases List.mem_append.1 ht with ht | ht
    · obtain ⟨m, h1, h2, h3, h4⟩ := h.earlier t ht
      exact ⟨m, h1, h2, by omega, h4⟩
    · rw [List.mem_singleton] at ht
      subst ht
      refine ⟨c + 1, rfl, by omega, le_rfl, ?_⟩
      intro k hk
      rcases hk with hk | hk
      · have := harg arg1 (by simp) k hk; omega
      · have := harg arg2 (by simp) k hk; omega

/-- The invariant at the end of the loop of `parseExpression`. -/
theorem parseExpressionLoop_LoopInv (e : List Char) (c0 : Nat) (tokens : List Token)
    (stack : List (List Char)) (tasks : List (Task R)) (c : Nat) (hc : c0 ≤ c)
    (hnum : numbersAreNotIDs tokens) (h : LoopInv c0 stack tasks c) :
    ∃ stack', LoopInv c0 stack' (parseExpressionLoop e tokens stack tasks c).1
      (parseExpressionLoop e tokens stack tasks c).2 := by
  induction tokens generalizing stack tasks c with
  | nil => exact ⟨stack, by simpa [parseExpressionLoop] using h⟩
  | cons token tokens ih =>
    have hnum' : numbersAreNotIDs tokens := fun t ht => hnum t (List.mem_cons_of_mem _ ht)
    cases htyp : token.Typ with
    | TokenNumber =>
      rw [parseExpressionLoop_number _ _ _ _ _ _ htyp]
      exact ih _ _ _ hc hnum'
        (LoopInv_number c0 c stack tasks token.Value (hnum token (by simp) htyp) h)
    | TokenLeftParen =>
      rw [parseExpressionLoop_paren _ _ _ _ _ _ (Or.inl htyp)]; exact ih _ _ _ hc hnum' h
    | TokenRightParen =>
      rw [parseExpressionLoop_paren _ _ _ _ _ _ (Or.inr htyp)]; exact ih _ _ _ hc hnum' h
    | TokenOperator =>
      match stack, h with
      | [], h =>
        rw [parseExpressionLoop_operator_skip _ _ _ _ _ _ htyp (by simp)]
        exact ih _ _ _ hc hnum' h
      | [_], h =>
        rw [parseExpressionLoop_operator_skip _ _ _ _ _ _ htyp (by simp)]
        exact ih _ _ _ hc hnum' h
      | arg2 :: arg1 :: stack', h =>
        rw [parseExpressionLoop_operator _ _ _ _ _ _ _ _ htyp]
        exact ih _ _ _ (by omega) hnum'
          (LoopInv_operator e c0 c arg2 arg1 token.Value stack' tasks hc h)

theorem ne_taskID_of_head {v : List Char} (h : v.head? ≠ some 't') (k : Nat) : v ≠ taskID k := by
  intro hv
  apply h
  rw [hv]
  rfl

theorem numbersAreNotIDs_of_heads (tokens : List Token)
    (h : ∀ token ∈ tokens, token.Typ = TokenNumber → token.Value.head? ≠ some 't') :
    numbersAreNotIDs tokens :=
  fun token ht htyp k => ne_taskID_of_head (h token ht htyp) k

/-- A stream that no lexer produces.  For the token stream Number `task-1`,
Number `1`, Operator `+` and a fresh orchestrator, `parseExpression` returns
the single task `task-1` whose `Arg1` is `task-1`, its own id: the loop does
not tell the lexeme of a Number token from the id of a task. -/
theorem parseExpression_self_reference :
    ((fresh : Orchestrator Int).parseExpression
        [Token.number "task-1".toList, Token.number ['1'], Token.binary .add] (exprID 1)).2.map
      (fun t => (t.ID, t.Arg1, t.Arg2)) = [("task-1".toList, "task-1".toList, ['1'])] := by
  decide

/-! ## The lexemes of `tokenize` are not task ids -/

theorem scanNumber_prefix {s : List Char} {i d : Nat} {acc num rest : List Char} {j : Nat}
    (h : scanNumber s i d acc = .ok (num, rest, j)) : acc <+: num := by
  induction s generalizing i d acc with
  | nil =>
    simp [scanNumber] at h
    rw [h.1]
  | cons ch tl ih =>
    rw [scanNumber] at h
    split_ifs at h with h1 h2 h3
    · exact (List.prefix_append _ _).trans (ih h)
    · exact (List.prefix_append _ _).trans (ih h)
    · simp at h
      rw [h.1]

theorem scanNumber_head {ch : Char} {tl : List Char} {i d : Nat} {num rest : List Char}
    {j : Nat} (hc : (isDigit ch || ch == '.') = true)
    (h : scanNumber (ch :: tl) i d [] = .ok (num, rest, j)) : num.head? = some ch := by
  rw [scanNumber] at h
  simp only [hc, if_true] at h
  have key : ∀ {d'}, scanNumber tl (i + 1) d' ([] ++ [ch]) = .ok (num, rest, j) →
      num.head? = some ch := by
    intro d' h'
    obtain ⟨t, ht⟩ := scanNumber_prefix h'
    rw [← ht]
    rfl
  split_ifs at h with h2 h3
  · exact key h
  · exact key h

theorem tokenizeLoop_heads (fuel : Nat) (s : List Char) (i : Nat) (tokens : List Token)
    (prev : Token) (result : List Token)
    (h0 : ∀ token ∈ tokens, token.Typ = TokenNumber → token.Value.head? ≠ some 't')
    (h : tokenizeLoop fuel s i tokens prev = .ok result) :
    ∀ token ∈ result, token.Typ = TokenNumber → token.Value.head? ≠ some 't' := by
  induction fuel generalizing s i tokens prev with
  | zero =>
    cases s with
    | nil =>
      simp [tokenizeLoop] at h
      subst h
      exact h0
    | cons ch rest => simp [tokenizeLoop] at h
  | succ n ih =>
    cases s with
    | nil =>
      simp [tokenizeLoop] at h
      subst h
      exact h0
    | cons ch rest =>
      have happ : ∀ tok : Token, (tok.Typ = TokenNumber → tok.Value.head? ≠ some 't') →
          ∀ token ∈ tokens ++ [tok], token.Typ = TokenNumber →
            token.Value.head? ≠ some 't' := by
        intro tok htok token hmem
        rcases List.mem_append.1 hmem with hm | hm
        · exact h0 token hm
        · rw [List.mem_singleton] at hm
          subst hm
          exact htok
      rw [tokenizeLoop] at h
      split_ifs at h with h1 h2 h3 h4 h5 h6 h7
      · exact ih _ _ _ _ h0 h
      · exact ih _ _ _ _ (happ _ (by intro hh; cases hh)) h
      · exact ih _ _ _ _ (happ _ (by intro hh; cases hh)) h
      · exact ih _ _ _ _ (happ _ (by intro hh; cases hh)) h
      · split at h
        · cases h
        · next num rest' j hs =>
          refine ih _ _ _ _ (happ _ ?_) h
          intro _
          have hh := scanNumber_head h7 hs
          simp only [hh]
          intro hch
          have : ch = 't' := by simpa using hch
          subst this
          revert h7
          decide

theorem tokenize_numbersAreNotIDs {e : List Char} {tokens : List Token}
    (h : tokenize e = .ok tokens) : numbersAreNotIDs tokens :=
  numbersAreNotIDs_of_heads tokens
    (tokenizeLoop_heads e.length e 0 [] Token.zero tokens (by simp) h)

/-! ## The tokens of the postfix stream are tokens of the input -/

theorem popOperators_forall (P : Token → Prop) (token : Token) (st out : List Token)
    (hst : ∀ t ∈ st, P t) (hout : ∀ t ∈ out, P t) :
    (∀ t ∈ (popOperators token st out).1, P t) ∧ ∀ t ∈ (popOperators token st out).2, P t := by
  induction st generalizing out with
  | nil => exact ⟨by simp [popOperators], by simpa [popOperators] using hout⟩
  | cons top st ih =>
    have hsn : ∀ t ∈ out ++ [top], P t := by
      intro t ht
      rcases List.mem_append.1 ht with ht | ht
      · exact hout t ht
      · rw [List.mem_singleton] at ht
        subst ht
        exact hst _ (List.mem_cons_self _ _)
    rw [popOperators]
    split_ifs with h
    · exact ih (out ++ [top]) (fun t ht => hst t (List.mem_cons_of_mem _ ht)) hsn
    · exact ⟨hst, hout⟩

theorem popToLeftParen_forall (P : Token → Prop) (st out st' out' : List Token)
    (hst : ∀ t ∈ st, P t) (hout : ∀ t ∈ out, P t)
    (h : popToLeftParen st out = some (st', out')) :
    (∀ t ∈ st', P t) ∧ ∀ t ∈ out', P t := by
  induction st generalizing out with
  | nil => simp [popToLeftParen] at h
  | cons top st ih =>
    have hsn : ∀ t ∈ out ++ [top], P t := by
      intro t ht
      rcases List.mem_append.1 ht with ht | ht
      · exact hout t ht
      · rw [List.mem_singleton] at ht
        subst ht
        exact hst _ (List.mem_cons_self _ _)
    rw [popToLeftParen] at h
    split_ifs at h with h1
    · simp at h
      obtain ⟨rfl, rfl⟩ := h
      exact ⟨fun t ht => hst t (List.mem_cons_of_mem _ ht), hout⟩
    · exact ih (out ++ [top]) (fun t ht => hst t (List.mem_cons_of_mem _ ht)) hsn h

theorem drainOperators_forall (P : Token → Prop) (st out rpn : List Token)
    (hst : ∀ t ∈ st, P t) (hout : ∀ t ∈ out, P t)
    (h : drainOperators st out = .ok rpn) : ∀ t ∈ rpn, P t := by
  induction st generalizing out with
  | nil =>
    simp [drainOperators] at h
    subst h
    exact hout
  | cons top st ih =>
    have hsn : ∀ t ∈ out ++ [top], P t := by
      intro t ht
      rcases List.mem_append.1 ht with ht | ht
      · exact hout t ht
      · rw [List.mem_singleton] at ht
        subst ht
        exact hst _ (List.mem_cons_self _ _)
    rw [drainOperators] at h
    split_ifs at h with h1
    exact ih (out ++ [top]) (fun t ht => hst t (List.mem_cons_of_mem _ ht)) hsn h

theorem toRPNLoop_forall (P : Token → Prop) (tokens out st rpn : List Token)
    (htokens : ∀ t ∈ tokens, P t) (hout : ∀ t ∈ out, P t) (hst : ∀ t ∈ st, P t)
    (h : toRPNLoop tokens out st = .ok rpn) : ∀ t ∈ rpn, P t := by
  induction tokens generalizing out st with
  | nil =>
    rw [toRPNLoop] at h
    exact drainOperators_forall P st out rpn hst hout h
  | cons token tokens ih =>
    have htok : P token := htokens token (List.mem_cons_self _ _)
    have htl : ∀ t ∈ tokens, P t := fun t ht => htokens t (List.mem_cons_of_mem _ ht)
    have hcons : ∀ l : List Token, (∀ t ∈ l, P t) → ∀ t ∈ token :: l, P t := by
      intro l hl t ht
      rcases List.mem_cons.1 ht with rfl | ht
      · exact htok
      · exact hl t ht
    have hsnoc : ∀ l : List Token, (∀ t ∈ l, P t) → ∀ t ∈ l ++ [token], P t := by
      intro l hl t ht
      rcases List.mem_append.1 ht with ht | ht
      · exact hl t ht
      · rw [List.mem_singleton] at ht
        subst ht
        exact htok
    rw [toRPNLoop] at h
    split at h
    · exact ih _ _ htl (hsnoc _ hout) hst h
    · split_ifs at h with hu
      · exact ih _ _ htl hout (hcons _ hst) h
      · have := popOperators_forall P token st out hst hout
        exact ih _ _ htl this.2 (hcons _ this.1) h
    · exact ih _ _ htl hout (hcons _ hst) h
    · split at h
      · cases h
      · next st' out' hp =>
        have := popToLeftParen_forall P st out st' out' hst hout hp
        exact ih _ _ htl this.2 this.1 h

theorem toRPN_forall (P : Token → Prop) (tokens rpn : List Token)
    (htokens : ∀ t ∈ tokens, P t) (h : toRPN tokens = .ok rpn) : ∀ t ∈ rpn, P t :=
  toRPNLoop_forall P tokens [] [] rpn htokens (by simp) (by simp) h

/-- The postfix stream that `AddExpression` hands to `parseExpression` has
no Number token carrying a task id. -/
theorem rpn_numbersAreNotIDs {e : List Char} {rpn : List Token}
    (h : (tokenize e).bind toRPN = .ok rpn) : numbersAreNotIDs rpn := by
  cases ht : tokenize e with
  | error err => rw [ht] at h; cases h
  | ok tokens =>
    rw [ht] at h
    exact toRPN_forall (fun t => t.Typ = TokenNumber → ∀ k, t.Value ≠ taskID k) tokens rpn
      (tokenize_numbersAreNotIDs ht) h

/-! ## C13: the task list of `parseExpression` is in topological order -/

/-- Claim C13.  For every orchestrator state and every token stream, the ids
of the task list returned by `parseExpression` are pairwise distinct, and
none is an id issued before (`task-k` with `k` at most the `TaskCounter` of
the state).  When no Number token of the stream carries a task id, then
moreover, whenever `Arg1` or `Arg2` of the task at index `i` is the `ID` of
the task at index `j` then `j < i`, and each id is an argument of at most
one task.  The streams that `parseExpression` receives are of that kind:
its only caller `AddExpression` passes the postfix form of the tokens of an
expression text, in which no Number token carries a task id. -/
theorem C13_parseExpression_is_topological (o : Orchestrator R) (tokens : List Token)
    (exprID : List Char) :
    ((o.parseExpression tokens exprID).2.map (·.ID)).Nodup ∧
    (∀ t ∈ (o.parseExpression tokens exprID).2, ∀ k, k ≤ o.TaskCounter → t.ID ≠ taskID k) ∧
    (numbersAreNotIDs tokens →
      (∀ (i j : Nat) (ti tj : Task R), (o.parseExpression tokens exprID).2[i]? = some ti →
        (o.parseExpression tokens exprID).2[j]? = some tj →
        (ti.Arg1 = tj.ID ∨ ti.Arg2 = tj.ID) → j < i) ∧
      (∀ t ∈ (o.parseExpression tokens exprID).2,
        argUses t.ID (o.parseExpression tokens exprID).2 ≤ 1)) ∧
    (∀ expression : List Char, (tokenize expression).bind toRPN = .ok tokens →
      numbersAreNotIDs tokens) := by
  obtain ⟨new, h1, -, h3, -⟩ :=
    parseExpressionLoop_spec exprID tokens [] ([] : List (Task R)) o.TaskCounter
  have hres : (o.parseExpression tokens exprID).2 = new := by
    simpa [Orchestrator.parseExpression] using h1
  rw [List.nil_append] at h1
  rw [hres]
  have hid : ∀ i t, new[i]? = some t → t.ID = taskID (o.TaskCounter + 1 + i) := by
    intro i t ht
    have : (new.map (·.ID))[i]? = some t.ID := by simp [ht]
    rw [h3] at this
    simp only [List.getElem?_map, Option.map_eq_some'] at this
    obtain ⟨n, hn, hn'⟩ := this
    rw [← hn']
    have hlt : i < new.length := by
      by_contra hge
      rw [List.getElem?_eq_none (by omega)] at ht
      cases ht
    rw [List.getElem?_range' _ _ hlt] at hn
    simp at hn
    subst hn
    rfl
  refine ⟨?_, ?_, ?_, ?_⟩
  · rw [h3]
    exact (List.nodup_range' _ _).map taskID_injective
  · intro t ht k hk hkid
    obtain ⟨i, hi⟩ := List.mem_iff_getElem?.1 ht
    have := taskID_injective ((hid i t hi).symm.trans hkid)
    omega
  · intro hnum
    obtain ⟨stack', hinv⟩ := parseExpressionLoop_LoopInv exprID o.TaskCounter tokens []
      ([] : List (Task R)) o.TaskCounter le_rfl hnum (LoopInv_nil o.TaskCounter)
    rw [h1] at hinv
    refine ⟨?_, ?_⟩
    · intro i j ti tj hi hj harg
      obtain ⟨m, hm, -, -, hargs⟩ := hinv.earlier ti (List.mem_iff_getElem?.2 ⟨i, hi⟩)
      have hmi : m = o.TaskCounter + 1 + i := taskID_injective (hm.symm.trans (hid i ti hi))
      rw [hid j tj hj] at harg
      have := hargs (o.TaskCounter + 1 + j) harg
      omega
    · intro t ht
      obtain ⟨m, hm, -, -, -⟩ := hinv.earlier t ht
      rw [hm]
      have := hinv.once m
      omega
  · intro expression he
    exact rpn_numbersAreNotIDs he

/-- C13 at the text `(1+2)*3`, submitted in the state `claimedProduct` in
which `task-1` and `task-2` exist: its postfix stream holds no task id, and
the second of the two tasks built from it, and only that one, has the first
as an argument. -/
theorem C13_parseExpression_is_topological_witness :
    (tokenize "(1+2)*3".toList).bind toRPN =
      .ok [Token.number ['1'], Token.number ['2'], Token.binary .add, Token.number ['3'],
        Token.binary .mul] ∧
    numbersAreNotIDs [Token.number ['1'], Token.number ['2'], Token.binary .add,
      Token.number ['3'], Token.binary .mul] ∧
    (claimedProduct.parseExpression [Token.number ['1'], Token.number ['2'], Token.binary .add,
      Token.number ['3'], Token.binary .mul] (exprID 2)).2.map (fun t => (t.ID, t.Arg1, t.Arg2)) =
        [(taskID 3, ['1'], ['2']), (taskID 4, taskID 3, ['3'])] ∧
    ((∀ (i j : Nat) (ti tj : Task Int),
        (claimedProduct.parseExpression [Token.number ['1'], Token.number ['2'],
          Token.binary .add, Token.number ['3'], Token.binary .mul] (exprID 2)).2[i]? = some ti →
        (claimedProduct.parseExpression [Token.number ['1'], Token.number ['2'],
          Token.binary .add, Token.number ['3'], Token.binary .mul] (exprID 2)).2[j]? = some tj →
        (ti.Arg1 = tj.ID ∨ ti.Arg2 = tj.ID) → j < i) ∧
      (∀ t ∈ (claimedProduct.parseExpression [Token.number ['1'], Token.number ['2'],
          Token.binary .add, Token.number ['3'], Token.binary .mul] (exprID 2)).2,
        argUses t.ID (claimedProduct.parseExpression [Token.number ['1'], Token.number ['2'],
          Token.binary .add, Token.number ['3'], Token.binary .mul] (exprID 2)).2 ≤ 1)) :=
  ⟨by decide,
    (C13_parseExpression_is_topological claimedProduct [Token.number ['1'], Token.number ['2'],
      Token.binary .add, Token.number ['3'], Token.binary .mul] (exprID 2)).2.2.2
      "(1+2)*3".toList (by decide),
    by decide,
    (C13_parseExpression_is_topological claimedProduct [Token.number ['1'], Token.number ['2'],
      Token.binary .add, Token.number ['3'], Token.binary .mul] (exprID 2)).2.2.1
      (numbersAreNotIDs_of_heads _ (by decide))⟩

/-! ## C11: completion closure -/

theorem doneIn_iff (tasks : List (Task R)) (a : List Char) :
    doneIn tasks a = true ↔ ∃ t, getTask tasks a = some t ∧ t.Status = StatusDone := by
  unfold doneIn
  simp [Option.map_eq_some']

theorem unfinished_congr (ts ts' : List (Task R)) (t t' : Task R) (h1 : t'.Arg1 = t.Arg1)
    (h2 : t'.Arg2 = t.Arg2) (hd : ∀ a ∈ [t.Arg1, t.Arg2], doneIn ts' a = doneIn ts a) :
    unfinished ts' t' = unfinished ts t := by
  unfold unfinished
  rw [h1, h2]
  apply List.filter_congr
  intro a ha
  rw [hd a ha]

theorem Closure_nil : Closure ([] : List (Task R)) :=
  ⟨by simp [getTask], by simp [getTask], by simp [getTask]⟩

/-- `GetNextTask` keeps the closure: the claimed task was `ready`. -/
theorem Closure_claim (ts : List (Task R)) (x : List Char) (t : Task R) (hC : Closure ts)
    (hx : getTask ts x = some t) (hs : t.Status = StatusReady) :
    Closure (updateTask ts x (fun t => { t with Status := StatusProgress })) := by
  have hview : ∀ id, getTask (updateTask ts x (fun t => { t with Status := StatusProgress })) id =
      if id = x then (getTask ts id).map (fun t => { t with Status := StatusProgress })
      else getTask ts id := by
    intro id
    rw [getTask_updateTask]
    intro u h; exact h
  have hdone : ∀ a, doneIn (updateTask ts x (fun t => { t with Status := StatusProgress })) a =
      doneIn ts a := by
    intro a
    unfold doneIn
    rw [hview]
    by_cases ha : a = x
    · subst ha
      simp only [if_true, hx, Option.map_some']
      rw [hs]
      decide
    · rw [if_neg ha]
  have hdeps : t.Dependencies = [] := by
    by_contra hne
    have := (hC.pending x t hx).2 hne
    rw [hs] at this
    revert this; decide
  refine ⟨?_, ?_, ?_⟩
  · intro id u hu
    rw [hview] at hu
    by_cases hid : id = x
    · subst hid
      rw [if_pos rfl, hx] at hu
      simp at hu
      subst hu
      exact Or.inr (Or.inr (Or.inl rfl))
    · rw [if_neg hid] at hu
      exact hC.status id u hu
  · intro id u hu
    rw [hview] at hu
    by_cases hid : id = x
    · subst hid
      rw [if_pos rfl, hx] at hu
      simp at hu
      subst hu
      refine (hC.deps id t hx).trans ?_
      exact (unfinished_congr ts _ t _ rfl rfl (fun a _ => hdone a)).symm
    · rw [if_neg hid] at hu
      refine (hC.deps id u hu).trans ?_
      exact (unfinished_congr ts _ u u rfl rfl (fun a _ => hdone a)).symm
  · intro id u hu
    rw [hview] at hu
    by_cases hid : id = x
    · subst hid
      rw [if_pos rfl, hx] at hu
      simp at hu
      subst hu
      simp only [hdeps]
      constructor
      · intro h; revert h; decide
      · intro h; exact absurd rfl h
    · rw [if_neg hid] at hu
      exact hC.pending id u hu

theorem notified_Arg1 (x : List Char) (t : Task R) : (notified x t).Arg1 = t.Arg1 := by
  unfold notified; split_ifs <;> rfl

theorem notified_Arg2 (x : List Char) (t : Task R) : (notified x t).Arg2 = t.Arg2 := by
  unfold notified; split_ifs <;> rfl

/-- `ProcessTaskResult` keeps the closure: the completed task leaves the
dependencies of every task, and a pending task left without dependency
becomes ready. -/
theorem Closure_complete (ts ts' : List (Task R)) (x : List Char) (r : R) (t : Task R)
    (hC : Closure ts) (hx : getTask ts x = some t) (hs : t.Status = StatusProgress)
    (hview : ∀ id, getTask ts' id = (getTask ts id).map (fun u =>
      notified x (if id = x then { u with Status := StatusDone, Result := some r } else u))) :
    Closure ts' := by
  have hdone : ∀ a, doneIn ts' a = (decide (a = x) || doneIn ts a) := by
    intro a
    unfold doneIn
    rw [hview]
    cases hu : getTask ts a with
    | none =>
      have : a ≠ x := by
        rintro rfl
        rw [hx] at hu; cases hu
      simp [this]
    | some u =>
      simp only [Option.map_some', notified_Status]
      by_cases ha : a = x
      · subst ha
        have : becomesReady a ({ u with Status := StatusDone, Result := some r } : Task R)
            = false := by
          unfold becomesReady
          simp only [Bool.and_eq_false_iff, decide_eq_false_iff_not]
          right
          decide
        simp [this]
      · have e : (if a = x then ({ u with Status := StatusDone, Result := some r } : Task R)
            else u) = u := if_neg ha
        rw [e]
        cases hb : becomesReady x u
        · simp [ha]
        · have hp := becomesReady_Status hb
          simp [ha, hp, (show StatusReady ≠ StatusDone by decide),
            (show StatusPending ≠ StatusDone by decide)]
  have hunf : ∀ u u' : Task R, u'.Arg1 = u.Arg1 → u'.Arg2 = u.Arg2 →
      unfinished ts' u' = Remove (unfinished ts u) x := by
    intro u u' h1 h2
    rw [Remove_eq_filter]
    unfold unfinished
    rw [h1, h2, List.filter_filter]
    apply List.filter_congr
    intro a _
    rw [hdone a]
    by_cases ha : a = x <;> simp [ha]
  have htdeps : t.Dependencies = [] := by
    by_contra hne
    have := (hC.pending x t hx).2 hne
    rw [hs] at this
    revert this; decide
  have hcase : ∀ id u u', getTask ts id = some u → getTask ts' id = some u' →
      (id = x ∧ u = t ∧
        u' = notified x ({ t with Status := StatusDone, Result := some r } : Task R)) ∨
      (id ≠ x ∧ u' = notified x u) := by
    intro id u u' hu hu'
    rw [hview, hu] at hu'
    simp only [Option.map_some', Option.some.injEq] at hu'
    by_cases hid : id = x
    · subst hid
      rw [hx] at hu
      cases hu
      left
      simp only [if_true] at hu'
      exact ⟨rfl, rfl, hu'.symm⟩
    · right
      rw [if_neg hid] at hu'
      exact ⟨hid, hu'.symm⟩
  have hex : ∀ id u', getTask ts' id = some u' → ∃ u, getTask ts id = some u := by
    intro id u' hu'
    rw [hview] at hu'
    cases hu : getTask ts id with
    | none => rw [hu] at hu'; cases hu'
    | some u => exact ⟨u, rfl⟩
  have hbt : becomesReady x ({ t with Status := StatusDone, Result := some r } : Task R)
      = false := by
    unfold becomesReady
    simp only [Bool.and_eq_false_iff, decide_eq_false_iff_not]
    right
    decide
  refine ⟨?_, ?_, ?_⟩
  · intro id u' hu'
    obtain ⟨u, hu⟩ := hex id u' hu'
    rcases hcase id u u' hu hu' with ⟨-, -, rfl⟩ | ⟨-, rfl⟩
    · rw [notified_Status, hbt]
      exact Or.inr (Or.inr (Or.inr rfl))
    · rw [notified_Status]
      split_ifs
      · exact Or.inr (Or.inl rfl)
      · exact hC.status id u hu
  · intro id u' hu'
    obtain ⟨u, hu⟩ := hex id u' hu'
    rcases hcase id u u' hu hu' with ⟨rfl, rfl, rfl⟩ | ⟨-, rfl⟩
    · rw [notified_Dependencies, hunf u _ (by rw [notified_Arg1]) (by rw [notified_Arg2])]
      show Remove u.Dependencies id = _
      rw [hC.deps id u hu]
    · rw [notified_Dependencies, hunf u _ (by rw [notified_Arg1]) (by rw [notified_Arg2])]
      rw [← hC.deps id u hu]
  · intro id u' hu'
    obtain ⟨u, hu⟩ := hex id u' hu'
    rcases hcase id u u' hu hu' with ⟨rfl, rfl, rfl⟩ | ⟨-, rfl⟩
    · rw [notified_Status, hbt, notified_Dependencies]
      show StatusDone = StatusPending ↔ Remove u.Dependencies id ≠ []
      rw [htdeps]
      constructor
      · intro h; exact absurd h (show StatusDone ≠ StatusPending by decide)
      · intro h; exact absurd (by simp [Remove_eq_filter]) h
    · rw [notified_Status, notified_Dependencies]
      cases hb : becomesReady x u
      · simp only [Bool.false_eq_true, if_false]
        by_cases hp : u.Status = StatusPending
        · have hne := (hC.pending id u hu).1 hp
          simp only [hp, true_iff]
          by_cases hc : x ∈ u.Dependencies
          · unfold becomesReady at hb
            rw [(Contains_iff _ _).2 hc] at hb
            simp only [hp, decide_True, Bool.and_true, Bool.true_and,
              decide_eq_false_iff_not] at hb
            intro h
            apply hb
            rw [h]; rfl
          · rw [Remove_of_not_mem _ _ hc]
            exact hne
        · have hd : u.Dependencies = [] := by
            by_contra hne
            exact hp ((hC.pending id u hu).2 hne)
          rw [hd]
          simp only [hp, false_iff]
          intro h; exact absurd (by simp [Remove_eq_filter]) h
      · simp only [if_true]
        unfold becomesReady at hb
        simp only [Bool.and_eq_true, decide_eq_true_eq] at hb
        constructor
        · intro h; exact absurd h (show StatusReady ≠ StatusPending by decide)
        · intro h
          exact absurd (List.length_eq_zero.1 hb.1.2) h

theorem newTask_Dependencies (e : List Char) (c : Nat) (arg1 arg2 operation : List Char) :
    (newTask e c arg1 arg2 operation : Task R).Dependencies =
      [(newTask e c arg1 arg2 operation : Task R).Arg1,
        (newTask e c arg1 arg2 operation : Task R).Arg2].filter (fun a => !IsNumber a) := by
  unfold newTask
  cases h1 : IsNumber arg1 <;> cases h2 : IsNumber arg2 <;> simp [List.filter_cons, h1, h2]

/-- `AddExpression` keeps the closure: the new tasks depend on their
arguments that are not literals, none of which is done. -/
theorem Closure_install (ts ts' new : List (Task R)) (hC : Closure ts)
    (hview : ∀ id, getTask ts' id =
      match getTask new id with
      | some t => some (installed t)
      | none => getTask ts id)
    (hnew : ∀ t ∈ new, t.Status = StatusPending ∧
      t.Dependencies = [t.Arg1, t.Arg2].filter (fun a => !IsNumber a))
    (hfresh : ∀ t ∈ new, getTask ts t.ID = none)
    (hargs : ∀ t ∈ new, ∀ a ∈ [t.Arg1, t.Arg2], getTask ts a = none) :
    Closure ts' := by
  have hinst : ∀ t ∈ new, (installed t).Status = StatusPending ∨
      (installed t).Status = StatusReady := by
    intro t ht
    unfold installed
    split_ifs
    · exact Or.inr rfl
    · exact Or.inl (hnew t ht).1
  have hdone : ∀ a, doneIn ts' a = doneIn ts a := by
    intro a
    unfold doneIn
    rw [hview]
    cases hn : getTask new a with
    | none => rfl
    | some t =>
      have hmem := getTask_mem hn
      have hid := getTask_some_ID hn
      have h1 : getTask ts a = none := by rw [← hid]; exact hfresh t hmem
      rw [h1]
      simp only [Option.map_some', Option.map_none']
      rcases hinst t hmem with h | h
      · simp [h, (show StatusPending ≠ StatusDone by decide)]
      · simp [h, (show StatusReady ≠ StatusDone by decide)]
  have hnone : ∀ a, getTask ts a = none → doneIn ts a = false := by
    intro a ha
    unfold doneIn
    rw [ha]
    rfl
  refine ⟨?_, ?_, ?_⟩
  · intro id u hu
    rw [hview] at hu
    cases hn : getTask new id with
    | none => rw [hn] at hu; exact hC.status id u hu
    | some t =>
      rw [hn] at hu
      simp only [Option.some.injEq] at hu
      subst hu
      rcases hinst t (getTask_mem hn) with h | h
      · exact Or.inl h
      · exact Or.inr (Or.inl h)
  · intro id u hu
    rw [hview] at hu
    cases hn : getTask new id with
    | none =>
      rw [hn] at hu
      refine (hC.deps id u hu).trans ?_
      exact (unfinished_congr ts ts' u u rfl rfl (fun a _ => hdone a)).symm
    | some t =>
      rw [hn] at hu
      simp only [Option.some.injEq] at hu
      subst hu
      have hmem := getTask_mem hn
      have hd : (installed t).Dependencies = t.Dependencies := by
        unfold installed; split_ifs <;> rfl
      have ha1 : (installed t).Arg1 = t.Arg1 := by
        unfold installed; split_ifs <;> rfl
      have ha2 : (installed t).Arg2 = t.Arg2 := by
        unfold installed; split_ifs <;> rfl
      rw [hd, (hnew t hmem).2]
      unfold unfinished
      rw [ha1, ha2]
      apply List.filter_congr
      intro a ha
      rw [hdone a, hnone a (hargs t hmem a ha)]
      simp
  · intro id u hu
    rw [hview] at hu
    cases hn : getTask new id with
    | none => rw [hn] at hu; exact hC.pending id u hu
    | some t =>
      rw [hn] at hu
      simp only [Option.some.injEq] at hu
      subst hu
      have hp := (hnew t (getTask_mem hn)).1
      unfold installed
      split_ifs with h
      · simp only [List.length_eq_zero.1 h]
        constructor
        · intro h'; exact absurd h' (show StatusReady ≠ StatusPending by decide)
        · intro h'; exact absurd rfl h'
      · constructor
        · intro _ h'
          apply h
          rw [h']; rfl
        · intro _; exact hp

namespace Orchestrator

theorem Closure_AddExpression (o : Orchestrator R) (expr : List Char) (hI : Inv o)
    (hC : Closure o.Tasks) : Closure (o.AddExpression expr).1.Tasks := by
  cases hb : (tokenize expr).bind toRPN with
  | error err =>
    obtain ⟨err', h'⟩ := AddExpression_error o expr (by intro rpn hr; rw [hb] at hr; cases hr)
    rw [h']
    exact hC
  | ok rpn =>
    rw [AddExpression_ok o expr rpn hb]
    obtain ⟨new, h1, -, h3, -⟩ := parseExpressionLoop_spec (exprID (o.ExpressionCounter + 1))
      rpn [] ([] : List (Task R)) o.TaskCounter
    obtain ⟨stack', hinv⟩ := parseExpressionLoop_LoopInv (exprID (o.ExpressionCounter + 1))
      o.TaskCounter rpn [] ([] : List (Task R)) o.TaskCounter le_rfl (rpn_numbersAreNotIDs hb)
      (LoopInv_nil o.TaskCounter)
    have hform := parseExpressionLoop_forall
      (fun t : Task R => t.Status = StatusPending ∧
        t.Dependencies = [t.Arg1, t.Arg2].filter (fun a => !IsNumber a))
      (exprID (o.ExpressionCounter + 1))
      (fun c a1 a2 op => ⟨rfl, newTask_Dependencies _ c a1 a2 op⟩)
      rpn [] [] o.TaskCounter (by simp)
    rw [List.nil_append] at h1
    rw [h1] at hinv hform
    have hres : (o.countExpression.parseExpression rpn (exprID (o.ExpressionCounter + 1))).2
        = new := by
      simpa [parseExpression, countExpression] using h1
    have hnd : (new.map (·.ID)).Nodup := by
      rw [h3]
      exact (List.nodup_range' _ _).map taskID_injective
    have hold : ∀ a k, a = taskID k → o.TaskCounter < k → getTask o.Tasks a = none := by
      intro a k ha hk
      cases hg : getTask o.Tasks a with
      | none => rfl
      | some u =>
        exfalso
        have hmem : a ∈ o.Tasks.map (·.ID) :=
          List.mem_map.2 ⟨u, getTask_mem hg, getTask_some_ID hg⟩
        obtain ⟨k', -, hk', hid⟩ := hI.keys a hmem
        have : k = k' := taskID_injective (ha.symm.trans hid)
        omega
    have hlex : ∀ a, (∀ k, a ≠ taskID k) → getTask o.Tasks a = none := by
      intro a ha
      cases hg : getTask o.Tasks a with
      | none => rfl
      | some u =>
        exfalso
        have hmem : a ∈ o.Tasks.map (·.ID) :=
          List.mem_map.2 ⟨u, getTask_mem hg, getTask_some_ID hg⟩
        obtain ⟨k', -, -, hid⟩ := hI.keys a hmem
        exact ha k' hid
    apply Closure_install o.Tasks _ new hC
    · intro id
      rw [hres, installExpression_getTask _ _ _ _ hnd]
      rfl
    · exact hform
    · intro t ht
      obtain ⟨m, hm, hlt, -, -⟩ := hinv.earlier t ht
      exact hold _ m hm hlt
    · intro t ht a ha
      obtain ⟨m, -, -, -, hargs⟩ := hinv.earlier t ht
      by_cases hk : ∃ k, a = taskID k
      · obtain ⟨k, hk⟩ := hk
        refine hold a k hk (hargs k ?_).1
        simp only [List.mem_cons, List.mem_singleton, List.not_mem_nil, or_false] at ha
        rcases ha with rfl | rfl
        · exact Or.inl hk
        · exact Or.inr hk
      · exact hlex a (fun k h => hk ⟨k, h⟩)

theorem Closure_GetNextTask (o : Orchestrator R) (hC : Closure o.Tasks) :
    Closure o.GetNextTask.1.Tasks := by
  cases hq : o.ReadyTasks with
  | nil => rw [GetNextTask_empty o hq]; exact hC
  | cons id rest =>
    by_cases h : ∃ t, getTask o.Tasks id = some t ∧ t.Status = StatusReady
    · obtain ⟨t, ht, hs⟩ := h
      rw [GetNextTask_ready o id rest t hq ht hs]
      exact Closure_claim o.Tasks id t hC ht hs
    · rw [GetNextTask_stale o id rest hq (fun t ht hs => h ⟨t, ht, hs⟩)]
      exact hC

theorem Closure_ProcessTaskResult (o : Orchestrator R) (x : List Char) (r : R)
    (order : List (List Char)) (hC : Closure o.Tasks) :
    Closure (o.ProcessTaskResult x r order).1.Tasks := by
  by_cases h : ∃ t, getTask o.Tasks x = some t ∧ t.Status = StatusProgress
  · obtain ⟨t, ht, hs⟩ := h
    exact Closure_complete o.Tasks _ x r t hC ht hs
      (fun id => ProcessTaskResult_getTask o x r order t ht hs id)
  · rw [ProcessTaskResult_invalid o x r order (fun t ht hs => h ⟨t, ht, hs⟩)]
    exact hC

end Orchestrator

theorem Closure_of_Reachable {o : Orchestrator R} (h : Reachable o) : Closure o.Tasks := by
  induction h with
  | init a b c d => exact Closure_nil
  | step o op hr ih =>
    cases op with
    | addExpression expr => exact Orchestrator.Closure_AddExpression o expr (Inv_of_Reachable hr) ih
    | getNextTask => exact Orchestrator.Closure_GetNextTask o ih
    | processTaskResult x r order => exact Orchestrator.Closure_ProcessTaskResult o x r order ih
    | send x =>
      simp only [Orchestrator.step]
      rw [(Orchestrator.send_frame o x).1]
      exact ih

theorem doneIn_eq_statusOf (o : Orchestrator R) (a : List Char) :
    doneIn o.Tasks a = true ↔ o.statusOf a = some StatusDone := by
  unfold doneIn Orchestrator.statusOf
  simp

/-- In every reachable state, a task is `ready` if and only if each of its
arguments that `IsNumber` rejects names a task that is `done` and the task
itself is neither `in_progress` nor `done`; and a task is `pending` exactly
when its `Dependencies` list is not empty. -/
theorem completion_closure {o : Orchestrator R} (h : Reachable o) (t : Task R)
    (ht : t ∈ o.Tasks) :
    (t.Status = StatusReady ↔
      (∀ a ∈ [t.Arg1, t.Arg2], IsNumber a = false → o.statusOf a = some StatusDone) ∧
        t.Status ≠ StatusProgress ∧ t.Status ≠ StatusDone) ∧
    (t.Status = StatusPending ↔ t.Dependencies ≠ []) := by
  have hget := getTask_of_mem_nodup ht (Reachable_keys_nodup h)
  have hC := Closure_of_Reachable h
  have hp := hC.pending t.ID t hget
  have hnil : t.Dependencies = [] ↔
      ∀ a ∈ [t.Arg1, t.Arg2], IsNumber a = false → o.statusOf a = some StatusDone := by
    rw [hC.deps t.ID t hget]
    unfold unfinished
    rw [List.filter_eq_nil_iff]
    constructor
    · intro hall a ha hnum
      have := hall a ha
      rw [hnum] at this
      rw [← doneIn_eq_statusOf]
      simpa using this
    · intro hall a ha
      cases hnum : IsNumber a
      · have := (doneIn_eq_statusOf o a).2 (hall a ha hnum)
        simp [this]
      · simp
  refine ⟨⟨?_, ?_⟩, hp⟩
  · intro hs
    refine ⟨hnil.1 ?_, ?_, ?_⟩
    · by_contra hne
      have := hp.2 hne
      rw [hs] at this
      exact absurd this (by decide)
    · rw [hs]; decide
    · rw [hs]; decide
  · rintro ⟨hall, h1, h2⟩
    have hd := hnil.2 hall
    have hnp : t.Status ≠ StatusPending := fun h' => hp.1 h' hd
    rcases hC.status t.ID t hget with h' | h' | h' | h'
    · exact absurd h' hnp
    · exact h'
    · exact absurd h' h1
    · exact absurd h' h2

/-- A step keeps the arguments of every task. -/
theorem step_args (o : Orchestrator R) (hI : Inv o) (op : Op R) (id : List Char) (t : Task R)
    (ht : getTask o.Tasks id = some t) :
    ∃ t', getTask (o.step op).Tasks id = some t' ∧ t'.Arg1 = t.Arg1 ∧ t'.Arg2 = t.Arg2 := by
  cases op with
  | send x =>
    simp only [Orchestrator.step]
    rw [(Orchestrator.send_frame o x).1]
    exact ⟨t, ht, rfl, rfl⟩
  | addExpression expr =>
    simp only [Orchestrator.step]
    rcases Orchestrator.AddExpression_effect o expr with ⟨err, he⟩ | ⟨new, -, hids, -, hview, -⟩
    · rw [he]
      exact ⟨t, ht, rfl, rfl⟩
    · refine ⟨t, ?_, rfl, rfl⟩
      have hnone : getTask new id = none := by
        rw [getTask_eq_none_iff, hids]
        intro hm
        obtain ⟨k, hk, hka⟩ := List.mem_map.1 hm
        obtain ⟨n, -, hn, hna⟩ := hI.keys id ((getTask_isSome_iff _ _).1 (by rw [ht]; rfl))
        rw [hna] at hka
        have := taskID_injective hka
        rw [List.mem_range'_1] at hk
        omega
      rw [hview, hnone]
      exact ht
  | getNextTask =>
    simp only [Orchestrator.step]
    cases hq : o.ReadyTasks with
    | nil =>
      rw [Orchestrator.GetNextTask_empty o hq]
      exact ⟨t, ht, rfl, rfl⟩
    | cons a rest =>
      by_cases hr : ∃ u, getTask o.Tasks a = some u ∧ u.Status = StatusReady
      · obtain ⟨u, hu, hus⟩ := hr
        rw [Orchestrator.GetNextTask_ready o a rest u hq hu hus]
        simp only
        rw [getTask_updateTask]
        · rw [ht]
          by_cases hne : id = a
          · rw [if_pos hne]
            exact ⟨_, rfl, rfl, rfl⟩
          · rw [if_neg hne]
            exact ⟨t, rfl, rfl, rfl⟩
        · intro v hv; exact hv
      · rw [Orchestrator.GetNextTask_stale o a rest hq (fun u hu hus => hr ⟨u, hu, hus⟩)]
        exact ⟨t, ht, rfl, rfl⟩
  | processTaskResult x r order =>
    simp only [Orchestrator.step]
    by_cases hv : ∃ u, getTask o.Tasks x = some u ∧ u.Status = StatusProgress
    · obtain ⟨u, hu, hus⟩ := hv
      rw [Orchestrator.ProcessTaskResult_getTask o x r order u hu hus, ht]
      refine ⟨_, rfl, ?_, ?_⟩
      · rw [notified_Arg1]
        split_ifs <;> rfl
      · rw [notified_Arg2]
        split_ifs <;> rfl
    · rw [Orchestrator.ProcessTaskResult_invalid o x r order (fun u hu hus => hv ⟨u, hu, hus⟩)]
      exact ⟨t, ht, rfl, rfl⟩

/-- A run keeps the arguments of every task. -/
theorem run_args (ops : List (Op R)) (o : Orchestrator R) (hI : Inv o) (id : List Char)
    (t : Task R) (ht : getTask o.Tasks id = some t) :
    ∃ t', getTask (o.run ops).Tasks id = some t' ∧ t'.Arg1 = t.Arg1 ∧ t'.Arg2 = t.Arg2 := by
  induction ops generalizing o t with
  | nil => exact ⟨t, ht, rfl, rfl⟩
  | cons op ops ih =>
    obtain ⟨t1, h1, a1, a2⟩ := step_args o hI op id t ht
    obtain ⟨t2, h2, b1, b2⟩ := ih (o.step op) (Inv_step o [] [] op hI (History_nil o)).1 t1 h1
    exact ⟨t2, h2, b1.trans a1, b2.trans a2⟩

/-- In a reachable state a task is `pending` when one of its arguments is
rejected by `IsNumber` and is no task id: the argument is a dependency that
no completion removes. -/
theorem pending_of_unresolvable_argument {o : Orchestrator R} (h : Reachable o) (id : List Char)
    (t : Task R) (ht : getTask o.Tasks id = some t) (a : List Char) (ha : a ∈ [t.Arg1, t.Arg2])
    (hn : IsNumber a = false) (hk : ∀ k, a ≠ taskID k) : t.Status = StatusPending := by
  have hC := Closure_of_Reachable h
  have hI := Inv_of_Reachable h
  rw [hC.pending id t ht, hC.deps id t ht]
  have hnone : getTask o.Tasks a = none := by
    rw [getTask_eq_none_iff]
    intro hm
    obtain ⟨k, -, -, hka⟩ := hI.keys a hm
    exact hk k hka
  have hmem : a ∈ unfinished o.Tasks t := by
    unfold unfinished
    rw [List.mem_filter]
    refine ⟨ha, ?_⟩
    simp [hn, doneIn, hnone]
  exact List.ne_nil_of_mem hmem

/-- Claim C11, the code at a failing input.  `ValidateExpression` accepts
`99…9+1`, whose first operand has 310 digits.  After `AddExpression` of it on
a fresh orchestrator the task `task-1` has two decimal literals as
arguments, so it depends on no task, and it has not been claimed; yet its
status is `pending`, not `ready`: `IsNumber` rejects the first argument,
which `parseExpression` therefore enters into `Dependencies`.  No task has
that id, so the task is `pending` after every further run of calls and
sends. -/
theorem C11_literal_beyond_float64_keeps_task_pending :
    ValidateExpression hugePlusOne = none ∧
    ((fresh : Orchestrator Int).AddExpression hugePlusOne).2 = .ok (exprID 1) ∧
    ((fresh : Orchestrator Int).AddExpression hugePlusOne).1.Tasks =
      [{ ID := taskID 1, ExpressionID := exprID 1,
         Arg1 := List.replicate 310 '9', Arg2 := ['1'], Operation := ['+'], OperationTime := 0,
         Dependencies := [List.replicate 310 '9'], Status := StatusPending, Result := none }] ∧
    Expr.isLiteral (List.replicate 310 '9') = true ∧ Expr.isLiteral ['1'] = true ∧
    IsNumber (List.replicate 310 '9') = false ∧
    (∀ ops : List (Op Int),
      (((fresh : Orchestrator Int).AddExpression hugePlusOne).1.run ops).statusOf (taskID 1) =
        some StatusPending) := by
  refine ⟨by decide, by decide, by decide, by decide, by decide, by decide, ?_⟩
  intro ops
  have hR : Reachable ((fresh : Orchestrator Int).AddExpression hugePlusOne).1 :=
    Reachable.step _ (.addExpression hugePlusOne) (Reachable.init _ _ _ _)
  have h0 : getTask ((fresh : Orchestrator Int).AddExpression hugePlusOne).1.Tasks (taskID 1) =
      some { ID := taskID 1, ExpressionID := exprID 1,
             Arg1 := List.replicate 310 '9', Arg2 := ['1'], Operation := ['+'],
             OperationTime := 0, Dependencies := [List.replicate 310 '9'],
             Status := StatusPending, Result := none } := by decide
  obtain ⟨t, ht, h1, -⟩ := run_args ops _ (Inv_of_Reachable hR) (taskID 1) _ h0
  have hs := pending_of_unresolvable_argument (Reachable_run ops _ hR) (taskID 1) t ht
    (List.replicate 310 '9') (by rw [h1]; simp) (by decide)
    (literal_ne_taskID (by decide))
  rw [Orchestrator.statusOf_eq]
  exact ⟨t, ht, hs⟩

/-! ## C12: the arguments of the tasks of an accepted expression -/

/-- C12, the code at the failing input.  `ValidateExpression` and
`AddExpression` accept the text `.+1`: the lexer takes the lone dot for a
number.  The expression gets the single task `task-1` with `Arg1 = "."`,
which `IsNumber` rejects and which is the id of no task; its `Dependencies`
are `["."]`, so it is installed `pending`: no task can be claimed and no
result is accepted, the task is never ready. -/
theorem C12_lone_dot_is_no_literal_and_no_task :
    ValidateExpression ".+1".toList = none ∧
    ((fresh : Orchestrator Int).AddExpression ".+1".toList).2 = .ok (exprID 1) ∧
    ((fresh : Orchestrator Int).AddExpression ".+1".toList).1.Tasks =
      [storedTask 1 "." '+' "1" [['.']] StatusPending] ∧
    IsNumber ['.'] = false ∧
    getTask ((fresh : Orchestrator Int).AddExpression ".+1".toList).1.Tasks ['.'] = none ∧
    ((fresh : Orchestrator Int).AddExpression ".+1".toList).1.GetNextTask.2 =
      .error .ErrNoTasksAvailable ∧
    ∀ (taskID : List Char) (result : Int) (order : List (List Char)),
      ((fresh : Orchestrator Int).AddExpression ".+1".toList).1.ProcessTaskResult
          taskID result order =
        (((fresh : Orchestrator Int).AddExpression ".+1".toList).1, some .invalidTask) := by
  refine ⟨by decide, by decide, by decide, by decide, by decide, by decide, ?_⟩
  intro taskID result order
  apply Orchestrator.ProcessTaskResult_invalid
  intro t ht
  have h : ((fresh : Orchestrator Int).AddExpression ".+1".toList).1.Tasks =
      [storedTask 1 "." '+' "1" [['.']] StatusPending] := by decide
  rw [h] at ht
  have hmem := getTask_mem ht
  rw [List.mem_singleton] at hmem
  subst hmem
  decide

/-! ## The arguments of a dispatched task resolve -/

theorem notified_Result (x : List Char) (t : Task R) : (notified x t).Result = t.Result := by
  unfold notified; split_ifs <;> rfl

namespace Orchestrator

theorem DoneHasResult_AddExpression (o : Orchestrator R) (expr : List Char)
    (h : DoneHasResult o.Tasks) : DoneHasResult (o.AddExpression expr).1.Tasks := by
  rcases AddExpression_effect o expr with ⟨err, he⟩ | ⟨new, -, -, hnew, hview, -⟩
  · rw [he]; exact h
  · intro id t ht hs
    rw [hview] at ht
    cases hn : getTask new id with
    | none => rw [hn] at ht; exact h id t ht hs
    | some u =>
      rw [hn] at ht
      simp only [Option.some.injEq] at ht
      subst ht
      exfalso
      have hp := (hnew u (getTask_mem hn)).1
      unfold installed at hs
      split_ifs at hs
      · exact absurd hs (show StatusReady ≠ StatusDone by decide)
      · rw [hp] at hs; exact absurd hs (by decide)

theorem DoneHasResult_GetNextTask (o : Orchestrator R) (h : DoneHasResult o.Tasks) :
    DoneHasResult o.GetNextTask.1.Tasks := by
  cases hq : o.ReadyTasks with
  | nil => rw [GetNextTask_empty o hq]; exact h
  | cons x rest =>
    by_cases hx : ∃ t, getTask o.Tasks x = some t ∧ t.Status = StatusReady
    · obtain ⟨t, ht, hs⟩ := hx
      rw [GetNextTask_ready o x rest t hq ht hs]
      intro id u hu hd
      simp only at hu
      rw [getTask_updateTask] at hu
      · by_cases hid : id = x
        · rw [if_pos hid] at hu
          obtain ⟨v, -, hv⟩ := Option.map_eq_some'.1 hu
          subst hv
          exact absurd hd (show StatusProgress ≠ StatusDone by decide)
        · rw [if_neg hid] at hu
          exact h id u hu hd
      · intro v hv; exact hv
    · rw [GetNextTask_stale o x rest hq (fun t ht hs => hx ⟨t, ht, hs⟩)]
      exact h

theorem DoneHasResult_ProcessTaskResult (o : Orchestrator R) (x : List Char) (r : R)
    (order : List (List Char)) (h : DoneHasResult o.Tasks) :
    DoneHasResult (o.ProcessTaskResult x r order).1.Tasks := by
  by_cases hx : ∃ t, getTask o.Tasks x = some t ∧ t.Status = StatusProgress
  · obtain ⟨t, ht, hs⟩ := hx
    intro id u hu hd
    rw [ProcessTaskResult_getTask o x r order t ht hs id] at hu
    obtain ⟨v, hv, rfl⟩ := Option.map_eq_some'.1 hu
    rw [notified_Result]
    rw [notified_Status] at hd
    by_cases hid : id = x
    · simp [hid]
    · simp only [if_neg hid] at hd ⊢
      split_ifs at hd with hb
      · exact absurd hd (by decide)
      · exact h id v hv hd
  · rw [ProcessTaskResult_invalid o x r order (fun t ht hs => hx ⟨t, ht, hs⟩)]
    exact h

end Orchestrator

theorem DoneHasResult_of_Reachable {o : Orchestrator R} (h : Reachable o) :
    DoneHasResult o.Tasks := by
  induction h with
  | init a b c d => intro id t ht; simp [NewOrchestrator, getTask] at ht
  | step o op hr ih =>
    cases op with
    | addExpression expr => exact Orchestrator.DoneHasResult_AddExpression o expr ih
    | getNextTask => exact Orchestrator.DoneHasResult_GetNextTask o ih
    | processTaskResult x r order =>
      exact Orchestrator.DoneHasResult_ProcessTaskResult o x r order ih
    | send x =>
      simp only [Orchestrator.step]
      rw [(Orchestrator.send_frame o x).1]
      exact ih

/-- In a reachable state the arguments of a task that is `ready` or
`in_progress` are literals or name `done` tasks with a result. -/
theorem dispatched_args {o : Orchestrator R} (h : Reachable o) (t : Task R)
    (ht : t ∈ o.Tasks) (hs : t.Status = StatusReady ∨ t.Status = StatusProgress) :
    ∀ a ∈ [t.Arg1, t.Arg2], IsNumber a = true ∨
      ∃ u, getTask o.Tasks a = some u ∧ u.Status = StatusDone ∧ u.Result ≠ none := by
  have hget := getTask_of_mem_nodup ht (Reachable_keys_nodup h)
  have hC := Closure_of_Reachable h
  have hD := DoneHasResult_of_Reachable h
  have hnp : t.Status ≠ StatusPending := by
    rcases hs with hs | hs <;> rw [hs] <;> decide
  have hd : t.Dependencies = [] := by
    by_contra hne
    exact hnp ((hC.pending t.ID t hget).2 hne)
  rw [hC.deps t.ID t hget] at hd
  unfold unfinished at hd
  rw [List.filter_eq_nil_iff] at hd
  intro a ha
  cases hnum : IsNumber a
  · right
    have := hd a ha
    simp only [hnum, Bool.not_false, Bool.true_and, Bool.not_eq_true', Bool.not_eq_false] at this
    obtain ⟨u, hu, hus⟩ := (doneIn_iff o.Tasks a).1 this
    exact ⟨u, hu, hus, hD a u hu hus⟩
  · exact Or.inl rfl

theorem resolveArg_ne_nan (o : Orchestrator R) (a : List Char)
    (h : IsNumber a = true ∨
      ∃ u, getTask o.Tasks a = some u ∧ u.Status = StatusDone ∧ u.Result ≠ none) :
    resolveArg o a ≠ .nan := by
  unfold resolveArg
  rcases h with h | ⟨u, hu, -, hr⟩
  · simp [h]
  · split_ifs
    · simp
    · rw [hu]
      cases hres : u.Result with
      | none => exact absurd hres hr
      | some r => simp [hres]

/-! ## C22: `toRPN` fails exactly on unbalanced parentheses -/

theorem countLeft_cons (t : Token) (l : List Token) :
    countLeft (t :: l) = countLeft l + if t.Typ = TokenLeftParen then 1 else 0 := by
  unfold countLeft
  rw [List.countP_cons]
  simp

theorem countRight_cons (t : Token) (l : List Token) :
    countRight (t :: l) = countRight l + if t.Typ = TokenRightParen then 1 else 0 := by
  unfold countRight
  rw [List.countP_cons]
  simp

theorem popOperators_countLeft (token : Token) (st out : List Token) :
    countLeft (popOperators token st out).1 = countLeft st ∧
      ((∀ t ∈ st, t.Typ ≠ TokenRightParen) →
        ∀ t ∈ (popOperators token st out).1, t.Typ ≠ TokenRightParen) := by
  induction st generalizing out with
  | nil => simp [popOperators]
  | cons top st ih =>
    rw [popOperators]
    split_ifs with h
    · obtain ⟨h1, h2⟩ := ih (out ++ [top])
      refine ⟨?_, fun hst => h2 (fun t ht => hst t (List.mem_cons_of_mem _ ht))⟩
      rw [h1, countLeft_cons, h.1]
      simp
    · exact ⟨rfl, fun hst => hst⟩

theorem popToLeftParen_none_iff (st out : List Token) :
    popToLeftParen st out = none ↔ countLeft st = 0 := by
  induction st generalizing out with
  | nil => simp [popToLeftParen, countLeft]
  | cons top st ih =>
    rw [popToLeftParen, countLeft_cons]
    split_ifs with h
    · simp
    · rw [ih]; simp

theorem popToLeftParen_some (st out st' out' : List Token)
    (h : popToLeftParen st out = some (st', out')) :
    countLeft st = countLeft st' + 1 ∧
      ((∀ t ∈ st, t.Typ ≠ TokenRightParen) → ∀ t ∈ st', t.Typ ≠ TokenRightParen) := by
  induction st generalizing out with
  | nil => simp [popToLeftParen] at h
  | cons top st ih =>
    rw [popToLeftParen] at h
    rw [countLeft_cons]
    split_ifs at h with h1
    · simp only [Option.some.injEq, Prod.mk.injEq] at h
      obtain ⟨rfl, -⟩ := h
      simp only [h1, if_true]
      exact ⟨trivial, fun hst t ht => hst t (List.mem_cons_of_mem _ ht)⟩
    · obtain ⟨h2, h3⟩ := ih (out ++ [top]) h
      simp only [h1, if_false, add_zero]
      exact ⟨h2, fun hst => h3 (fun t ht => hst t (List.mem_cons_of_mem _ ht))⟩

theorem drainOperators_ok_iff (st out : List Token) (hst : ∀ t ∈ st, t.Typ ≠ TokenRightParen) :
    (∃ rpn, drainOperators st out = .ok rpn) ↔ countLeft st = 0 := by
  induction st generalizing out with
  | nil => simp [drainOperators, countLeft]
  | cons top st ih =>
    rw [drainOperators, countLeft_cons]
    have htop := hst top (List.mem_cons_self _ _)
    split_ifs with h h1 h1
    · simp
    · exact absurd h1 (by rcases h with h | h <;> simp_all)
    · simp at h; exact absurd h1 h.1
    · rw [ih _ (fun t ht => hst t (List.mem_cons_of_mem _ ht))]; simp

theorem drainOperators_error (st out : List Token) (err : Err)
    (h : drainOperators st out = .error err) : err = .mismatchedParentheses := by
  induction st generalizing out with
  | nil => simp [drainOperators] at h
  | cons top st ih =>
    rw [drainOperators] at h
    split_ifs at h
    · exact (Except.error.inj h).symm
    · exact ih _ h

theorem toRPNLoop_error (tokens out st : List Token) (err : Err)
    (h : toRPNLoop tokens out st = .error err) : err = .mismatchedParentheses := by
  induction tokens generalizing out st with
  | nil => rw [toRPNLoop] at h; exact drainOperators_error st out err h
  | cons token tokens ih =>
    rw [toRPNLoop] at h
    split at h
    · exact ih _ _ h
    · split_ifs at h
      · exact ih _ _ h
      · exact ih _ _ h
    · exact ih _ _ h
    · split at h
      · exact (Except.error.inj h).symm
      · exact ih _ _ h

/-- The loop of `toRPN` succeeds exactly when the stream closes no more
parentheses than the stack and the stream have opened, at any point, and
closes all of them in the end. -/
theorem toRPNLoop_ok_iff (tokens out st : List Token)
    (hst : ∀ t ∈ st, t.Typ ≠ TokenRightParen) :
    (∃ rpn, toRPNLoop tokens out st = .ok rpn) ↔
      (∀ n, countRight (tokens.take n) ≤ countLeft st + countLeft (tokens.take n)) ∧
        countLeft st + countLeft tokens = countRight tokens := by
  induction tokens generalizing out st with
  | nil =>
    rw [toRPNLoop, drainOperators_ok_iff st out hst]
    simp [countLeft, countRight]
  | cons token tokens ih =>
    have hcons : ∀ (P : Nat → Prop), (∀ n, P n) ↔ P 0 ∧ ∀ n, P (n + 1) := by
      intro P
      constructor
      · intro h; exact ⟨h 0, fun n => h (n + 1)⟩
      · rintro ⟨h0, hs⟩ n
        cases n with
        | zero => exact h0
        | succ n => exact hs n
    have hpush : ∀ t ∈ token :: st, token.Typ ≠ TokenRightParen → t.Typ ≠ TokenRightParen := by
      intro t ht htok
      rcases List.mem_cons.1 ht with rfl | ht
      · exact htok
      · exact hst t ht
    rw [hcons (fun n => countRight ((token :: tokens).take n) ≤
      countLeft st + countLeft ((token :: tokens).take n))]
    simp only [List.take_zero, List.take_succ_cons, countLeft_cons, countRight_cons]
    rw [toRPNLoop]
    cases htyp : token.Typ with
    | TokenNumber =>
      simp only [reduceCtorEq, if_false, add_zero]
      rw [ih _ _ hst]
      simp [countRight]
    | TokenOperator =>
      simp only [reduceCtorEq, if_false, add_zero]
      split_ifs with hu
      · rw [ih _ _ (fun t ht => hpush t ht (by rw [htyp]; simp))]
        simp [countRight, countLeft_cons, htyp]
      · obtain ⟨h1, h2⟩ := popOperators_countLeft token st out
        have hst' : ∀ t ∈ token :: (popOperators token st out).1, t.Typ ≠ TokenRightParen := by
          intro t ht
          rcases List.mem_cons.1 ht with rfl | ht
          · rw [htyp]; simp
          · exact h2 hst t ht
        show (∃ rpn, toRPNLoop tokens (popOperators token st out).2
          (token :: (popOperators token st out).1) = .ok rpn) ↔ _
        rw [ih _ _ hst']
        simp [countRight, countLeft_cons, htyp, h1]
    | TokenLeftParen =>
      simp only [reduceCtorEq, if_false, if_true, add_zero]
      rw [ih _ _ (fun t ht => hpush t ht (by rw [htyp]; simp))]
      simp only [countLeft_cons, htyp, if_true]
      constructor
      · rintro ⟨h1, h2⟩
        exact ⟨⟨by simp [countRight], fun n => by have := h1 n; omega⟩, by omega⟩
      · rintro ⟨⟨-, h1⟩, h2⟩
        exact ⟨fun n => by have := h1 n; omega, by omega⟩
    | TokenRightParen =>
      simp only [reduceCtorEq, if_false, if_true, add_zero]
      cases hp : popToLeftParen st out with
      | none =>
        have h0 := (popToLeftParen_none_iff st out).1 hp
        simp only [reduceCtorEq, exists_false, false_iff, not_and]
        rintro ⟨-, h1⟩ -
        have := h1 0
        rw [h0] at this
        simp [countRight, countLeft] at this
      | some p =>
        obtain ⟨st', out'⟩ := p
        obtain ⟨h1, h2⟩ := popToLeftParen_some st out st' out' hp
        show (∃ rpn, toRPNLoop tokens out' st' = .ok rpn) ↔ _
        rw [ih _ _ (h2 hst)]
        constructor
        · rintro ⟨h3, h4⟩
          exact ⟨⟨by simp [countRight], fun n => by have := h3 n; omega⟩, by omega⟩
        · rintro ⟨⟨-, h3⟩, h4⟩
          exact ⟨fun n => by have := h3 n; omega, by omega⟩

/-- Claim C22: `toRPN(tokens)` returns the "mismatched parentheses" error if
and only if the parentheses of the stream are not balanced (some prefix
contains more RightParen than LeftParen tokens, or the totals differ); for
every balanced stream it returns a postfix stream; and it returns no other
error. -/
theorem C22_toRPN_mismatched_iff_unbalanced (tokens : List Token) :
    (toRPN tokens = .error .mismatchedParentheses ↔ balanced tokens = false) ∧
    (balanced tokens = true ↔ ∃ rpn, toRPN tokens = .ok rpn) ∧
    (∀ err, toRPN tokens = .error err → err = .mismatchedParentheses) ∧
    (balanced tokens = false ↔
      (∃ n, countLeft (tokens.take n) < countRight (tokens.take n)) ∨
        countLeft tokens ≠ countRight tokens) := by
  have hok : (∃ rpn, toRPN tokens = .ok rpn) ↔ balanced tokens = true := by
    unfold toRPN
    rw [toRPNLoop_ok_iff tokens [] [] (by simp)]
    unfold balanced
    simp only [Bool.and_eq_true, List.all_eq_true, List.mem_range, decide_eq_true_eq,
      beq_iff_eq]
    have h0 : countLeft [] = 0 := rfl
    rw [h0]
    simp only [zero_add]
    constructor
    · rintro ⟨h1, h2⟩
      exact ⟨fun n _ => h1 n, h2⟩
    · rintro ⟨h1, h2⟩
      refine ⟨fun n => ?_, h2⟩
      by_cases hn : n < tokens.length + 1
      · exact h1 n hn
      · have : tokens.take n = tokens.take tokens.length := by
          rw [List.take_length, List.take_of_length_le (by omega)]
        rw [this]
        exact h1 tokens.length (by omega)
  have herr : ∀ err, toRPN tokens = .error err → err = .mismatchedParentheses :=
    fun err h => toRPNLoop_error tokens [] [] err h
  refine ⟨?_, hok.symm, herr, ?_⟩
  · constructor
    · intro h
      cases hb : balanced tokens with
      | false => rfl
      | true =>
        obtain ⟨rpn, hr⟩ := hok.2 hb
        rw [hr] at h; cases h
    · intro h
      cases hr : toRPN tokens with
      | error err => rw [herr err hr]
      | ok rpn =>
        have := hok.1 ⟨rpn, hr⟩
        rw [h] at this; cases this
  · unfold balanced
    rw [Bool.and_eq_false_iff]
    simp only [List.all_eq_false, List.mem_range, decide_eq_true_eq, not_le, beq_eq_false_iff_ne]
    constructor
    · rintro (⟨n, -, hn⟩ | h)
      · exact Or.inl ⟨n, hn⟩
      · exact Or.inr h
    · rintro (⟨n, hn⟩ | h)
      · left
        by_cases hlt : n < tokens.length + 1
        · exact ⟨n, hlt, hn⟩
        · refine ⟨tokens.length, by omega, ?_⟩
          rw [List.take_of_length_le (by omega)] at hn
          rw [List.take_length]
          exact hn
      · exact Or.inr h

theorem C22_toRPN_mismatched_iff_unbalanced_witness :
    balanced [Token.rightParen, Token.leftParen] = false ∧
    toRPN [Token.rightParen, Token.leftParen] = .error .mismatchedParentheses ∧
    balanced [Token.leftParen, Token.number ['1'], Token.rightParen] = true ∧
    ∃ rpn, toRPN [Token.leftParen, Token.number ['1'], Token.rightParen] = .ok rpn :=
  ⟨by decide,
    (C22_toRPN_mismatched_iff_unbalanced [Token.rightParen, Token.leftParen]).1.2 (by decide),
    by decide,
    (C22_toRPN_mismatched_iff_unbalanced
      [Token.leftParen, Token.number ['1'], Token.rightParen]).2.1.1 (by decide)⟩

/-! ## C27: the output of `toRPN` -/

theorem popOperators_split (token : Token) (st out : List Token) :
    ∃ popped, st = popped ++ (popOperators token st out).1 ∧
      (popOperators token st out).2 = out ++ popped ∧ ∀ t ∈ popped, t.Typ = TokenOperator := by
  induction st generalizing out with
  | nil => exact ⟨[], by simp [popOperators]⟩
  | cons top st ih =>
    rw [popOperators]
    split_ifs with h
    · obtain ⟨popped, h1, h2, h3⟩ := ih (out ++ [top])
      refine ⟨top :: popped, ?_, ?_, ?_⟩
      · rw [List.cons_append, ← h1]
      · rw [h2]; simp
      · intro t ht
        rcases List.mem_cons.1 ht with rfl | ht
        · exact h.1
        · exact h3 t ht
    · exact ⟨[], by simp⟩

theorem popToLeftParen_split (st out st' out' : List Token)
    (h : popToLeftParen st out = some (st', out')) :
    ∃ popped lp, st = popped ++ lp :: st' ∧ lp.Typ = TokenLeftParen ∧ out' = out ++ popped ∧
      ∀ t ∈ popped, t.Typ ≠ TokenLeftParen := by
  induction st generalizing out with
  | nil => simp [popToLeftParen] at h
  | cons top st ih =>
    rw [popToLeftParen] at h
    split_ifs at h with h1
    · simp only [Option.some.injEq, Prod.mk.injEq] at h
      obtain ⟨rfl, rfl⟩ := h
      exact ⟨[], top, by simp, h1, by simp, by simp⟩
    · obtain ⟨popped, lp, h2, h3, h4, h5⟩ := ih (out ++ [top]) h
      refine ⟨top :: popped, lp, ?_, h3, ?_, ?_⟩
      · rw [h2]; simp
      · rw [h4]; simp
      · intro t ht
        rcases List.mem_cons.1 ht with rfl | ht
        · exact h1
        · exact h5 t ht

theorem drainOperators_eq (st out rpn : List Token) (h : drainOperators st out = .ok rpn) :
    rpn = out ++ st ∧ ∀ t ∈ st, t.Typ ≠ TokenLeftParen ∧ t.Typ ≠ TokenRightParen := by
  induction st generalizing out with
  | nil =>
    simp [drainOperators] at h
    simp [h]
  | cons top st ih =>
    rw [drainOperators] at h
    split_ifs at h with h1
    obtain ⟨h2, h3⟩ := ih (out ++ [top]) h
    refine ⟨by rw [h2]; simp, ?_⟩
    intro t ht
    rcases List.mem_cons.1 ht with rfl | ht
    · exact not_or.1 h1
    · exact h3 t ht

theorem filter_isOperand_of_operators (l : List Token)
    (h : ∀ t ∈ l, t.Typ = TokenOperator) :
    l.filter Token.isOperand = l ∧ l.filter Token.isNumber = [] := by
  constructor
  · rw [List.filter_eq_self]
    intro t ht
    simp [Token.isOperand, h t ht]
  · rw [List.filter_eq_nil_iff]
    intro t ht
    simp [Token.isNumber, h t ht]

/-- The loop of `toRPN`: the output is made of the tokens already output,
the operators on the stack and the Number and Operator tokens still to read;
the Number tokens keep their order. -/
theorem toRPNLoop_perm (tokens out st rpn : List Token)
    (hst : ∀ t ∈ st, t.Typ ≠ TokenRightParen ∧ t.Typ ≠ TokenNumber)
    (h : toRPNLoop tokens out st = .ok rpn) :
    rpn.Perm (out ++ (st.filter Token.isOperand ++ tokens.filter Token.isOperand)) ∧
      rpn.filter Token.isNumber = out.filter Token.isNumber ++ tokens.filter Token.isNumber := by
  induction tokens generalizing out st with
  | nil =>
    rw [toRPNLoop] at h
    obtain ⟨h1, h2⟩ := drainOperators_eq st out rpn h
    have hops : ∀ t ∈ st, t.Typ = TokenOperator := by
      intro t ht
      have a := hst t ht
      have b := h2 t ht
      cases hty : t.Typ <;> simp_all
    obtain ⟨f1, f2⟩ := filter_isOperand_of_operators st hops
    subst h1
    simp [f1, f2]
  | cons token tokens ih =>
    rw [toRPNLoop] at h
    cases htyp : token.Typ with
    | TokenNumber =>
      simp only [htyp] at h
      obtain ⟨h1, h2⟩ := ih _ _ hst h
      have e1 : (token :: tokens).filter Token.isOperand = token :: tokens.filter Token.isOperand := by
        simp [List.filter_cons, Token.isOperand, htyp]
      have e2 : (token :: tokens).filter Token.isNumber = token :: tokens.filter Token.isNumber := by
        simp [List.filter_cons, Token.isNumber, htyp]
      rw [e1, e2]
      refine ⟨h1.trans ?_, ?_⟩
      · rw [List.append_assoc]
        apply List.Perm.append_left
        simp only [List.singleton_append]
        exact List.perm_middle.symm
      · rw [h2]
        simp [List.filter_append, List.filter_cons, Token.isNumber, htyp]
    | TokenOperator =>
      simp only [htyp] at h
      have e1 : (token :: tokens).filter Token.isOperand = token :: tokens.filter Token.isOperand := by
        simp [List.filter_cons, Token.isOperand, htyp]
      have e2 : (token :: tokens).filter Token.isNumber = tokens.filter Token.isNumber := by
        simp [List.filter_cons, Token.isNumber, htyp]
      rw [e1, e2]
      split_ifs at h with hu
      · have hst' : ∀ t ∈ token :: st, t.Typ ≠ TokenRightParen ∧ t.Typ ≠ TokenNumber := by
          intro t ht
          rcases List.mem_cons.1 ht with rfl | ht
          · rw [htyp]; simp
          · exact hst t ht
        obtain ⟨h1, h2⟩ := ih _ _ hst' h
        refine ⟨h1.trans ?_, h2⟩
        apply List.Perm.append_left
        have : (token :: st).filter Token.isOperand = token :: st.filter Token.isOperand := by
          simp [List.filter_cons, Token.isOperand, htyp]
        rw [this]
        simp only [List.cons_append]
        exact List.perm_middle.symm
      · obtain ⟨popped, p1, p2, p3⟩ := popOperators_split token st out
        have hst' : ∀ t ∈ token :: (popOperators token st out).1,
            t.Typ ≠ TokenRightParen ∧ t.Typ ≠ TokenNumber := by
          intro t ht
          rcases List.mem_cons.1 ht with rfl | ht
          · rw [htyp]; simp
          · exact hst t (by rw [p1]; exact List.mem_append_right _ ht)
        obtain ⟨h1, h2⟩ := ih _ _ hst' h
        obtain ⟨f1, f2⟩ := filter_isOperand_of_operators popped p3
        rw [p2] at h1 h2
        have e3 : (token :: (popOperators token st out).1).filter Token.isOperand =
            token :: (popOperators token st out).1.filter Token.isOperand := by
          simp [List.filter_cons, Token.isOperand, htyp]
        rw [e3] at h1
        refine ⟨h1.trans ?_, ?_⟩
        · have e4 : st.filter Token.isOperand =
              popped ++ (popOperators token st out).1.filter Token.isOperand := by
            conv_lhs => rw [p1]
            rw [List.filter_append, f1]
          rw [e4]
          simp only [List.append_assoc, List.cons_append]
          apply List.Perm.append_left
          apply List.Perm.append_left
          exact List.perm_middle.symm
        · rw [h2, List.filter_append, f2, List.append_nil]
    | TokenLeftParen =>
      simp only [htyp] at h
      have e1 : (token :: tokens).filter Token.isOperand = tokens.filter Token.isOperand := by
        simp [List.filter_cons, Token.isOperand, htyp]
      have e2 : (token :: tokens).filter Token.isNumber = tokens.filter Token.isNumber := by
        simp [List.filter_cons, Token.isNumber, htyp]
      rw [e1, e2]
      have hst' : ∀ t ∈ token :: st, t.Typ ≠ TokenRightParen ∧ t.Typ ≠ TokenNumber := by
        intro t ht
        rcases List.mem_cons.1 ht with rfl | ht
        · rw [htyp]; simp
        · exact hst t ht
      obtain ⟨h1, h2⟩ := ih _ _ hst' h
      have : (token :: st).filter Token.isOperand = st.filter Token.isOperand := by
        simp [List.filter_cons, Token.isOperand, htyp]
      rw [this] at h1
      exact ⟨h1, h2⟩
    | TokenRightParen =>
      simp only [htyp] at h
      have e1 : (token :: tokens).filter Token.isOperand = tokens.filter Token.isOperand := by
        simp [List.filter_cons, Token.isOperand, htyp]
      have e2 : (token :: tokens).filter Token.isNumber = tokens.filter Token.isNumber := by
        simp [List.filter_cons, Token.isNumber, htyp]
      rw [e1, e2]
      split at h
      · cases h
      · next st' out' hp =>
        obtain ⟨popped, lp, p1, p2, p3, p4⟩ := popToLeftParen_split st out st' out' hp
        have hpop : ∀ t ∈ popped, t.Typ = TokenOperator := by
          intro t ht
          have a := hst t (by rw [p1]; exact List.mem_append_left _ ht)
          have b := p4 t ht
          cases hty : t.Typ <;> simp_all
        obtain ⟨f1, f2⟩ := filter_isOperand_of_operators popped hpop
        have hst' : ∀ t ∈ st', t.Typ ≠ TokenRightParen ∧ t.Typ ≠ TokenNumber := by
          intro t ht
          exact hst t (by rw [p1]; simp [ht])
        obtain ⟨h1, h2⟩ := ih _ _ hst' h
        rw [p3] at h1 h2
        refine ⟨h1.trans ?_, ?_⟩
        · have e4 : st.filter Token.isOperand = popped ++ st'.filter Token.isOperand := by
            conv_lhs => rw [p1]
            rw [List.filter_append, f1]
            simp [List.filter_cons, Token.isOperand, p2]
          rw [e4]
          simp only [List.append_assoc]
          exact List.Perm.refl _
        · rw [h2, List.filter_append, f2, List.append_nil]

/-- Claim C27: whenever `toRPN(tokens)` succeeds, its output contains no
parenthesis token, is a permutation of the Number and Operator tokens of the
input, has as many tokens as the input has tokens that are not parentheses,
and lists the Number tokens in the order of the input. -/
theorem C27_toRPN_output (tokens rpn : List Token) (h : toRPN tokens = .ok rpn) :
    (∀ t ∈ rpn, t.Typ ≠ TokenLeftParen ∧ t.Typ ≠ TokenRightParen) ∧
    rpn.Perm (tokens.filter Token.isOperand) ∧
    rpn.length = (tokens.filter
      (fun t => decide (t.Typ ≠ TokenLeftParen ∧ t.Typ ≠ TokenRightParen))).length ∧
    rpn.filter Token.isNumber = tokens.filter Token.isNumber := by
  obtain ⟨h1, h2⟩ := toRPNLoop_perm tokens [] [] rpn (by simp) h
  simp only [List.filter_nil, List.nil_append] at h1 h2
  have hfil : tokens.filter (fun t => decide (t.Typ ≠ TokenLeftParen ∧ t.Typ ≠ TokenRightParen))
      = tokens.filter Token.isOperand := by
    apply List.filter_congr
    intro t _
    cases hty : t.Typ <;> simp [Token.isOperand, hty]
  refine ⟨?_, h1, ?_, h2⟩
  · intro t ht
    have := (h1.mem_iff).1 ht
    rw [List.mem_filter] at this
    have hop := this.2
    cases hty : t.Typ <;> simp [Token.isOperand, hty] at hop ⊢
  · rw [hfil]
    exact h1.length_eq

theorem C27_toRPN_output_witness :
    toRPN [Token.leftParen, Token.number ['1'], Token.binary .add, Token.number ['2'],
        Token.rightParen, Token.binary .mul, Token.number ['3']] =
      .ok [Token.number ['1'], Token.number ['2'], Token.binary .add, Token.number ['3'],
        Token.binary .mul] ∧
    [Token.number ['1'], Token.number ['2'], Token.binary .add, Token.number ['3'],
        Token.binary .mul].length = 5 ∧
    List.filter Token.isNumber [Token.number ['1'], Token.number ['2'], Token.binary .add,
        Token.number ['3'], Token.binary .mul] =
      List.filter Token.isNumber [Token.leftParen, Token.number ['1'], Token.binary .add,
        Token.number ['2'], Token.rightParen, Token.binary .mul, Token.number ['3']] :=
  ⟨by decide, by decide,
    (C27_toRPN_output _ _ (show toRPN [Token.leftParen, Token.number ['1'], Token.binary .add,
        Token.number ['2'], Token.rightParen, Token.binary .mul, Token.number ['3']] =
      .ok [Token.number ['1'], Token.number ['2'], Token.binary .add, Token.number ['3'],
        Token.binary .mul] by decide)).2.2.2⟩

/-! ## The loop of `tokenize`, token by token -/

theorem prevTokenOf_append (tokens : List Token) (t : Token) :
    prevTokenOf (tokens ++ [t]) = t := by
  simp [prevTokenOf]

theorem prevTokenOf_nil : prevTokenOf [] = Token.zero := rfl

theorem scanNumber_spec {s : List Char} {i d : Nat} {acc num rest : List Char} {j : Nat}
    (hd : d ≤ 1) (h : scanNumber s i d acc = .ok (num, rest, j)) :
    ∃ v, num = acc ++ v ∧ s = v ++ rest ∧ (∀ c ∈ v, (isDigit c || c == '.') = true) ∧
      d + v.count '.' ≤ 1 ∧ (∀ y, rest.head? = some y → (isDigit y || y == '.') = false) ∧
      j = i + v.length := by
  induction s generalizing i d acc with
  | nil =>
    simp [scanNumber] at h
    obtain ⟨rfl, rfl, rfl⟩ := h
    exact ⟨[], by simpa using hd⟩
  | cons ch tl ih =>
    rw [scanNumber] at h
    split_ifs at h with h1 h2 h3
    · obtain ⟨v, hv1, hv2, hv3, hv4, hv5, hv6⟩ := ih (by omega) h
      have hch : ch = '.' := by simpa using h2
      refine ⟨ch :: v, by rw [hv1]; simp, by rw [hv2]; simp, ?_, ?_, hv5, by rw [hv6]; simp; omega⟩
      · intro c hc
        rcases List.mem_cons.1 hc with rfl | hc
        · exact h1
        · exact hv3 c hc
      · subst hch
        simp only [List.count_cons_self]
        omega
    · obtain ⟨v, hv1, hv2, hv3, hv4, hv5, hv6⟩ := ih hd h
      have hch : ch ≠ '.' := by simpa using h2
      refine ⟨ch :: v, by rw [hv1]; simp, by rw [hv2]; simp, ?_, ?_, hv5, by rw [hv6]; simp; omega⟩
      · intro c hc
        rcases List.mem_cons.1 hc with rfl | hc
        · exact h1
        · exact hv3 c hc
      · rw [List.count_cons_of_ne (Ne.symm hch)]
        exact hv4
    · simp only [Except.ok.injEq, Prod.mk.injEq] at h
      obtain ⟨rfl, rfl, rfl⟩ := h
      refine ⟨[], by simp, by simp, by simp, by simpa using hd, ?_, by simp⟩
      intro y hy
      simp at hy
      subst hy
      simpa using h1

/-- What `tokenize` appends: a parenthesis, an operator tagged by `isUnary`
that does not follow a binary operator as a binary operator, or a number
made of digits and at most one dot.  A property of token lists kept by
these steps holds of the result. -/
theorem tokenizeLoop_invariant (Q : List Token → Prop)
    (hleft : ∀ ts, Q ts → Q (ts ++ [⟨TokenLeftParen, ['('], false⟩]))
    (hright : ∀ ts, Q ts → Q (ts ++ [⟨TokenRightParen, [')'], false⟩]))
    (hop : ∀ ts ch, Q ts → isOperatorChar ch = true →
      ¬ (isUnary ch ts (prevTokenOf ts) = false ∧ (prevTokenOf ts).Typ = TokenOperator ∧
        (prevTokenOf ts).IsUnary = false) →
      Q (ts ++ [⟨TokenOperator, [ch], isUnary ch ts (prevTokenOf ts)⟩]))
    (hnum : ∀ ts num, Q ts → num ≠ [] → (∀ c ∈ num, (isDigit c || c == '.') = true) →
      num.count '.' ≤ 1 → Q (ts ++ [⟨TokenNumber, num, false⟩]))
    (fuel : Nat) (s : List Char) (i : Nat) (tokens : List Token) (prev : Token)
    (result : List Token) (hprev : prev = prevTokenOf tokens) (h0 : Q tokens)
    (h : tokenizeLoop fuel s i tokens prev = .ok result) : Q result := by
  induction fuel generalizing s i tokens prev with
  | zero =>
    cases s with
    | nil =>
      simp [tokenizeLoop] at h
      subst h
      exact h0
    | cons ch rest => simp [tokenizeLoop] at h
  | succ n ih =>
    cases s with
    | nil =>
      simp [tokenizeLoop] at h
      subst h
      exact h0
    | cons ch rest =>
      subst hprev
      rw [tokenizeLoop] at h
      split_ifs at h with h1 h2 h3 h4 h5 h6 h7
      · exact ih _ _ _ _ rfl h0 h
      · subst h2
        exact ih _ _ _ _ (prevTokenOf_append _ _).symm (hleft _ h0) h
      · subst h3
        exact ih _ _ _ _ (prevTokenOf_append _ _).symm (hright _ h0) h
      · refine ih _ _ _ _ (prevTokenOf_append _ _).symm (hop _ ch h0 h4 ?_) h
        rintro ⟨a, b, c⟩
        apply h6
        simp [a, b, c]
      · split at h
        · cases h
        · next num rest' j hs =>
          obtain ⟨v, hv1, hv2, hv3, hv4, -, -⟩ := scanNumber_spec (Nat.zero_le 1) hs
          rw [List.nil_append] at hv1
          subst hv1
          have hne : num ≠ [] := by
            intro hnil
            have := scanNumber_head h7 hs
            rw [hnil] at this
            cases this
          exact ih _ _ _ _ (prevTokenOf_append _ _).symm
            (hnum _ num h0 hne hv3 (by omega)) h

theorem tokenize_invariant (Q : List Token → Prop)
    (hleft : ∀ ts, Q ts → Q (ts ++ [⟨TokenLeftParen, ['('], false⟩]))
    (hright : ∀ ts, Q ts → Q (ts ++ [⟨TokenRightParen, [')'], false⟩]))
    (hop : ∀ ts ch, Q ts → isOperatorChar ch = true →
      ¬ (isUnary ch ts (prevTokenOf ts) = false ∧ (prevTokenOf ts).Typ = TokenOperator ∧
        (prevTokenOf ts).IsUnary = false) →
      Q (ts ++ [⟨TokenOperator, [ch], isUnary ch ts (prevTokenOf ts)⟩]))
    (hnum : ∀ ts num, Q ts → num ≠ [] → (∀ c ∈ num, (isDigit c || c == '.') = true) →
      num.count '.' ≤ 1 → Q (ts ++ [⟨TokenNumber, num, false⟩]))
    (h0 : Q []) (e : List Char) (result : List Token) (h : tokenize e = .ok result) :
    Q result :=
  tokenizeLoop_invariant Q hleft hright hop hnum e.length e 0 [] Token.zero result rfl h0 h


theorem getElem?_append_singleton {α : Type} (ts : List α) (x y : α) (i : Nat)
    (h : (ts ++ [x])[i]? = some y) :
    (i < ts.length ∧ ts[i]? = some y) ∨ (i = ts.length ∧ y = x) := by
  by_cases hi : i < ts.length
  · rw [List.getElem?_append_left hi] at h
    exact Or.inl ⟨hi, h⟩
  · rw [List.getElem?_append_right (by omega)] at h
    right
    have hi0 : i - ts.length = 0 := by
      by_contra hne
      rw [List.getElem?_eq_none (by simp; omega)] at h
      cases h
    rw [hi0] at h
    simp at h
    exact ⟨by omega, h.symm⟩

theorem getElem?_prevTokenOf (ts : List Token) (p : Token) (h : ts[ts.length - 1]? = some p) :
    prevTokenOf ts = p := by
  unfold prevTokenOf
  rw [List.getLast?_eq_getElem?, h]
  rfl

/-! ## C23: the tag `IsUnary` -/

/-- The tagging of the operators of a token list: an operator is unary
exactly when its lexeme is `+` or `-` and it is the first token or follows an
operator or a left parenthesis. -/
theorem tagged_append (ts : List Token) (tok : Token)
    (hts : ∀ i t, ts[i]? = some t → t.Typ = TokenOperator →
      (t.IsUnary = true ↔ (t.Value = ['+'] ∨ t.Value = ['-']) ∧
        (i = 0 ∨ ∃ j p, i = j + 1 ∧ ts[j]? = some p ∧
          (p.Typ = TokenOperator ∨ p.Typ = TokenLeftParen))))
    (htok : tok.Typ = TokenOperator →
      (tok.IsUnary = true ↔ (tok.Value = ['+'] ∨ tok.Value = ['-']) ∧
        (ts.length = 0 ∨ (prevTokenOf ts).Typ = TokenOperator ∨
          (prevTokenOf ts).Typ = TokenLeftParen))) :
    ∀ i t, (ts ++ [tok])[i]? = some t → t.Typ = TokenOperator →
      (t.IsUnary = true ↔ (t.Value = ['+'] ∨ t.Value = ['-']) ∧
        (i = 0 ∨ ∃ j p, i = j + 1 ∧ (ts ++ [tok])[j]? = some p ∧
          (p.Typ = TokenOperator ∨ p.Typ = TokenLeftParen))) := by
  intro i t ht hop
  rcases getElem?_append_singleton ts tok t i ht with ⟨hi, ht'⟩ | ⟨hi, rfl⟩
  · rw [hts i t ht' hop]
    constructor
    · rintro ⟨h1, h2⟩
      refine ⟨h1, ?_⟩
      rcases h2 with h2 | ⟨j, p, hj, hp, hty⟩
      · exact Or.inl h2
      · exact Or.inr ⟨j, p, hj, by rw [List.getElem?_append_left (by omega)]; exact hp, hty⟩
    · rintro ⟨h1, h2⟩
      refine ⟨h1, ?_⟩
      rcases h2 with h2 | ⟨j, p, hj, hp, hty⟩
      · exact Or.inl h2
      · rw [List.getElem?_append_left (by omega)] at hp
        exact Or.inr ⟨j, p, hj, hp, hty⟩
  · rw [htok hop]
    constructor
    · rintro ⟨h1, h2⟩
      refine ⟨h1, ?_⟩
      rcases h2 with h2 | h2
      · exact Or.inl (by omega)
      · by_cases hl : ts.length = 0
        · exact Or.inl (by omega)
        · right
          have hlt : ts.length - 1 < ts.length := by omega
          refine ⟨ts.length - 1, prevTokenOf ts, by omega, ?_, h2⟩
          rw [List.getElem?_append_left hlt]
          unfold prevTokenOf
          rw [List.getLast?_eq_getElem?, List.getElem?_eq_getElem hlt]
          rfl
    · rintro ⟨h1, h2⟩
      refine ⟨h1, ?_⟩
      rcases h2 with h2 | ⟨j, p, hj, hp, hty⟩
      · exact Or.inl (by omega)
      · right
        have hj' : j = ts.length - 1 := by omega
        have hlt : j < ts.length := by omega
        rw [List.getElem?_append_left hlt] at hp
        rw [getElem?_prevTokenOf ts p (by rw [← hj']; exact hp)]
        exact hty

/-- Claim C23: whenever `tokenize(e)` succeeds, an Operator token of the
result has `IsUnary = true` if and only if its lexeme is `+` or `-` and it
is the first token or the token right before it is an Operator or a
LeftParen; every `*` and `/` token has `IsUnary = false`. -/
theorem C23_IsUnary_tagging (e : List Char) (tokens : List Token)
    (h : tokenize e = .ok tokens) :
    (∀ i t, tokens[i]? = some t → t.Typ = TokenOperator →
      (t.IsUnary = true ↔ (t.Value = ['+'] ∨ t.Value = ['-']) ∧
        (i = 0 ∨ ∃ j p, i = j + 1 ∧ tokens[j]? = some p ∧
          (p.Typ = TokenOperator ∨ p.Typ = TokenLeftParen)))) ∧
    (∀ t ∈ tokens, t.Typ = TokenOperator → (t.Value = ['*'] ∨ t.Value = ['/']) →
      t.IsUnary = false) := by
  have key := tokenize_invariant
    (fun ts => ∀ i t, ts[i]? = some t → t.Typ = TokenOperator →
      (t.IsUnary = true ↔ (t.Value = ['+'] ∨ t.Value = ['-']) ∧
        (i = 0 ∨ ∃ j p, i = j + 1 ∧ ts[j]? = some p ∧
          (p.Typ = TokenOperator ∨ p.Typ = TokenLeftParen))))
    (fun ts hts => tagged_append ts _ hts (fun hop => by cases hop))
    (fun ts hts => tagged_append ts _ hts (fun hop => by cases hop))
    (fun ts ch hts _ _ => tagged_append ts _ hts (fun _ => by
      simp only [isUnary, Bool.and_eq_true, Bool.or_eq_true, beq_iff_eq, List.cons.injEq,
        and_true, or_assoc]))
    (fun ts num hts _ _ _ => tagged_append ts _ hts (fun hop => by cases hop))
    (by intro i t ht; simp at ht) e tokens h
  refine ⟨key, ?_⟩
  intro t ht hop hv
  obtain ⟨i, hi⟩ := List.mem_iff_getElem?.1 ht
  cases hu : t.IsUnary with
  | false => rfl
  | true =>
    have := ((key i t hi hop).1 hu).1
    rcases hv with hv | hv <;> rw [hv] at this <;> simp at this

theorem C23_IsUnary_tagging_witness :
    tokenize "-(+2)*-3".toList =
      .ok [Token.unary '-', Token.leftParen, Token.unary '+', Token.number ['2'],
        Token.rightParen, Token.binary .mul, Token.unary '-', Token.number ['3']] ∧
    (Token.binary .mul).IsUnary = false :=
  ⟨by decide,
    (C23_IsUnary_tagging "-(+2)*-3".toList _ (show tokenize "-(+2)*-3".toList =
      .ok [Token.unary '-', Token.leftParen, Token.unary '+', Token.number ['2'],
        Token.rightParen, Token.binary .mul, Token.unary '-', Token.number ['3']]
      by decide)).2 (Token.binary .mul) (by decide) rfl (Or.inl rfl)⟩

/-! ## C26: no two adjacent binary operators -/

theorem noAdjacent_append (ts : List Token) (tok : Token)
    (hts : ∀ i a b, ts[i]? = some a → ts[i + 1]? = some b →
      ¬ (a.Typ = TokenOperator ∧ a.IsUnary = false ∧ b.Typ = TokenOperator ∧
        b.IsUnary = false))
    (htok : ¬ ((prevTokenOf ts).Typ = TokenOperator ∧ (prevTokenOf ts).IsUnary = false ∧
      tok.Typ = TokenOperator ∧ tok.IsUnary = false)) :
    ∀ i a b, (ts ++ [tok])[i]? = some a → (ts ++ [tok])[i + 1]? = some b →
      ¬ (a.Typ = TokenOperator ∧ a.IsUnary = false ∧ b.Typ = TokenOperator ∧
        b.IsUnary = false) := by
  intro i a b ha hb
  rcases getElem?_append_singleton ts tok b (i + 1) hb with ⟨hi, hb'⟩ | ⟨hi, rfl⟩
  · rw [List.getElem?_append_left (by omega)] at ha
    exact hts i a b ha hb'
  · rw [List.getElem?_append_left (by omega)] at ha
    have : prevTokenOf ts = a := getElem?_prevTokenOf ts a (by rw [← hi]; exact ha)
    rw [← this]
    exact htok

/-- Claim C26: whenever `tokenize(e)` succeeds, no two consecutive tokens of
the result are both Operator tokens with `IsUnary = false` (the tokens are
consecutive whatever white space separates their lexemes in `e`); `1+*2` and
`1 * / 2` are rejected. -/
theorem C26_no_adjacent_binary_operators (e : List Char) (tokens : List Token)
    (h : tokenize e = .ok tokens) :
    (∀ i a b, tokens[i]? = some a → tokens[i + 1]? = some b →
      ¬ (a.Typ = TokenOperator ∧ a.IsUnary = false ∧ b.Typ = TokenOperator ∧
        b.IsUnary = false)) ∧
    tokenize "1+*2".toList = .error (.operatorsNextToEachOther ['+'] '*' 2) ∧
    tokenize "1 * / 2".toList = .error (.operatorsNextToEachOther ['*'] '/' 4) := by
  refine ⟨?_, by decide, by decide⟩
  exact tokenize_invariant
    (fun ts => ∀ i a b, ts[i]? = some a → ts[i + 1]? = some b →
      ¬ (a.Typ = TokenOperator ∧ a.IsUnary = false ∧ b.Typ = TokenOperator ∧
        b.IsUnary = false))
    (fun ts hts => noAdjacent_append ts _ hts (by rintro ⟨-, -, h3, -⟩; cases h3))
    (fun ts hts => noAdjacent_append ts _ hts (by rintro ⟨-, -, h3, -⟩; cases h3))
    (fun ts ch hts _ hno => noAdjacent_append ts _ hts (by
      rintro ⟨h1, h2, -, h4⟩
      exact hno ⟨h4, h1, h2⟩))
    (fun ts num hts _ _ _ => noAdjacent_append ts _ hts (by rintro ⟨-, -, h3, -⟩; cases h3))
    (by intro i a b ha; simp at ha) e tokens h

theorem C26_no_adjacent_binary_operators_witness :
    tokenize "2*-3".toList =
      .ok [Token.number ['2'], Token.binary .mul, Token.unary '-', Token.number ['3']] ∧
    ¬ ((Token.binary .mul).Typ = TokenOperator ∧ (Token.binary .mul).IsUnary = false ∧
      (Token.unary '-').Typ = TokenOperator ∧ (Token.unary '-').IsUnary = false) :=
  ⟨by decide,
    (C26_no_adjacent_binary_operators "2*-3".toList _ (show tokenize "2*-3".toList =
      .ok [Token.number ['2'], Token.binary .mul, Token.unary '-', Token.number ['3']]
      by decide)).1 1 (Token.binary .mul) (Token.unary '-') (by decide) (by decide)⟩

/-! ## Lexing a text in two parts -/

theorem scanNumber_append {p : List Char} {i d : Nat} {acc num rest : List Char} {j : Nat}
    (s : List Char) (h : scanNumber p i d acc = .ok (num, rest, j))
    (hs : rest = [] → ∀ y, s.head? = some y → (isDigit y || y == '.') = false) :
    scanNumber (p ++ s) i d acc = .ok (num, rest ++ s, j) := by
  induction p generalizing i d acc with
  | nil =>
    simp only [scanNumber, Except.ok.injEq, Prod.mk.injEq] at h
    obtain ⟨rfl, rfl, rfl⟩ := h
    cases s with
    | nil => simp [scanNumber]
    | cons y t =>
      have := hs rfl y rfl
      rw [List.nil_append, scanNumber, if_neg (by simp [this])]
  | cons ch tl ih =>
    rw [scanNumber] at h
    rw [List.cons_append, scanNumber]
    split_ifs at h ⊢ with h1 h2 h3
    · exact ih h
    · exact ih h
    · simp only [Except.ok.injEq, Prod.mk.injEq] at h
      obtain ⟨rfl, rfl, rfl⟩ := h
      rfl

/-- The loop of `tokenize` on a text `p ++ s`, when it accepts `p` alone, no
number of `p` runs on into `s`, and `s` does not begin with a space: it goes
on with `s` from the tokens of `p`. -/
theorem tokenizeLoop_append (fuel : Nat) (p s : List Char) (i : Nat)
    (tokens toks : List Token) (f2 : Nat) (hfuel : p.length ≤ fuel)
    (hf2 : (p ++ s).length ≤ f2)
    (hp : tokenizeLoop fuel p i tokens (prevTokenOf tokens) = .ok toks)
    (hsp : s.head? ≠ some ' ')
    (hdd : ∀ x y, p.getLast? = some x → s.head? = some y →
      (isDigit x || x == '.') = false ∨ (isDigit y || y == '.') = false) :
    tokenizeLoop f2 (p ++ s) i tokens (prevTokenOf tokens) =
      tokenizeLoop s.length s (i + p.length) toks (prevTokenOf toks) := by
  induction fuel generalizing p i tokens f2 with
  | zero =>
    cases p with
    | nil =>
      simp only [tokenizeLoop, Except.ok.injEq] at hp
      subst hp
      exact tokenizeLoop_fuel _ _ _ _ _ _ (by simpa using hf2) le_rfl
    | cons ch rest => simp at hfuel
  | succ n ih =>
    cases p with
    | nil =>
      simp only [tokenizeLoop, Except.ok.injEq] at hp
      subst hp
      exact tokenizeLoop_fuel _ _ _ _ _ _ (by simpa using hf2) le_rfl
    | cons ch rest =>
      cases f2 with
      | zero => simp at hf2
      | succ m =>
        have hl1 : rest.length ≤ n := by simpa using hfuel
        have hl2 : (rest ++ s).length ≤ m := by simpa using hf2
        have hdd' : ∀ x y, rest.getLast? = some x → s.head? = some y →
            (isDigit x || x == '.') = false ∨ (isDigit y || y == '.') = false := by
          intro x y hx hy
          apply hdd x y _ hy
          cases rest with
          | nil => simp at hx
          | cons a r => rw [List.getLast?_cons_cons]; exact hx
        have hhead : ((rest ++ s).head? == some ' ') = (rest.head? == some ' ') := by
          cases rest with
          | nil =>
            simp only [List.nil_append, List.head?_nil]
            have : (s.head? == some ' ') = false := by simpa using hsp
            rw [this]; rfl
          | cons a r => rfl
        have hi : i + (rest.length + 1) = i + 1 + rest.length := by omega
        rw [tokenizeLoop] at hp
        rw [List.cons_append, tokenizeLoop, hhead, List.length_cons]
        split_ifs at hp ⊢ with h1 h2 h3 h4 h5 h6 h7
        · rw [hi]; exact ih _ _ _ _ hl1 hl2 hp hdd'
        · rw [hi]
          have := ih rest (i + 1) (tokens ++ [⟨TokenLeftParen, [ch], false⟩]) m hl1 hl2
            (by rw [prevTokenOf_append]; exact hp) hdd'
          rw [prevTokenOf_append] at this
          exact this
        · rw [hi]
          have := ih rest (i + 1) (tokens ++ [⟨TokenRightParen, [ch], false⟩]) m hl1 hl2
            (by rw [prevTokenOf_append]; exact hp) hdd'
          rw [prevTokenOf_append] at this
          exact this
        · rw [hi]
          have := ih rest (i + 1)
            (tokens ++ [⟨TokenOperator, [ch], isUnary ch tokens (prevTokenOf tokens)⟩]) m hl1 hl2
            (by rw [prevTokenOf_append]; exact hp) hdd'
          rw [prevTokenOf_append] at this
          exact this
        · cases hs : scanNumber (ch :: rest) i 0 [] with
          | error e => rw [hs] at hp; cases hp
          | ok r =>
            obtain ⟨num, rest', j⟩ := r
            rw [hs] at hp
            simp only at hp
            obtain ⟨v, hv1, hv2, hv3, -, -, hv6⟩ := scanNumber_spec (Nat.zero_le 1) hs
            have hsuf := scanNumber_shorter h7 hs
            have hcond : rest' = [] → ∀ y, s.head? = some y → (isDigit y || y == '.') = false := by
              intro hnil y hy
              subst hnil
              rw [List.append_nil] at hv2
              have hlast : ∃ x, (ch :: rest).getLast? = some x ∧ (isDigit x || x == '.') = true := by
                cases hl : (ch :: rest).getLast? with
                | none => simp at hl
                | some x =>
                  refine ⟨x, rfl, hv3 x ?_⟩
                  rw [← hv2]
                  exact List.mem_of_mem_getLast? (Option.mem_def.2 hl)
              obtain ⟨x, hx1, hx2⟩ := hlast
              rcases hdd x y hx1 hy with h' | h'
              · rw [h'] at hx2; cases hx2
              · exact h'
            have hs2 := scanNumber_append s hs hcond
            rw [List.cons_append] at hs2
            rw [hs2]
            simp only
            have hdd2 : ∀ x y, rest'.getLast? = some x → s.head? = some y →
                (isDigit x || x == '.') = false ∨ (isDigit y || y == '.') = false := by
              intro x y hx hy
              apply hdd x y _ hy
              rw [hv2, List.getLast?_append, hx]
              rfl
            have hlen : j + rest'.length = i + (rest.length + 1) := by
              have := congrArg List.length hv2
              simp at this
              omega
            have := ih rest' j (tokens ++ [⟨TokenNumber, num, false⟩]) m
              (le_trans hsuf.length_le hl1)
              (by
                have := hsuf.length_le
                simp only [List.length_append] at hl2 ⊢
                omega)
              (by rw [prevTokenOf_append]; exact hp) hdd2
            rw [prevTokenOf_append, hlen] at this
            exact this


theorem tokenize_append (p s : List Char) (toks : List Token) (hp : tokenize p = .ok toks)
    (hsp : s.head? ≠ some ' ')
    (hdd : ∀ x y, p.getLast? = some x → s.head? = some y →
      (isDigit x || x == '.') = false ∨ (isDigit y || y == '.') = false) :
    tokenize (p ++ s) = lex s p.length toks (prevTokenOf toks) := by
  have := tokenizeLoop_append p.length p s 0 [] toks (p ++ s).length le_rfl le_rfl hp hsp hdd
  rw [Nat.zero_add] at this
  exact this

theorem scanNumber_two_dots (v post : List Char) (i d : Nat) (acc : List Char)
    (hv : ∀ c ∈ v, (isDigit c || c == '.') = true) (hd : d + v.count '.' = 1) :
    scanNumber (v ++ '.' :: post) i d acc = .error (.multipleDots (i + v.length)) := by
  induction v generalizing i d acc with
  | nil =>
    simp only [List.count_nil, add_zero] at hd
    subst hd
    simp [scanNumber]
  | cons ch tl ih =>
    have hch := hv ch (List.mem_cons_self _ _)
    have htl : ∀ c ∈ tl, (isDigit c || c == '.') = true :=
      fun c hc => hv c (List.mem_cons_of_mem _ hc)
    have hi : i + (ch :: tl).length = i + 1 + tl.length := by simp; omega
    rw [List.cons_append, scanNumber, if_pos hch, hi]
    by_cases hdot : ch = '.'
    · subst hdot
      simp only [List.count_cons_self] at hd
      have hd0 : d = 0 := by omega
      subst hd0
      simp only [beq_self_eq_true, if_true]
      rw [if_neg (by omega)]
      exact ih _ _ _ htl (by omega)
    · rw [List.count_cons_of_ne (Ne.symm hdot)] at hd
      have : (ch == '.') = false := by simpa using hdot
      simp only [this]
      exact ih _ _ _ htl hd

/-- A run of digits and dots whose second dot is at offset `v.length`, met
by the lexer in any state, is rejected with the position of that dot. -/
theorem lex_two_dots (v post : List Char) (i : Nat) (tokens : List Token) (prev : Token)
    (hv : ∀ c ∈ v, (isDigit c || c == '.') = true) (hd : v.count '.' = 1) :
    lex (v ++ '.' :: post) i tokens prev = .error (.multipleDots (i + v.length)) := by
  cases v with
  | nil => simp at hd
  | cons ch tl =>
    have hch := hv ch (List.mem_cons_self _ _)
    obtain ⟨h1, h2, h3, h4⟩ := digitOrDot_facts ch hch
    have hs := scanNumber_two_dots (ch :: tl) post i 0 [] hv (by omega)
    rw [List.cons_append] at hs
    unfold lex
    rw [List.cons_append, List.length_cons, tokenizeLoop]
    simp only [h1, h2, h3, h4, hch, if_true, if_false, Bool.false_eq_true, hs]

/-- An operator that the lexer tags unary and that is followed by a space is
rejected, in any state of the lexer. -/
theorem lex_unary_before_space (ch : Char) (rest : List Char) (i : Nat) (tokens : List Token)
    (prev : Token) (hop : isOperatorChar ch = true) (hu : isUnary ch tokens prev = true) :
    lex (ch :: ' ' :: rest) i tokens prev = .error (.unaryBeforeSpace ch) := by
  have hfacts : isSpace ch = false ∧ ch ≠ '(' ∧ ch ≠ ')' := by
    rcases (isOperatorChar_iff ch).1 hop with rfl | rfl | rfl | rfl <;> decide
  unfold lex
  rw [List.length_cons, tokenizeLoop]
  simp [hfacts.1, hfacts.2.1, hfacts.2.2, hop, hu]

theorem tokenize_unary_before_space (pre rest : List Char) (ch : Char) (toks : List Token)
    (hp : tokenize pre = .ok toks) (hop : isOperatorChar ch = true)
    (hu : isUnary ch toks (prevTokenOf toks) = true) :
    tokenize (pre ++ ch :: ' ' :: rest) = .error (.unaryBeforeSpace ch) := by
  have hne : ch ≠ ' ' := by
    rcases (isOperatorChar_iff ch).1 hop with rfl | rfl | rfl | rfl <;> decide
  have hnd : (isDigit ch || ch == '.') = false := by
    rcases (isOperatorChar_iff ch).1 hop with rfl | rfl | rfl | rfl <;> decide
  rw [tokenize_append pre _ toks hp (by simpa using hne)
    (fun x y _ hy => Or.inr (by
      simp only [List.head?_cons, Option.some.injEq] at hy
      subst hy
      exact hnd))]
  exact lex_unary_before_space ch rest _ _ _ hop hu

/-! ## C25: the lexemes of the numbers -/

theorem tokenizeLoop_maximalRun (e : List Char) (fuel : Nat) (c s : List Char) (i : Nat)
    (tokens : List Token) (prev : Token) (result : List Token) (he : e = c ++ s)
    (hb : ∀ x y, c.getLast? = some x → s.head? = some y →
      (isDigit x || x == '.') = false ∨ (isDigit y || y == '.') = false)
    (h0 : ∀ tok ∈ tokens, tok.Typ = TokenNumber → isMaximalRun e tok.Value)
    (h : tokenizeLoop fuel s i tokens prev = .ok result) :
    ∀ tok ∈ result, tok.Typ = TokenNumber → isMaximalRun e tok.Value := by
  induction fuel generalizing c s i tokens prev with
  | zero =>
    cases s with
    | nil =>
      simp [tokenizeLoop] at h
      subst h
      exact h0
    | cons ch rest => simp [tokenizeLoop] at h
  | succ n ih =>
    cases s with
    | nil =>
      simp [tokenizeLoop] at h
      subst h
      exact h0
    | cons ch rest =>
      have happ : ∀ tok : Token, (tok.Typ = TokenNumber → isMaximalRun e tok.Value) →
          ∀ t ∈ tokens ++ [tok], t.Typ = TokenNumber → isMaximalRun e t.Value := by
        intro tok htok t hmem
        rcases List.mem_append.1 hmem with hm | hm
        · exact h0 t hm
        · rw [List.mem_singleton] at hm
          subst hm
          exact htok
      have he' : e = (c ++ [ch]) ++ rest := by rw [he]; simp
      have hb' : (isDigit ch || ch == '.') = false →
          ∀ x y, (c ++ [ch]).getLast? = some x → rest.head? = some y →
            (isDigit x || x == '.') = false ∨ (isDigit y || y == '.') = false := by
        intro hch x y hx _
        have hx' : x = ch := by
          rw [List.getLast?_append, List.getLast?_singleton] at hx
          exact (Option.some.inj hx).symm
        subst hx'
        exact Or.inl hch
      have hnd : ∀ {P : Prop}, (isDigit ch || ch == '.') = true →
          (isSpace ch = false ∧ ch ≠ '(' ∧ ch ≠ ')' ∧ isOperatorChar ch = false → P) → P :=
        fun hdd k => k (digitOrDot_facts ch hdd)
      rw [tokenizeLoop] at h
      split_ifs at h with h1 h2 h3 h4 h5 h6 h7
      · refine ih _ _ _ _ _ he' (hb' ?_) h0 h
        cases hdd : (isDigit ch || ch == '.') with
        | false => rfl
        | true => exact hnd hdd (fun f => by rw [f.1] at h1; cases h1)
      · refine ih _ _ _ _ _ he' (hb' ?_) (happ _ (by intro hh; cases hh)) h
        subst h2; decide
      · refine ih _ _ _ _ _ he' (hb' ?_) (happ _ (by intro hh; cases hh)) h
        subst h3; decide
      · refine ih _ _ _ _ _ he' (hb' ?_) (happ _ (by intro hh; cases hh)) h
        cases hdd : (isDigit ch || ch == '.') with
        | false => rfl
        | true => exact hnd hdd (fun f => by rw [f.2.2.2] at h4; cases h4)
      · split at h
        · cases h
        · next num rest' j hs =>
          obtain ⟨v, hv1, hv2, hv3, hv4, hv5, -⟩ := scanNumber_spec (Nat.zero_le 1) hs
          rw [List.nil_append] at hv1
          subst hv1
          have hne : num ≠ [] := by
            intro hnil
            have := scanNumber_head h7 hs
            rw [hnil] at this
            cases this
          have hrun : isMaximalRun e num := by
            refine ⟨hne, hv3, by omega, c, rest', by rw [he, hv2]; simp, ?_, hv5⟩
            intro x hx
            rcases hb x ch hx rfl with h' | h'
            · exact h'
            · rw [h7] at h'; cases h'
          refine ih (c ++ num) _ _ _ _ (by rw [he, hv2]; simp) ?_ (happ _ (fun _ => hrun)) h
          intro x y _ hy
          exact Or.inr (hv5 y hy)

/-- Claim C25: whenever `tokenize(e)` succeeds, the lexeme of every Number
token is a maximal run of digits and dots of `e`, not empty and with at most
one dot.  And when the text before a run of digits and dots is lexed without
error, and the run has a second dot, `tokenize` fails with the error that
names the position of that second dot; for `1.2.3` the position is 3. -/
theorem C25_number_lexemes (e : List Char) :
    (∀ tokens, tokenize e = .ok tokens →
      ∀ tok ∈ tokens, tok.Typ = TokenNumber → isMaximalRun e tok.Value) ∧
    (∀ (pre v post : List Char) (toks : List Token), e = pre ++ (v ++ '.' :: post) →
      tokenize pre = .ok toks →
      (∀ x, pre.getLast? = some x → (isDigit x || x == '.') = false) →
      (∀ c ∈ v, (isDigit c || c == '.') = true) → v.count '.' = 1 →
      tokenize e = .error (.multipleDots (pre.length + v.length))) ∧
    tokenize "1.2.3".toList = .error (.multipleDots 3) := by
  refine ⟨?_, ?_, by decide⟩
  · intro tokens h
    exact tokenizeLoop_maximalRun e e.length [] e 0 [] Token.zero tokens rfl
      (by intro x y hx; simp at hx) (by simp) h
  · intro pre v post toks he hp hpre hv hd
    subst he
    have hne : v ≠ [] := by
      rintro rfl
      simp at hd
    obtain ⟨c0, v', rfl⟩ := List.exists_cons_of_ne_nil hne
    have hc0 := hv c0 (List.mem_cons_self _ _)
    rw [tokenize_append pre _ toks hp
      (by
        intro hsp
        simp only [List.cons_append, List.head?_cons, Option.some.injEq] at hsp
        subst hsp
        revert hc0; decide)
      (fun x y hx _ => Or.inl (hpre x hx))]
    exact lex_two_dots (c0 :: v') post _ _ _ hv hd

theorem C25_number_lexemes_witness :
    tokenize "1.5+20".toList =
      .ok [Token.number "1.5".toList, Token.binary .add, Token.number "20".toList] ∧
    isMaximalRun "1.5+20".toList (Token.number "20".toList).Value ∧
    tokenize "2*1.2.3".toList = .error (.multipleDots ("2*".toList.length + "1.2".toList.length)) :=
  ⟨by decide,
    (C25_number_lexemes "1.5+20".toList).1 _ (show tokenize "1.5+20".toList =
      .ok [Token.number "1.5".toList, Token.binary .add, Token.number "20".toList] by decide)
      (Token.number "20".toList) (by decide) rfl,
    (C25_number_lexemes "2*1.2.3".toList).2.1 "2*".toList "1.2".toList "3".toList
      [Token.number ['2'], Token.binary .mul] (by decide) (by decide) (by decide) (by decide)
      (by decide)⟩


/-! ## C24: a unary operator before white space -/

/-- C24, the code at failing inputs.  The lexer compares the byte after a
unary operator with the space `' '` only: a unary minus followed by a tab or
by a line feed (white space for `unicode.IsSpace`, which the lexer skips) is
accepted and yields the same tokens as `-3`, while the same text with a
space is rejected. -/
theorem C24_unary_before_tab_is_accepted :
    isSpace '\t' = true ∧ isSpace '\n' = true ∧
    tokenize ['-', '\t', '3'] = .ok [Token.unary '-', Token.number ['3']] ∧
    tokenize ['-', '\n', '3'] = .ok [Token.unary '-', Token.number ['3']] ∧
    tokenize ['2', '*', '(', '+', '\t', '3', ')'] =
      .ok [Token.number ['2'], Token.binary .mul, Token.leftParen, Token.unary '+',
        Token.number ['3'], Token.rightParen] ∧
    tokenize ['-', '3'] = .ok [Token.unary '-', Token.number ['3']] ∧
    tokenize ['-', ' ', '3'] = .error (.unaryBeforeSpace '-') := by
  decide

/-! ## A call of `ProcessTaskResult` sends at most one task -/

/-- After a step that is no `AddExpression`, every task is a task of the
state before, with the same arguments. -/
theorem step_args_back (o : Orchestrator R) (op : Op R) (hop : ∀ e, op ≠ .addExpression e)
    (id : List Char) (t' : Task R) (ht' : getTask (o.step op).Tasks id = some t') :
    ∃ t, getTask o.Tasks id = some t ∧ t'.Arg1 = t.Arg1 ∧ t'.Arg2 = t.Arg2 := by
  cases op with
  | addExpression expr => exact absurd rfl (hop expr)
  | send x =>
    simp only [Orchestrator.step] at ht'
    rw [(Orchestrator.send_frame o x).1] at ht'
    exact ⟨t', ht', rfl, rfl⟩
  | getNextTask =>
    simp only [Orchestrator.step] at ht'
    cases hq : o.ReadyTasks with
    | nil =>
      rw [Orchestrator.GetNextTask_empty o hq] at ht'
      exact ⟨t', ht', rfl, rfl⟩
    | cons a rest =>
      by_cases hr : ∃ u, getTask o.Tasks a = some u ∧ u.Status = StatusReady
      · obtain ⟨u, hu, hus⟩ := hr
        rw [Orchestrator.GetNextTask_ready o a rest u hq hu hus] at ht'
        simp only at ht'
        rw [getTask_updateTask] at ht'
        · cases hg : getTask o.Tasks id with
          | none => rw [hg] at ht'; simp at ht'
          | some t =>
            rw [hg] at ht'
            refine ⟨t, rfl, ?_⟩
            split_ifs at ht'
            · simp only [Option.map_some', Option.some.injEq] at ht'
              rw [← ht']
              exact ⟨rfl, rfl⟩
            · rw [← Option.some.inj ht']
              exact ⟨rfl, rfl⟩
        · intro v hv; exact hv
      · rw [Orchestrator.GetNextTask_stale o a rest hq (fun u hu hus => hr ⟨u, hu, hus⟩)] at ht'
        exact ⟨t', ht', rfl, rfl⟩
  | processTaskResult x r order =>
    simp only [Orchestrator.step] at ht'
    by_cases hv : ∃ u, getTask o.Tasks x = some u ∧ u.Status = StatusProgress
    · obtain ⟨u, hu, hus⟩ := hv
      rw [Orchestrator.ProcessTaskResult_getTask o x r order u hu hus] at ht'
      cases hg : getTask o.Tasks id with
      | none => rw [hg] at ht'; simp at ht'
      | some t =>
        rw [hg] at ht'
        simp only [Option.map_some', Option.some.injEq] at ht'
        refine ⟨t, rfl, ?_⟩
        rw [← ht', notified_Arg1, notified_Arg2]
        split_ifs
        · exact ⟨rfl, rfl⟩
        · exact ⟨rfl, rfl⟩
    · rw [Orchestrator.ProcessTaskResult_invalid o x r order
        (fun u hu hus => hv ⟨u, hu, hus⟩)] at ht'
      exact ⟨t', ht', rfl, rfl⟩

/-- A step that is no `AddExpression` issues no task id. -/
theorem step_TaskCounter (o : Orchestrator R) (op : Op R) (hop : ∀ e, op ≠ .addExpression e) :
    (o.step op).TaskCounter = o.TaskCounter := by
  cases op with
  | addExpression expr => exact absurd rfl (hop expr)
  | send x => exact (Orchestrator.send_frame o x).2.2.2.2
  | getNextTask =>
    simp only [Orchestrator.step]
    cases hq : o.ReadyTasks with
    | nil => rw [Orchestrator.GetNextTask_empty o hq]
    | cons a rest =>
      by_cases hr : ∃ u, getTask o.Tasks a = some u ∧ u.Status = StatusReady
      · obtain ⟨u, hu, hus⟩ := hr
        rw [Orchestrator.GetNextTask_ready o a rest u hq hu hus]
      · rw [Orchestrator.GetNextTask_stale o a rest hq (fun u hu hus => hr ⟨u, hu, hus⟩)]
  | processTaskResult x r order =>
    simp only [Orchestrator.step]
    by_cases hv : ∃ u, getTask o.Tasks x = some u ∧ u.Status = StatusProgress
    · obtain ⟨u, hu, hus⟩ := hv
      exact (Orchestrator.ProcessTaskResult_frame o x r order u hu hus).2.2.2.2
    · rw [Orchestrator.ProcessTaskResult_invalid o x r order
        (fun u hu hus => hv ⟨u, hu, hus⟩)]

theorem argUses_le_one {id : List Char} {ts : List (Task R)} (h : argUses id ts ≤ 1)
    {t1 t2 : Task R} (h1 : t1 ∈ ts) (h2 : t2 ∈ ts) (u1 : t1.Arg1 = id ∨ t1.Arg2 = id)
    (u2 : t2.Arg1 = id ∨ t2.Arg2 = id) : t1 = t2 := by
  unfold argUses at h
  have m1 : t1 ∈ ts.filter (fun t => decide (t.Arg1 = id ∨ t.Arg2 = id)) :=
    List.mem_filter.2 ⟨h1, by simpa using u1⟩
  have m2 : t2 ∈ ts.filter (fun t => decide (t.Arg1 = id ∨ t.Arg2 = id)) :=
    List.mem_filter.2 ⟨h2, by simpa using u2⟩
  generalize ts.filter (fun t => decide (t.Arg1 = id ∨ t.Arg2 = id)) = l at h m1 m2
  match l, h, m1, m2 with
  | [], _, m1, _ => simp at m1
  | [x], _, m1, m2 =>
    rw [List.mem_singleton] at m1 m2
    rw [m1, m2]
  | _ :: _ :: _, h, _, _ => simp at h

theorem ArgsOnce_addExpression (o : Orchestrator R) (expr : List Char) (h : ArgsOnce o) :
    ArgsOnce (o.AddExpression expr).1 := by
  cases hb : (tokenize expr).bind toRPN with
  | error err =>
    obtain ⟨err', h'⟩ := Orchestrator.AddExpression_error o expr
      (by intro rpn hr; rw [hb] at hr; cases hr)
    rw [h']
    exact ⟨h.once, h.issued⟩
  | ok rpn =>
    obtain ⟨new, h1, h2, h3, -⟩ := parseExpressionLoop_spec (exprID (o.ExpressionCounter + 1))
      rpn [] ([] : List (Task R)) o.TaskCounter
    obtain ⟨stack', hinv⟩ := parseExpressionLoop_LoopInv (exprID (o.ExpressionCounter + 1))
      o.TaskCounter rpn [] ([] : List (Task R)) o.TaskCounter le_rfl (rpn_numbersAreNotIDs hb)
      (LoopInv_nil o.TaskCounter)
    rw [List.nil_append] at h1
    rw [h1, h2] at hinv
    have hparse : o.countExpression.parseExpression rpn (exprID (o.ExpressionCounter + 1)) =
        ({ o.countExpression with TaskCounter := o.TaskCounter + new.length }, new) := by
      unfold Orchestrator.parseExpression Orchestrator.countExpression
      simp only
      rw [h1, h2]
    have hnd : (new.map (·.ID)).Nodup := by
      rw [h3]
      exact (List.nodup_range' _ _).map taskID_injective
    have hview : ∀ id, getTask (o.AddExpression expr).1.Tasks id =
        match getTask new id with
        | some t => some (installed t)
        | none => getTask o.Tasks id := by
      intro id
      rw [Orchestrator.AddExpression_ok o expr rpn hb]
      simp only [hparse]
      rw [Orchestrator.installExpression_getTask _ _ _ _ hnd]
      rfl
    have hcount : (o.AddExpression expr).1.TaskCounter = o.TaskCounter + new.length := by
      rw [Orchestrator.AddExpression_ok o expr rpn hb]
      simp only [hparse, Orchestrator.installExpression]
      rw [(Orchestrator.foldl_installTask_frame _ _).2.2.2.2.2]
    have hinst : ∀ t : Task R, (installed t).Arg1 = t.Arg1 ∧ (installed t).Arg2 = t.Arg2 := by
      intro t
      unfold installed
      split_ifs <;> exact ⟨rfl, rfl⟩
    -- a task of the new state is an old task or a new one
    have hcase : ∀ i ti, getTask (o.AddExpression expr).1.Tasks i = some ti →
        (getTask o.Tasks i = some ti) ∨
        ∃ t, t ∈ new ∧ t.ID = i ∧ ti.Arg1 = t.Arg1 ∧ ti.Arg2 = t.Arg2 := by
      intro i ti hti
      rw [hview] at hti
      cases hg : getTask new i with
      | none => rw [hg] at hti; exact Or.inl hti
      | some t =>
        rw [hg] at hti
        right
        refine ⟨t, getTask_mem hg, getTask_some_ID hg, ?_⟩
        rw [← Option.some.inj hti]
        exact hinst t
    have hnewk : ∀ t ∈ new, ∀ k, (t.Arg1 = taskID k ∨ t.Arg2 = taskID k) →
        o.TaskCounter < k ∧ k ≤ o.TaskCounter + new.length := by
      intro t ht k hk
      obtain ⟨m, -, -, hm, hargs⟩ := hinv.earlier t ht
      have := hargs k hk
      omega
    refine ⟨?_, ?_⟩
    · intro k i j ti tj hi hj ui uj
      rcases hcase i ti hi with hi' | ⟨t1, m1, e1, a1, b1⟩
      · rcases hcase j tj hj with hj' | ⟨t2, m2, e2, a2, b2⟩
        · exact h.once k i j ti tj hi' hj' ui uj
        · have := h.issued i ti k hi' ui
          have := (hnewk t2 m2 k (by rw [← a2, ← b2]; exact uj)).1
          omega
      · rcases hcase j tj hj with hj' | ⟨t2, m2, e2, a2, b2⟩
        · have := h.issued j tj k hj' uj
          have := (hnewk t1 m1 k (by rw [← a1, ← b1]; exact ui)).1
          omega
        · have hone : argUses (taskID k) new ≤ 1 := by
            have := hinv.once k
            omega
          have := argUses_le_one hone m1 m2
            (by rw [← a1, ← b1]; exact ui) (by rw [← a2, ← b2]; exact uj)
          rw [← e1, ← e2, this]
    · intro i ti k hi ui
      rw [hcount]
      rcases hcase i ti hi with hi' | ⟨t1, m1, e1, a1, b1⟩
      · have := h.issued i ti k hi' ui
        omega
      · exact (hnewk t1 m1 k (by rw [← a1, ← b1]; exact ui)).2

theorem ArgsOnce_step (o : Orchestrator R) (op : Op R) (h : ArgsOnce o) :
    ArgsOnce (o.step op) := by
  by_cases hop : ∃ e, op = .addExpression e
  · obtain ⟨e, rfl⟩ := hop
    exact ArgsOnce_addExpression o e h
  · have hop' : ∀ e, op ≠ .addExpression e := fun e he => hop ⟨e, he⟩
    refine ⟨?_, ?_⟩
    · intro k i j ti tj hi hj ui uj
      obtain ⟨t1, g1, a1, b1⟩ := step_args_back o op hop' i ti hi
      obtain ⟨t2, g2, a2, b2⟩ := step_args_back o op hop' j tj hj
      exact h.once k i j t1 t2 g1 g2 (by rw [← a1, ← b1]; exact ui) (by rw [← a2, ← b2]; exact uj)
    · intro i ti k hi ui
      obtain ⟨t1, g1, a1, b1⟩ := step_args_back o op hop' i ti hi
      rw [step_TaskCounter o op hop']
      exact h.issued i t1 k g1 (by rw [← a1, ← b1]; exact ui)

theorem ArgsOnce_of_Reachable {o : Orchestrator R} (h : Reachable o) : ArgsOnce o := by
  induction h with
  | init a b c d =>
    exact ⟨by intro k i j ti tj hi; simp [NewOrchestrator, getTask] at hi,
      by intro i ti k hi; simp [NewOrchestrator, getTask] at hi⟩
  | step o op _ ih => exact ArgsOnce_step o op ih

/-- In a reachable state a call of `ProcessTaskResult` sends at most one task
to the ready queue: the completed task is an argument of at most one task.
So a send of a goroutine that falls within a call of a method has the effect
of a send before the call or of a send after it. -/
theorem ProcessTaskResult_sends_at_most_one {o : Orchestrator R} (h : Reachable o)
    (x : List Char) (r : R) (order : List (List Char)) :
    (o.sent (.processTaskResult x r order)).length ≤ 1 := by
  by_cases hv : ∃ t, getTask o.Tasks x = some t ∧ t.Status = StatusProgress
  · obtain ⟨t, ht, hs⟩ := hv
    obtain ⟨new, hq, hnew, hmem⟩ := Orchestrator.ProcessTaskResult_ReadyTasks o x r order t ht hs
    have hsent : o.sent (.processTaskResult x r order) = new := by
      simp only [Orchestrator.sent, Orchestrator.step]
      rw [hq, List.drop_left]
    rw [hsent]
    have hI := Inv_of_Reachable h
    have hC := Closure_of_Reachable h
    have hA := ArgsOnce_of_Reachable h
    obtain ⟨k, -, -, hk⟩ := hI.keys x ((getTask_isSome_iff _ _).1 (by rw [ht]; rfl))
    have huse : ∀ a ∈ new, ∃ u, getTask o.Tasks a = some u ∧
        (u.Arg1 = taskID k ∨ u.Arg2 = taskID k) := by
      intro a ha
      obtain ⟨u, hu, hb⟩ := (hmem a).1 ha
      refine ⟨u, hu, ?_⟩
      simp only [becomesReady, Bool.and_eq_true, decide_eq_true_eq] at hb
      have hx : x ∈ u.Dependencies := (Contains_iff _ _).1 hb.1.1
      rw [hC.deps a u hu] at hx
      unfold unfinished at hx
      have := (List.mem_filter.1 hx).1
      simp only [List.mem_cons, List.mem_singleton, List.not_mem_nil, or_false] at this
      rw [← hk]
      rcases this with e | e
      · exact Or.inl e.symm
      · exact Or.inr e.symm
    match new, hnew, huse with
    | [], _, _ => simp
    | [_], _, _ => simp
    | a :: b :: rest, hnew, huse =>
      exfalso
      obtain ⟨u1, g1, w1⟩ := huse a (by simp)
      obtain ⟨u2, g2, w2⟩ := huse b (by simp)
      have := hA.once k a b u1 u2 g1 g2 w1 w2
      rw [List.nodup_cons] at hnew
      exact hnew.1 (this ▸ List.mem_cons_self _ _)
  · have hinv := Orchestrator.ProcessTaskResult_invalid o x r order
      (fun t ht hs => hv ⟨t, ht, hs⟩)
    have hsent : o.sent (.processTaskResult x r order) = [] := by
      simp only [Orchestrator.sent, Orchestrator.step]
      rw [hinv]
      simp
    rw [hsent]
    simp

/-! ## C21: the arguments of a dispatched task -/

theorem IsNumber_taskID (k : Nat) : IsNumber (taskID k) = false := by
  have h : taskID k = 't' :: 'a' :: 's' :: 'k' :: '-' :: Nat.toDigits 10 k := rfl
  rw [h]
  simp [IsNumber, special, readFloat, readMantissa, isDigit]

theorem isLiteral_of_isLexeme {a : List Char} (hl : isLexeme a = true)
    (hn : IsNumber a = true) : Expr.isLiteral a = true := by
  simp only [isLexeme, Bool.and_eq_true, List.all_eq_true, decide_eq_true_eq] at hl
  obtain ⟨hall, hcount⟩ := hl
  have hany : a.any isDigit = true := by
    by_contra hno
    have hdots : ∀ c ∈ a, c = '.' := by
      intro c hc
      have h1 := hall c hc
      have h2 : isDigit c = false := by
        cases hd : isDigit c
        · rfl
        · exact absurd (List.any_eq_true.2 ⟨c, hc, hd⟩) hno
      simpa [h2] using h1
    cases a with
    | nil => exact absurd hn (by decide)
    | cons c rest =>
      have hc := hdots c (List.mem_cons_self _ _)
      subst hc
      cases rest with
      | nil => exact absurd hn (by decide)
      | cons d r =>
        have hd := hdots d (List.mem_cons_of_mem _ (List.mem_cons_self _ _))
        subst hd
        simp at hcount
  simp only [Expr.isLiteral, Bool.and_eq_true, List.all_eq_true, decide_eq_true_eq]
  exact ⟨⟨hall, hcount⟩, hany⟩

/-- The arguments of the tasks built by the loop of `parseExpression` from a
stream whose Number tokens carry lexemes are lexemes or task ids. -/
theorem parseExpressionLoop_isArgument (e : List Char) (tokens : List Token)
    (stack : List (List Char)) (tasks : List (Task R)) (c : Nat)
    (hnum : ∀ tok ∈ tokens, tok.Typ = TokenNumber → isLexeme tok.Value = true)
    (hs : ∀ s ∈ stack, isArgument s)
    (ht : ∀ t ∈ tasks, isArgument t.Arg1 ∧ isArgument t.Arg2) :
    ∀ t ∈ (parseExpressionLoop e tokens stack tasks c).1,
      isArgument t.Arg1 ∧ isArgument t.Arg2 := by
  induction tokens generalizing stack tasks c with
  | nil => simpa [parseExpressionLoop] using ht
  | cons token tokens ih =>
    have hnum' : ∀ tok ∈ tokens, tok.Typ = TokenNumber → isLexeme tok.Value = true :=
      fun t ht => hnum t (List.mem_cons_of_mem _ ht)
    cases htyp : token.Typ with
    | TokenNumber =>
      rw [parseExpressionLoop_number _ _ _ _ _ _ htyp]
      apply ih _ _ _ hnum' _ ht
      intro s hs'
      rcases List.mem_cons.1 hs' with rfl | hs'
      · exact Or.inl (hnum token (List.mem_cons_self _ _) htyp)
      · exact hs s hs'
    | TokenLeftParen =>
      rw [parseExpressionLoop_paren _ _ _ _ _ _ (Or.inl htyp)]; exact ih _ _ _ hnum' hs ht
    | TokenRightParen =>
      rw [parseExpressionLoop_paren _ _ _ _ _ _ (Or.inr htyp)]; exact ih _ _ _ hnum' hs ht
    | TokenOperator =>
      match stack, hs with
      | [], hs =>
        rw [parseExpressionLoop_operator_skip _ _ _ _ _ _ htyp (by simp)]
        exact ih _ _ _ hnum' hs ht
      | [_], hs =>
        rw [parseExpressionLoop_operator_skip _ _ _ _ _ _ htyp (by simp)]
        exact ih _ _ _ hnum' hs ht
      | arg2 :: arg1 :: stack', hs =>
        rw [parseExpressionLoop_operator _ _ _ _ _ _ _ _ htyp]
        apply ih _ _ _ hnum'
        · intro s hs'
          rcases List.mem_cons.1 hs' with rfl | hs'
          · exact Or.inr ⟨c + 1, rfl⟩
          · exact hs s (List.mem_cons_of_mem _ (List.mem_cons_of_mem _ hs'))
        · intro t ht'
          rcases List.mem_append.1 ht' with ht' | ht'
          · exact ht t ht'
          · rw [List.mem_singleton] at ht'
            subst ht'
            exact ⟨hs arg1 (by simp), hs arg2 (by simp)⟩

/-- The Number tokens of the postfix stream that `AddExpression` hands to
`parseExpression` carry lexemes. -/
theorem rpn_isLexeme {e : List Char} {rpn : List Token}
    (h : (tokenize e).bind toRPN = .ok rpn) :
    ∀ tok ∈ rpn, tok.Typ = TokenNumber → isLexeme tok.Value = true := by
  cases ht : tokenize e with
  | error err => rw [ht] at h; cases h
  | ok tokens =>
    rw [ht] at h
    refine toRPN_forall (fun t => t.Typ = TokenNumber → isLexeme t.Value = true) tokens rpn ?_ h
    intro tok htok htyp
    obtain ⟨-, hall, hcount, -⟩ := tokenizeLoop_maximalRun e e.length [] e 0 [] Token.zero
      tokens rfl (by intro x y hx; simp at hx) (by simp) ht tok htok htyp
    simp only [isLexeme, Bool.and_eq_true, List.all_eq_true, decide_eq_true_eq]
    exact ⟨hall, hcount⟩

/-- A step keeps the arguments of the tasks lexemes or task ids. -/
theorem isArgument_step (o : Orchestrator R) (op : Op R)
    (h : ∀ id t, getTask o.Tasks id = some t → isArgument t.Arg1 ∧ isArgument t.Arg2) :
    ∀ id t, getTask (o.step op).Tasks id = some t → isArgument t.Arg1 ∧ isArgument t.Arg2 := by
  intro id t' ht'
  cases op with
  | send x =>
    simp only [Orchestrator.step] at ht'
    rw [(Orchestrator.send_frame o x).1] at ht'
    exact h id t' ht'
  | addExpression expr =>
    simp only [Orchestrator.step] at ht'
    cases hb : (tokenize expr).bind toRPN with
    | error err =>
      obtain ⟨err', h'⟩ := Orchestrator.AddExpression_error o expr
        (by intro rpn hr; rw [hb] at hr; cases hr)
      rw [h'] at ht'
      exact h id t' ht'
    | ok rpn =>
      rw [Orchestrator.AddExpression_ok o expr rpn hb] at ht'
      obtain ⟨new, h1, -, h3, -⟩ := parseExpressionLoop_spec (exprID (o.ExpressionCounter + 1))
        rpn [] ([] : List (Task R)) o.TaskCounter
      have hargs := parseExpressionLoop_isArgument (exprID (o.ExpressionCounter + 1)) rpn []
        ([] : List (Task R)) o.TaskCounter (rpn_isLexeme hb) (by simp) (by simp)
      rw [List.nil_append] at h1
      rw [h1] at hargs
      have hres : (o.countExpression.parseExpression rpn (exprID (o.ExpressionCounter + 1))).2
          = new := by
        simpa [Orchestrator.parseExpression, Orchestrator.countExpression] using h1
      have hnd : (new.map (·.ID)).Nodup := by
        rw [h3]
        exact (List.nodup_range' _ _).map taskID_injective
      simp only at ht'
      rw [hres, Orchestrator.installExpression_getTask _ _ _ _ hnd] at ht'
      cases hg : getTask new id with
      | none =>
        rw [hg] at ht'
        exact h id t' ht'
      | some t =>
        rw [hg] at ht'
        have ht : t' = installed t := (Option.some.inj ht').symm
        have := hargs t (getTask_mem hg)
        rw [ht]
        unfold installed
        split_ifs
        · exact this
        · exact this
  | getNextTask =>
    simp only [Orchestrator.step] at ht'
    cases hq : o.ReadyTasks with
    | nil =>
      rw [Orchestrator.GetNextTask_empty o hq] at ht'
      exact h id t' ht'
    | cons a rest =>
      by_cases hr : ∃ u, getTask o.Tasks a = some u ∧ u.Status = StatusReady
      · obtain ⟨u, hu, hus⟩ := hr
        rw [Orchestrator.GetNextTask_ready o a rest u hq hu hus] at ht'
        simp only at ht'
        rw [getTask_updateTask] at ht'
        · cases hg : getTask o.Tasks id with
          | none => rw [hg] at ht'; simp at ht'
          | some t =>
            rw [hg] at ht'
            have := h id t hg
            split_ifs at ht'
            · simp only [Option.map_some', Option.some.injEq] at ht'
              rw [← ht']
              exact this
            · rw [← Option.some.inj ht']
              exact this
        · intro v hv; exact hv
      · rw [Orchestrator.GetNextTask_stale o a rest hq (fun u hu hus => hr ⟨u, hu, hus⟩)] at ht'
        exact h id t' ht'
  | processTaskResult x r order =>
    simp only [Orchestrator.step] at ht'
    by_cases hv : ∃ u, getTask o.Tasks x = some u ∧ u.Status = StatusProgress
    · obtain ⟨u, hu, hus⟩ := hv
      rw [Orchestrator.ProcessTaskResult_getTask o x r order u hu hus] at ht'
      cases hg : getTask o.Tasks id with
      | none => rw [hg] at ht'; simp at ht'
      | some t =>
        rw [hg] at ht'
        simp only [Option.map_some', Option.some.injEq] at ht'
        have := h id t hg
        rw [← ht', notified_Arg1, notified_Arg2]
        split_ifs
        · exact this
        · exact this
    · rw [Orchestrator.ProcessTaskResult_invalid o x r order
        (fun u hu hus => hv ⟨u, hu, hus⟩)] at ht'
      exact h id t' ht'

/-- In a reachable state the arguments of every task are lexemes or task
ids. -/
theorem isArgument_of_Reachable {o : Orchestrator R} (h : Reachable o) :
    ∀ id t, getTask o.Tasks id = some t → isArgument t.Arg1 ∧ isArgument t.Arg2 := by
  induction h with
  | init a b c d => intro id t ht; simp [NewOrchestrator, getTask] at ht
  | step o op _ ih => exact isArgument_step o op ih

/-- In a reachable state an argument that `IsNumber` accepts is a decimal
literal. -/
theorem literal_args {o : Orchestrator R} (h : Reachable o) (t : Task R) (ht : t ∈ o.Tasks)
    (a : List Char) (ha : a ∈ [t.Arg1, t.Arg2]) (hn : IsNumber a = true) :
    Expr.isLiteral a = true := by
  have hget := getTask_of_mem_nodup ht (Reachable_keys_nodup h)
  have hshape : isArgument a := by
    have := isArgument_of_Reachable h t.ID t hget
    simp only [List.mem_cons, List.mem_singleton, List.not_mem_nil, or_false] at ha
    rcases ha with rfl | rfl
    · exact this.1
    · exact this.2
  rcases hshape with hl | ⟨k, hk⟩
  · exact isLiteral_of_isLexeme hl hn
  · rw [hk, IsNumber_taskID] at hn
    cases hn

/-- Claim C21: in every reachable state, for every task of the `Tasks` map
whose status is `ready` or `in_progress`, each of `Arg1` and `Arg2` is a
decimal literal that `IsNumber` accepts, or the id of a task of the map that
is `done` and has its `Result` set, so `resolveArg` does not return NaN for
it; in particular this holds for the task that `GetNextTask` returns, in the
state it leaves. -/
theorem C21_dispatched_arguments_are_resolved {o : Orchestrator R} (h : Reachable o) :
    (∀ t ∈ o.Tasks, (t.Status = StatusReady ∨ t.Status = StatusProgress) →
      (∀ a ∈ [t.Arg1, t.Arg2], (Expr.isLiteral a = true ∧ IsNumber a = true) ∨
        ∃ u, getTask o.Tasks a = some u ∧ u.Status = StatusDone ∧ u.Result ≠ none) ∧
      resolveArg o t.Arg1 ≠ .nan ∧ resolveArg o t.Arg2 ≠ .nan) ∧
    (∀ t, o.GetNextTask.2 = .ok t →
      t.Status = StatusProgress ∧ t ∈ o.GetNextTask.1.Tasks ∧
      (∀ a ∈ [t.Arg1, t.Arg2], (Expr.isLiteral a = true ∧ IsNumber a = true) ∨
        ∃ u, getTask o.GetNextTask.1.Tasks a = some u ∧ u.Status = StatusDone ∧
          u.Result ≠ none) ∧
      resolveArg o.GetNextTask.1 t.Arg1 ≠ .nan ∧ resolveArg o.GetNextTask.1 t.Arg2 ≠ .nan) := by
  have key : ∀ {o' : Orchestrator R}, Reachable o' → ∀ t ∈ o'.Tasks,
      (t.Status = StatusReady ∨ t.Status = StatusProgress) →
      (∀ a ∈ [t.Arg1, t.Arg2], (Expr.isLiteral a = true ∧ IsNumber a = true) ∨
        ∃ u, getTask o'.Tasks a = some u ∧ u.Status = StatusDone ∧ u.Result ≠ none) ∧
      resolveArg o' t.Arg1 ≠ .nan ∧ resolveArg o' t.Arg2 ≠ .nan := by
    intro o' h' t ht hs
    have := dispatched_args h' t ht hs
    refine ⟨?_, resolveArg_ne_nan o' _ (this _ (by simp)),
      resolveArg_ne_nan o' _ (this _ (by simp))⟩
    intro a ha
    rcases this a ha with hn | hu
    · exact Or.inl ⟨literal_args h' t ht a ha hn, hn⟩
    · exact Or.inr hu
  refine ⟨key h, ?_⟩
  intro t ht
  have hr' : Reachable o.GetNextTask.1 := Reachable.step o .getNextTask h
  cases hq : o.ReadyTasks with
  | nil => rw [Orchestrator.GetNextTask_empty o hq] at ht; cases ht
  | cons x rest =>
    by_cases hx : ∃ u, getTask o.Tasks x = some u ∧ u.Status = StatusReady
    · obtain ⟨u, hu, hus⟩ := hx
      have hg := Orchestrator.GetNextTask_ready o x rest u hq hu hus
      have ht' : t = { u with Status := StatusProgress } := by
        rw [hg] at ht
        exact (Except.ok.inj ht).symm
      have hview : getTask o.GetNextTask.1.Tasks x = some t := by
        rw [hg]
        simp only
        rw [getTask_updateTask]
        · simp [hu, ht']
        · intro v hv; exact hv
      have hmem : t ∈ o.GetNextTask.1.Tasks := getTask_mem hview
      have hst : t.Status = StatusProgress := by rw [ht']
      exact ⟨hst, hmem, key hr' t hmem (Or.inr hst)⟩
    · rw [Orchestrator.GetNextTask_stale o x rest hq (fun u hu hs => hx ⟨u, hu, hs⟩)] at ht
      cases ht

/-- C21 at two states.  In `readySum` the sum `task-2` of `2+2*2` is `ready`:
its first argument is the literal `2` and its second argument `task-1` is
`done` with the result 4, to which `resolveArg` resolves it.  In
`secondClaimedFirst` the addition `task-2` of `(1+2)*(3+4)` is `in_progress`
while the addition `task-1` is `ready` and not yet sent to the queue. -/
theorem C21_dispatched_arguments_are_resolved_witness :
    (Reachable readySum ∧
      storedTask 2 "2" '+' "task-1" [] StatusReady ∈ readySum.Tasks ∧
      resolveArg readySum "task-1".toList = .result 4 ∧
      ((∀ a ∈ [(storedTask 2 "2" '+' "task-1" [] StatusReady).Arg1,
          (storedTask 2 "2" '+' "task-1" [] StatusReady).Arg2],
        (Expr.isLiteral a = true ∧ IsNumber a = true) ∨
          ∃ u, getTask readySum.Tasks a = some u ∧ u.Status = StatusDone ∧ u.Result ≠ none) ∧
      resolveArg readySum (storedTask 2 "2" '+' "task-1" [] StatusReady).Arg1 ≠ .nan ∧
      resolveArg readySum (storedTask 2 "2" '+' "task-1" [] StatusReady).Arg2 ≠ .nan)) ∧
    (Reachable secondClaimedFirst ∧
      secondClaimedFirst.statusOf (taskID 1) = some StatusReady ∧
      secondClaimedFirst.Sending = [taskID 1] ∧
      storedTask 2 "3" '+' "4" [] StatusProgress ∈ secondClaimedFirst.Tasks ∧
      ((∀ a ∈ [(storedTask 2 "3" '+' "4" [] StatusProgress).Arg1,
          (storedTask 2 "3" '+' "4" [] StatusProgress).Arg2],
        (Expr.isLiteral a = true ∧ IsNumber a = true) ∨
          ∃ u, getTask secondClaimedFirst.Tasks a = some u ∧ u.Status = StatusDone ∧
            u.Result ≠ none) ∧
      resolveArg secondClaimedFirst (storedTask 2 "3" '+' "4" [] StatusProgress).Arg1 ≠ .nan ∧
      resolveArg secondClaimedFirst (storedTask 2 "3" '+' "4" [] StatusProgress).Arg2 ≠
        .nan)) :=
  ⟨⟨Reachable_run _ _ (Reachable_run _ _ (Reachable.init _ _ _ _)), by decide, by decide,
      (C21_dispatched_arguments_are_resolved
        (show Reachable readySum from
          Reachable_run _ _ (Reachable_run _ _ (Reachable.init _ _ _ _)))).1
        (storedTask 2 "2" '+' "task-1" [] StatusReady) (by decide) (Or.inl rfl)⟩,
    ⟨Reachable_run _ _ (Reachable_run _ _ (Reachable.init _ _ _ _)), by decide, by decide,
      by decide,
      (C21_dispatched_arguments_are_resolved
        (show Reachable secondClaimedFirst from
          Reachable_run _ _ (Reachable_run _ _ (Reachable.init _ _ _ _)))).1
        (storedTask 2 "3" '+' "4" [] StatusProgress) (by decide) (Or.inr rfl)⟩⟩

end Core
